import Mathlib

/-!
# EC440 coursework: user-level threads (HW2/HW3) and thread-local storage (HW4)

A shallow embedding of `EC440_HW3/threads.c` (scheduler, exit/join, semaphores)
and `EC440_HW4/tls.c` (page-backed, copy-on-write thread-local storage), with
theorems about the embedded functions.

Conventions of the embedding:
* C globals become the fields of one record that every function takes and returns;
* `pthread_t`, `int` counters that never go below zero, and pointers are `Nat`
  (`NULL` is `0`); the semaphore count is an `Int`;
* `jmp_buf` keeps only what the theorems observe of a saved context: the place in
  the library where the thread will continue after `longjmp`;
* a `longjmp` to another thread is an outcome of its own (`Outcome.switched`),
  and the code that follows the matching `setjmp` is the function `resume`.
-/

namespace EC440
namespace HW3

/-! ## Constants of `threads.c` -/

def STACK_SIZE : Nat := 32767
def READY : Nat := 0
def RUNNING : Nat := 1
def EXITED : Nat := 2
def BLOCKED : Nat := 3
def MAX_THREADS : Nat := 128
def MAX_SEMAPHORES : Nat := 128

/-! ## Data model -/

/-- The saved context of a thread: the point at which it continues when `schedule`
does `longjmp` to it. `zeroed` is the static initial value, `start_thunk` is the
context synthesised by `pthread_create`; the others are the call sites of
`schedule`, with the locals that are live across the call. -/
inductive jmp_buf where
  | zeroed
  | start_thunk
  | at_create
  | at_exit
  | at_join (target_index : Nat) (value_ptr : Bool)
  | at_sem_wait
  | at_signal
  deriving DecidableEq, Repr

/-- `struct thread_control_block`. -/
structure thread_control_block where
  id : Nat
  context : jmp_buf
  stack : Nat
  state : Nat
  start_routine : Nat
  arg : Nat
  exit_value : Nat
  deriving DecidableEq, Repr

/-- `struct custom_semaphore`. -/
structure custom_semaphore where
  value : Int
  initialized : Int
  waiting_threads : Nat → Nat
  wait_count : Nat

/-- The globals of `threads.c`, and the process signal mask as far as `lock` and
`unlock` change it (`alarm_blocked`: SIGALRM is blocked). -/
structure Runtime where
  tcb : Nat → thread_control_block
  thread_count : Nat
  current_thread : Nat
  next_thread : Nat
  semaphore_array : Nat → Option custom_semaphore
  next_semaphore_id : Nat
  alarm_blocked : Bool

/-- A zero-initialised TCB slot (static storage). -/
def zero_tcb : thread_control_block :=
  { id := 0, context := jmp_buf.zeroed, stack := 0, state := 0,
    start_routine := 0, arg := 0, exit_value := 0 }

/-- The globals after the constructor `init` has run: `tcb[0].id = 0`,
`tcb[0].state = RUNNING`, everything else as statically initialised. -/
def init : Runtime :=
  { tcb := Function.update (fun _ => zero_tcb) 0 { zero_tcb with id := 0, state := RUNNING }
    thread_count := 1
    current_thread := 0
    next_thread := 0
    semaphore_array := fun _ => none
    next_semaphore_id := 0
    alarm_blocked := false }

/-- What a library call (or the continuation of one) does with control. -/
inductive Outcome where
  /-- the call returns `ret` to the calling thread; `out` is what it wrote through
  its out-parameter, if anything -/
  | returned (ret : Int) (out : Option Nat) (st : Runtime)
  /-- `schedule` was called and did `longjmp` into the saved context of
  `st.current_thread` -/
  | switched (st : Runtime)
  /-- control is in the thread's own code (start routine, or code interrupted by
  the timer) -/
  | in_thread (st : Runtime)
  /-- the thread sits in the `while (1);` that ends `pthread_exit` -/
  | spinning (st : Runtime)
  /-- the source has no defined behaviour here (array index out of bounds, jump
  to a context that was never saved, a scheduling loop that does not end) -/
  | undefined

/-! ## `lock`, `unlock`, `schedule` -/

def lock (st : Runtime) : Runtime := { st with alarm_blocked := true }

def unlock (st : Runtime) : Runtime := { st with alarm_blocked := false }

/-- The `do … while` loop of `schedule`: `current_thread` is the value on entry to
an iteration, the result is its value when the loop ends. One unit of fuel per
iteration. -/
def schedule_loop (tcb : Nat → thread_control_block) (thread_count : Nat) :
    Nat → Nat → Option Nat
  | 0, _ => none
  | fuel + 1, current_thread =>
    let next_thread := (current_thread + 1) % thread_count
    if (tcb next_thread).state ≠ READY ∧ next_thread ≠ 0 then
      schedule_loop tcb thread_count fuel next_thread
    else
      some next_thread

/-- The function `schedule`, called from `call_site`: save the caller's context, run the
selection loop, jump. The result is the state in which the selected thread
continues; `none` if the loop does not end within `thread_count` iterations. -/
def schedule (st : Runtime) (call_site : jmp_buf) : Option Runtime :=
  let tcb1 := Function.update st.tcb st.current_thread
    { st.tcb st.current_thread with context := call_site }
  match schedule_loop tcb1 st.thread_count st.thread_count st.current_thread with
  | none => none
  | some n => some { st with tcb := tcb1, current_thread := n, next_thread := n }

/-- Turn the result of `schedule` into an outcome. -/
def jump (r : Option Runtime) : Outcome :=
  match r with
  | none => Outcome.undefined
  | some st => Outcome.switched st

/-! ## `pthread_exit`, `pthread_self`, `pthread_create`, `pthread_join` -/

/-- Body of the `for` loop in `pthread_exit`, for index `i`. -/
def unblock_step (current_thread : Nat) (tcb : Nat → thread_control_block) (i : Nat) :
    Nat → thread_control_block :=
  if (tcb i).state = BLOCKED ∧ (tcb i).id = current_thread then
    Function.update tcb i { tcb i with state := READY }
  else tcb

/-- The `for (int i = 0; i < thread_count; i++)` loop of `pthread_exit`. -/
def unblock_loop (current_thread thread_count : Nat) (tcb : Nat → thread_control_block) :
    Nat → thread_control_block :=
  (List.range thread_count).foldl (unblock_step current_thread) tcb

/-- The guarded block of `pthread_exit`, from `lock()` to `unlock()`. -/
def pthread_exit_guarded (st : Runtime) (value_ptr : Nat) : Runtime :=
  let st1 := lock st
  let tcb1 := Function.update st1.tcb st1.current_thread
    { st1.tcb st1.current_thread with exit_value := value_ptr }
  let tcb2 := Function.update tcb1 st1.current_thread
    { tcb1 st1.current_thread with state := EXITED }
  let tcb3 := unblock_loop st1.current_thread st1.thread_count tcb2
  unlock { st1 with tcb := tcb3 }

/-- The function `pthread_exit`: the guarded block, then `schedule(0)`; the
`while (1);` is where the thread continues if it is selected again (`resume`). -/
def pthread_exit (st : Runtime) (value_ptr : Nat) : Outcome :=
  jump (schedule (pthread_exit_guarded st value_ptr) jmp_buf.at_exit)

/-- The first writes of `pthread_create` into slot `thread_count`: the `id` and the
stack pointer that `malloc(STACK_SIZE)` returned (`0` for `NULL`). -/
def pthread_create_alloc (st : Runtime) (malloc_result : Nat) : Runtime :=
  let n := st.thread_count
  let tcb1 := Function.update st.tcb n { st.tcb n with id := n }
  let tcb2 := Function.update tcb1 n { tcb1 n with stack := malloc_result }
  { st with tcb := tcb2 }

/-- The remaining writes of a successful `pthread_create`, up to the call of `schedule`:
start routine, argument, state READY, a context that starts in `start_thunk`
(the first `setjmp` returns 0 and the saved registers are overwritten), and
`thread_count++`. -/
def pthread_create_setup (st : Runtime) (start_routine arg : Nat) : Runtime :=
  let n := st.thread_count
  let tcb3 := Function.update st.tcb n { st.tcb n with start_routine := start_routine }
  let tcb4 := Function.update tcb3 n { tcb3 n with arg := arg }
  let tcb5 := Function.update tcb4 n { tcb4 n with state := READY }
  let tcb6 := Function.update tcb5 n { tcb5 n with context := jmp_buf.start_thunk }
  { st with tcb := tcb6, thread_count := n + 1 }

/-- The function `pthread_create`; `malloc_result` is what `malloc(STACK_SIZE)` returns
(`0` for `NULL`). The handle is written to `*thread` before the allocation. -/
def pthread_create (st : Runtime) (start_routine arg malloc_result : Nat) : Outcome :=
  if st.thread_count ≥ MAX_THREADS then Outcome.returned (-1) none st
  else if malloc_result = 0 then
    Outcome.returned (-1) (some st.thread_count) (pthread_create_alloc st malloc_result)
  else
    jump (schedule (pthread_create_setup (pthread_create_alloc st malloc_result) start_routine arg)
      jmp_buf.at_create)

/-- The lookup loop of `pthread_join`, from index `i`, with `n = thread_count - i`
iterations left: the first index whose `id` equals `thread`. -/
def find_target (tcb : Nat → thread_control_block) (thread : Nat) : Nat → Nat → Option Nat
  | 0, _ => none
  | n + 1, i => if (tcb i).id = thread then some i else find_target tcb thread n (i + 1)

/-- One test of the `while` condition in `pthread_join`, entered with the timer
masked. If the target has not exited the caller blocks and calls `schedule`
(the loop is entered again when the caller continues, see `resume`); otherwise
the code after the loop runs. -/
def pthread_join_loop (st : Runtime) (target_index : Nat) (value_ptr : Bool) : Outcome :=
  if (st.tcb target_index).state ≠ EXITED then
    let tcb1 := Function.update st.tcb st.current_thread
      { st.tcb st.current_thread with state := BLOCKED }
    jump (schedule (unlock { st with tcb := tcb1 }) (jmp_buf.at_join target_index value_ptr))
  else
    Outcome.returned 0
      (if value_ptr then some (st.tcb target_index).exit_value else none) (unlock st)

/-- The function `pthread_join`; `value_ptr` says whether the out-pointer is non-null. -/
def pthread_join (st : Runtime) (thread : Nat) (value_ptr : Bool) : Outcome :=
  let st1 := lock st
  match find_target st1.tcb thread st1.thread_count 0 with
  | none => Outcome.returned (-1) none (unlock st1)
  | some target_index => pthread_join_loop st1 target_index value_ptr

/-! ## Semaphores -/

/-- Conversion of a 64-bit word (or an `unsigned`) to `int`: the low 32 bits, read as
two's complement. -/
def to_int (w : Nat) : Int :=
  if w % 2 ^ 32 < 2 ^ 31 then ((w % 2 ^ 32 : Nat) : Int) else ((w % 2 ^ 32 : Nat) : Int) - 2 ^ 32

/-- The common prologue of `sem_wait`, `sem_post` and `sem_destroy`: the index read
from the handle word and the semaphore it denotes, `none` where the functions
return -1. -/
def sem_lookup (st : Runtime) (sem : Nat) : Option (Nat × custom_semaphore) :=
  let sem_index := to_int sem
  if sem_index < 0 ∨ sem_index ≥ (MAX_SEMAPHORES : Int) then none
  else
    match st.semaphore_array sem_index.toNat with
    | none => none
    | some csem => if csem.initialized = 0 then none else some (sem_index.toNat, csem)

/-- The function `sem_init`; `value` is the `unsigned` argument, `malloc_ok` says whether
`malloc` succeeds. The wait array of a new semaphore is unspecified memory, taken
as zeros. On success the handle word written to `*sem` is the `out` component. -/
def sem_init (st : Runtime) (value : Nat) (malloc_ok : Bool) : Outcome :=
  if st.next_semaphore_id ≥ MAX_SEMAPHORES then Outcome.returned (-1) none st
  else if !malloc_ok then Outcome.returned (-1) none st
  else
    let csem : custom_semaphore :=
      { value := to_int value, initialized := 1, waiting_threads := fun _ => 0, wait_count := 0 }
    Outcome.returned 0 (some st.next_semaphore_id)
      { st with
        semaphore_array := Function.update st.semaphore_array st.next_semaphore_id (some csem)
        next_semaphore_id := st.next_semaphore_id + 1 }

/-- The `else` branch of `sem_wait` up to the call of `schedule`: the caller is stored
at `waiting_threads[wait_count]`, `wait_count` is incremented, the caller's state
becomes BLOCKED. The timer is masked. -/
def sem_wait_enqueue (st : Runtime) (sem_index : Nat) (csem : custom_semaphore) : Runtime :=
  let st1 := lock st
  let csem1 : custom_semaphore :=
    { csem with
      waiting_threads := Function.update csem.waiting_threads csem.wait_count st1.current_thread
      wait_count := csem.wait_count + 1 }
  { st1 with
    semaphore_array := Function.update st1.semaphore_array sem_index (some csem1)
    tcb := Function.update st1.tcb st1.current_thread
      { st1.tcb st1.current_thread with state := BLOCKED } }

/-- The function `sem_wait`. Storing at index `wait_count ≥ MAX_THREADS` is outside the
array. After `schedule` the call continues in `resume` (`unlock(); return 0;`). -/
def sem_wait (st : Runtime) (sem : Nat) : Outcome :=
  match sem_lookup st sem with
  | none => Outcome.returned (-1) none st
  | some (sem_index, csem) =>
    if csem.value > 0 then
      Outcome.returned 0 none
        (unlock { lock st with
          semaphore_array := Function.update st.semaphore_array sem_index
            (some { csem with value := csem.value - 1 }) })
    else if csem.wait_count ≥ MAX_THREADS then Outcome.undefined
    else jump (schedule (sem_wait_enqueue st sem_index csem) jmp_buf.at_sem_wait)

/-- The largest value of an `int`. -/
def INT_MAX : Int := 2 ^ 31 - 1

/-- The function `sem_post`. The increment `csem->value++` of an `int` that holds
`INT_MAX` is a signed overflow, which has no defined behaviour. -/
def sem_post (st : Runtime) (sem : Nat) : Outcome :=
  match sem_lookup st sem with
  | none => Outcome.returned (-1) none st
  | some (sem_index, csem) =>
    let st1 := lock st
    if csem.wait_count > 0 then
      let next_thread := csem.waiting_threads (csem.wait_count - 1)
      Outcome.returned 0 none
        (unlock { st1 with
          semaphore_array := Function.update st1.semaphore_array sem_index
            (some { csem with wait_count := csem.wait_count - 1 })
          tcb := Function.update st1.tcb next_thread
            { st1.tcb next_thread with state := READY } })
    else if csem.value ≥ INT_MAX then Outcome.undefined
    else
      Outcome.returned 0 none
        (unlock { st1 with
          semaphore_array := Function.update st1.semaphore_array sem_index
            (some { csem with value := csem.value + 1 }) })

/-- The function `sem_destroy`; on success the handle word is overwritten with
`(uintptr_t)-1`. -/
def sem_destroy (st : Runtime) (sem : Nat) : Outcome :=
  match sem_lookup st sem with
  | none => Outcome.returned (-1) none st
  | some (sem_index, _) =>
    Outcome.returned 0 (some (2 ^ 64 - 1))
      { st with semaphore_array := Function.update st.semaphore_array sem_index none }

/-! ## Continuations -/

/-- Where the thread selected by `schedule` continues: the code after the `setjmp` that
saved its context. A thread that was interrupted by the timer returns from the
signal handler, which unblocks SIGALRM again. -/
def resume (st : Runtime) : Outcome :=
  match (st.tcb st.current_thread).context with
  | jmp_buf.zeroed => Outcome.undefined
  | jmp_buf.start_thunk => Outcome.in_thread st
  | jmp_buf.at_create => Outcome.returned 0 none st
  | jmp_buf.at_exit => Outcome.spinning st
  | jmp_buf.at_join target_index value_ptr => pthread_join_loop (lock st) target_index value_ptr
  | jmp_buf.at_sem_wait => Outcome.returned 0 none (unlock st)
  | jmp_buf.at_signal => Outcome.in_thread (unlock st)

/-- The timer signal: if SIGALRM is not blocked, `schedule` runs as its handler (with
SIGALRM blocked, as for every handler installed with `signal`); if it is blocked
the current thread goes on. -/
def alarm (st : Runtime) : Outcome :=
  if st.alarm_blocked then Outcome.in_thread st
  else jump (schedule (lock st) jmp_buf.at_signal)

/-- The function `pthread_exit_wrapper`, the return address of every start routine: the
value the routine returned (read from `rax`) is passed to `pthread_exit`. -/
def pthread_exit_wrapper (st : Runtime) (rax : Nat) : Outcome :=
  pthread_exit st rax

/-! ## Executions -/

/-- One step of the running thread: a call into the library, the timer signal, or
the continuation of the thread that `schedule` has just selected. -/
inductive Call where
  | create (start_routine arg malloc_result : Nat)
  | exit (value_ptr : Nat)
  | join (thread : Nat) (value_ptr : Bool)
  | sem_init (value : Nat) (malloc_ok : Bool)
  | sem_wait (sem : Nat)
  | sem_post (sem : Nat)
  | sem_destroy (sem : Nat)
  | alarm
  | resume
  deriving DecidableEq, Repr

def exec (st : Runtime) : Call → Outcome
  | Call.create start_routine arg malloc_result => pthread_create st start_routine arg malloc_result
  | Call.exit value_ptr => pthread_exit st value_ptr
  | Call.join thread value_ptr => pthread_join st thread value_ptr
  | Call.sem_init value malloc_ok => sem_init st value malloc_ok
  | Call.sem_wait sem => sem_wait st sem
  | Call.sem_post sem => sem_post st sem
  | Call.sem_destroy sem => sem_destroy st sem
  | Call.alarm => alarm st
  | Call.resume => resume st

/-- The state an outcome leaves, if it is defined. -/
def Outcome.runtime : Outcome → Option Runtime
  | Outcome.returned _ _ st => some st
  | Outcome.switched st => some st
  | Outcome.in_thread st => some st
  | Outcome.spinning st => some st
  | Outcome.undefined => none

/-- The thread that `schedule` jumped to, if the outcome is a context switch. -/
def Outcome.selected : Outcome → Option Nat
  | Outcome.switched st => some st.current_thread
  | _ => none

/-- The value a call returned, if the outcome is a return. -/
def Outcome.ret : Outcome → Option Int
  | Outcome.returned r _ _ => some r
  | _ => none

/-- Run a list of steps from `st`; `none` if one of them is undefined. -/
def run (st : Runtime) : List Call → Option Runtime
  | [] => some st
  | c :: cs =>
    match (exec st c).runtime with
    | none => none
    | some st1 => run st1 cs

/-- The wait queue of a semaphore in the order of enqueueing:
`waiting_threads[0], …, waiting_threads[wait_count - 1]`. -/
def queue (csem : custom_semaphore) : List Nat :=
  (List.range csem.wait_count).map csem.waiting_threads

/-! ## A run with three threads

Thread 0 creates thread 1, which creates thread 2; thread 2 is preempted by the
timer; thread 0 joins thread 1 and thread 1 joins thread 2. -/

/-- The run that ends with thread 1 blocked in `pthread_join(2, …)` and thread 2
running. -/
def three_threads : List Call :=
  [ Call.create 100 0 1000, Call.resume,   -- thread 0 creates thread 1, which starts
    Call.create 200 0 2000, Call.resume,   -- thread 1 creates thread 2, which starts
    Call.alarm, Call.resume,               -- timer: thread 0 returns from pthread_create
    Call.join 1 true, Call.resume,         -- thread 0 blocks; thread 1 returns from pthread_create
    Call.join 2 true, Call.resume ]        -- thread 1 blocks; thread 2 returns from the handler

/-! ## A run with two waiters

Thread 0 creates a semaphore with count 0 and thread 1, which waits; then thread 2,
which waits too. Control is back in thread 0 with both blocked. -/

/-- The run that ends with threads 1 and 2 enqueued, in this order, on semaphore 0. -/
def two_waiters : List Call :=
  [ Call.sem_init 0 true,
    Call.create 100 0 1000, Call.resume,   -- thread 0 creates thread 1, which starts
    Call.sem_wait 0, Call.resume,          -- thread 1 blocks; thread 0 returns from pthread_create
    Call.create 200 0 2000, Call.resume,   -- thread 0 creates thread 2, which starts
    Call.sem_wait 0, Call.resume ]         -- thread 2 blocks; thread 0 returns from pthread_create

/-! ## A run in which the bootstrap thread waits and exits

Thread 0 creates a semaphore with count 0 and thread 1, waits on the semaphore,
is selected again at the next timer signal, and exits with value 7; thread 1
then posts the semaphore. -/

/-- The run that ends with thread 1 about to join thread 0. -/
def bootstrap_exits : List Call :=
  [ Call.sem_init 0 true,
    Call.create 100 0 1000, Call.resume,   -- thread 0 creates thread 1, which starts
    Call.alarm, Call.resume,               -- timer: thread 0 returns from pthread_create
    Call.sem_wait 0, Call.resume,          -- thread 0 blocks; thread 1 returns from the handler
    Call.alarm, Call.resume,               -- timer: thread 0 is selected and sem_wait returns
    Call.exit 7, Call.resume,              -- thread 0 exits; thread 1 returns from the handler
    Call.sem_post 0 ]                      -- thread 1 posts: the stale entry for thread 0

/-! ## Invariants of the thread table and the wait queues -/

/-- Well-formedness of the thread table against the wait queues: every slot below
`thread_count` carries its index as `id`; every non-zero handle in a wait queue is
a created thread in state BLOCKED, and it occurs in one queue entry only. -/
structure TableOk (tcb : Nat → thread_control_block) (thread_count : Nat)
    (semaphore_array : Nat → Option custom_semaphore) : Prop where
  ids : ∀ i, i < thread_count → (tcb i).id = i
  queued_lt : ∀ s csem j, semaphore_array s = some csem → j < csem.wait_count →
    csem.waiting_threads j ≠ 0 → csem.waiting_threads j < thread_count
  queued_blocked : ∀ s csem j, semaphore_array s = some csem → j < csem.wait_count →
    csem.waiting_threads j ≠ 0 → (tcb (csem.waiting_threads j)).state = BLOCKED
  queued_unique : ∀ s csem j s2 csem2 j2, semaphore_array s = some csem →
    j < csem.wait_count → semaphore_array s2 = some csem2 → j2 < csem2.wait_count →
    csem.waiting_threads j ≠ 0 → csem.waiting_threads j = csem2.waiting_threads j2 →
    s = s2 ∧ j = j2

/-- The invariant of the runtime between two steps: the tables are well formed, the
current thread is a created thread, and it is handle 0 or its state is READY
(the scheduler selects nothing else, and never writes RUNNING). -/
structure Inv (st : Runtime) : Prop where
  table : TableOk st.tcb st.thread_count st.semaphore_array
  current_lt : st.current_thread < st.thread_count
  current_ready : st.current_thread = 0 ∨ (st.tcb st.current_thread).state = READY

/-- The handles that `schedule` jumps to in the course of a run, in order. -/
def selections (st : Runtime) : List Call → List Nat
  | [] => []
  | c :: cs =>
    (exec st c).selected.toList ++
      (match (exec st c).runtime with
       | none => []
       | some st1 => selections st1 cs)

/-- What a step has done to the tables at the point where it returns or calls
`schedule`, `m` being the state at that point: the tables are well formed, the
current thread is the same, no thread was removed, and the TCB of a non-zero
thread that was EXITED is untouched. -/
structure Effect (st m : Runtime) : Prop where
  table : TableOk m.tcb m.thread_count m.semaphore_array
  current : m.current_thread = st.current_thread
  count : st.thread_count ≤ m.thread_count
  exited : ∀ h, h ≠ 0 → h < st.thread_count → (st.tcb h).state = EXITED →
    m.tcb h = st.tcb h

/-- The outcome `o` leaves state `m` without a call of `schedule`, and the current thread
of `m` is handle 0 or READY. -/
def Stays (o : Outcome) (m : Runtime) : Prop :=
  o.runtime = some m ∧ o.selected = none ∧
    (m.current_thread = 0 ∨ (m.tcb m.current_thread).state = READY)

/-- The outcome `o` is the jump of a call of `schedule` in state `m`. -/
def Yields (o : Outcome) (m : Runtime) : Prop :=
  ∃ (call_site : jmp_buf) (st2 : Runtime), schedule m call_site = some st2 ∧ o = Outcome.switched st2

/-! ## Observations on calls and runs -/

/-- Whether the outcome leaves the thread in the `while (1);` at the end of
`pthread_exit`. -/
def Outcome.is_spinning : Outcome → Bool
  | Outcome.spinning _ => true
  | _ => false

/-- The values returned by the steps of a run, in order (`none` for a step that
does not return to its caller). -/
def returns (st : Runtime) : List Call → List (Option Int)
  | [] => []
  | c :: cs =>
    (exec st c).ret ::
      (match (exec st c).runtime with
       | none => []
       | some st1 => returns st1 cs)

/-- The calls of `pthread_create` in a run that do not fail (they do not return -1). -/
def created (st : Runtime) : List Call → Nat
  | [] => 0
  | c :: cs =>
    (match c with
     | Call.create _ _ _ => if (exec st c).ret = some (-1) then 0 else 1
     | _ => 0) +
      (match (exec st c).runtime with
       | none => 0
       | some st1 => created st1 cs)

/-- The calls of `sem_init` in a run that return 0. -/
def initialised (st : Runtime) : List Call → Nat
  | [] => 0
  | c :: cs =>
    (match c with
     | Call.sem_init _ _ => if (exec st c).ret = some 0 then 1 else 0
     | _ => 0) +
      (match (exec st c).runtime with
       | none => 0
       | some st1 => initialised st1 cs)

/-- The number of live semaphores: the non-null entries of `semaphore_array`. -/
def live_count (st : Runtime) : Nat :=
  ((List.range MAX_SEMAPHORES).filter (fun s => (st.semaphore_array s).isSome)).length

/-- The semaphore table is used from the bottom: no entry at or above
`next_semaphore_id` is set. -/
def Fresh (st : Runtime) : Prop :=
  ∀ s, st.next_semaphore_id ≤ s → st.semaphore_array s = none

/-- The run of 128 calls of `sem_init` followed by `sem_destroy` of the first
semaphore. -/
def all_slots_used : List Call :=
  List.replicate 128 (Call.sem_init 0 true) ++ [Call.sem_destroy 0]

/-- Successive scheduling passes: `n` times, the running thread does `work` (whatever it
does during its turn) and then `schedule` is called from `call_site`. The result is
the list of the handles selected, in order, and the final state. -/
def schedule_passes (work : Runtime → Runtime) (call_site : jmp_buf) :
    Nat → Runtime → Option (List Nat × Runtime)
  | 0, st => some ([], st)
  | n + 1, st =>
    match schedule (work st) call_site with
    | none => none
    | some st1 =>
      match schedule_passes work call_site n st1 with
      | none => none
      | some (selected, st2) => some (st1.current_thread :: selected, st2)

/-- The run in which the bootstrap thread, alone in the table, creates a semaphore with
count 0 and calls `sem_wait` on it `n` times; each call ends in `schedule`, which
selects thread 0 again. -/
def bootstrap_waits (n : Nat) : List Call :=
  Call.sem_init 0 true :: (List.replicate n [Call.sem_wait 0, Call.resume]).flatten

/-- The run in which thread 0 creates thread 1 and is given control back by the timer:
its call of `pthread_create` returns. -/
def preempted_create : List Call :=
  [ Call.create 100 0 1000, Call.resume,   -- thread 0 creates thread 1, which starts
    Call.alarm, Call.resume ]              -- timer: thread 0 returns from pthread_create

/-- A change of the thread table in which every state that was written is READY,
EXITED or BLOCKED. -/
def Quiet (tcb tcb2 : Nat → thread_control_block) : Prop :=
  ∀ i, (tcb2 i).state = (tcb i).state ∨ (tcb2 i).state = READY ∨
    (tcb2 i).state = EXITED ∨ (tcb2 i).state = BLOCKED

/-- The run in which thread 0 creates thread 1, thread 1 exits with value 5, and
thread 0, back from `pthread_create`, exits with value 7: the last call of
`pthread_exit` leaves no thread that is not EXITED. -/
def everyone_exits : List Call :=
  [ Call.create 100 0 1000, Call.resume,   -- thread 0 creates thread 1, which starts
    Call.exit 5, Call.resume ]             -- thread 1 exits; thread 0 returns from pthread_create

/-- The count of every semaphore is not negative, and a positive count comes with an
empty wait queue. -/
def CountsOk (st : Runtime) : Prop :=
  ∀ s csem, st.semaphore_array s = some csem →
    0 ≤ csem.value ∧ (0 < csem.value → csem.wait_count = 0)

end HW3
end EC440

namespace EC440
namespace HW4

/-! ## Data model of `tls.c`

A `page_t` object is named by its pointer (a number handed out by the allocator);
the region that `mmap` gave it is kept under the same name: `mem p` is its
contents by offset, `prot p` its protection. A bucket of the hash table is the
list of its elements, the `next` pointer being the tail. -/

def HASH_SIZE : Nat := 128
def PROT_NONE : Nat := 0
def PROT_READ : Nat := 1
def PROT_WRITE : Nat := 2

/-- `struct page`. -/
structure page_t where
  address : Nat
  ref_count : Int
  deriving DecidableEq, Repr

/-- `struct thread_local_storage`; `pages i` is `pages[i]`, defined for
`i < page_num`. -/
structure TLS where
  tid : Nat
  size : Nat
  page_num : Nat
  pages : Nat → Nat

/-- `struct hash_element` without its `next` pointer. -/
structure hash_element where
  tid : Nat
  tls : TLS

/-- The globals of `tls.c`, the `page_t` objects, the mapped regions, and the next
pointer the allocator hands out. -/
structure Storage where
  hash_table : Nat → List hash_element
  page_size : Nat
  initialized : Bool
  heap : Nat → Option page_t
  mem : Nat → Nat → Nat
  prot : Nat → Nat
  brk : Nat

/-- The state at program start. -/
def start : Storage :=
  { hash_table := fun _ => [], page_size := 0, initialized := false,
    heap := fun _ => none, mem := fun _ _ => 0, prot := fun _ => PROT_NONE, brk := 0 }

/-- The function `tls_init`; `getpagesize` is the value of the system call. -/
def tls_init (st : Storage) (getpagesize : Nat) : Storage :=
  { st with page_size := getpagesize, initialized := true }

def tls_protect (st : Storage) (p : Nat) : Storage :=
  { st with prot := Function.update st.prot p PROT_NONE }

def tls_unprotect (st : Storage) (p : Nat) : Storage :=
  { st with prot := Function.update st.prot p (PROT_READ + PROT_WRITE) }

def hash_func (tid : Nat) : Nat := tid % HASH_SIZE

/-- The chain walk `while (current && current->tid != tid) current = current->next`. -/
def find_element : List hash_element → Nat → Option hash_element
  | [], _ => none
  | e :: rest, tid => if e.tid = tid then some e else find_element rest tid

/-- The segment registered for `tid`, if any. -/
def lookup (st : Storage) (tid : Nat) : Option TLS :=
  (find_element (st.hash_table (hash_func tid)) tid).map (fun e => e.tls)

/-- Store `tls` in the first element of the chain whose `tid` is `tid` (writes through
`current->tls`). -/
def set_tls (tid : Nat) (tls : TLS) : List hash_element → List hash_element
  | [] => []
  | e :: rest =>
    if e.tid = tid then { e with tls := tls } :: rest else e :: set_tls tid tls rest

/-- Unlink the first element of the chain whose `tid` is `tid`. -/
def remove_element (tid : Nat) : List hash_element → List hash_element
  | [] => []
  | e :: rest => if e.tid = tid then rest else e :: remove_element tid rest

/-- `for (i = 0; i < page_num; i++) tls_unprotect(tls->pages[i])`, from index `i` with
`n` iterations left. -/
def unprotect_loop (pages : Nat → Nat) : Nat → Nat → Storage → Storage
  | 0, _, st => st
  | n + 1, i, st => unprotect_loop pages n (i + 1) (tls_unprotect st (pages i))

/-- `for (i = 0; i < page_num; i++) tls_protect(tls->pages[i])`. -/
def protect_loop (pages : Nat → Nat) : Nat → Nat → Storage → Storage
  | 0, _, st => st
  | n + 1, i, st => protect_loop pages n (i + 1) (tls_protect st (pages i))

/-- A new `page_t` with a fresh zero-filled region of protection `pr` and `ref_count` 1:
`calloc`, `mmap`, `ref_count = 1`. The pointer is `st.brk`. -/
def new_page (st : Storage) (pr : Nat) : Storage :=
  { st with
    heap := Function.update st.heap st.brk
      (some { address := (st.brk + 1) * st.page_size, ref_count := 1 })
    mem := Function.update st.mem st.brk (fun _ => 0)
    prot := Function.update st.prot st.brk pr
    brk := st.brk + 1 }

/-- The page loop of `tls_create`: `pages[i]` becomes a new page. -/
def create_loop : Nat → Nat → (Nat → Nat) × Storage → (Nat → Nat) × Storage
  | 0, _, acc => acc
  | n + 1, i, (pages, st) =>
    create_loop n (i + 1) (Function.update pages i st.brk, new_page st PROT_NONE)

/-- The success path of `tls_create`: the page count in `unsigned int`, the page loop,
and the new element linked in front of the caller's bucket. -/
def tls_create_register (st : Storage) (self size : Nat) : Storage :=
  let page_num := ((size + st.page_size - 1) % 2 ^ 32) / st.page_size
  let acc := create_loop page_num 0 (fun _ => 0, st)
  let tls : TLS := { tid := self, size := size, page_num := page_num, pages := acc.1 }
  { acc.2 with
    hash_table := Function.update acc.2.hash_table (hash_func self)
      ({ tid := self, tls := tls } :: acc.2.hash_table (hash_func self)) }

/-- The function `tls_create`, called by thread `self`; `getpagesize` is the value of the
system call in `tls_init`. -/
def tls_create (st : Storage) (self size getpagesize : Nat) : Int × Storage :=
  let st1 := if st.initialized then st else tls_init st getpagesize
  if size = 0 then (-1, st1)
  else
    match find_element (st1.hash_table (hash_func self)) self with
    | some _ => (-1, st1)
    | none => (0, tls_create_register st1 self size)

/-- The page loop of `tls_destroy`: `--p->ref_count`, and `munmap` and `free` at 0.
`none` if a page object is used after it was freed. -/
def destroy_loop (pages : Nat → Nat) : Nat → Nat → Storage → Option Storage
  | 0, _, st => some st
  | n + 1, i, st =>
    match st.heap (pages i) with
    | none => none
    | some pg =>
      if pg.ref_count - 1 = 0 then
        destroy_loop pages n (i + 1) { st with heap := Function.update st.heap (pages i) none }
      else
        destroy_loop pages n (i + 1)
          { st with
            heap := Function.update st.heap (pages i)
              (some { pg with ref_count := pg.ref_count - 1 }) }

/-- The function `tls_destroy`, called by thread `self`. -/
def tls_destroy (st : Storage) (self : Nat) : Option (Int × Storage) :=
  match find_element (st.hash_table (hash_func self)) self with
  | none => some (-1, st)
  | some e =>
    match destroy_loop e.tls.pages e.tls.page_num 0 st with
    | none => none
    | some st1 =>
      some (0, { st1 with
        hash_table := Function.update st1.hash_table (hash_func self)
          (remove_element self (st1.hash_table (hash_func self))) })

/-- The copy loop of `tls_read`, from index `i` with `n` iterations left; the index
arithmetic is in `unsigned int`. `none` if `pages[page_index]` is outside the
array or the page object was freed. -/
def read_loop (st : Storage) (tls : TLS) (offset : Nat) :
    Nat → Nat → (Nat → Nat) → Option (Nat → Nat)
  | 0, _, buffer => some buffer
  | n + 1, i, buffer =>
    let page_index := ((offset + i) % 2 ^ 32) / st.page_size
    let page_offset := ((offset + i) % 2 ^ 32) % st.page_size
    if page_index < tls.page_num then
      match st.heap (tls.pages page_index) with
      | none => none
      | some _ =>
        read_loop st tls offset n (i + 1)
          (Function.update buffer i (st.mem (tls.pages page_index) page_offset))
    else none

/-- The function `tls_read`, called by thread `self`: the return value, the buffer
after the call, and the state. -/
def tls_read (st : Storage) (self offset length : Nat) (buffer : Nat → Nat) :
    Option (Int × (Nat → Nat) × Storage) :=
  match find_element (st.hash_table (hash_func self)) self with
  | none => some (-1, buffer, st)
  | some e =>
    if (offset + length) % 2 ^ 32 > e.tls.size then some (-1, buffer, st)
    else
      let st1 := unprotect_loop e.tls.pages e.tls.page_num 0 st
      match read_loop st1 e.tls offset length 0 buffer with
      | none => none
      | some out => some (0, out, protect_loop e.tls.pages e.tls.page_num 0 st1)

/-- One iteration of the loop of `tls_write` on the page array `pages` of the caller:
copy-on-write if `ref_count > 1`, then the store of `buffer[i]`. -/
def write_step (page_num offset : Nat) (buffer : Nat → Nat) (i : Nat)
    (acc : (Nat → Nat) × Storage) : Option ((Nat → Nat) × Storage) :=
  let pages := acc.1
  let st := acc.2
  let page_index := ((offset + i) % 2 ^ 32) / st.page_size
  let page_offset := ((offset + i) % 2 ^ 32) % st.page_size
  if page_index < page_num then
    let p := pages page_index
    match st.heap p with
    | none => none
    | some pg =>
      if pg.ref_count > 1 then
        let copy := st.brk
        let st1 : Storage :=
          { st with
            heap := Function.update
              (Function.update st.heap copy
                (some { address := (st.brk + 1) * st.page_size, ref_count := 1 }))
              p (some { pg with ref_count := pg.ref_count - 1 })
            mem := Function.update st.mem copy (st.mem p)
            prot := Function.update (Function.update st.prot copy PROT_WRITE) p PROT_NONE
            brk := st.brk + 1 }
        some (Function.update pages page_index copy,
          { st1 with
            mem := Function.update st1.mem copy
              (Function.update (st1.mem copy) page_offset (buffer i)) })
      else
        some (pages,
          { st with
            mem := Function.update st.mem p
              (Function.update (st.mem p) page_offset (buffer i)) })
  else none

/-- The store loop of `tls_write`, from index `i` with `n` iterations left. -/
def write_loop (page_num offset : Nat) (buffer : Nat → Nat) :
    Nat → Nat → (Nat → Nat) × Storage → Option ((Nat → Nat) × Storage)
  | 0, _, acc => some acc
  | n + 1, i, acc =>
    match write_step page_num offset buffer i acc with
    | none => none
    | some acc1 => write_loop page_num offset buffer n (i + 1) acc1

/-- The function `tls_write`, called by thread `self`. -/
def tls_write (st : Storage) (self offset length : Nat) (buffer : Nat → Nat) :
    Option (Int × Storage) :=
  match find_element (st.hash_table (hash_func self)) self with
  | none => some (-1, st)
  | some e =>
    if (offset + length) % 2 ^ 32 > e.tls.size then some (-1, st)
    else
      let st1 := unprotect_loop e.tls.pages e.tls.page_num 0 st
      match write_loop e.tls.page_num offset buffer length 0 (e.tls.pages, st1) with
      | none => none
      | some (pages, st2) =>
        let st3 := protect_loop pages e.tls.page_num 0 st2
        some (0, { st3 with
          hash_table := Function.update st3.hash_table (hash_func self)
            (set_tls self { e.tls with pages := pages } (st3.hash_table (hash_func self))) })

/-- The page loop of `tls_clone`: `p->ref_count++` for every page of the source. -/
def clone_loop (pages : Nat → Nat) : Nat → Nat → Storage → Option Storage
  | 0, _, st => some st
  | n + 1, i, st =>
    match st.heap (pages i) with
    | none => none
    | some pg =>
      clone_loop pages n (i + 1)
        { st with
          heap := Function.update st.heap (pages i)
            (some { pg with ref_count := pg.ref_count + 1 }) }

/-- The function `tls_clone`, called by thread `self` with the source thread `tid`. -/
def tls_clone (st : Storage) (self tid : Nat) : Option (Int × Storage) :=
  match find_element (st.hash_table (hash_func tid)) tid,
        find_element (st.hash_table (hash_func self)) self with
  | some target, none =>
    match clone_loop target.tls.pages target.tls.page_num 0 st with
    | none => none
    | some st1 =>
      let new_tls : TLS :=
        { tid := self, size := target.tls.size, page_num := target.tls.page_num,
          pages := target.tls.pages }
      some (0, { st1 with
        hash_table := Function.update st1.hash_table (hash_func self)
          ({ tid := self, tls := new_tls } :: st1.hash_table (hash_func self)) })
  | _, _ => some (-1, st)

/-! ## Well-formed segments -/

/-- The byte of a page array at byte offset `x` of the segment. -/
def cell (st : Storage) (pages : Nat → Nat) (x : Nat) : Nat :=
  st.mem (pages (x / st.page_size)) (x % st.page_size)

/-- Well-formedness of a page array of `page_num` entries in state `st`: the entries
are pairwise different pointers that the allocator has handed out, and the page
objects they point to have not been freed. -/
structure PagesOk (st : Storage) (page_num : Nat) (pages : Nat → Nat) : Prop where
  inj : ∀ i j, i < page_num → j < page_num → pages i = pages j → i = j
  below : ∀ i, i < page_num → pages i < st.brk
  live : ∀ i, i < page_num → ∃ pg, st.heap (pages i) = some pg

/-- The scenario of the specification: thread 1 creates a segment of size 1 and writes
0xAA at offset 0; thread 2 clones it and writes 0xBB at offset 0. -/
def scenario : Option Storage :=
  match tls_write (tls_create start 1 1 4096).2 1 0 1 (fun _ => 0xAA) with
  | some (_, st2) =>
    match tls_clone st2 2 1 with
    | some (_, st3) =>
      match tls_write st3 2 0 1 (fun _ => 0xBB) with
      | some (_, st4) => some st4
      | none => none
    | none => none
  | none => none

/-- What the caller of `tls_read` sees: the return value and the buffer. -/
def observed (r : Option (Int × (Nat → Nat) × Storage)) : Option (Int × (Nat → Nat)) :=
  r.map (fun x => (x.1, x.2.1))

/-! ## Executions and the invariant of the segment table -/

/-- One call into the storage manager by thread `self`. -/
inductive Op where
  | create (self size getpagesize : Nat)
  | destroy (self : Nat)
  | read (self offset length : Nat) (buffer : Nat → Nat)
  | write (self offset length : Nat) (buffer : Nat → Nat)
  | clone (self tid : Nat)

/-- The state after a call; `none` where the source has no defined behaviour. -/
def step (st : Storage) : Op → Option Storage
  | Op.create self size getpagesize => some (tls_create st self size getpagesize).2
  | Op.destroy self => (tls_destroy st self).map (fun r => r.2)
  | Op.read self offset length buffer =>
    (tls_read st self offset length buffer).map (fun r => r.2.2)
  | Op.write self offset length buffer =>
    (tls_write st self offset length buffer).map (fun r => r.2)
  | Op.clone self tid => (tls_clone st self tid).map (fun r => r.2)

/-- Run a list of calls from `st`. -/
def steps (st : Storage) : List Op → Option Storage
  | [] => some st
  | op :: ops =>
    match step st op with
    | none => none
    | some st1 => steps st1 ops

/-- Whether page `p` occurs in the first `page_num` entries of a page array. -/
def in_array (p page_num : Nat) (pages : Nat → Nat) : Bool :=
  (List.range page_num).any (fun i => decide (pages i = p))

/-- Whether the segment of element `e` references page `p`. -/
def holds (p : Nat) (e : hash_element) : Bool :=
  in_array p e.tls.page_num e.tls.pages

/-- The number of elements in buckets `0 … n-1` whose segment references `p`. -/
def refs_below (hash_table : Nat → List hash_element) (p : Nat) : Nat → Nat
  | 0 => 0
  | n + 1 => refs_below hash_table p n + (hash_table n).countP (holds p)

/-- The number of registered segments that reference page `p`. -/
def refs (st : Storage) (p : Nat) : Nat := refs_below st.hash_table p HASH_SIZE

/-! ## The SIGSEGV handler -/

/-- What `tls_handle_page_fault` does with a fault. -/
inductive Fault where
  /-- `pthread_exit(NULL)`: the faulting thread is terminated -/
  | thread_exit
  /-- `signal(SIGSEGV, SIG_DFL); raise(SIGSEGV);` -/
  | reraised
  /-- a page object was read after it was freed -/
  | undefined
  deriving DecidableEq, Repr

/-- The computation `(uintptr_t)fault_addr & ~(page_size - 1)`: the `int` value
`~(page_size - 1)` is `-page_size`, converted to the 64-bit `uintptr_t`. -/
def page_fault_addr (st : Storage) (fault_addr : Nat) : Nat :=
  fault_addr &&& ((2 ^ 64 - st.page_size) % 2 ^ 64)

/-- The loop `for (j = 0; j < tls->page_num; j++)` of the handler, from index `j` with `n`
iterations left: `some true` if it reaches `pthread_exit`, `none` if a page object
it reads was freed. -/
def fault_page_loop (st : Storage) (tls : TLS) (addr : Nat) : Nat → Nat → Option Bool
  | 0, _ => some false
  | n + 1, j =>
    match st.heap (tls.pages j) with
    | none => none
    | some pg =>
      if pg.address = addr then some true else fault_page_loop st tls addr n (j + 1)

/-- The loop `while (current)` of the handler over one chain. -/
def fault_chain_loop (st : Storage) (addr : Nat) : List hash_element → Option Bool
  | [] => some false
  | e :: rest =>
    match fault_page_loop st e.tls addr e.tls.page_num 0 with
    | none => none
    | some true => some true
    | some false => fault_chain_loop st addr rest

/-- The loop `for (i = 0; i < HASH_SIZE; i++)` of the handler, from bucket `i` with `n`
iterations left. -/
def fault_bucket_loop (st : Storage) (addr : Nat) : Nat → Nat → Option Bool
  | 0, _ => some false
  | n + 1, i =>
    match fault_chain_loop st addr (st.hash_table i) with
    | none => none
    | some true => some true
    | some false => fault_bucket_loop st addr n (i + 1)

/-- The function `tls_handle_page_fault` for a fault at address `fault_addr`. -/
def tls_handle_page_fault (st : Storage) (fault_addr : Nat) : Fault :=
  match fault_bucket_loop st (page_fault_addr st fault_addr) HASH_SIZE 0 with
  | none => Fault.undefined
  | some true => Fault.thread_exit
  | some false => Fault.reraised

/-! ## Invariants -/

/-- The chains of the hash table: an element is in the bucket of its `tid`, and no
`tid` occurs twice in a chain. -/
structure ChainsOk (st : Storage) : Prop where
  home : ∀ b e, e ∈ st.hash_table b → hash_func e.tid = b
  nodup : ∀ b, ((st.hash_table b).map (fun e => e.tid)).Nodup

/-- The state after thread 1 has created a segment of one page of 4096 bytes. -/
def one_page : Storage := (tls_create start 1 4096 4096).2

/-- The state after thread 1 has called `tls_create(4294967295)` with a page size of
4096. -/
def huge_segment : Storage := (tls_create start 1 (2 ^ 32 - 1) 4096).2

/-- The invariant of the storage manager: only the `HASH_SIZE` buckets are used; the
page array of every registered segment consists of pairwise different pointers
that the allocator has handed out; page objects exist only at such pointers; a
page object's `ref_count` is at least the number of segments that reference it;
and every referenced page object exists. -/
structure StorageInv (st : Storage) : Prop where
  buckets : ∀ b, HASH_SIZE ≤ b → st.hash_table b = []
  inj : ∀ b e, e ∈ st.hash_table b → ∀ i j, i < e.tls.page_num → j < e.tls.page_num →
    e.tls.pages i = e.tls.pages j → i = j
  below : ∀ b e, e ∈ st.hash_table b → ∀ i, i < e.tls.page_num → e.tls.pages i < st.brk
  heap_below : ∀ p pg, st.heap p = some pg → p < st.brk
  counted : ∀ p pg, st.heap p = some pg → (refs st p : Int) ≤ pg.ref_count
  live : ∀ p, 0 < refs st p → ∃ pg, st.heap p = some pg

/-- Access bracketing between calls: every page of every registered segment has
protection `PROT_NONE`. -/
def Protected (st : Storage) : Prop :=
  ∀ b e, e ∈ st.hash_table b → ∀ i, i < e.tls.page_num → st.prot (e.tls.pages i) = PROT_NONE

/-- No page object counts more references than there are segments that reference it. -/
def Tight (st : Storage) : Prop :=
  ∀ p pg, st.heap p = some pg → pg.ref_count ≤ (refs st p : Int)

/-- The history of the segments, kept beside the state: `lin t` names the segment of
thread `t` and the segments it was cloned from, newest first, a segment being named
by the number `k` of the call that made it; `[]` if `t` owns no segment. A call of
`tls_create` that returns 0 starts a history, a call of `tls_clone` that returns 0
extends the history of the source, a call of `tls_destroy` that returns 0 ends
the history of the caller. -/
def lineage_step (st : Storage) (k : Nat) (lin : Nat → List Nat) : Op → Nat → List Nat
  | Op.create self size getpagesize =>
    if (tls_create st self size getpagesize).1 = 0 then Function.update lin self [k] else lin
  | Op.destroy self =>
    if (tls_destroy st self).map (fun r => r.1) = some 0 then Function.update lin self []
    else lin
  | Op.clone self tid =>
    if (tls_clone st self tid).map (fun r => r.1) = some 0 then
      Function.update lin self (k :: lin tid)
    else lin
  | Op.read _ _ _ _ => lin
  | Op.write _ _ _ _ => lin

/-- Run a list of calls from `st`, the first one having number `k`, and keep the history
of the segments. -/
def lineages : Storage → Nat → (Nat → List Nat) → List Op →
    Option (Storage × (Nat → List Nat))
  | st, _, lin, [] => some (st, lin)
  | st, k, lin, op :: ops =>
    match step st op with
    | none => none
    | some st1 => lineages st1 (k + 1) (lineage_step st k lin op) ops

/-- Whether the segment of thread `t` was made from the segment of thread `u` by
`tls_clone`, directly or through other segments. -/
def cloned_from (lin : Nat → List Nat) (t u : Nat) : Bool :=
  match lin u with
  | [] => false
  | s :: _ => (lin t).tail.contains s

/-- Every registered segment has a history, and two registered segments that share a
page go back to the same call of `tls_create`. -/
structure SameSource (st : Storage) (lin : Nat → List Nat) : Prop where
  named : ∀ b e, e ∈ st.hash_table b → lin e.tid ≠ []
  shared : ∀ b1 e1 b2 e2, e1 ∈ st.hash_table b1 → e2 ∈ st.hash_table b2 →
    ∀ i j, i < e1.tls.page_num → j < e2.tls.page_num → e1.tls.pages i = e2.tls.pages j →
      (lin e1.tid).getLast? = (lin e2.tid).getLast?

end HW4
end EC440

namespace EC440
namespace HW3

/-! ## The scheduling loop -/

/-- Saving a context does not change any `state` field. -/
theorem state_update_context (tcb : Nat → thread_control_block) (c i : Nat) (ctx : jmp_buf) :
    (Function.update tcb c { tcb c with context := ctx } i).state = (tcb i).state := by
  by_cases h : i = c
  · subst h; simp
  · simp [Function.update_noteq h]

/-- Core of the scheduling loop: from `c < thread_count` the loop ends after some
`k` iterations with `1 ≤ k ≤ thread_count - c`, for every fuel `≥ thread_count - c`. -/
theorem schedule_loop_spec (tcb : Nat → thread_control_block) (tc : Nat) :
    ∀ d c : Nat, c < tc → tc - c = d →
      ∃ k : Nat, 1 ≤ k ∧ k ≤ tc - c ∧
        (∀ fuel : Nat, tc - c ≤ fuel → schedule_loop tcb tc fuel c = some ((c + k) % tc)) ∧
        ((tcb ((c + k) % tc)).state = READY ∨ (c + k) % tc = 0) ∧
        (∀ j : Nat, 1 ≤ j → j < k →
          (tcb ((c + j) % tc)).state ≠ READY ∧ (c + j) % tc ≠ 0) := by
  intro d
  induction d using Nat.strong_induction_on with
  | _ d ih =>
    intro c hc hd
    by_cases hcont : (tcb ((c + 1) % tc)).state ≠ READY ∧ (c + 1) % tc ≠ 0
    · -- the loop goes on: c + 1 < tc
      have hlt : c + 1 < tc := by
        rcases Nat.lt_or_ge (c + 1) tc with h | h
        · exact h
        · exfalso
          have : c + 1 = tc := by omega
          exact hcont.2 (by rw [this]; exact Nat.mod_self tc)
      have hmod : (c + 1) % tc = c + 1 := Nat.mod_eq_of_lt hlt
      obtain ⟨k, hk1, hk2, hfuel, hsel, hbetween⟩ :=
        ih (tc - (c + 1)) (by omega) (c + 1) hlt rfl
      refine ⟨k + 1, by omega, by omega, ?_, ?_, ?_⟩
      · intro fuel hf
        obtain ⟨f, rfl⟩ : ∃ f, fuel = f + 1 := ⟨fuel - 1, by omega⟩
        have := hfuel f (by omega)
        simp only [schedule_loop]
        rw [if_pos hcont, hmod, this]
        congr 2
        omega
      · have : c + (k + 1) = c + 1 + k := by omega
        rw [this]; exact hsel
      · intro j hj1 hjk
        rcases Nat.eq_or_lt_of_le hj1 with h1 | h1
        · subst h1; exact hcont
        · have := hbetween (j - 1) (by omega) (by omega)
          have e : c + 1 + (j - 1) = c + j := by omega
          rw [e] at this; exact this
    · -- the loop ends after one iteration
      refine ⟨1, le_refl 1, by omega, ?_, ?_, ?_⟩
      · intro fuel hf
        obtain ⟨f, rfl⟩ : ∃ f, fuel = f + 1 := ⟨fuel - 1, by omega⟩
        simp only [schedule_loop]
        rw [if_neg hcont]
      · by_contra hno
        push_neg at hno
        exact hcont hno
      · intro j hj1 hjk; omega

/-- The loop reads only the `state` fields of the table. -/
theorem schedule_loop_congr (tcb tcb2 : Nat → thread_control_block) (tc : Nat)
    (h : ∀ i, (tcb2 i).state = (tcb i).state) :
    ∀ fuel c : Nat, schedule_loop tcb2 tc fuel c = schedule_loop tcb tc fuel c := by
  intro fuel
  induction fuel with
  | zero => intro c; rfl
  | succ f ih =>
    intro c
    simp only [schedule_loop, h, ih]

/-- C1. For every thread table with `thread_count ≥ 1` and every current handle
`c < thread_count`, the selection loop of `schedule` (the same loop in HW2 and HW3)
ends, for every fuel of at least `thread_count` iterations, and `schedule` jumps to
the handle `n = (c + k) mod thread_count` with `1 ≤ k ≤ thread_count` that is the
first in the cyclic order `c+1, c+2, …` whose state is READY or which is handle 0:
every handle strictly between `c` and `n` in that order is non-READY and non-zero,
and `n < thread_count`. -/
theorem schedule_selects_first_eligible (st : Runtime) (call_site : jmp_buf)
    (htc : 1 ≤ st.thread_count) (hc : st.current_thread < st.thread_count) :
    ∃ k : Nat, 1 ≤ k ∧ k ≤ st.thread_count ∧
      (∀ fuel : Nat, st.thread_count ≤ fuel →
        schedule_loop st.tcb st.thread_count fuel st.current_thread
          = some ((st.current_thread + k) % st.thread_count)) ∧
      (∃ st2 : Runtime, schedule st call_site = some st2 ∧
        st2.current_thread = (st.current_thread + k) % st.thread_count) ∧
      ((st.tcb ((st.current_thread + k) % st.thread_count)).state = READY ∨
        (st.current_thread + k) % st.thread_count = 0) ∧
      (∀ j : Nat, 1 ≤ j → j < k →
        (st.tcb ((st.current_thread + j) % st.thread_count)).state ≠ READY ∧
        (st.current_thread + j) % st.thread_count ≠ 0) ∧
      (st.current_thread + k) % st.thread_count < st.thread_count := by
  obtain ⟨k, hk1, hk2, hfuel, hsel, hbetween⟩ :=
    schedule_loop_spec st.tcb st.thread_count _ st.current_thread hc rfl
  refine ⟨k, hk1, by omega, ?_, ?_, hsel, hbetween, Nat.mod_lt _ (by omega)⟩
  · intro fuel hf
    exact hfuel fuel (by omega)
  · have hl := hfuel st.thread_count (by omega)
    have hcongr := schedule_loop_congr st.tcb
      (Function.update st.tcb st.current_thread
        { st.tcb st.current_thread with context := call_site }) st.thread_count
      (fun i => state_update_context st.tcb st.current_thread i call_site)
      st.thread_count st.current_thread
    refine ⟨{ st with
      tcb := Function.update st.tcb st.current_thread
        { st.tcb st.current_thread with context := call_site }
      current_thread := (st.current_thread + k) % st.thread_count
      next_thread := (st.current_thread + k) % st.thread_count }, ?_, rfl⟩
    simp only [schedule]
    rw [hcongr, hl]

/-- Witness for C1: three threads, thread 1 BLOCKED, thread 2 READY, current thread 0. -/
theorem schedule_selects_first_eligible_witness :
    ∃ k : Nat, 1 ≤ k ∧ k ≤ 3 ∧
      (∀ fuel : Nat, 3 ≤ fuel →
        schedule_loop (Function.update init.tcb 1 { zero_tcb with id := 1, state := BLOCKED })
          3 fuel 0 = some ((0 + k) % 3)) ∧
      (∃ st2 : Runtime,
        schedule { init with
          tcb := Function.update init.tcb 1 { zero_tcb with id := 1, state := BLOCKED }
          thread_count := 3 } jmp_buf.at_signal = some st2 ∧
        st2.current_thread = (0 + k) % 3) ∧
      ((Function.update init.tcb 1 { zero_tcb with id := 1, state := BLOCKED }
          ((0 + k) % 3)).state = READY ∨ (0 + k) % 3 = 0) ∧
      (∀ j : Nat, 1 ≤ j → j < k →
        (Function.update init.tcb 1 { zero_tcb with id := 1, state := BLOCKED }
          ((0 + j) % 3)).state ≠ READY ∧ (0 + j) % 3 ≠ 0) ∧
      (0 + k) % 3 < 3 :=
  schedule_selects_first_eligible
    { init with
      tcb := Function.update init.tcb 1 { zero_tcb with id := 1, state := BLOCKED }
      thread_count := 3 } jmp_buf.at_signal (by decide) (by decide)

/-- With at least one thread, `schedule` always jumps somewhere. -/
theorem schedule_some (st : Runtime) (call_site : jmp_buf)
    (hc : st.current_thread < st.thread_count) :
    ∃ st2 : Runtime, schedule st call_site = some st2 := by
  obtain ⟨k, -, -, hfuel, -, -⟩ :=
    schedule_loop_spec st.tcb st.thread_count _ st.current_thread hc rfl
  have hl := hfuel st.thread_count (by omega)
  have hcongr := schedule_loop_congr st.tcb
    (Function.update st.tcb st.current_thread
      { st.tcb st.current_thread with context := call_site }) st.thread_count
    (fun i => state_update_context st.tcb st.current_thread i call_site)
    st.thread_count st.current_thread
  simp only [schedule]
  rw [hcongr, hl]
  exact ⟨_, rfl⟩

/-- What `schedule` leaves: only the caller's saved context and the two thread
variables change. -/
theorem schedule_effect (st st2 : Runtime) (call_site : jmp_buf)
    (h : schedule st call_site = some st2) :
    st2.tcb = Function.update st.tcb st.current_thread
        { st.tcb st.current_thread with context := call_site } ∧
      st2.thread_count = st.thread_count ∧
      st2.semaphore_array = st.semaphore_array ∧
      st2.next_semaphore_id = st.next_semaphore_id ∧
      st2.alarm_blocked = st.alarm_blocked ∧
      st2.next_thread = st2.current_thread ∧
      schedule_loop st.tcb st.thread_count st.thread_count st.current_thread
        = some st2.current_thread := by
  simp only [schedule] at h
  have hcongr := schedule_loop_congr st.tcb
    (Function.update st.tcb st.current_thread
      { st.tcb st.current_thread with context := call_site }) st.thread_count
    (fun i => state_update_context st.tcb st.current_thread i call_site)
    st.thread_count st.current_thread
  rw [hcongr] at h
  cases hl : schedule_loop st.tcb st.thread_count st.thread_count st.current_thread with
  | none => rw [hl] at h; simp at h
  | some n =>
    rw [hl] at h
    simp only [Option.some.injEq] at h
    subst h
    exact ⟨rfl, rfl, rfl, rfl, rfl, rfl, rfl⟩

/-- The handle selected by the loop is READY or zero, whatever the fuel. -/
theorem schedule_loop_eligible (tcb : Nat → thread_control_block) (tc : Nat) :
    ∀ fuel c n : Nat, schedule_loop tcb tc fuel c = some n →
      (tcb n).state = READY ∨ n = 0 := by
  intro fuel
  induction fuel with
  | zero => intro c n h; simp [schedule_loop] at h
  | succ f ih =>
    intro c n h
    simp only [schedule_loop] at h
    split at h
    · exact ih _ _ h
    · rename_i hno
      simp only [Option.some.injEq] at h
      subst h
      by_contra hcon
      push_neg at hcon
      exact hno hcon

/-- The handle selected by the loop is below `thread_count`. -/
theorem schedule_loop_lt (tcb : Nat → thread_control_block) (tc : Nat) (htc : 0 < tc) :
    ∀ fuel c n : Nat, schedule_loop tcb tc fuel c = some n → n < tc := by
  intro fuel
  induction fuel with
  | zero => intro c n h; simp [schedule_loop] at h
  | succ f ih =>
    intro c n h
    simp only [schedule_loop] at h
    split at h
    · exact ih _ _ h
    · simp only [Option.some.injEq] at h
      subst h
      exact Nat.mod_lt _ htc

/-! ## `pthread_exit` and `pthread_join` -/

/-- The unblocking loop changes nothing but `state` fields, and a `state` only from
BLOCKED to READY, and only in a slot whose `id` is the exiting thread. -/
theorem unblock_step_spec (cur : Nat) (tcb : Nat → thread_control_block) (i j : Nat) :
    (unblock_step cur tcb i j = tcb j) ∨
      (j = i ∧ (tcb j).state = BLOCKED ∧ (tcb j).id = cur ∧
        unblock_step cur tcb i j = { tcb j with state := READY }) := by
  unfold unblock_step
  split
  · rename_i h
    by_cases hj : j = i
    · subst hj
      right
      exact ⟨rfl, h.1, h.2, by simp⟩
    · left; simp [Function.update_noteq hj]
  · left; rfl

theorem unblock_foldl_spec (cur : Nat) (l : List Nat) :
    ∀ (tcb : Nat → thread_control_block) (j : Nat),
      (l.foldl (unblock_step cur) tcb j = tcb j) ∨
        ((tcb j).state = BLOCKED ∧ (tcb j).id = cur ∧ j ∈ l ∧
          l.foldl (unblock_step cur) tcb j = { tcb j with state := READY }) := by
  induction l with
  | nil => intro tcb j; left; rfl
  | cons a l ih =>
    intro tcb j
    simp only [List.foldl_cons]
    rcases ih (unblock_step cur tcb a) j with h | ⟨h1, h2, h3, h4⟩
    · rcases unblock_step_spec cur tcb a j with g | ⟨g1, g2, g3, g4⟩
      · left; rw [h, g]
      · right
        refine ⟨g2, g3, by simp [g1], ?_⟩
        rw [h, g4]
    · rcases unblock_step_spec cur tcb a j with g | ⟨g1, g2, g3, g4⟩
      · right
        rw [g] at h1 h2 h4
        exact ⟨h1, h2, List.mem_cons_of_mem _ h3, h4⟩
      · exfalso
        rw [g4] at h1
        simp [READY, BLOCKED] at h1

/-- A slot whose `state` is not BLOCKED is left alone by the unblocking loop. -/
theorem unblock_loop_not_blocked (cur tc : Nat) (tcb : Nat → thread_control_block) (j : Nat)
    (h : (tcb j).state ≠ BLOCKED) : unblock_loop cur tc tcb j = tcb j := by
  rcases unblock_foldl_spec cur (List.range tc) tcb j with g | ⟨g1, -, -, -⟩
  · exact g
  · exact absurd g1 h

/-- A slot whose `id` is not the exiting thread is left alone by the unblocking loop. -/
theorem unblock_loop_other_id (cur tc : Nat) (tcb : Nat → thread_control_block) (j : Nat)
    (h : (tcb j).id ≠ cur) : unblock_loop cur tc tcb j = tcb j := by
  rcases unblock_foldl_spec cur (List.range tc) tcb j with g | ⟨-, g2, -, -⟩
  · exact g
  · exact absurd g2 h

/-- The TCB of the exiting thread after the guarded block of `pthread_exit`. -/
theorem pthread_exit_guarded_self (st : Runtime) (v : Nat) :
    (pthread_exit_guarded st v).tcb st.current_thread =
      { st.tcb st.current_thread with exit_value := v, state := EXITED } := by
  simp only [pthread_exit_guarded, lock, unlock]
  rw [unblock_loop_not_blocked]
  · simp
  · simp [EXITED, BLOCKED]

/-- The lookup of `pthread_join` finds index `h` when every slot below `thread_count`
carries its own index as `id`. -/
theorem find_target_spec (tcb : Nat → thread_control_block) (h : Nat) :
    ∀ n i : Nat, i ≤ h → h < i + n → (∀ j, i ≤ j → j < i + n → (tcb j).id = j) →
      find_target tcb h n i = some h := by
  intro n
  induction n with
  | zero => intro i h1 h2; omega
  | succ n ih =>
    intro i h1 h2 hid
    simp only [find_target]
    by_cases hi : i = h
    · subst hi
      rw [if_pos (hid i (le_refl i) (by omega))]
    · have : (tcb i).id ≠ h := by
        rw [hid i (le_refl i) (by omega)]; exact hi
      rw [if_neg this]
      exact ih (i + 1) (by omega) (by omega) (fun j hj1 hj2 => hid j (by omega) (by omega))

/-- The fast path of `pthread_join`: in a table whose slots carry their index as `id`,
joining a thread `h < thread_count` whose TCB records an exit with value `v`
returns 0 with `out = v`, without calling `schedule` (the outcome is a return,
not a switch) and leaving every TCB and every other global unchanged; the timer
is unmasked. -/
theorem pthread_join_of_exited (st : Runtime) (h v : Nat) (hh : h < st.thread_count)
    (hid : ∀ i, i < st.thread_count → (st.tcb i).id = i)
    (hst : (st.tcb h).state = EXITED) (hv : (st.tcb h).exit_value = v) :
    pthread_join st h true = Outcome.returned 0 (some v) { st with alarm_blocked := false } := by
  have hf : find_target (lock st).tcb h (lock st).thread_count 0 = some h :=
    find_target_spec st.tcb h st.thread_count 0 (Nat.zero_le _) (by omega)
      (fun j _ hj => hid j (by omega))
  simp only [pthread_join, hf, pthread_join_loop]
  have hst2 : ((lock st).tcb h).state = EXITED := hst
  rw [if_neg (by simp [hst2])]
  simp only [lock, unlock, if_true, hv]

/-- With the ids in place the unblocking loop of `pthread_exit` changes nothing when
the exiting thread itself is not BLOCKED: the only slot whose `id` is the exiting
thread is its own. -/
theorem unblock_loop_noop (cur tc : Nat) (tcb : Nat → thread_control_block)
    (hid : ∀ i, i < tc → (tcb i).id = i) (hcur : (tcb cur).state ≠ BLOCKED) :
    unblock_loop cur tc tcb = tcb := by
  funext j
  rcases unblock_foldl_spec cur (List.range tc) tcb j with g | ⟨g1, g2, g3, -⟩
  · exact g
  · exfalso
    have hj : j < tc := List.mem_range.mp g3
    have : j = cur := by rw [← hid j hj]; exact g2
    subst this
    exact hcur g1

/-- The guarded block of `pthread_exit` in a table with the ids in place: the exiting
thread gets its exit value and the state EXITED, nothing else changes. -/
theorem pthread_exit_guarded_eq (st : Runtime) (v : Nat)
    (hid : ∀ i, i < st.thread_count → (st.tcb i).id = i) :
    pthread_exit_guarded st v =
      { st with
        tcb := Function.update st.tcb st.current_thread
          { st.tcb st.current_thread with exit_value := v, state := EXITED }
        alarm_blocked := false } := by
  simp only [pthread_exit_guarded, lock, unlock]
  rw [unblock_loop_noop]
  · simp
  · intro i hi
    by_cases h : i = st.current_thread
    · rw [h]
      simp only [Function.update_same]
      exact hid _ (h ▸ hi)
    · simp [Function.update_noteq h, hid i hi]
  · simp [EXITED, BLOCKED]

/-- C6 (defect in the code). Thread 1 is BLOCKED inside `pthread_join(2, …)` when
thread 2 calls `pthread_exit(7)`. After the guarded block of `pthread_exit` thread 2
has exit value 7 and state EXITED, but thread 1 is still BLOCKED: the loop
compares `tcb[i].id`, the joiner's own handle, with the exiting thread. -/
theorem pthread_exit_leaves_joiner_blocked :
    ∃ st : Runtime, run init three_threads = some st ∧
      st.current_thread = 2 ∧ st.thread_count = 3 ∧
      (st.tcb 1).state = BLOCKED ∧ (st.tcb 1).context = jmp_buf.at_join 2 true ∧
      ((pthread_exit_guarded st 7).tcb 2).exit_value = 7 ∧
      ((pthread_exit_guarded st 7).tcb 2).state = EXITED ∧
      ((pthread_exit_guarded st 7).tcb 1).state = BLOCKED :=
  ⟨_, rfl, rfl, rfl, rfl, rfl, rfl, rfl, rfl⟩

/-! ## Semaphores -/

/-- What a successful lookup says about the table. -/
theorem sem_lookup_spec (st : Runtime) (sem i : Nat) (csem : custom_semaphore)
    (h : sem_lookup st sem = some (i, csem)) :
    st.semaphore_array i = some csem ∧ i < MAX_SEMAPHORES ∧ csem.initialized ≠ 0 ∧
      (i : Int) = to_int sem := by
  simp only [sem_lookup] at h
  split at h
  · simp at h
  · rename_i hr
    push_neg at hr
    cases hs : st.semaphore_array (to_int sem).toNat with
    | none => rw [hs] at h; simp at h
    | some c =>
      rw [hs] at h
      simp only at h
      split at h
      · simp at h
      · rename_i hinit
        simp only [Option.some.injEq, Prod.mk.injEq] at h
        obtain ⟨h1, h2⟩ := h
        subst h1 h2
        refine ⟨hs, ?_, hinit, ?_⟩
        · have := hr.2
          simp only [MAX_SEMAPHORES] at this ⊢
          omega
        · exact Int.toNat_of_nonneg hr.1

/-- The queue after storing `t` at index `wait_count` and incrementing `wait_count`. -/
theorem queue_enqueue (csem : custom_semaphore) (t : Nat) :
    queue { csem with
      waiting_threads := Function.update csem.waiting_threads csem.wait_count t
      wait_count := csem.wait_count + 1 } = queue csem ++ [t] := by
  simp only [queue, List.range_succ, List.map_append, List.map_cons, List.map_nil,
    Function.update_same]
  congr 1
  apply List.map_congr_left
  intro a ha
  have : a ≠ csem.wait_count := by
    have := List.mem_range.mp ha
    omega
  simp [Function.update_noteq this]

/-- The queue after decrementing a positive `wait_count`. -/
theorem queue_dequeue (csem : custom_semaphore) (h : 0 < csem.wait_count) :
    queue csem = queue { csem with wait_count := csem.wait_count - 1 } ++
      [csem.waiting_threads (csem.wait_count - 1)] := by
  obtain ⟨k, hk⟩ : ∃ k, csem.wait_count = k + 1 := ⟨csem.wait_count - 1, by omega⟩
  simp only [queue, hk, List.range_succ, List.map_append, List.map_cons, List.map_nil,
    Nat.add_sub_cancel]

/-- Hand-off in `sem_post` on a live semaphore (slot `i`, contents `csem`) whose queue is
not empty or whose count is below `INT_MAX`. If the wait queue is non-empty: the
count keeps its value, the queue loses exactly one entry (the array itself is
untouched), the TCB of the dequeued handle gets state READY and no other TCB
changes. If it is empty: the count goes up by exactly one, the queue and every TCB
are unchanged. In both cases the call returns 0, no other semaphore slot changes,
and the thread variables are unchanged. -/
theorem sem_post_spec (st : Runtime) (sem i : Nat) (csem : custom_semaphore)
    (hlive : sem_lookup st sem = some (i, csem))
    (hroom : 0 < csem.wait_count ∨ csem.value < INT_MAX) :
    ∃ (st2 : Runtime) (csem2 : custom_semaphore),
      sem_post st sem = Outcome.returned 0 none st2 ∧
      st2.semaphore_array i = some csem2 ∧
      (∀ j, j ≠ i → st2.semaphore_array j = st.semaphore_array j) ∧
      st2.thread_count = st.thread_count ∧ st2.current_thread = st.current_thread ∧
      st2.next_semaphore_id = st.next_semaphore_id ∧
      csem2.waiting_threads = csem.waiting_threads ∧
      csem2.initialized = csem.initialized ∧
      (0 < csem.wait_count →
        csem2.value = csem.value ∧
        csem2.wait_count + 1 = csem.wait_count ∧
        (queue csem2).length + 1 = (queue csem).length ∧
        st2.tcb (csem.waiting_threads (csem.wait_count - 1)) =
          { st.tcb (csem.waiting_threads (csem.wait_count - 1)) with state := READY } ∧
        (∀ j, j ≠ csem.waiting_threads (csem.wait_count - 1) → st2.tcb j = st.tcb j)) ∧
      (csem.wait_count = 0 →
        csem2.value = csem.value + 1 ∧
        csem2.wait_count = 0 ∧ queue csem2 = queue csem ∧
        st2.tcb = st.tcb) := by
  by_cases hw : 0 < csem.wait_count
  · refine ⟨unlock { lock st with
        semaphore_array := Function.update (lock st).semaphore_array i
          (some { csem with wait_count := csem.wait_count - 1 })
        tcb := Function.update (lock st).tcb (csem.waiting_threads (csem.wait_count - 1))
          { (lock st).tcb (csem.waiting_threads (csem.wait_count - 1)) with state := READY } },
      { csem with wait_count := csem.wait_count - 1 }, ?_, ?_, ?_, rfl, rfl, rfl,
      rfl, rfl, ?_, ?_⟩
    · simp only [sem_post, hlive]
      rw [if_pos (by simpa using hw)]
    · simp [unlock, lock]
    · intro j hj
      simp [unlock, lock, Function.update_noteq hj]
    · intro _
      refine ⟨rfl, by simp only; omega, ?_, ?_, ?_⟩
      · simp only [queue, List.length_map, List.length_range]; omega
      · simp [unlock, lock]
      · intro j hj
        simp [unlock, lock, Function.update_noteq hj]
    · intro h0; omega
  · have h0 : csem.wait_count = 0 := by omega
    have hmax : ¬ csem.value ≥ INT_MAX := by
      rcases hroom with h | h
      · exact absurd h hw
      · omega
    refine ⟨unlock { lock st with
        semaphore_array := Function.update (lock st).semaphore_array i
          (some { csem with value := csem.value + 1 }) },
      { csem with value := csem.value + 1 }, ?_, ?_, ?_, rfl, rfl, rfl,
      rfl, rfl, ?_, ?_⟩
    · simp only [sem_post, hlive]
      rw [if_neg (by simpa using hw), if_neg hmax]
    · simp [unlock, lock]
    · intro j hj
      simp [unlock, lock, Function.update_noteq hj]
    · intro h; omega
    · intro _
      exact ⟨rfl, h0, rfl, rfl⟩

/-- C9 (defect in the code). The call `sem_init` with the initial value 2147483647 returns
0 and creates a semaphore with count `INT_MAX` and an empty queue. The call of
`sem_post` that follows takes the branch of the empty queue, and its increment
`csem->value++` overflows the `int`: the count does not go up by one, and the
call has no defined return value. -/
theorem sem_post_overflows_count :
    returns init [Call.sem_init (2 ^ 31 - 1) true] = [some 0] ∧
    (run init [Call.sem_init (2 ^ 31 - 1) true]).bind
      (fun st => (st.semaphore_array 0).map (fun c => (c.value, c.wait_count))) =
        some (INT_MAX, 0) ∧
    (run init [Call.sem_init (2 ^ 31 - 1) true]).map
      (fun st => (sem_lookup st 0).isSome) = some true ∧
    (run init [Call.sem_init (2 ^ 31 - 1) true]).map
      (fun st => ((sem_post st 0).ret, (sem_post st 0).runtime.isNone)) = some (none, true) ∧
    returns init [Call.sem_init (2 ^ 31 - 1) true, Call.sem_post 0] = [some 0, none] ∧
    (run init [Call.sem_init (2 ^ 31 - 1) true, Call.sem_post 0]).isNone = true := by
  decide

/-- C10. The call `sem_wait` on a live semaphore (slot `i`, contents `csem`). If the
count is positive it decrements the count by exactly one, leaves the queue, every
TCB and the thread variables unchanged and returns 0 without calling `schedule`.
If the count is 0 (and the wait array has a free entry) it leaves the count
unchanged, appends the caller's handle at the tail of the queue, sets the
caller's state to BLOCKED, changes no other TCB, and calls `schedule`, which
jumps to the selected thread with these semaphores and TCB states. -/
theorem sem_wait_spec (st : Runtime) (sem i : Nat) (csem : custom_semaphore)
    (hlive : sem_lookup st sem = some (i, csem)) :
    (0 < csem.value →
      ∃ st2 : Runtime, sem_wait st sem = Outcome.returned 0 none st2 ∧
        st2.semaphore_array i = some { csem with value := csem.value - 1 } ∧
        (∀ j, j ≠ i → st2.semaphore_array j = st.semaphore_array j) ∧
        st2.tcb = st.tcb ∧ st2.thread_count = st.thread_count ∧
        st2.current_thread = st.current_thread) ∧
    (csem.value = 0 → csem.wait_count < MAX_THREADS →
      st.current_thread < st.thread_count →
      ∃ (st2 : Runtime) (csem1 : custom_semaphore),
        schedule (sem_wait_enqueue st i csem) jmp_buf.at_sem_wait = some st2 ∧
        sem_wait st sem = Outcome.switched st2 ∧
        (sem_wait_enqueue st i csem).semaphore_array i = some csem1 ∧
        csem1.value = csem.value ∧
        queue csem1 = queue csem ++ [st.current_thread] ∧
        (∀ j, j ≠ i →
          (sem_wait_enqueue st i csem).semaphore_array j = st.semaphore_array j) ∧
        (sem_wait_enqueue st i csem).tcb st.current_thread =
          { st.tcb st.current_thread with state := BLOCKED } ∧
        (∀ j, j ≠ st.current_thread → (sem_wait_enqueue st i csem).tcb j = st.tcb j) ∧
        st2.semaphore_array = (sem_wait_enqueue st i csem).semaphore_array ∧
        (∀ j, (st2.tcb j).state = ((sem_wait_enqueue st i csem).tcb j).state)) := by
  constructor
  · intro hpos
    refine ⟨unlock { lock st with
        semaphore_array := Function.update st.semaphore_array i
          (some { csem with value := csem.value - 1 }) }, ?_, ?_, ?_, rfl, rfl, rfl⟩
    · simp only [sem_wait, hlive]
      rw [if_pos (by simpa using hpos)]
    · simp [unlock, lock]
    · intro j hj
      simp [unlock, lock, Function.update_noteq hj]
  · intro hzero hroom hcur
    obtain ⟨st2, hs⟩ := schedule_some (sem_wait_enqueue st i csem) jmp_buf.at_sem_wait hcur
    obtain ⟨ht, -, hsem, -⟩ := schedule_effect _ _ _ hs
    refine ⟨st2, { csem with
        waiting_threads := Function.update csem.waiting_threads csem.wait_count st.current_thread
        wait_count := csem.wait_count + 1 }, hs, ?_, ?_, rfl, ?_, ?_, ?_, ?_, hsem, ?_⟩
    · simp only [sem_wait, hlive]
      rw [if_neg (by omega), if_neg (by omega), hs]
      rfl
    · simp [sem_wait_enqueue, lock]
    · exact queue_enqueue csem st.current_thread
    · intro j hj
      simp [sem_wait_enqueue, lock, Function.update_noteq hj]
    · simp [sem_wait_enqueue, lock]
    · intro j hj
      simp [sem_wait_enqueue, lock, Function.update_noteq hj]
    · intro j
      rw [ht]
      exact state_update_context _ _ _ _

/-- Witness for C10: the bootstrap thread waits on a fresh semaphore with count 0. -/
theorem sem_wait_spec_witness :
    ∃ (st2 : Runtime) (csem1 : custom_semaphore),
      sem_wait
        { init with
          semaphore_array := Function.update init.semaphore_array 0
            (some { value := 0, initialized := 1, waiting_threads := fun _ => 0,
                    wait_count := 0 })
          next_semaphore_id := 1 } 0 = Outcome.switched st2 ∧
      (sem_wait_enqueue
        { init with
          semaphore_array := Function.update init.semaphore_array 0
            (some { value := 0, initialized := 1, waiting_threads := fun _ => 0,
                    wait_count := 0 })
          next_semaphore_id := 1 } 0
        { value := 0, initialized := 1, waiting_threads := fun _ => 0,
          wait_count := 0 }).semaphore_array 0 = some csem1 ∧
      csem1.value = 0 ∧ queue csem1 = [] ++ [0] := by
  obtain ⟨st2, csem1, -, h2, h3, h4, h5, -⟩ :=
    (sem_wait_spec
      { init with
        semaphore_array := Function.update init.semaphore_array 0
          (some { value := 0, initialized := 1, waiting_threads := fun _ => 0,
                  wait_count := 0 })
        next_semaphore_id := 1 } 0 0
      { value := 0, initialized := 1, waiting_threads := fun _ => 0, wait_count := 0 }
      rfl).2 rfl (by decide) (by decide)
  exact ⟨st2, csem1, h2, h3, h4, h5⟩

/-- C8 as the code has it. The call `sem_post` on a live semaphore with a non-empty wait
queue dequeues in LIFO order: if the queue holds `t1, …, tk` in the order of
enqueueing (`ts ++ [tk]`), `sem_post` returns 0, marks `tk`, the waiter enqueued
last, READY, changes no other TCB, and leaves `t1, …, t(k-1)` queued in the same
order. -/
theorem sem_post_dequeues_last (st : Runtime) (sem i : Nat) (csem : custom_semaphore)
    (ts : List Nat) (tk : Nat)
    (hlive : sem_lookup st sem = some (i, csem)) (hq : queue csem = ts ++ [tk]) :
    ∃ (st2 : Runtime) (csem2 : custom_semaphore),
      sem_post st sem = Outcome.returned 0 none st2 ∧
      st2.tcb tk = { st.tcb tk with state := READY } ∧
      (∀ j, j ≠ tk → st2.tcb j = st.tcb j) ∧
      st2.semaphore_array i = some csem2 ∧
      queue csem2 = ts := by
  have hw : 0 < csem.wait_count := by
    have hlen : (queue csem).length = csem.wait_count := by
      simp [queue]
    rw [hq] at hlen
    simp at hlen
    omega
  have hd := queue_dequeue csem hw
  rw [hq] at hd
  have hts := List.append_inj' hd (by simp)
  obtain ⟨hts1, hts2⟩ := hts
  simp only [List.cons.injEq, and_true] at hts2
  refine ⟨unlock { lock st with
      semaphore_array := Function.update (lock st).semaphore_array i
        (some { csem with wait_count := csem.wait_count - 1 })
      tcb := Function.update (lock st).tcb (csem.waiting_threads (csem.wait_count - 1))
        { (lock st).tcb (csem.waiting_threads (csem.wait_count - 1)) with state := READY } },
    { csem with wait_count := csem.wait_count - 1 }, ?_, ?_, ?_, ?_, hts1.symm⟩
  · simp only [sem_post, hlive]
    rw [if_pos (by simpa using hw)]
  · rw [hts2]; simp [unlock, lock]
  · intro j hj
    rw [hts2] at hj
    simp [unlock, lock, Function.update_noteq hj]
  · simp [unlock, lock]

/-- Witness for C8 as the code has it: the queue `[1, 2]` of the run `two_waiters`. -/
theorem sem_post_dequeues_last_witness :
    ∃ st : Runtime, run init two_waiters = some st ∧
      ∃ (st2 : Runtime) (csem2 : custom_semaphore),
        sem_post st 0 = Outcome.returned 0 none st2 ∧
        st2.tcb 2 = { st.tcb 2 with state := READY } ∧
        (∀ j, j ≠ 2 → st2.tcb j = st.tcb j) ∧
        st2.semaphore_array 0 = some csem2 ∧
        queue csem2 = [1] :=
  ⟨_, rfl, sem_post_dequeues_last _ 0 0 _ [1] 2 rfl rfl⟩

/-- C8, counterexample. Threads 1 and 2 are enqueued by `sem_wait` in this order and
neither has been dequeued. The call `sem_post` returns 0, but thread 1, the
longest-waiting one, is still BLOCKED (thread 2 is READY), and the queue that is
left is `[1]`, not `[2]`. -/
theorem sem_post_not_fifo :
    ∃ (st st2 : Runtime) (csem csem2 : custom_semaphore),
      run init two_waiters = some st ∧
      st.semaphore_array 0 = some csem ∧ queue csem = [1, 2] ∧
      (st.tcb 1).state = BLOCKED ∧ (st.tcb 2).state = BLOCKED ∧
      sem_post st 0 = Outcome.returned 0 none st2 ∧
      (st2.tcb 1).state = BLOCKED ∧ (st2.tcb 1).state ≠ READY ∧
      (st2.tcb 2).state = READY ∧
      st2.semaphore_array 0 = some csem2 ∧ queue csem2 = [1] ∧ queue csem2 ≠ [2] :=
  ⟨_, _, _, _, rfl, rfl, rfl, rfl, rfl, rfl, rfl, by decide, rfl, rfl, rfl, by decide⟩

/-- C5 (defect in the code). The bootstrap thread, alone in the table, creates a
semaphore with count 0 and calls `sem_wait`: it is enqueued and marked BLOCKED,
but `schedule` selects handle 0 whatever its state, and the call continues after
`schedule` and returns 0, although no `sem_post` was ever called: one `sem_wait`
has returned, and the initial count plus the number of posts is 0. -/
theorem sem_wait_returns_without_post :
    ∃ (st1 st2 st3 : Runtime) (csem : custom_semaphore),
      sem_init init 0 true = Outcome.returned 0 (some 0) st1 ∧
      st1.semaphore_array 0 = some csem ∧ csem.value = 0 ∧ csem.wait_count = 0 ∧
      sem_wait st1 0 = Outcome.switched st2 ∧
      st2.current_thread = 0 ∧ (st2.tcb 0).state = BLOCKED ∧
      (st2.tcb 0).context = jmp_buf.at_sem_wait ∧
      resume st2 = Outcome.returned 0 none st3 :=
  ⟨_, _, _, _, rfl, rfl, rfl, rfl, rfl, rfl, rfl, rfl, rfl⟩

/-! ## The invariant is kept by every step -/

theorem init_inv : Inv init := by
  refine ⟨⟨?_, ?_, ?_, ?_⟩, by decide, Or.inl rfl⟩
  · intro i hi
    have : i = 0 := by
      have : i < 1 := hi
      omega
    subst this; rfl
  · intro s csem j h; simp [init] at h
  · intro s csem j h; simp [init] at h
  · intro s csem j s2 csem2 j2 h; simp [init] at h

/-- A non-zero queued handle is not the current thread. -/
theorem Inv.not_current {st : Runtime} (hinv : Inv st) (s : Nat) (csem : custom_semaphore)
    (j : Nat) (hs : st.semaphore_array s = some csem) (hj : j < csem.wait_count)
    (h0 : csem.waiting_threads j ≠ 0) : csem.waiting_threads j ≠ st.current_thread := by
  intro heq
  have hb := hinv.table.queued_blocked s csem j hs hj h0
  rcases hinv.current_ready with hc | hc
  · exact h0 (heq.trans hc)
  · rw [heq, hc] at hb
    simp [READY, BLOCKED] at hb

/-- Changing a TCB that is in no queue, keeping its `id`. -/
theorem TableOk.update_unqueued {tcb : Nat → thread_control_block} {tc : Nat}
    {sa : Nat → Option custom_semaphore} (h : TableOk tcb tc sa) (a : Nat)
    (t : thread_control_block) (hid : t.id = (tcb a).id)
    (hq : ∀ s csem j, sa s = some csem → j < csem.wait_count →
      csem.waiting_threads j ≠ 0 → csem.waiting_threads j ≠ a) :
    TableOk (Function.update tcb a t) tc sa := by
  refine ⟨?_, h.queued_lt, ?_, h.queued_unique⟩
  · intro i hi
    by_cases hia : i = a
    · subst hia; simp [hid, h.ids i hi]
    · simp [Function.update_noteq hia, h.ids i hi]
  · intro s csem j hs hj h0
    rw [Function.update_noteq (hq s csem j hs hj h0)]
    exact h.queued_blocked s csem j hs hj h0

/-- Changing slots at or above `thread_count`. -/
theorem TableOk.agree_below {tcb tcb2 : Nat → thread_control_block} {tc : Nat}
    {sa : Nat → Option custom_semaphore} (h : TableOk tcb tc sa)
    (hag : ∀ i, i < tc → tcb2 i = tcb i) : TableOk tcb2 tc sa := by
  refine ⟨?_, h.queued_lt, ?_, h.queued_unique⟩
  · intro i hi; rw [hag i hi]; exact h.ids i hi
  · intro s csem j hs hj h0
    rw [hag _ (h.queued_lt s csem j hs hj h0)]
    exact h.queued_blocked s csem j hs hj h0

/-- Appending a slot that carries its index as `id`. -/
theorem TableOk.grow {tcb : Nat → thread_control_block} {tc : Nat}
    {sa : Nat → Option custom_semaphore} (h : TableOk tcb tc sa)
    (hid : (tcb tc).id = tc) : TableOk tcb (tc + 1) sa := by
  refine ⟨?_, ?_, h.queued_blocked, h.queued_unique⟩
  · intro i hi
    rcases Nat.lt_or_ge i tc with hlt | hge
    · exact h.ids i hlt
    · have : i = tc := by omega
      subst this; exact hid
  · intro s csem j hs hj h0
    have := h.queued_lt s csem j hs hj h0
    omega

/-- Replacing the semaphore table by one whose queue entries are all entries of the
old one, at the same place. -/
theorem TableOk.sub_queues {tcb : Nat → thread_control_block} {tc : Nat}
    {sa sa2 : Nat → Option custom_semaphore} (h : TableOk tcb tc sa)
    (hsub : ∀ s csem2 j, sa2 s = some csem2 → j < csem2.wait_count →
      ∃ csem, sa s = some csem ∧ j < csem.wait_count ∧
        csem.waiting_threads j = csem2.waiting_threads j) :
    TableOk tcb tc sa2 := by
  refine ⟨h.ids, ?_, ?_, ?_⟩
  · intro s csem2 j hs hj h0
    obtain ⟨csem, g1, g2, g3⟩ := hsub s csem2 j hs hj
    rw [← g3] at h0 ⊢
    exact h.queued_lt s csem j g1 g2 h0
  · intro s csem2 j hs hj h0
    obtain ⟨csem, g1, g2, g3⟩ := hsub s csem2 j hs hj
    rw [← g3] at h0 ⊢
    exact h.queued_blocked s csem j g1 g2 h0
  · intro s csem2 j s2 csem3 j2 hs hj hs2 hj2 h0 heq
    obtain ⟨csem, g1, g2, g3⟩ := hsub s csem2 j hs hj
    obtain ⟨csem', g1', g2', g3'⟩ := hsub s2 csem3 j2 hs2 hj2
    rw [← g3] at h0 heq
    rw [← g3'] at heq
    exact h.queued_unique s csem j s2 csem' j2 g1 g2 g1' g2' h0 heq

/-- Changing a TCB without touching its `id` and `state`. -/
theorem TableOk.update_same_state {tcb : Nat → thread_control_block} {tc : Nat}
    {sa : Nat → Option custom_semaphore} (h : TableOk tcb tc sa) (a : Nat)
    (t : thread_control_block) (hid : t.id = (tcb a).id) (hst : t.state = (tcb a).state) :
    TableOk (Function.update tcb a t) tc sa := by
  refine ⟨?_, h.queued_lt, ?_, h.queued_unique⟩
  · intro i hi
    by_cases hia : i = a
    · subst hia; simp [hid, h.ids i hi]
    · simp [Function.update_noteq hia, h.ids i hi]
  · intro s csem j hs hj h0
    by_cases hia : csem.waiting_threads j = a
    · rw [hia, Function.update_same, hst, ← hia]
      exact h.queued_blocked s csem j hs hj h0
    · rw [Function.update_noteq hia]
      exact h.queued_blocked s csem j hs hj h0

/-- The entries of a semaphore table after an enqueue at slot `i`. -/
theorem enqueue_entry (sa : Nat → Option custom_semaphore) (i : Nat) (csem : custom_semaphore)
    (c : Nat) (hi : sa i = some csem) (s : Nat) (csem2 : custom_semaphore) (j : Nat)
    (hs : Function.update sa i (some { csem with
        waiting_threads := Function.update csem.waiting_threads csem.wait_count c
        wait_count := csem.wait_count + 1 }) s = some csem2)
    (hj : j < csem2.wait_count) :
    (∃ csem0, sa s = some csem0 ∧ j < csem0.wait_count ∧
        csem0.waiting_threads j = csem2.waiting_threads j) ∨
      (s = i ∧ j = csem.wait_count ∧ csem2.waiting_threads j = c) := by
  by_cases hsi : s = i
  · subst hsi
    rw [Function.update_same] at hs
    simp only [Option.some.injEq] at hs
    subst hs
    simp only at hj ⊢
    by_cases hjw : j = csem.wait_count
    · right; subst hjw; simp
    · left
      exact ⟨csem, hi, by omega, by simp [Function.update_noteq hjw]⟩
  · rw [Function.update_noteq hsi] at hs
    left
    exact ⟨csem2, hs, hj, rfl⟩

/-- The enqueue of `sem_wait`: the caller `c`, which is in no queue unless it is
handle 0, is stored at the tail and marked BLOCKED. -/
theorem TableOk.enqueue {tcb : Nat → thread_control_block} {tc : Nat}
    {sa : Nat → Option custom_semaphore} (h : TableOk tcb tc sa) (i : Nat)
    (csem : custom_semaphore) (c : Nat) (hi : sa i = some csem) (hc : c < tc)
    (hq : ∀ s csem0 j, sa s = some csem0 → j < csem0.wait_count →
      csem0.waiting_threads j ≠ 0 → csem0.waiting_threads j ≠ c) :
    TableOk (Function.update tcb c { tcb c with state := BLOCKED }) tc
      (Function.update sa i (some { csem with
        waiting_threads := Function.update csem.waiting_threads csem.wait_count c
        wait_count := csem.wait_count + 1 })) := by
  refine ⟨?_, ?_, ?_, ?_⟩
  · intro a ha
    by_cases hac : a = c
    · subst hac; simp [h.ids a ha]
    · simp [Function.update_noteq hac, h.ids a ha]
  · intro s csem2 j hs hj h0
    rcases enqueue_entry sa i csem c hi s csem2 j hs hj with ⟨csem0, g1, g2, g3⟩ | ⟨-, -, g3⟩
    · rw [← g3] at h0 ⊢
      exact h.queued_lt s csem0 j g1 g2 h0
    · rw [g3]; exact hc
  · intro s csem2 j hs hj h0
    rcases enqueue_entry sa i csem c hi s csem2 j hs hj with ⟨csem0, g1, g2, g3⟩ | ⟨-, -, g3⟩
    · rw [← g3] at h0 ⊢
      rw [Function.update_noteq (hq s csem0 j g1 g2 h0)]
      exact h.queued_blocked s csem0 j g1 g2 h0
    · rw [g3]; simp
  · intro s csem2 j s2 csem3 j2 hs hj hs2 hj2 h0 heq
    rcases enqueue_entry sa i csem c hi s csem2 j hs hj with ⟨csem0, g1, g2, g3⟩ | ⟨g1, g2, g3⟩
    · rcases enqueue_entry sa i csem c hi s2 csem3 j2 hs2 hj2 with
        ⟨csem0', g1', g2', g3'⟩ | ⟨-, -, g3'⟩
      · rw [← g3] at h0 heq
        rw [← g3'] at heq
        exact h.queued_unique s csem0 j s2 csem0' j2 g1 g2 g1' g2' h0 heq
      · exfalso
        rw [← g3] at h0 heq
        rw [g3'] at heq
        exact hq s csem0 j g1 g2 h0 heq
    · rcases enqueue_entry sa i csem c hi s2 csem3 j2 hs2 hj2 with
        ⟨csem0', g1', g2', g3'⟩ | ⟨g1', g2', -⟩
      · exfalso
        rw [g3] at h0
        rw [g3, ← g3'] at heq
        exact hq s2 csem0' j2 g1' g2' (by rw [← heq]; exact h0) heq.symm
      · exact ⟨g1.trans g1'.symm, g2.trans g2'.symm⟩

/-- The dequeue of `sem_post`: the last entry is dropped and its thread marked READY. -/
theorem TableOk.dequeue {tcb : Nat → thread_control_block} {tc : Nat}
    {sa : Nat → Option custom_semaphore} (h : TableOk tcb tc sa) (i : Nat)
    (csem : custom_semaphore) (hi : sa i = some csem) (hw : 0 < csem.wait_count) :
    TableOk
      (Function.update tcb (csem.waiting_threads (csem.wait_count - 1))
        { tcb (csem.waiting_threads (csem.wait_count - 1)) with state := READY }) tc
      (Function.update sa i (some { csem with wait_count := csem.wait_count - 1 })) := by
  have hentry : ∀ s csem2 j,
      Function.update sa i (some { csem with wait_count := csem.wait_count - 1 }) s
        = some csem2 → j < csem2.wait_count →
      ∃ csem0, sa s = some csem0 ∧ j < csem0.wait_count ∧
        csem0.waiting_threads j = csem2.waiting_threads j ∧
        (s = i → csem0 = csem ∧ j < csem.wait_count - 1) := by
    intro s csem2 j hs hj
    by_cases hsi : s = i
    · subst hsi
      rw [Function.update_same] at hs
      simp only [Option.some.injEq] at hs
      subst hs
      simp only at hj
      exact ⟨csem, hi, by omega, rfl, fun _ => ⟨rfl, hj⟩⟩
    · rw [Function.update_noteq hsi] at hs
      exact ⟨csem2, hs, hj, rfl, fun e => absurd e hsi⟩
  have h2 : TableOk tcb tc
      (Function.update sa i (some { csem with wait_count := csem.wait_count - 1 })) :=
    h.sub_queues (fun s csem2 j hs hj => by
      obtain ⟨csem0, g1, g2, g3, -⟩ := hentry s csem2 j hs hj
      exact ⟨csem0, g1, g2, g3⟩)
  refine h2.update_unqueued _ _ rfl ?_
  intro s csem2 j hs hj h0 heq
  obtain ⟨csem0, g1, g2, g3, g4⟩ := hentry s csem2 j hs hj
  rw [← g3] at h0 heq
  have := h.queued_unique s csem0 j i csem (csem.wait_count - 1) g1 g2 hi (by omega) h0 heq
  obtain ⟨e1, e2⟩ := this
  have := (g4 e1).2
  omega

/-- After `schedule` the invariant holds, whatever the state of the caller was. -/
theorem schedule_inv (st st2 : Runtime) (call_site : jmp_buf)
    (ht : TableOk st.tcb st.thread_count st.semaphore_array)
    (hc : st.current_thread < st.thread_count)
    (hs : schedule st call_site = some st2) :
    Inv st2 ∧ (st2.current_thread = 0 ∨ (st.tcb st2.current_thread).state = READY) := by
  obtain ⟨e1, e2, e3, -, -, -, e7⟩ := schedule_effect st st2 call_site hs
  have hel := schedule_loop_eligible _ _ _ _ _ e7
  have hlt := schedule_loop_lt st.tcb st.thread_count (by omega) _ _ _ e7
  refine ⟨⟨?_, ?_, ?_⟩, ?_⟩
  · rw [e1, e2, e3]
    exact ht.update_same_state _ _ rfl rfl
  · rw [e2]; exact hlt
  · rcases hel with h | h
    · right; rw [e1, state_update_context]; exact h
    · left; exact h
  · rcases hel with h | h
    · right; exact h
    · left; exact h

theorem Effect.rfl_of_inv {st : Runtime} (hinv : Inv st) : Effect st st :=
  ⟨hinv.table, rfl, le_refl _, fun _ _ _ _ => rfl⟩

/-- An effect that leaves the tables and thread variables as they are (the signal mask
and the semaphore counter may differ). -/
theorem Effect.of_same {st m : Runtime} (hinv : Inv st) (h1 : m.tcb = st.tcb)
    (h2 : m.thread_count = st.thread_count) (h3 : m.semaphore_array = st.semaphore_array)
    (h4 : m.current_thread = st.current_thread) : Effect st m :=
  ⟨by rw [h1, h2, h3]; exact hinv.table, h4, by rw [h2], fun _ _ _ _ => by rw [h1]⟩

/-- A jump from a state with a well-formed effect is a defined switch. -/
theorem yields_of_jump {st m : Runtime} (hinv : Inv st) (he : Effect st m)
    (call_site : jmp_buf) : Yields (jump (schedule m call_site)) m := by
  have hc : m.current_thread < m.thread_count := by
    rw [he.current]
    exact lt_of_lt_of_le hinv.current_lt he.count
  obtain ⟨st2, hs⟩ := schedule_some m call_site hc
  exact ⟨call_site, st2, hs, by rw [hs]; rfl⟩

/-- The effect of changing the current thread's TCB, keeping its `id`. -/
theorem Effect.update_current {st : Runtime} (hinv : Inv st) (t : thread_control_block)
    (hid : t.id = (st.tcb st.current_thread).id) (b : Bool) :
    Effect st { st with
      tcb := Function.update st.tcb st.current_thread t
      alarm_blocked := b } := by
  refine ⟨?_, rfl, le_refl _, ?_⟩
  · exact hinv.table.update_unqueued _ _ hid
      (fun s csem j hs hj h0 => hinv.not_current s csem j hs hj h0)
  · intro h h0 hlt hex
    have hne : h ≠ st.current_thread := by
      intro heq
      rcases hinv.current_ready with hc | hc
      · exact h0 (heq.trans hc)
      · rw [heq, hc] at hex
        simp [READY, EXITED] at hex
    simp only
    rw [Function.update_noteq hne]

/-- The loop test of `pthread_join`, whether entered from the call or on resumption. -/
theorem pthread_join_loop_effect (st : Runtime) (hinv : Inv st) (t : Nat) (vp : Bool) :
    ∃ m : Runtime, Effect st m ∧
      (Stays (pthread_join_loop (lock st) t vp) m ∨
        Yields (pthread_join_loop (lock st) t vp) m) := by
  by_cases hex : ((lock st).tcb t).state ≠ EXITED
  · have he : Effect st (unlock { lock st with
        tcb := Function.update (lock st).tcb (lock st).current_thread
          { (lock st).tcb (lock st).current_thread with state := BLOCKED } }) :=
      Effect.update_current hinv { st.tcb st.current_thread with state := BLOCKED } rfl false
    refine ⟨_, he, Or.inr ?_⟩
    have := yields_of_jump hinv he (jmp_buf.at_join t vp)
    simp only [pthread_join_loop]
    rw [if_pos hex]
    exact this
  · refine ⟨unlock (lock st), Effect.of_same hinv rfl rfl rfl rfl, Or.inl ?_⟩
    simp only [pthread_join_loop]
    rw [if_neg hex]
    exact ⟨rfl, rfl, hinv.current_ready⟩

theorem pthread_join_effect (st : Runtime) (hinv : Inv st) (thread : Nat) (vp : Bool) :
    ∃ m : Runtime, Effect st m ∧
      (Stays (pthread_join st thread vp) m ∨ Yields (pthread_join st thread vp) m) := by
  simp only [pthread_join]
  cases find_target (lock st).tcb thread (lock st).thread_count 0 with
  | none =>
    exact ⟨unlock (lock st), Effect.of_same hinv rfl rfl rfl rfl,
      Or.inl ⟨rfl, rfl, hinv.current_ready⟩⟩
  | some t => exact pthread_join_loop_effect st hinv t vp

theorem pthread_exit_effect (st : Runtime) (hinv : Inv st) (v : Nat) :
    ∃ m : Runtime, Effect st m ∧ Yields (pthread_exit st v) m := by
  have he : Effect st (pthread_exit_guarded st v) := by
    rw [pthread_exit_guarded_eq st v hinv.table.ids]
    exact Effect.update_current hinv
      { st.tcb st.current_thread with exit_value := v, state := EXITED } rfl false
  exact ⟨_, he, yields_of_jump hinv he jmp_buf.at_exit⟩

/-- The effect of changing slots at or above `thread_count` only. -/
theorem Effect.of_agree_below {st : Runtime} (hinv : Inv st) (tcb2 : Nat → thread_control_block)
    (hag : ∀ i, i < st.thread_count → tcb2 i = st.tcb i) :
    Effect st { st with tcb := tcb2 } :=
  ⟨hinv.table.agree_below hag, rfl, le_refl _, fun h _ hlt _ => by
    simp only; rw [hag h hlt]⟩

theorem pthread_create_alloc_agree (st : Runtime) (mr i : Nat) (hi : i ≠ st.thread_count) :
    (pthread_create_alloc st mr).tcb i = st.tcb i := by
  simp [pthread_create_alloc, Function.update_noteq hi]

theorem pthread_create_setup_agree (st : Runtime) (f a i : Nat) (hi : i ≠ st.thread_count) :
    (pthread_create_setup st f a).tcb i = st.tcb i := by
  simp [pthread_create_setup, Function.update_noteq hi]

theorem pthread_create_effect (st : Runtime) (hinv : Inv st) (f a mr : Nat) :
    ∃ m : Runtime, Effect st m ∧
      (Stays (pthread_create st f a mr) m ∨ Yields (pthread_create st f a mr) m) := by
  have hag : ∀ i, i < st.thread_count → (pthread_create_alloc st mr).tcb i = st.tcb i :=
    fun i hi => pthread_create_alloc_agree st mr i (by omega)
  have he1 : Effect st (pthread_create_alloc st mr) := Effect.of_agree_below hinv _ hag
  simp only [pthread_create]
  by_cases hfull : st.thread_count ≥ MAX_THREADS
  · rw [if_pos hfull]
    exact ⟨st, Effect.rfl_of_inv hinv, Or.inl ⟨rfl, rfl, hinv.current_ready⟩⟩
  · rw [if_neg hfull]
    by_cases hm : mr = 0
    · rw [if_pos hm]
      refine ⟨_, he1, Or.inl ⟨rfl, rfl, ?_⟩⟩
      rcases hinv.current_ready with h | h
      · left; exact h
      · right
        have : (pthread_create_alloc st mr).current_thread = st.current_thread := rfl
        rw [this, hag _ hinv.current_lt]
        exact h
    · rw [if_neg hm]
      have he2 : Effect st (pthread_create_setup (pthread_create_alloc st mr) f a) := by
        refine ⟨?_, rfl, Nat.le_succ _, ?_⟩
        · have hg : TableOk (pthread_create_setup (pthread_create_alloc st mr) f a).tcb
              st.thread_count st.semaphore_array := by
            apply hinv.table.agree_below
            intro i hi
            rw [pthread_create_setup_agree _ f a i (by
              show i ≠ st.thread_count
              omega)]
            exact hag i hi
          exact hg.grow (by simp [pthread_create_setup, pthread_create_alloc])
        · intro h _ hlt _
          rw [pthread_create_setup_agree _ f a h (by
            show h ≠ st.thread_count
            omega), hag h hlt]
      exact ⟨_, he2, Or.inr (yields_of_jump hinv he2 jmp_buf.at_create)⟩

/-- The effect of replacing the semaphore table by one with no new queue entries. -/
theorem Effect.of_sub_queues {st : Runtime} (hinv : Inv st) (sa2 : Nat → Option custom_semaphore)
    (n : Nat) (b : Bool)
    (hsub : ∀ s csem2 j, sa2 s = some csem2 → j < csem2.wait_count →
      ∃ csem, st.semaphore_array s = some csem ∧ j < csem.wait_count ∧
        csem.waiting_threads j = csem2.waiting_threads j) :
    Effect st { st with semaphore_array := sa2, next_semaphore_id := n, alarm_blocked := b } :=
  ⟨hinv.table.sub_queues hsub, rfl, le_refl _, fun _ _ _ _ => rfl⟩

/-- Replacing one slot by a semaphore with the same queue, or a shorter one. -/
theorem sub_of_update (sa : Nat → Option custom_semaphore) (i : Nat)
    (csem : custom_semaphore) (hi : sa i = some csem) (new : Option custom_semaphore)
    (hnew : ∀ c, new = some c → c.waiting_threads = csem.waiting_threads ∧
      c.wait_count ≤ csem.wait_count) :
    ∀ s csem2 j, Function.update sa i new s = some csem2 → j < csem2.wait_count →
      ∃ csem0, sa s = some csem0 ∧ j < csem0.wait_count ∧
        csem0.waiting_threads j = csem2.waiting_threads j := by
  intro s csem2 j hs hj
  by_cases hsi : s = i
  · subst hsi
    rw [Function.update_same] at hs
    obtain ⟨h1, h2⟩ := hnew csem2 hs
    exact ⟨csem, hi, by omega, by rw [h1]⟩
  · rw [Function.update_noteq hsi] at hs
    exact ⟨csem2, hs, hj, rfl⟩

theorem sem_init_effect (st : Runtime) (hinv : Inv st) (value : Nat) (ok : Bool) :
    ∃ m : Runtime, Effect st m ∧ Stays (sem_init st value ok) m := by
  simp only [sem_init]
  by_cases hfull : st.next_semaphore_id ≥ MAX_SEMAPHORES
  · rw [if_pos hfull]
    exact ⟨st, Effect.rfl_of_inv hinv, rfl, rfl, hinv.current_ready⟩
  · rw [if_neg hfull]
    cases ok with
    | false => exact ⟨st, Effect.rfl_of_inv hinv, rfl, rfl, hinv.current_ready⟩
    | true =>
      refine ⟨_, Effect.of_sub_queues hinv
        (Function.update st.semaphore_array st.next_semaphore_id
          (some { value := to_int value, initialized := 1, waiting_threads := fun _ => 0,
                  wait_count := 0 }))
        (st.next_semaphore_id + 1) st.alarm_blocked ?_, rfl, rfl, hinv.current_ready⟩
      intro s csem2 j hs hj
      by_cases hsi : s = st.next_semaphore_id
      · subst hsi
        rw [Function.update_same] at hs
        simp only [Option.some.injEq] at hs
        subst hs
        simp at hj
      · rw [Function.update_noteq hsi] at hs
        exact ⟨csem2, hs, hj, rfl⟩

theorem sem_destroy_effect (st : Runtime) (hinv : Inv st) (sem : Nat) :
    ∃ m : Runtime, Effect st m ∧ Stays (sem_destroy st sem) m := by
  simp only [sem_destroy]
  cases hl : sem_lookup st sem with
  | none => exact ⟨st, Effect.rfl_of_inv hinv, rfl, rfl, hinv.current_ready⟩
  | some p =>
    obtain ⟨i, csem⟩ := p
    obtain ⟨hi, -⟩ := sem_lookup_spec st sem i csem hl
    exact ⟨_, Effect.of_sub_queues hinv (Function.update st.semaphore_array i none)
      st.next_semaphore_id st.alarm_blocked
      (sub_of_update _ i csem hi none (fun c hc => by simp at hc)),
      rfl, rfl, hinv.current_ready⟩

theorem sem_wait_effect (st : Runtime) (hinv : Inv st) (sem : Nat) :
    sem_wait st sem = Outcome.undefined ∨
    ∃ m : Runtime, Effect st m ∧ (Stays (sem_wait st sem) m ∨ Yields (sem_wait st sem) m) := by
  simp only [sem_wait]
  cases hl : sem_lookup st sem with
  | none => exact Or.inr ⟨st, Effect.rfl_of_inv hinv, Or.inl ⟨rfl, rfl, hinv.current_ready⟩⟩
  | some p =>
    obtain ⟨i, csem⟩ := p
    obtain ⟨hi, -⟩ := sem_lookup_spec st sem i csem hl
    simp only
    by_cases hv : csem.value > 0
    · rw [if_pos hv]
      exact Or.inr ⟨_, Effect.of_sub_queues hinv
        (Function.update st.semaphore_array i (some { csem with value := csem.value - 1 }))
        st.next_semaphore_id false
        (sub_of_update _ i csem hi _ (fun c hc => by
          simp only [Option.some.injEq] at hc; subst hc; exact ⟨rfl, le_refl _⟩)),
        Or.inl ⟨rfl, rfl, hinv.current_ready⟩⟩
    · rw [if_neg hv]
      by_cases hfull : csem.wait_count ≥ MAX_THREADS
      · rw [if_pos hfull]; exact Or.inl rfl
      · rw [if_neg hfull]
        have he : Effect st (sem_wait_enqueue st i csem) :=
          ⟨hinv.table.enqueue i csem st.current_thread hi hinv.current_lt
              (fun s c0 j hs hj h0 => hinv.not_current s c0 j hs hj h0),
            rfl, le_refl _, fun h h0 _ hex => by
              have hne : h ≠ st.current_thread := by
                intro heq
                rcases hinv.current_ready with hc | hc
                · exact h0 (heq.trans hc)
                · rw [heq, hc] at hex
                  simp [READY, EXITED] at hex
              simp only [sem_wait_enqueue, lock]
              rw [Function.update_noteq hne]⟩
        exact Or.inr ⟨_, he, Or.inr (yields_of_jump hinv he jmp_buf.at_sem_wait)⟩

theorem sem_post_effect (st : Runtime) (hinv : Inv st) (sem : Nat) :
    sem_post st sem = Outcome.undefined ∨
    ∃ m : Runtime, Effect st m ∧ Stays (sem_post st sem) m := by
  simp only [sem_post]
  cases hl : sem_lookup st sem with
  | none => exact Or.inr ⟨st, Effect.rfl_of_inv hinv, rfl, rfl, hinv.current_ready⟩
  | some p =>
    obtain ⟨i, csem⟩ := p
    obtain ⟨hi, -⟩ := sem_lookup_spec st sem i csem hl
    simp only
    by_cases hw : csem.wait_count > 0
    · rw [if_pos hw]
      refine Or.inr ⟨unlock { lock st with
          semaphore_array := Function.update (lock st).semaphore_array i
            (some { csem with wait_count := csem.wait_count - 1 })
          tcb := Function.update (lock st).tcb (csem.waiting_threads (csem.wait_count - 1))
            { (lock st).tcb (csem.waiting_threads (csem.wait_count - 1)) with
              state := READY } },
        ⟨hinv.table.dequeue i csem hi hw, rfl, le_refl _, ?_⟩, rfl, rfl, ?_⟩
      · intro h h0 hlt hex
        have hne : h ≠ csem.waiting_threads (csem.wait_count - 1) := by
          intro heq
          have hb := hinv.table.queued_blocked i csem (csem.wait_count - 1) hi (by omega)
            (by rw [← heq]; exact h0)
          rw [← heq, hex] at hb
          simp [EXITED, BLOCKED] at hb
        simp only [unlock, lock]
        rw [Function.update_noteq hne]
      · by_cases hc : st.current_thread = csem.waiting_threads (csem.wait_count - 1)
        · right
          simp only [unlock, lock]
          rw [hc]
          simp
        · rcases hinv.current_ready with h | h
          · left; exact h
          · right
            simp only [unlock, lock]
            rw [Function.update_noteq hc]
            exact h
    · rw [if_neg hw]
      by_cases hmax : csem.value ≥ INT_MAX
      · rw [if_pos hmax]
        exact Or.inl rfl
      · rw [if_neg hmax]
        exact Or.inr ⟨_, Effect.of_sub_queues hinv
          (Function.update st.semaphore_array i (some { csem with value := csem.value + 1 }))
          st.next_semaphore_id false
          (sub_of_update _ i csem hi _ (fun c hc => by
            simp only [Option.some.injEq] at hc; subst hc; exact ⟨rfl, le_refl _⟩)),
          rfl, rfl, hinv.current_ready⟩

theorem alarm_effect (st : Runtime) (hinv : Inv st) :
    ∃ m : Runtime, Effect st m ∧ (Stays (alarm st) m ∨ Yields (alarm st) m) := by
  simp only [alarm]
  by_cases hb : st.alarm_blocked = true
  · rw [if_pos hb]
    exact ⟨st, Effect.rfl_of_inv hinv, Or.inl ⟨rfl, rfl, hinv.current_ready⟩⟩
  · rw [if_neg hb]
    have he : Effect st (lock st) := Effect.of_same hinv rfl rfl rfl rfl
    exact ⟨_, he, Or.inr (yields_of_jump hinv he jmp_buf.at_signal)⟩

theorem resume_effect (st : Runtime) (hinv : Inv st) :
    resume st = Outcome.undefined ∨
    ∃ m : Runtime, Effect st m ∧ (Stays (resume st) m ∨ Yields (resume st) m) := by
  simp only [resume]
  cases (st.tcb st.current_thread).context with
  | zeroed => exact Or.inl rfl
  | start_thunk =>
    exact Or.inr ⟨st, Effect.rfl_of_inv hinv, Or.inl ⟨rfl, rfl, hinv.current_ready⟩⟩
  | at_create =>
    exact Or.inr ⟨st, Effect.rfl_of_inv hinv, Or.inl ⟨rfl, rfl, hinv.current_ready⟩⟩
  | at_exit =>
    exact Or.inr ⟨st, Effect.rfl_of_inv hinv, Or.inl ⟨rfl, rfl, hinv.current_ready⟩⟩
  | at_join t vp => exact Or.inr (pthread_join_loop_effect st hinv t vp)
  | at_sem_wait =>
    exact Or.inr ⟨unlock st, Effect.of_same hinv rfl rfl rfl rfl,
      Or.inl ⟨rfl, rfl, hinv.current_ready⟩⟩
  | at_signal =>
    exact Or.inr ⟨unlock st, Effect.of_same hinv rfl rfl rfl rfl,
      Or.inl ⟨rfl, rfl, hinv.current_ready⟩⟩

/-- Every step from a state with the invariant is undefined, or leaves a well-formed
state without calling `schedule`, or calls `schedule` in a well-formed state. -/
theorem exec_effect (st : Runtime) (hinv : Inv st) (c : Call) :
    exec st c = Outcome.undefined ∨
    ∃ m : Runtime, Effect st m ∧ (Stays (exec st c) m ∨ Yields (exec st c) m) := by
  cases c with
  | create f a mr => exact Or.inr (pthread_create_effect st hinv f a mr)
  | exit v =>
    obtain ⟨m, h1, h2⟩ := pthread_exit_effect st hinv v
    exact Or.inr ⟨m, h1, Or.inr h2⟩
  | join t vp => exact Or.inr (pthread_join_effect st hinv t vp)
  | sem_init v ok =>
    obtain ⟨m, h1, h2⟩ := sem_init_effect st hinv v ok
    exact Or.inr ⟨m, h1, Or.inl h2⟩
  | sem_wait sem => exact sem_wait_effect st hinv sem
  | sem_post sem =>
    rcases sem_post_effect st hinv sem with hu | ⟨m, h1, h2⟩
    · exact Or.inl hu
    · exact Or.inr ⟨m, h1, Or.inl h2⟩
  | sem_destroy sem =>
    obtain ⟨m, h1, h2⟩ := sem_destroy_effect st hinv sem
    exact Or.inr ⟨m, h1, Or.inl h2⟩
  | alarm => exact Or.inr (alarm_effect st hinv)
  | resume => exact resume_effect st hinv

/-- One step keeps the invariant, does not select a non-zero thread that is EXITED,
and leaves the TCB of such a thread as it is. -/
theorem exec_keeps (st : Runtime) (hinv : Inv st) (c : Call) :
    (∀ st2, (exec st c).runtime = some st2 → Inv st2 ∧ st.thread_count ≤ st2.thread_count) ∧
    (∀ h, h ≠ 0 → h < st.thread_count → (st.tcb h).state = EXITED →
      (exec st c).selected ≠ some h ∧
      ∀ st2, (exec st c).runtime = some st2 → st2.tcb h = st.tcb h) := by
  rcases exec_effect st hinv c with hu | ⟨m, he, hs | hy⟩
  · rw [hu]
    exact ⟨fun st2 h => by simp [Outcome.runtime] at h,
      fun h _ _ _ => ⟨by simp [Outcome.selected], fun st2 h => by simp [Outcome.runtime] at h⟩⟩
  · obtain ⟨h1, h2, h3⟩ := hs
    have hm : Inv m := ⟨he.table, by
      rw [he.current]; exact lt_of_lt_of_le hinv.current_lt he.count, h3⟩
    refine ⟨fun st2 h => ?_, fun h h0 hlt hex => ⟨by rw [h2]; simp, fun st2 hr => ?_⟩⟩
    · rw [h1] at h
      simp only [Option.some.injEq] at h
      subst h
      exact ⟨hm, he.count⟩
    · rw [h1] at hr
      simp only [Option.some.injEq] at hr
      subst hr
      exact he.exited h h0 hlt hex
  · obtain ⟨site, st2, hs, ho⟩ := hy
    have hc : m.current_thread < m.thread_count := by
      rw [he.current]; exact lt_of_lt_of_le hinv.current_lt he.count
    obtain ⟨hinv2, hsel⟩ := schedule_inv m st2 site he.table hc hs
    obtain ⟨e1, e2, -⟩ := schedule_effect m st2 site hs
    rw [ho]
    refine ⟨fun st3 h => ?_, fun h h0 hlt hex => ⟨?_, fun st3 hr => ?_⟩⟩
    · simp only [Outcome.runtime, Option.some.injEq] at h
      subst h
      exact ⟨hinv2, by rw [e2]; exact he.count⟩
    · simp only [Outcome.selected, ne_eq, Option.some.injEq]
      intro heq
      have hm := he.exited h h0 hlt hex
      rcases hsel with g | g
      · exact h0 (heq.symm.trans g)
      · rw [heq, hm, hex] at g
        simp [READY, EXITED] at g
    · simp only [Outcome.runtime, Option.some.injEq] at hr
      subst hr
      have hne : h ≠ m.current_thread := by
        rw [he.current]
        intro heq
        rcases hinv.current_ready with hc2 | hc2
        · exact h0 (heq.trans hc2)
        · rw [heq, hc2] at hex
          simp [READY, EXITED] at hex
      rw [e1, Function.update_noteq hne]
      exact he.exited h h0 hlt hex

/-- Every state reached by a run from a state with the invariant has the invariant. -/
theorem run_inv : ∀ (cs : List Call) (st st2 : Runtime), Inv st → run st cs = some st2 →
    Inv st2 := by
  intro cs
  induction cs with
  | nil =>
    intro st st2 hinv h
    simp only [run, Option.some.injEq] at h
    subst h; exact hinv
  | cons c cs ih =>
    intro st st2 hinv h
    simp only [run] at h
    cases hr : (exec st c).runtime with
    | none => rw [hr] at h; simp at h
    | some st1 =>
      rw [hr] at h
      exact ih st1 st2 ((exec_keeps st hinv c).1 st1 hr).1 h

/-- The call `pthread_exit` in a state with the invariant: `schedule` jumps to a thread
that is handle 0 or READY, and the caller is EXITED in the state it leaves. -/
theorem pthread_exit_switch (st : Runtime) (hinv : Inv st) (v : Nat) :
    ∃ st2 : Runtime, pthread_exit st v = Outcome.switched st2 ∧ Inv st2 ∧
      st2.thread_count = st.thread_count ∧
      (st2.tcb st.current_thread).state = EXITED ∧
      (st2.current_thread = 0 ∨ st2.current_thread ≠ st.current_thread) := by
  have he : Effect st (pthread_exit_guarded st v) := by
    rw [pthread_exit_guarded_eq st v hinv.table.ids]
    exact Effect.update_current hinv
      { st.tcb st.current_thread with exit_value := v, state := EXITED } rfl false
  have hc : (pthread_exit_guarded st v).current_thread
      < (pthread_exit_guarded st v).thread_count := hinv.current_lt
  obtain ⟨st2, hs⟩ := schedule_some _ jmp_buf.at_exit hc
  obtain ⟨hinv2, hsel⟩ := schedule_inv _ st2 _ he.table hc hs
  obtain ⟨e1, e2, -⟩ := schedule_effect _ st2 _ hs
  refine ⟨st2, ?_, hinv2, e2, ?_, ?_⟩
  · simp only [pthread_exit, hs, jump]
  · rw [e1, state_update_context, pthread_exit_guarded_self]
  · rcases hsel with g | g
    · left; exact g
    · right
      intro heq
      rw [heq, pthread_exit_guarded_self] at g
      simp [READY, EXITED] at g

/-- Threads are never removed from the table. -/
theorem run_thread_count_le : ∀ (cs : List Call) (st st2 : Runtime), Inv st →
    run st cs = some st2 → st.thread_count ≤ st2.thread_count := by
  intro cs
  induction cs with
  | nil =>
    intro st st2 _ hr
    simp only [run, Option.some.injEq] at hr
    subst hr; exact le_refl _
  | cons c cs ih =>
    intro st st2 hinv hr
    simp only [run] at hr
    cases hrt : (exec st c).runtime with
    | none => rw [hrt] at hr; simp at hr
    | some st1 =>
      rw [hrt] at hr
      obtain ⟨g1, g2⟩ := (exec_keeps st hinv c).1 st1 hrt
      exact le_trans g2 (ih st1 st2 g1 hr)

/-- A run keeps the invariant, keeps every thread, and leaves the TCB of a non-zero
thread that is EXITED as it is. -/
theorem run_keeps_exited (h : Nat) (h0 : h ≠ 0) :
    ∀ (cs : List Call) (st st2 : Runtime), Inv st → h < st.thread_count →
      (st.tcb h).state = EXITED → run st cs = some st2 →
      Inv st2 ∧ h < st2.thread_count ∧ st2.tcb h = st.tcb h := by
  intro cs
  induction cs with
  | nil =>
    intro st st2 hinv hlt _ hr
    simp only [run, Option.some.injEq] at hr
    subst hr
    exact ⟨hinv, hlt, rfl⟩
  | cons c cs ih =>
    intro st st2 hinv hlt hex hr
    simp only [run] at hr
    cases hrt : (exec st c).runtime with
    | none => rw [hrt] at hr; simp at hr
    | some st1 =>
      rw [hrt] at hr
      obtain ⟨k1, k2⟩ := exec_keeps st hinv c
      obtain ⟨g1, g2⟩ := k1 st1 hrt
      have g3 := (k2 h h0 hlt hex).2 st1 hrt
      obtain ⟨r1, r2, r3⟩ := ih st1 st2 g1 (lt_of_lt_of_le hlt g2) (by rw [g3]; exact hex) hr
      exact ⟨r1, r2, r3.trans g3⟩

/-- Exit, then join, where it works. In every run from the initial state, once the
running thread `h` has called `pthread_exit(v)` (directly or through
`pthread_exit_wrapper`), a `pthread_join(h, &out)` in any later state in which
the TCB of `h` still records the exit returns 0 with `out = v` as a plain return
that changes no TCB; and for `h ≠ 0` the TCB of `h` never changes again, so
every later join does so. -/
theorem pthread_join_after_exit (cs0 : List Call) (st0 : Runtime) (v : Nat)
    (hreach : run init cs0 = some st0) :
    ∃ st1 : Runtime, pthread_exit_wrapper st0 v = Outcome.switched st1 ∧
      (st1.tcb st0.current_thread).state = EXITED ∧
      (st1.tcb st0.current_thread).exit_value = v ∧
      (∀ (cs : List Call) (st : Runtime), run st1 cs = some st →
        (st.tcb st0.current_thread).state = EXITED →
        (st.tcb st0.current_thread).exit_value = v →
        pthread_join st st0.current_thread true
          = Outcome.returned 0 (some v) { st with alarm_blocked := false }) ∧
      (st0.current_thread ≠ 0 →
        ∀ (cs : List Call) (st : Runtime), run st1 cs = some st →
          pthread_join st st0.current_thread true
            = Outcome.returned 0 (some v) { st with alarm_blocked := false }) := by
  have hinv : Inv st0 := run_inv cs0 init st0 init_inv hreach
  obtain ⟨st1, h1, h2, h3, h4, -⟩ := pthread_exit_switch st0 hinv v
  have hv : (st1.tcb st0.current_thread).exit_value = v := by
    simp only [pthread_exit] at h1
    cases hs : schedule (pthread_exit_guarded st0 v) jmp_buf.at_exit with
    | none => rw [hs] at h1; simp [jump] at h1
    | some s =>
      rw [hs] at h1
      simp only [jump, Outcome.switched.injEq] at h1
      subst h1
      obtain ⟨ht, -⟩ := schedule_effect _ _ _ hs
      have hcur : (pthread_exit_guarded st0 v).current_thread = st0.current_thread := rfl
      rw [ht, hcur]
      simp only [Function.update_same]
      rw [pthread_exit_guarded_self]
  have hlt1 : st0.current_thread < st1.thread_count := by rw [h3]; exact hinv.current_lt
  refine ⟨st1, h1, h4, hv, ?_, ?_⟩
  · intro cs st hr hst hval
    have hinv2 : Inv st := run_inv cs st1 st h2 hr
    have hlt : st0.current_thread < st.thread_count :=
      lt_of_lt_of_le hlt1 (run_thread_count_le cs st1 st h2 hr)
    exact pthread_join_of_exited st _ v hlt hinv2.table.ids hst hval
  · intro hnz cs st hr
    obtain ⟨r1, r2, r3⟩ := run_keeps_exited _ hnz cs st1 st h2 hlt1 h4 hr
    exact pthread_join_of_exited st _ v r2 r1.table.ids (by rw [r3]; exact h4)
      (by rw [r3]; exact hv)

set_option maxHeartbeats 4000000 in
/-- C4 (defect in the code). Thread 0 waits on a semaphore with count 0 while thread 1
is READY; at the next timer signal `schedule` selects handle 0 although it is
BLOCKED, `sem_wait` returns, and thread 0 calls `pthread_exit(7)` while its
handle is still in the wait queue. Thread 1 then calls `sem_post`, which marks
the dequeued handle 0 READY. A later `pthread_join(0, &out)` by thread 1 finds
the target not EXITED: it does not return, it marks the caller BLOCKED and
calls `schedule`. -/
theorem pthread_join_blocks_after_exit :
    ∃ st st2 : Runtime, run init bootstrap_exits = some st ∧
      st.current_thread = 1 ∧ st.thread_count = 2 ∧
      (st.tcb 0).exit_value = 7 ∧ (st.tcb 0).state = READY ∧
      pthread_join st 0 true = Outcome.switched st2 ∧
      (pthread_join st 0 true).ret = none ∧
      (st2.tcb 1).state = BLOCKED ∧ (st2.tcb 1).context = jmp_buf.at_join 0 true :=
  ⟨_, _, rfl, rfl, rfl, rfl, rfl, rfl, rfl, rfl, rfl⟩

/-! ## The semaphore table along a run -/

/-- A defined jump is a call of `schedule` that selected a thread. -/
theorem jump_runtime (m st2 : Runtime) (site : jmp_buf)
    (h : (jump (schedule m site)).runtime = some st2) : schedule m site = some st2 := by
  cases hs : schedule m site with
  | none => rw [hs] at h; simp [jump, Outcome.runtime] at h
  | some x => rw [hs] at h; simpa [jump, Outcome.runtime] using h

/-- A jump leaves the semaphore table, the semaphore counter and the number of
threads as `schedule` found them. -/
theorem jump_frame (m st2 : Runtime) (site : jmp_buf)
    (h : (jump (schedule m site)).runtime = some st2) :
    st2.semaphore_array = m.semaphore_array ∧
      st2.next_semaphore_id = m.next_semaphore_id ∧ st2.thread_count = m.thread_count := by
  obtain ⟨-, e2, e3, e4, -⟩ := schedule_effect m st2 site (jump_runtime m st2 site h)
  exact ⟨e3, e4, e2⟩

theorem pthread_join_loop_frame (st st2 : Runtime) (t : Nat) (vp : Bool)
    (h : (pthread_join_loop st t vp).runtime = some st2) :
    st2.semaphore_array = st.semaphore_array ∧
      st2.next_semaphore_id = st.next_semaphore_id ∧ st2.thread_count = st.thread_count := by
  simp only [pthread_join_loop] at h
  split at h
  · have g := jump_frame _ st2 _ h
    exact g
  · simp only [Outcome.runtime, Option.some.injEq] at h
    subst h
    exact ⟨rfl, rfl, rfl⟩

theorem pthread_join_frame (st st2 : Runtime) (thread : Nat) (vp : Bool)
    (h : (pthread_join st thread vp).runtime = some st2) :
    st2.semaphore_array = st.semaphore_array ∧
      st2.next_semaphore_id = st.next_semaphore_id ∧ st2.thread_count = st.thread_count := by
  simp only [pthread_join] at h
  split at h
  · simp only [Outcome.runtime, Option.some.injEq] at h
    subst h
    exact ⟨rfl, rfl, rfl⟩
  · exact pthread_join_loop_frame (lock st) st2 _ vp h

theorem pthread_exit_frame (st st2 : Runtime) (v : Nat)
    (h : (pthread_exit st v).runtime = some st2) :
    st2.semaphore_array = st.semaphore_array ∧
      st2.next_semaphore_id = st.next_semaphore_id ∧ st2.thread_count = st.thread_count :=
  jump_frame (pthread_exit_guarded st v) st2 _ h

theorem alarm_frame (st st2 : Runtime) (h : (alarm st).runtime = some st2) :
    st2.semaphore_array = st.semaphore_array ∧
      st2.next_semaphore_id = st.next_semaphore_id ∧ st2.thread_count = st.thread_count := by
  simp only [alarm] at h
  split at h
  · simp only [Outcome.runtime, Option.some.injEq] at h
    subst h
    exact ⟨rfl, rfl, rfl⟩
  · exact jump_frame (lock st) st2 _ h

theorem resume_frame (st st2 : Runtime) (h : (resume st).runtime = some st2) :
    st2.semaphore_array = st.semaphore_array ∧
      st2.next_semaphore_id = st.next_semaphore_id ∧ st2.thread_count = st.thread_count := by
  simp only [resume] at h
  split at h
  · simp [Outcome.runtime] at h
  all_goals first
    | exact pthread_join_loop_frame (lock st) st2 _ _ h
    | (simp only [Outcome.runtime, Option.some.injEq] at h
       subst h
       exact ⟨rfl, rfl, rfl⟩)

/-- The function `pthread_create` leaves the semaphores alone; the number of threads grows
by one exactly when the call does not return -1. -/
theorem pthread_create_frame (st st2 : Runtime) (f a mr : Nat)
    (h : (pthread_create st f a mr).runtime = some st2) :
    st2.semaphore_array = st.semaphore_array ∧
      st2.next_semaphore_id = st.next_semaphore_id ∧
      st2.thread_count = st.thread_count +
        (if (pthread_create st f a mr).ret = some (-1) then 0 else 1) := by
  by_cases h1 : st.thread_count ≥ MAX_THREADS
  · simp only [pthread_create, if_pos h1, Outcome.runtime, Option.some.injEq] at h
    subst h
    simp [pthread_create, if_pos h1, Outcome.ret]
  · by_cases h2 : mr = 0
    · simp only [pthread_create, if_neg h1, if_pos h2, Outcome.runtime, Option.some.injEq] at h
      subst h
      simp [pthread_create, if_neg h1, if_pos h2, Outcome.ret, pthread_create_alloc]
    · simp only [pthread_create, if_neg h1, if_neg h2] at h ⊢
      obtain ⟨e1, e2, e3⟩ := jump_frame _ st2 _ h
      have hs := jump_runtime _ st2 _ h
      rw [hs]
      refine ⟨e1, e2, ?_⟩
      rw [e3]
      simp [jump, Outcome.ret, pthread_create_setup, pthread_create_alloc]

/-- An entry of the table that is null is not the one a lookup found. -/
theorem update_found_none (sa : Nat → Option custom_semaphore) (i s : Nat)
    (csem : custom_semaphore) (x : Option custom_semaphore) (hi : sa i = some csem)
    (hs : sa s = none) : Function.update sa i x s = none := by
  have hne : s ≠ i := by
    intro heq
    rw [heq, hi] at hs
    simp at hs
  rw [Function.update_noteq hne]
  exact hs

theorem sem_wait_frame (st st2 : Runtime) (sem : Nat)
    (h : (sem_wait st sem).runtime = some st2) :
    st2.thread_count = st.thread_count ∧ st2.next_semaphore_id = st.next_semaphore_id ∧
      ∀ s, st.semaphore_array s = none → st2.semaphore_array s = none := by
  simp only [sem_wait] at h
  cases hl : sem_lookup st sem with
  | none =>
    rw [hl] at h
    simp only [Outcome.runtime, Option.some.injEq] at h
    subst h
    exact ⟨rfl, rfl, fun s hs => hs⟩
  | some p =>
    obtain ⟨i, csem⟩ := p
    obtain ⟨hi, -⟩ := sem_lookup_spec st sem i csem hl
    rw [hl] at h
    simp only at h
    split at h
    · simp only [Outcome.runtime, Option.some.injEq] at h
      subst h
      exact ⟨rfl, rfl, fun s hs => update_found_none _ i s csem _ hi hs⟩
    · split at h
      · simp [Outcome.runtime] at h
      · obtain ⟨e1, e2, e3⟩ := jump_frame _ st2 _ h
        refine ⟨e3, e2, fun s hs => ?_⟩
        rw [e1]
        exact update_found_none _ i s csem _ hi hs

theorem sem_post_frame (st st2 : Runtime) (sem : Nat)
    (h : (sem_post st sem).runtime = some st2) :
    st2.thread_count = st.thread_count ∧ st2.next_semaphore_id = st.next_semaphore_id ∧
      ∀ s, st.semaphore_array s = none → st2.semaphore_array s = none := by
  simp only [sem_post] at h
  cases hl : sem_lookup st sem with
  | none =>
    rw [hl] at h
    simp only [Outcome.runtime, Option.some.injEq] at h
    subst h
    exact ⟨rfl, rfl, fun s hs => hs⟩
  | some p =>
    obtain ⟨i, csem⟩ := p
    obtain ⟨hi, -⟩ := sem_lookup_spec st sem i csem hl
    rw [hl] at h
    simp only at h
    split at h
    · simp only [Outcome.runtime, Option.some.injEq] at h
      subst h
      exact ⟨rfl, rfl, fun s hs => update_found_none _ i s csem _ hi hs⟩
    · split at h
      · simp [Outcome.runtime] at h
      · simp only [Outcome.runtime, Option.some.injEq] at h
        subst h
        exact ⟨rfl, rfl, fun s hs => update_found_none _ i s csem _ hi hs⟩

theorem sem_destroy_frame (st st2 : Runtime) (sem : Nat)
    (h : (sem_destroy st sem).runtime = some st2) :
    st2.thread_count = st.thread_count ∧ st2.next_semaphore_id = st.next_semaphore_id ∧
      ∀ s, st.semaphore_array s = none → st2.semaphore_array s = none := by
  simp only [sem_destroy] at h
  cases hl : sem_lookup st sem with
  | none =>
    rw [hl] at h
    simp only [Outcome.runtime, Option.some.injEq] at h
    subst h
    exact ⟨rfl, rfl, fun s hs => hs⟩
  | some p =>
    obtain ⟨i, csem⟩ := p
    obtain ⟨hi, -⟩ := sem_lookup_spec st sem i csem hl
    rw [hl] at h
    simp only [Outcome.runtime, Option.some.injEq] at h
    subst h
    exact ⟨rfl, rfl, fun s hs => update_found_none _ i s csem _ hi hs⟩

/-- The function `sem_init` in full: it fails at the capacity check or when `malloc`
fails, and changes nothing then; otherwise it fills the entry at
`next_semaphore_id` and increments the counter. -/
theorem sem_init_cases (st : Runtime) (value : Nat) (ok : Bool) :
    ((MAX_SEMAPHORES ≤ st.next_semaphore_id ∨ ok = false) ∧
      sem_init st value ok = Outcome.returned (-1) none st) ∨
    (st.next_semaphore_id < MAX_SEMAPHORES ∧ ok = true ∧
      sem_init st value ok = Outcome.returned 0 (some st.next_semaphore_id)
        { st with
          semaphore_array := Function.update st.semaphore_array st.next_semaphore_id
            (some { value := to_int value, initialized := 1, waiting_threads := fun _ => 0,
                    wait_count := 0 })
          next_semaphore_id := st.next_semaphore_id + 1 }) := by
  by_cases hfull : st.next_semaphore_id ≥ MAX_SEMAPHORES
  · left
    exact ⟨Or.inl hfull, by simp only [sem_init, if_pos hfull]⟩
  · cases ok with
    | false =>
      left
      exact ⟨Or.inr rfl, by simp [sem_init, if_neg hfull]⟩
    | true =>
      right
      exact ⟨by omega, rfl, by simp [sem_init, if_neg hfull]⟩

theorem sem_init_frame (st st2 : Runtime) (value : Nat) (ok : Bool)
    (h : (sem_init st value ok).runtime = some st2) :
    st2.thread_count = st.thread_count ∧
      st2.next_semaphore_id = st.next_semaphore_id +
        (if (sem_init st value ok).ret = some 0 then 1 else 0) ∧
      ∀ s, st.semaphore_array s = none →
        s ≠ st.next_semaphore_id ∨ st2.next_semaphore_id = st.next_semaphore_id →
        st2.semaphore_array s = none := by
  rcases sem_init_cases st value ok with ⟨-, he⟩ | ⟨-, -, he⟩
  · rw [he] at h ⊢
    simp only [Outcome.runtime, Option.some.injEq] at h
    subst h
    exact ⟨rfl, by simp [Outcome.ret], fun s hs _ => hs⟩
  · rw [he] at h ⊢
    simp only [Outcome.runtime, Option.some.injEq] at h
    subst h
    refine ⟨rfl, by simp [Outcome.ret], fun s hs hne => ?_⟩
    rcases hne with hne | hne
    · simp only
      rw [Function.update_noteq hne]
      exact hs
    · simp at hne

/-- One step, seen from the counters: the number of threads grows by one in a call of
`pthread_create` that does not fail, the semaphore counter grows by one in a call of
`sem_init` that returns 0, and nothing else changes them; a null entry of the
semaphore table stays null, except the one at the counter when the counter grows. -/
theorem exec_frame (st st2 : Runtime) (c : Call) (h : (exec st c).runtime = some st2) :
    st2.thread_count = st.thread_count + created st [c] ∧
      st2.next_semaphore_id = st.next_semaphore_id + initialised st [c] ∧
      ∀ s, st.semaphore_array s = none →
        s ≠ st.next_semaphore_id ∨ st2.next_semaphore_id = st.next_semaphore_id →
        st2.semaphore_array s = none := by
  have h2 := h
  simp only [exec] at h2
  cases c with
  | create f a mr =>
    obtain ⟨e1, e2, e3⟩ := pthread_create_frame st st2 f a mr h
    refine ⟨?_, ?_, fun s hs _ => by rw [e1]; exact hs⟩
    · rw [e3]; simp [created, exec, h2]
    · rw [e2]; simp [initialised, exec, h2]
  | exit v =>
    obtain ⟨e1, e2, e3⟩ := pthread_exit_frame st st2 v h
    exact ⟨by rw [e3]; simp [created, exec, h2], by rw [e2]; simp [initialised, exec, h2],
      fun s hs _ => by rw [e1]; exact hs⟩
  | join t vp =>
    obtain ⟨e1, e2, e3⟩ := pthread_join_frame st st2 t vp h
    exact ⟨by rw [e3]; simp [created, exec, h2], by rw [e2]; simp [initialised, exec, h2],
      fun s hs _ => by rw [e1]; exact hs⟩
  | sem_init v ok =>
    obtain ⟨e1, e2, e3⟩ := sem_init_frame st st2 v ok h
    exact ⟨by rw [e1]; simp [created, exec, h2], by rw [e2]; simp [initialised, exec, h2], e3⟩
  | sem_wait sem =>
    obtain ⟨e1, e2, e3⟩ := sem_wait_frame st st2 sem h
    exact ⟨by rw [e1]; simp [created, exec, h2], by rw [e2]; simp [initialised, exec, h2],
      fun s hs _ => e3 s hs⟩
  | sem_post sem =>
    obtain ⟨e1, e2, e3⟩ := sem_post_frame st st2 sem h
    exact ⟨by rw [e1]; simp [created, exec, h2], by rw [e2]; simp [initialised, exec, h2],
      fun s hs _ => e3 s hs⟩
  | sem_destroy sem =>
    obtain ⟨e1, e2, e3⟩ := sem_destroy_frame st st2 sem h
    exact ⟨by rw [e1]; simp [created, exec, h2], by rw [e2]; simp [initialised, exec, h2],
      fun s hs _ => e3 s hs⟩
  | alarm =>
    obtain ⟨e1, e2, e3⟩ := alarm_frame st st2 h
    exact ⟨by rw [e3]; simp [created, exec, h2], by rw [e2]; simp [initialised, exec, h2],
      fun s hs _ => by rw [e1]; exact hs⟩
  | resume =>
    obtain ⟨e1, e2, e3⟩ := resume_frame st st2 h
    exact ⟨by rw [e3]; simp [created, exec, h2], by rw [e2]; simp [initialised, exec, h2],
      fun s hs _ => by rw [e1]; exact hs⟩

/-- The counters after a run: one thread per call of `pthread_create` that did not fail,
one semaphore index per call of `sem_init` that returned 0. -/
theorem run_counters : ∀ (cs : List Call) (st st2 : Runtime), run st cs = some st2 →
    st2.thread_count = st.thread_count + created st cs ∧
      st2.next_semaphore_id = st.next_semaphore_id + initialised st cs := by
  intro cs
  induction cs with
  | nil =>
    intro st st2 h
    simp only [run, Option.some.injEq] at h
    subst h
    simp [created, initialised]
  | cons c cs ih =>
    intro st st2 h
    simp only [run] at h
    cases hr : (exec st c).runtime with
    | none => rw [hr] at h; simp at h
    | some st1 =>
      rw [hr] at h
      obtain ⟨g1, g2⟩ := ih st1 st2 h
      obtain ⟨f1, f2, -⟩ := exec_frame st st1 c hr
      have c1 : created st (c :: cs) = created st [c] + created st1 cs := by
        simp [created, hr]
      have c2 : initialised st (c :: cs) = initialised st [c] + initialised st1 cs := by
        simp [initialised, hr]
      rw [g1, g2, f1, f2, c1, c2]
      omega

theorem init_fresh : Fresh init := fun _ _ => rfl

/-- One step keeps the table filled from the bottom, and an entry below the counter
that is null stays null. -/
theorem exec_fresh (st st2 : Runtime) (c : Call) (hf : Fresh st)
    (h : (exec st c).runtime = some st2) :
    Fresh st2 ∧ st.next_semaphore_id ≤ st2.next_semaphore_id ∧
      ∀ s, s < st.next_semaphore_id → st.semaphore_array s = none →
        st2.semaphore_array s = none := by
  obtain ⟨-, f2, f3⟩ := exec_frame st st2 c h
  refine ⟨fun s hs => ?_, by omega, fun s hs hn => f3 s hn (Or.inl (by omega))⟩
  apply f3 s (hf s (by omega))
  by_cases hne : s = st.next_semaphore_id
  · right; omega
  · left; exact hne

theorem run_fresh : ∀ (cs : List Call) (st st2 : Runtime), Fresh st → run st cs = some st2 →
    Fresh st2 ∧ st.next_semaphore_id ≤ st2.next_semaphore_id ∧
      ∀ s, s < st.next_semaphore_id → st.semaphore_array s = none →
        st2.semaphore_array s = none := by
  intro cs
  induction cs with
  | nil =>
    intro st st2 hf h
    simp only [run, Option.some.injEq] at h
    subst h
    exact ⟨hf, le_refl _, fun _ _ hn => hn⟩
  | cons c cs ih =>
    intro st st2 hf h
    simp only [run] at h
    cases hr : (exec st c).runtime with
    | none => rw [hr] at h; simp at h
    | some st1 =>
      rw [hr] at h
      obtain ⟨g1, g2, g3⟩ := exec_fresh st st1 c hf hr
      obtain ⟨k1, k2, k3⟩ := ih st1 st2 g1 h
      exact ⟨k1, le_trans g2 k2, fun s hs hn => k3 s (by omega) (g3 s hs hn)⟩

theorem to_int_of_lt (w : Nat) (h : w < 2 ^ 31) : to_int w = (w : Int) := by
  have h1 : w % 2 ^ 32 = w := Nat.mod_eq_of_lt (by omega)
  simp only [to_int, h1]
  rw [if_pos h]

/-- A lookup with the index of a live, initialised semaphore as handle word finds it. -/
theorem sem_lookup_index (st : Runtime) (i : Nat) (csem : custom_semaphore)
    (hi : i < MAX_SEMAPHORES) (hs : st.semaphore_array i = some csem)
    (hinit : csem.initialized ≠ 0) : sem_lookup st i = some (i, csem) := by
  have h1 : to_int i = (i : Int) := to_int_of_lt i (by simp only [MAX_SEMAPHORES] at hi; omega)
  simp only [sem_lookup, h1, Int.toNat_ofNat, hs]
  rw [if_neg (by simp only [MAX_SEMAPHORES] at hi ⊢; omega), if_neg hinit]

/-! ## `sem_init` -/

/-- C11, counterexample. In the initial state, with no semaphore in the table,
`sem_init` returns -1 when `malloc` fails (the second guard of the function); and
`sem_init` with the initial value `2 ^ 31`, which no `int` holds, returns 0 and
creates a semaphore whose count is not that value but `-(2 ^ 31)`. -/
theorem sem_init_not_only_capacity :
    live_count init = 0 ∧ init.next_semaphore_id = 0 ∧
      sem_init init 0 false = Outcome.returned (-1) none init ∧
      (sem_init init (2 ^ 31) true).ret = some 0 ∧
      ((sem_init init (2 ^ 31) true).runtime.bind
        (fun st2 => (st2.semaphore_array 0).map (fun csem => csem.value))) =
          some (-(2 ^ 31)) := by
  refine ⟨by decide, rfl, rfl, rfl, ?_⟩
  decide

/-- C11 as the code has it. In every state reached by a run, `next_semaphore_id` is the number of
calls of `sem_init` that have returned 0. With it at 128, or when `malloc` fails,
`sem_init` returns -1, writes no handle and leaves the state as it is. Otherwise
it returns 0 and writes the handle `next_semaphore_id`; the entry of that index was
null before (no live semaphore has this handle) and now holds a semaphore that the
handle denotes, whose count is the initial value when that is at most `INT_MAX`
(below `2 ^ 31`) and whose wait queue is empty; every other entry of the table,
every TCB and the thread variables are unchanged. -/
theorem sem_init_spec (cs : List Call) (st : Runtime) (hrun : run init cs = some st)
    (value : Nat) (malloc_ok : Bool) :
    st.next_semaphore_id = initialised init cs ∧
    ((MAX_SEMAPHORES ≤ st.next_semaphore_id ∨ malloc_ok = false) →
      sem_init st value malloc_ok = Outcome.returned (-1) none st) ∧
    (st.next_semaphore_id < MAX_SEMAPHORES → malloc_ok = true →
      ∃ (st2 : Runtime) (csem : custom_semaphore),
        sem_init st value malloc_ok =
          Outcome.returned 0 (some st.next_semaphore_id) st2 ∧
        st.semaphore_array st.next_semaphore_id = none ∧
        st2.semaphore_array st.next_semaphore_id = some csem ∧
        sem_lookup st2 st.next_semaphore_id = some (st.next_semaphore_id, csem) ∧
        (value < 2 ^ 31 → csem.value = (value : Int)) ∧
        csem.wait_count = 0 ∧ queue csem = [] ∧
        (∀ s, s ≠ st.next_semaphore_id → st2.semaphore_array s = st.semaphore_array s) ∧
        st2.next_semaphore_id = st.next_semaphore_id + 1 ∧
        st2.tcb = st.tcb ∧ st2.thread_count = st.thread_count ∧
        st2.current_thread = st.current_thread) := by
  have hcount := (run_counters cs init st hrun).2
  have hfresh := (run_fresh cs init st init_fresh hrun).1
  refine ⟨by rw [hcount]; simp [init], ?_, ?_⟩
  · intro hfail
    rcases sem_init_cases st value malloc_ok with ⟨-, he⟩ | ⟨h1, h2, -⟩
    · exact he
    · rcases hfail with h | h
      · omega
      · rw [h] at h2; simp at h2
  · intro hroom hok
    rcases sem_init_cases st value malloc_ok with ⟨h1, -⟩ | ⟨-, -, he⟩
    · rcases h1 with h | h
      · omega
      · rw [h] at hok; simp at hok
    · refine ⟨_, { value := to_int value, initialized := 1, waiting_threads := fun _ => 0,
                   wait_count := 0 }, he, hfresh _ (le_refl _), ?_, ?_,
        fun hv => to_int_of_lt value hv, rfl, ?_, ?_, rfl, rfl, rfl, rfl⟩
      · simp
      · exact sem_lookup_index _ _ _ hroom (by simp) (by simp)
      · simp [queue]
      · intro s hs
        simp only
        rw [Function.update_noteq hs]

/-- Witness for C11 as the code has it: the first `sem_init`, with initial value 3. -/
theorem sem_init_spec_witness :
    ∃ (st2 : Runtime) (csem : custom_semaphore),
      sem_init init 3 true = Outcome.returned 0 (some 0) st2 ∧
      st2.semaphore_array 0 = some csem ∧
      csem.value = ((3 : Nat) : Int) ∧ csem.wait_count = 0 ∧ queue csem = [] := by
  obtain ⟨st2, csem, h1, -, h3, -, h5, h6, h7, -⟩ :=
    (sem_init_spec [] init rfl 3 true).2.2 (by decide) rfl
  exact ⟨st2, csem, h1, h3, h5 (by decide), h6, h7⟩



/-- The prologue of the semaphore functions rejects a handle word whose index is
negative, is 128 or more, or is that of a null entry. -/
theorem sem_lookup_dead (st : Runtime) (sem : Nat)
    (h : to_int sem < 0 ∨ (MAX_SEMAPHORES : Int) ≤ to_int sem ∨
      st.semaphore_array (to_int sem).toNat = none) : sem_lookup st sem = none := by
  simp only [sem_lookup]
  by_cases hr : to_int sem < 0 ∨ to_int sem ≥ (MAX_SEMAPHORES : Int)
  · rw [if_pos hr]
  · rw [if_neg hr]
    have hn : st.semaphore_array (to_int sem).toNat = none := by
      rcases h with h | h | h
      · exact absurd (Or.inl h) hr
      · exact absurd (Or.inr h) hr
      · exact h
    rw [hn]

/-! ## `sem_destroy` -/

/-- C12, counterexample. At the end of the run `two_waiters` threads 1 and 2 are
queued on semaphore 0, and `sem_destroy` of it returns 0; afterwards the entry is
null and both threads are still BLOCKED. -/
theorem sem_destroy_with_waiters :
    (run init two_waiters).map
        (fun st => ((st.semaphore_array 0).map queue, (sem_destroy st 0).ret)) =
      some (some [1, 2], some 0) ∧
    (run init (two_waiters ++ [Call.sem_destroy 0])).map
        (fun st => ((st.semaphore_array 0).isSome, (st.tcb 1).state, (st.tcb 2).state)) =
      some (false, BLOCKED, BLOCKED) := by
  decide

/-- C12 as the code has it. The function `sem_destroy` does not look at the wait
queue. For every live semaphore, whatever its `wait_count`, it returns 0,
overwrites the handle word
with `(uintptr_t)-1` (which reads as index -1), and sets the entry to null, so
that the old handle word denotes no semaphore any more; the other entries, the
counter, every TCB (the queued threads keep their state) and the thread variables
are unchanged. -/
theorem sem_destroy_ignores_waiters (st : Runtime) (sem i : Nat) (csem : custom_semaphore)
    (hlive : sem_lookup st sem = some (i, csem)) :
    ∃ st2 : Runtime,
      sem_destroy st sem = Outcome.returned 0 (some (2 ^ 64 - 1)) st2 ∧
      to_int (2 ^ 64 - 1) = -1 ∧
      st2.semaphore_array i = none ∧ sem_lookup st2 sem = none ∧
      (∀ j, j ≠ i → st2.semaphore_array j = st.semaphore_array j) ∧
      st2.next_semaphore_id = st.next_semaphore_id ∧
      st2.tcb = st.tcb ∧ st2.thread_count = st.thread_count ∧
      st2.current_thread = st.current_thread ∧ st2.alarm_blocked = st.alarm_blocked := by
  obtain ⟨-, -, -, hidx⟩ := sem_lookup_spec st sem i csem hlive
  refine ⟨{ st with semaphore_array := Function.update st.semaphore_array i none },
    by simp only [sem_destroy, hlive], by decide, by simp, ?_,
    fun j hj => by simp [Function.update_noteq hj], rfl, rfl, rfl, rfl, rfl⟩
  have hi : (to_int sem).toNat = i := by rw [← hidx]; simp
  apply sem_lookup_dead
  right; right
  show Function.update st.semaphore_array i none (to_int sem).toNat = none
  rw [hi, Function.update_same]

/-- Witness for C12 as the code has it: a semaphore with thread 1 in its queue. -/
theorem sem_destroy_ignores_waiters_witness :
    ∃ st2 : Runtime,
      sem_destroy
        { init with
          semaphore_array := Function.update init.semaphore_array 0
            (some { value := 0, initialized := 1, waiting_threads := fun _ => 1,
                    wait_count := 1 })
          next_semaphore_id := 1 } 0 = Outcome.returned 0 (some (2 ^ 64 - 1)) st2 ∧
      st2.semaphore_array 0 = none := by
  obtain ⟨st2, h1, -, h2, -⟩ :=
    sem_destroy_ignores_waiters
      { init with
        semaphore_array := Function.update init.semaphore_array 0
          (some { value := 0, initialized := 1, waiting_threads := fun _ => 1,
                  wait_count := 1 })
        next_semaphore_id := 1 } 0 0
      { value := 0, initialized := 1, waiting_threads := fun _ => 1, wait_count := 1 } rfl
  exact ⟨st2, h1, h2⟩

set_option maxRecDepth 100000 in
/-- C13, counterexample. The first 128 calls of `sem_init` return 0, `sem_destroy` of
the first semaphore returns 0 and leaves 127 live semaphores, and the next
`sem_init` returns -1. -/
theorem sem_init_after_destroy_fails :
    returns init (all_slots_used ++ [Call.sem_init 0 true]) =
      List.replicate 128 (some 0) ++ [some 0, some (-1)] ∧
    (run init all_slots_used).map live_count = some 127 := by
  constructor
  · rfl
  · rfl

/-- C13 as the code has it. The function `sem_destroy` clears the entry but does not
release it for reuse. In every state reached by a run, `sem_init` returns 0 exactly
when fewer than 128 calls of `sem_init` have returned 0 since the start and
`malloc` succeeds; a call of
`sem_destroy` leaves the counter and the result of the next `sem_init` as they
were; and an entry below the counter that is null stays null in every later
state. -/
theorem sem_init_succeeds_iff (cs : List Call) (st : Runtime) (hrun : run init cs = some st)
    (value : Nat) (malloc_ok : Bool) :
    ((sem_init st value malloc_ok).ret = some 0 ↔
      initialised init cs < MAX_SEMAPHORES ∧ malloc_ok = true) ∧
    (∀ sem st1, (sem_destroy st sem).runtime = some st1 →
      st1.next_semaphore_id = st.next_semaphore_id ∧
      (sem_init st1 value malloc_ok).ret = (sem_init st value malloc_ok).ret) ∧
    (∀ s, s < st.next_semaphore_id → st.semaphore_array s = none →
      ∀ cs2 st3, run st cs2 = some st3 → st3.semaphore_array s = none) := by
  have hcount : st.next_semaphore_id = initialised init cs := by
    rw [(run_counters cs init st hrun).2]; simp [init]
  have hfresh := (run_fresh cs init st init_fresh hrun).1
  have key : ∀ x : Runtime, (sem_init x value malloc_ok).ret = some 0 ↔
      x.next_semaphore_id < MAX_SEMAPHORES ∧ malloc_ok = true := by
    intro x
    rcases sem_init_cases x value malloc_ok with ⟨h1, he⟩ | ⟨h1, h2, he⟩
    · rw [he]
      simp only [Outcome.ret, Option.some.injEq]
      constructor
      · intro h; omega
      · rintro ⟨h3, h4⟩
        rcases h1 with h | h
        · omega
        · rw [h] at h4; simp at h4
    · rw [he]
      simp only [Outcome.ret, true_iff]
      exact ⟨h1, h2⟩
  refine ⟨by rw [key st, hcount], fun sem st1 hd => ?_, fun s hs hn cs2 st3 hr => ?_⟩
  · obtain ⟨-, e2, -⟩ := sem_destroy_frame st st1 sem hd
    refine ⟨e2, ?_⟩
    have k1 := key st1
    have k2 := key st
    rw [e2] at k1
    cases h1 : (sem_init st1 value malloc_ok).ret with
    | none =>
      rcases sem_init_cases st1 value malloc_ok with ⟨-, he⟩ | ⟨-, -, he⟩ <;>
        (rw [he] at h1; simp [Outcome.ret] at h1)
    | some r =>
      rcases sem_init_cases st1 value malloc_ok with ⟨g1, he⟩ | ⟨g1, g2, he⟩
      · rcases sem_init_cases st value malloc_ok with ⟨-, he2⟩ | ⟨f1, f2, -⟩
        · rw [he] at h1; rw [← h1, he2]; rfl
        · exfalso
          rw [e2] at g1
          rcases g1 with g | g
          · omega
          · rw [g] at f2; simp at f2
      · rcases sem_init_cases st value malloc_ok with ⟨f1, -⟩ | ⟨-, -, he2⟩
        · exfalso
          rw [e2] at g1
          rcases f1 with f | f
          · omega
          · rw [f] at g2; simp at g2
        · rw [he] at h1; rw [← h1, he2]; rfl
  · exact (run_fresh cs2 st st3 hfresh hr).2.2 s hs hn

/-- Witness for C13 as the code has it: the initial state. -/
theorem sem_init_succeeds_iff_witness :
    ((sem_init init 0 true).ret = some 0 ↔
      initialised init [] < MAX_SEMAPHORES ∧ true = true) ∧
    (∀ sem st1, (sem_destroy init sem).runtime = some st1 →
      st1.next_semaphore_id = init.next_semaphore_id ∧
      (sem_init st1 0 true).ret = (sem_init init 0 true).ret) ∧
    (∀ s, s < init.next_semaphore_id → init.semaphore_array s = none →
      ∀ cs2 st3, run init cs2 = some st3 → st3.semaphore_array s = none) :=
  sem_init_succeeds_iff [] init rfl 0 true

/-! ## Handle words that denote no semaphore -/

/-- With a failed lookup the three semaphore functions return -1 and change nothing. -/
theorem sem_ops_of_lookup_none (st : Runtime) (sem : Nat) (h : sem_lookup st sem = none) :
    sem_wait st sem = Outcome.returned (-1) none st ∧
      sem_post st sem = Outcome.returned (-1) none st ∧
      sem_destroy st sem = Outcome.returned (-1) none st := by
  simp only [sem_wait, sem_post, sem_destroy, h, and_self]

/-- C14. In every state reached by a run, `sem_wait`, `sem_post` and `sem_destroy`
return -1, write nothing through the handle and leave the whole state (semaphore
table, semaphores, TCBs) as it is when the index read from the handle word is
negative, is 128 or more, is at or above `next_semaphore_id` (an index that
`sem_init` has never returned), or is that of a null entry. A `sem_destroy` that
returns 0 has overwritten the handle word with `2 ^ 64 - 1` and cleared the entry;
in every later state the three functions reject both the overwritten word and
the old one. -/
theorem sem_ops_reject_dead_handle (cs : List Call) (st : Runtime)
    (hrun : run init cs = some st) (sem : Nat) :
    ((to_int sem < 0 ∨ (MAX_SEMAPHORES : Int) ≤ to_int sem ∨
        (st.next_semaphore_id : Int) ≤ to_int sem ∨
        st.semaphore_array (to_int sem).toNat = none) →
      sem_wait st sem = Outcome.returned (-1) none st ∧
      sem_post st sem = Outcome.returned (-1) none st ∧
      sem_destroy st sem = Outcome.returned (-1) none st) ∧
    (∀ out st1, sem_destroy st sem = Outcome.returned 0 out st1 →
      out = some (2 ^ 64 - 1) ∧ st1.semaphore_array (to_int sem).toNat = none ∧
      ∀ cs2 st3, run st1 cs2 = some st3 → ∀ w, w = 2 ^ 64 - 1 ∨ w = sem →
        sem_wait st3 w = Outcome.returned (-1) none st3 ∧
        sem_post st3 w = Outcome.returned (-1) none st3 ∧
        sem_destroy st3 w = Outcome.returned (-1) none st3) := by
  have hfresh := (run_fresh cs init st init_fresh hrun).1
  refine ⟨fun hdead => ?_, fun out st1 hd => ?_⟩
  · apply sem_ops_of_lookup_none
    apply sem_lookup_dead
    rcases hdead with h | h | h | h
    · exact Or.inl h
    · exact Or.inr (Or.inl h)
    · by_cases hneg : to_int sem < 0
      · exact Or.inl hneg
      · right; right
        apply hfresh
        omega
    · exact Or.inr (Or.inr h)
  · cases hl : sem_lookup st sem with
    | none =>
      rw [(sem_ops_of_lookup_none st sem hl).2.2] at hd
      simp at hd
    | some p =>
      obtain ⟨i, csem⟩ := p
      obtain ⟨hsome, -, -, hidx⟩ := sem_lookup_spec st sem i csem hl
      have hi : (to_int sem).toNat = i := by rw [← hidx]; simp
      have hlt : i < st.next_semaphore_id := by
        by_contra hge
        rw [hfresh i (by omega)] at hsome
        simp at hsome
      have hrt : (sem_destroy st sem).runtime = some st1 := by rw [hd]; rfl
      obtain ⟨-, e2, -⟩ := sem_destroy_frame st st1 sem hrt
      have hf1 : Fresh st1 :=
        (exec_fresh st st1 (Call.sem_destroy sem) hfresh hrt).1
      simp only [sem_destroy, hl, Outcome.returned.injEq, true_and] at hd
      obtain ⟨ho, hs⟩ := hd
      have hnone : st1.semaphore_array i = none := by rw [← hs]; simp
      refine ⟨ho.symm, by rw [hi]; exact hnone, fun cs2 st3 hr w hw => ?_⟩
      apply sem_ops_of_lookup_none
      apply sem_lookup_dead
      rcases hw with hw | hw
      · left; rw [hw]; decide
      · right; right
        rw [hw, hi]
        exact (run_fresh cs2 st1 st3 hf1 hr).2.2 i (by omega) hnone

/-- Witness for C14: handle word 5 in the initial state, where no semaphore exists. -/
theorem sem_ops_reject_dead_handle_witness :
    sem_wait init 5 = Outcome.returned (-1) none init ∧
      sem_post init 5 = Outcome.returned (-1) none init ∧
      sem_destroy init 5 = Outcome.returned (-1) none init :=
  (sem_ops_reject_dead_handle [] init rfl 5).1 (Or.inr (Or.inr (Or.inr rfl)))



/-! ## `pthread_create` -/

/-- Every state reached by a run from the initial state has the invariant. -/
theorem reachable_inv (cs : List Call) (st : Runtime) (hrun : run init cs = some st) : Inv st :=
  run_inv cs init st init_inv hrun

/-- C17, counterexample. In the initial state `pthread_create` with `malloc` returning
`NULL` returns -1, and the `id` of slot 1, which was 0, is 1 afterwards. -/
theorem pthread_create_failure_writes_slot :
    (pthread_create init 100 0 0).ret = some (-1) ∧ (init.tcb 1).id = 0 ∧
      (pthread_create init 100 0 0).runtime.map (fun st1 => (st1.tcb 1).id) = some 1 := by
  decide

/-- C17 as the code has it. Whenever `pthread_create` returns -1, `thread_count`, every TCB slot
other than the unused slot `tcb[thread_count]` (so the TCB of every created
thread), and all the other globals are as before the call; of the unused slot
the state, context, start routine, argument and exit value are as before. When
the table is full nothing at all is written. -/
theorem pthread_create_failure_keeps_threads (st : Runtime)
    (start_routine arg malloc_result : Nat)
    (hfail : (pthread_create st start_routine arg malloc_result).ret = some (-1)) :
    ∃ (out : Option Nat) (st1 : Runtime),
      pthread_create st start_routine arg malloc_result = Outcome.returned (-1) out st1 ∧
      st1.thread_count = st.thread_count ∧
      (∀ i, i ≠ st.thread_count → st1.tcb i = st.tcb i) ∧
      (st1.tcb st.thread_count).state = (st.tcb st.thread_count).state ∧
      (st1.tcb st.thread_count).context = (st.tcb st.thread_count).context ∧
      (st1.tcb st.thread_count).start_routine = (st.tcb st.thread_count).start_routine ∧
      (st1.tcb st.thread_count).arg = (st.tcb st.thread_count).arg ∧
      (st1.tcb st.thread_count).exit_value = (st.tcb st.thread_count).exit_value ∧
      st1.current_thread = st.current_thread ∧ st1.next_thread = st.next_thread ∧
      st1.semaphore_array = st.semaphore_array ∧
      st1.next_semaphore_id = st.next_semaphore_id ∧
      st1.alarm_blocked = st.alarm_blocked ∧
      (MAX_THREADS ≤ st.thread_count → out = none ∧ st1.tcb = st.tcb) := by
  by_cases hfull : st.thread_count ≥ MAX_THREADS
  · refine ⟨none, st, by simp only [pthread_create, if_pos hfull], rfl, fun _ _ => rfl,
      rfl, rfl, rfl, rfl, rfl, rfl, rfl, rfl, rfl, rfl, fun _ => ⟨rfl, rfl⟩⟩
  · by_cases hm : malloc_result = 0
    · refine ⟨some st.thread_count, pthread_create_alloc st malloc_result,
        by simp only [pthread_create, if_neg hfull, if_pos hm], rfl,
        fun i hi => pthread_create_alloc_agree st malloc_result i hi,
        ?_, ?_, ?_, ?_, ?_, rfl, rfl, rfl, rfl, rfl, fun h => absurd h hfull⟩ <;>
      simp [pthread_create_alloc]
    · exfalso
      simp only [pthread_create, if_neg hfull, if_neg hm] at hfail
      cases hs : schedule (pthread_create_setup (pthread_create_alloc st malloc_result)
          start_routine arg) jmp_buf.at_create with
      | none => rw [hs] at hfail; simp [jump, Outcome.ret] at hfail
      | some x => rw [hs] at hfail; simp [jump, Outcome.ret] at hfail

/-- Witness for C17 as the code has it: `malloc` fails in the initial state. -/
theorem pthread_create_failure_keeps_threads_witness :
    ∃ (out : Option Nat) (st1 : Runtime),
      pthread_create init 100 0 0 = Outcome.returned (-1) out st1 ∧
      st1.thread_count = init.thread_count ∧ st1.tcb 0 = init.tcb 0 := by
  obtain ⟨out, st1, h1, h2, h3, -⟩ :=
    pthread_create_failure_keeps_threads init 100 0 0 (by decide)
  exact ⟨out, st1, h1, h2, h3 0 (by decide)⟩

/-! ## `pthread_join` with an unknown handle, `pthread_self` -/

/-- C20 (defect in the code). When the bootstrap thread is the only thread and calls
`pthread_exit`, `schedule` runs and selects thread 0 again, which continues in the
`while (1);`. At the end of the run `everyone_exits` thread 1 is EXITED and thread 0
is running; its `pthread_exit` leaves both threads EXITED, and again `schedule`
runs (it is the third selection of the run) and thread 0 continues in the
`while (1);`; the timer signal then selects thread 0 once more. -/
theorem pthread_exit_of_last_thread :
    (pthread_exit init 7).selected = some 0 ∧
    (pthread_exit init 7).runtime.map (fun st => ((st.tcb 0).state, (resume st).is_spinning))
      = some (EXITED, true) ∧
    (run init everyone_exits).map
        (fun st => (st.thread_count, st.current_thread, (st.tcb 1).state))
      = some (2, 0, EXITED) ∧
    (run init (everyone_exits ++ [Call.exit 7])).map
        (fun st => ((st.tcb 0).state, (st.tcb 1).state, (resume st).is_spinning))
      = some (EXITED, EXITED, true) ∧
    selections init (everyone_exits ++ [Call.exit 7, Call.resume, Call.alarm]) =
      [1, 0, 0, 0] := by
  decide

/-! ## Round-robin order -/

/-- One pass of `schedule` when the thread after the current one is READY or is thread
0: that thread is selected, and only the caller's saved context changes. -/
theorem schedule_next (st : Runtime) (call_site : jmp_buf) (hn : 1 ≤ st.thread_count)
    (hnext : (st.current_thread + 1) % st.thread_count = 0 ∨
      (st.tcb ((st.current_thread + 1) % st.thread_count)).state = READY) :
    ∃ st2, schedule st call_site = some st2 ∧
      st2.current_thread = (st.current_thread + 1) % st.thread_count ∧
      st2.thread_count = st.thread_count ∧
      ∀ i, (st2.tcb i).state = (st.tcb i).state := by
  have hloop : schedule_loop st.tcb st.thread_count st.thread_count st.current_thread
      = some ((st.current_thread + 1) % st.thread_count) := by
    obtain ⟨m, hm⟩ : ∃ m, st.thread_count = m + 1 := ⟨st.thread_count - 1, by omega⟩
    rw [hm] at hnext ⊢
    simp only [schedule_loop]
    rw [if_neg]
    rintro ⟨h1, h2⟩
    rcases hnext with h | h
    · exact h2 h
    · exact h1 h
  have hcongr := schedule_loop_congr st.tcb
    (Function.update st.tcb st.current_thread
      { st.tcb st.current_thread with context := call_site }) st.thread_count
    (fun i => state_update_context st.tcb st.current_thread i call_site)
    st.thread_count st.current_thread
  refine ⟨{ st with
      tcb := Function.update st.tcb st.current_thread
        { st.tcb st.current_thread with context := call_site }
      current_thread := (st.current_thread + 1) % st.thread_count
      next_thread := (st.current_thread + 1) % st.thread_count }, ?_, rfl, rfl, fun i => ?_⟩
  · simp only [schedule]
    rw [hcongr, hloop]
  · exact state_update_context st.tcb st.current_thread i call_site

/-- The handles `(c + 1 + m) mod n` for `m < n` are the handles below `n`, each once. -/
theorem turn_order_perm (n c : Nat) :
    ((List.range n).map (fun m => (c + 1 + m) % n)).Perm (List.range n) := by
  rcases Nat.eq_zero_or_pos n with h0 | hpos
  · subst h0; simp
  apply List.Subperm.perm_of_length_le
  · apply List.subperm_of_subset
    · apply List.Nodup.map_on _ (List.nodup_range n)
      intro x hx y hy hxy
      rw [List.mem_range] at hx hy
      have h1 : x ≡ y [MOD n] := Nat.ModEq.add_left_cancel' (c + 1) hxy
      have h2 : x % n = y % n := h1
      rwa [Nat.mod_eq_of_lt hx, Nat.mod_eq_of_lt hy] at h2
    · intro a ha
      rw [List.mem_map] at ha
      obtain ⟨m, -, hm⟩ := ha
      rw [List.mem_range, ← hm]
      exact Nat.mod_lt _ hpos
  · simp

/-- Successive passes from a state in which every thread other than thread 0 is READY,
with work in between that keeps the table size, the current thread and the
READY threads: pass `m` selects `(c + 1 + m) mod N`. -/
theorem schedule_passes_order (work : Runtime → Runtime) (call_site : jmp_buf) (N : Nat)
    (hN : 1 ≤ N)
    (hwork : ∀ s, (work s).thread_count = s.thread_count ∧
      (work s).current_thread = s.current_thread ∧
      ∀ i, 0 < i → (s.tcb i).state = READY → ((work s).tcb i).state = READY) :
    ∀ (n : Nat) (st : Runtime), st.thread_count = N →
      (∀ i, 0 < i → i < N → (st.tcb i).state = READY) →
      ∃ st2, schedule_passes work call_site n st =
        some ((List.range n).map (fun m => (st.current_thread + 1 + m) % N), st2) := by
  intro n
  induction n with
  | zero => intro st _ _; exact ⟨st, rfl⟩
  | succ n ih =>
    intro st htc hready
    obtain ⟨w1, w2, w3⟩ := hwork st
    have hmod : (st.current_thread + 1) % N < N := Nat.mod_lt _ (by omega)
    obtain ⟨st1, hs, c1, c2, c3⟩ := schedule_next (work st) call_site (by rw [w1, htc]; exact hN)
      (by
        rw [w1, w2, htc]
        by_cases hz : (st.current_thread + 1) % N = 0
        · exact Or.inl hz
        · exact Or.inr (w3 _ (Nat.pos_of_ne_zero hz) (hready _ (Nat.pos_of_ne_zero hz) hmod)))
    rw [w1, w2, htc] at c1
    obtain ⟨st2, h2⟩ := ih st1 (by rw [c2, w1, htc]) (fun i h0 hi => by
      rw [c3 i]
      exact w3 i h0 (hready i h0 hi))
    refine ⟨st2, ?_⟩
    simp only [schedule_passes, hs, h2]
    rw [List.range_succ_eq_map, List.map_cons, List.map_map, c1]
    simp only [Nat.add_zero, Option.some.injEq, Prod.mk.injEq, List.cons.injEq, true_and,
      and_true]
    apply List.map_congr_left
    intro m _
    simp only [Function.comp]
    rw [Nat.add_assoc ((st.current_thread + 1) % N), Nat.mod_add_mod]
    congr 1
    omega

/-- C30. For every table of `N ≥ 1` threads in which the threads other than thread 0 are
READY and stay READY through whatever the running thread does between two passes
(thread 0 may be in any state), and for every current handle: `N` successive
calls of `schedule` select the handles `(current + 1 + m) mod N` for
`m = 0, …, N - 1`, so each pass selects the handle after the one selected by the
pass before, and the `N` selections are the handles `0, …, N - 1`, each exactly
once. -/
theorem round_robin_fairness (st : Runtime) (work : Runtime → Runtime) (call_site : jmp_buf)
    (hN : 1 ≤ st.thread_count) (hcap : st.thread_count ≤ MAX_THREADS)
    (hready : ∀ i, 0 < i → i < st.thread_count → (st.tcb i).state = READY)
    (hwork : ∀ s, (work s).thread_count = s.thread_count ∧
      (work s).current_thread = s.current_thread ∧
      ∀ i, 0 < i → (s.tcb i).state = READY → ((work s).tcb i).state = READY) :
    ∃ st2, schedule_passes work call_site st.thread_count st =
        some ((List.range st.thread_count).map
          (fun m => (st.current_thread + 1 + m) % st.thread_count), st2) ∧
      ((List.range st.thread_count).map
        (fun m => (st.current_thread + 1 + m) % st.thread_count)).Perm
          (List.range st.thread_count) := by
  have _ := hcap
  obtain ⟨st2, h⟩ := schedule_passes_order work call_site st.thread_count hN hwork
    st.thread_count st rfl hready
  exact ⟨st2, h, turn_order_perm _ _⟩

/-- Witness for C30: three READY threads, current thread 1, nothing done between the
passes: the passes select 2, 0, 1. -/
theorem round_robin_fairness_witness :
    ∃ st2, schedule_passes id jmp_buf.at_signal 3
        { init with
          tcb := fun i => { zero_tcb with id := i, state := READY }
          thread_count := 3
          current_thread := 1 } = some ([2, 0, 1], st2) ∧
      List.Perm [2, 0, 1] (List.range 3) :=
  round_robin_fairness
    { init with
      tcb := fun i => { zero_tcb with id := i, state := READY }
      thread_count := 3
      current_thread := 1 } id jmp_buf.at_signal (by decide) (by decide)
    (fun _ _ _ => rfl) (fun _ => ⟨rfl, rfl, fun _ _ h => h⟩)

/-! ## The states that the library writes -/

theorem Quiet.refl (tcb : Nat → thread_control_block) : Quiet tcb tcb := fun _ => Or.inl rfl

theorem Quiet.trans {a b c : Nat → thread_control_block} (h1 : Quiet a b) (h2 : Quiet b c) :
    Quiet a c := by
  intro i
  rcases h2 i with g | g
  · rw [g]; exact h1 i
  · exact Or.inr g

/-- Two tables with the same states. -/
theorem Quiet.of_states {a b : Nat → thread_control_block}
    (h : ∀ i, (b i).state = (a i).state) : Quiet a b := fun i => Or.inl (h i)

/-- Storing a TCB whose state is READY, EXITED or BLOCKED, or the one it replaces. -/
theorem Quiet.update (tcb : Nat → thread_control_block) (k : Nat) (t : thread_control_block)
    (h : t.state = (tcb k).state ∨ t.state = READY ∨ t.state = EXITED ∨ t.state = BLOCKED) :
    Quiet tcb (Function.update tcb k t) := by
  intro i
  by_cases hi : i = k
  · subst hi
    rw [Function.update_same]
    exact h
  · rw [Function.update_noteq hi]
    exact Or.inl rfl

/-- A jump changes no state. -/
theorem jump_states (m st2 : Runtime) (site : jmp_buf)
    (h : (jump (schedule m site)).runtime = some st2) :
    ∀ i, (st2.tcb i).state = (m.tcb i).state := by
  obtain ⟨e1, -⟩ := schedule_effect m st2 site (jump_runtime m st2 site h)
  intro i
  rw [e1]
  exact state_update_context m.tcb m.current_thread i site

theorem pthread_exit_guarded_quiet (st : Runtime) (v : Nat) :
    Quiet st.tcb (pthread_exit_guarded st v).tcb := by
  have h1 : Quiet st.tcb (Function.update st.tcb st.current_thread
      { st.tcb st.current_thread with exit_value := v }) :=
    Quiet.update _ _ _ (Or.inl rfl)
  have h2 : Quiet (Function.update st.tcb st.current_thread
      { st.tcb st.current_thread with exit_value := v })
      (Function.update (Function.update st.tcb st.current_thread
        { st.tcb st.current_thread with exit_value := v }) st.current_thread
        { (Function.update st.tcb st.current_thread
          { st.tcb st.current_thread with exit_value := v }) st.current_thread with
          state := EXITED }) :=
    Quiet.update _ _ _ (Or.inr (Or.inr (Or.inl rfl)))
  have h3 : ∀ t : Nat → thread_control_block,
      Quiet t (unblock_loop st.current_thread st.thread_count t) := by
    intro t i
    rcases unblock_foldl_spec st.current_thread (List.range st.thread_count) t i with
      g | ⟨-, -, -, g⟩
    · left
      show ((List.range st.thread_count).foldl (unblock_step st.current_thread) t i).state = _
      rw [g]
    · right; left
      show ((List.range st.thread_count).foldl (unblock_step st.current_thread) t i).state = _
      rw [g]
  exact (h1.trans h2).trans (h3 _)

theorem pthread_join_loop_quiet (st st2 : Runtime) (t : Nat) (vp : Bool)
    (h : (pthread_join_loop st t vp).runtime = some st2) : Quiet st.tcb st2.tcb := by
  simp only [pthread_join_loop] at h
  split at h
  · have g := jump_states _ st2 _ h
    exact (Quiet.update st.tcb st.current_thread
      { st.tcb st.current_thread with state := BLOCKED }
      (Or.inr (Or.inr (Or.inr rfl)))).trans (Quiet.of_states g)
  · simp only [Outcome.runtime, Option.some.injEq] at h
    subst h
    exact Quiet.refl _

/-- Every step writes READY, EXITED or BLOCKED where it writes a state at all. -/
theorem exec_quiet (st st2 : Runtime) (c : Call) (h : (exec st c).runtime = some st2) :
    Quiet st.tcb st2.tcb := by
  cases c with
  | create f a mr =>
    simp only [exec, pthread_create] at h
    split at h
    · simp only [Outcome.runtime, Option.some.injEq] at h
      subst h; exact Quiet.refl _
    · have ha : Quiet st.tcb (pthread_create_alloc st mr).tcb :=
        (Quiet.update st.tcb st.thread_count { st.tcb st.thread_count with id := st.thread_count }
          (Or.inl rfl)).trans (Quiet.update _ st.thread_count _ (Or.inl (by simp)))
      split at h
      · simp only [Outcome.runtime, Option.some.injEq] at h
        subst h; exact ha
      · have g := jump_states _ st2 _ h
        refine (ha.trans ?_).trans (Quiet.of_states g)
        intro i
        by_cases hi : i = st.thread_count
        · right; left
          subst hi
          simp [pthread_create_setup, pthread_create_alloc]
        · left
          rw [pthread_create_setup_agree (pthread_create_alloc st mr) f a i hi]
  | exit v =>
    simp only [exec, pthread_exit] at h
    exact (pthread_exit_guarded_quiet st v).trans (Quiet.of_states (jump_states _ st2 _ h))
  | join t vp =>
    simp only [exec, pthread_join] at h
    split at h
    · simp only [Outcome.runtime, Option.some.injEq] at h
      subst h; exact Quiet.refl _
    · exact pthread_join_loop_quiet (lock st) st2 _ vp h
  | sem_init v ok =>
    simp only [exec] at h
    rcases sem_init_cases st v ok with ⟨-, he⟩ | ⟨-, -, he⟩ <;>
      (rw [he] at h
       simp only [Outcome.runtime, Option.some.injEq] at h
       subst h; exact Quiet.refl _)
  | sem_wait sem =>
    simp only [exec, sem_wait] at h
    split at h
    · simp only [Outcome.runtime, Option.some.injEq] at h
      subst h; exact Quiet.refl _
    · split at h
      · simp only [Outcome.runtime, Option.some.injEq] at h
        subst h; exact Quiet.refl _
      · split at h
        · simp [Outcome.runtime] at h
        · have g := jump_states _ st2 _ h
          exact (Quiet.update st.tcb st.current_thread
            { st.tcb st.current_thread with state := BLOCKED }
            (Or.inr (Or.inr (Or.inr rfl)))).trans (Quiet.of_states g)
  | sem_post sem =>
    simp only [exec, sem_post] at h
    split at h
    · simp only [Outcome.runtime, Option.some.injEq] at h
      subst h; exact Quiet.refl _
    · split at h
      · simp only [Outcome.runtime, Option.some.injEq] at h
        subst h
        exact Quiet.update st.tcb _ _ (Or.inr (Or.inl rfl))
      · split at h
        · simp [Outcome.runtime] at h
        · simp only [Outcome.runtime, Option.some.injEq] at h
          subst h; exact Quiet.refl _
  | sem_destroy sem =>
    simp only [exec, sem_destroy] at h
    split at h <;>
      (simp only [Outcome.runtime, Option.some.injEq] at h
       subst h; exact Quiet.refl _)
  | alarm =>
    simp only [exec, alarm] at h
    split at h
    · simp only [Outcome.runtime, Option.some.injEq] at h
      subst h; exact Quiet.refl _
    · have g := jump_states _ st2 _ h
      exact Quiet.of_states g
  | resume =>
    simp only [exec, resume] at h
    split at h
    · simp [Outcome.runtime] at h
    all_goals first
      | exact pthread_join_loop_quiet (lock st) st2 _ _ h
      | (simp only [Outcome.runtime, Option.some.injEq] at h
         subst h; exact Quiet.refl _)

/-- In every state reached by a run from the initial state no TCB other than `tcb[0]`
has state RUNNING. -/
theorem run_not_running : ∀ (cs : List Call) (st st2 : Runtime),
    (∀ i, i ≠ 0 → (st.tcb i).state ≠ RUNNING) → run st cs = some st2 →
    ∀ i, i ≠ 0 → (st2.tcb i).state ≠ RUNNING := by
  intro cs
  induction cs with
  | nil =>
    intro st st2 h0 h
    simp only [run, Option.some.injEq] at h
    subst h; exact h0
  | cons c cs ih =>
    intro st st2 h0 h
    simp only [run] at h
    cases hr : (exec st c).runtime with
    | none => rw [hr] at h; simp at h
    | some st1 =>
      rw [hr] at h
      apply ih st1 st2 _ h
      intro i hi
      rcases exec_quiet st st1 c hr i with g | g | g | g
      · rw [g]; exact h0 i hi
      · rw [g]; decide
      · rw [g]; decide
      · rw [g]; decide

theorem init_not_running : ∀ i, i ≠ 0 → (init.tcb i).state ≠ RUNNING := by
  intro i hi
  simp [init, Function.update_noteq hi, zero_tcb, RUNNING]

/-- C31. In every state reached from the initial state by any sequence of library calls,
timer signals and continuations, no TCB other than `tcb[0]` has state RUNNING;
so two slots below `thread_count` that are both RUNNING are the same slot. -/
theorem at_most_one_running (cs : List Call) (st : Runtime) (hrun : run init cs = some st) :
    (∀ i, i ≠ 0 → (st.tcb i).state ≠ RUNNING) ∧
    ∀ i j, i < st.thread_count → j < st.thread_count →
      (st.tcb i).state = RUNNING → (st.tcb j).state = RUNNING → i = j := by
  have h := run_not_running cs init st init_not_running hrun
  refine ⟨h, fun i j _ _ hi hj => ?_⟩
  have h1 : i = 0 := by
    by_contra hne
    exact h i hne hi
  have h2 : j = 0 := by
    by_contra hne
    exact h j hne hj
  rw [h1, h2]

/-- Witness for C31: the state at the end of the run `three_threads`. -/
theorem at_most_one_running_witness :
    ∃ st, run init three_threads = some st ∧ ∀ i, i ≠ 0 → (st.tcb i).state ≠ RUNNING :=
  ⟨_, rfl, (at_most_one_running three_threads _ rfl).1⟩

/-- C32, counterexample. After the first call of `pthread_create` the scheduler has
selected thread 1: it is the current thread with state READY, and `tcb[0]`, which
is not running, has state RUNNING. When the timer then preempts thread 1 and the
scheduler selects thread 0, the state of thread 0 is still RUNNING and that of
thread 1 still READY. -/
theorem running_is_not_current :
    (run init [Call.create 100 0 1000]).map
        (fun st => (st.current_thread, (st.tcb 1).state, (st.tcb 0).state)) =
      some (1, READY, RUNNING) ∧
    selections init [Call.create 100 0 1000, Call.resume, Call.alarm] = [1, 0] ∧
    (run init [Call.create 100 0 1000, Call.resume, Call.alarm]).map
        (fun st => (st.current_thread, (st.tcb 1).state, (st.tcb 0).state)) =
      some (0, READY, RUNNING) := by
  decide

/-- C32 as the code has it. The scheduler writes no state. In every state reached by a
run from the initial state the current thread is thread 0 or has state READY, and
no TCB other than `tcb[0]` has state RUNNING (the constructor `init` is the only
writer of RUNNING); a call of `schedule` leaves the state of every TCB as it is,
the selected and the preempted thread included, and the thread it selects is
thread 0 or has state READY. -/
theorem scheduler_keeps_states (cs : List Call) (st : Runtime) (hrun : run init cs = some st) :
    (st.current_thread = 0 ∨ (st.tcb st.current_thread).state = READY) ∧
    (∀ i, i ≠ 0 → (st.tcb i).state ≠ RUNNING) ∧
    (∀ call_site st2, schedule st call_site = some st2 →
      (∀ i, (st2.tcb i).state = (st.tcb i).state) ∧
      (st2.current_thread = 0 ∨ (st2.tcb st2.current_thread).state = READY)) := by
  have hinv := reachable_inv cs st hrun
  refine ⟨hinv.current_ready, run_not_running cs init st init_not_running hrun,
    fun site st2 hs => ?_⟩
  obtain ⟨e1, -⟩ := schedule_effect st st2 site hs
  have hst : ∀ i, (st2.tcb i).state = (st.tcb i).state := by
    intro i
    rw [e1]
    exact state_update_context st.tcb st.current_thread i site
  exact ⟨hst, (schedule_inv st st2 site hinv.table hinv.current_lt hs).1.current_ready⟩

/-- Witness for C32 as the code has it: the state after the first call of
`pthread_create`, in which thread 1 runs. -/
theorem scheduler_keeps_states_witness :
    ∃ st, run init [Call.create 100 0 1000] = some st ∧
      (st.current_thread = 0 ∨ (st.tcb st.current_thread).state = READY) ∧
      (∀ i, i ≠ 0 → (st.tcb i).state ≠ RUNNING) :=
  ⟨_, rfl, (scheduler_keeps_states [Call.create 100 0 1000] _ rfl).1,
    (scheduler_keeps_states [Call.create 100 0 1000] _ rfl).2.1⟩

set_option maxHeartbeats 4000000 in
/-- C33 (defect in the code). In the run `bootstrap_exits` thread 0 has called `sem_wait`,
was selected again without a post, and has exited with value 7: after eleven
steps `tcb[0]` is EXITED with exit value 7 and thread 1 is running. Thread 1 then
calls `sem_post`, which returns 0 and finds the entry that thread 0 left in the
wait queue: afterwards the state of `tcb[0]` is READY. -/
theorem sem_post_revives_exited_bootstrap :
    (run init (List.take 11 bootstrap_exits)).map
        (fun st => ((st.tcb 0).state, (st.tcb 0).exit_value, st.current_thread)) =
      some (EXITED, 7, 1) ∧
    returns init bootstrap_exits =
      [some 0, none, none, none, some 0, none, none, none, some 0, none, none, some 0] ∧
    (run init bootstrap_exits).map
        (fun st => ((st.tcb 0).state, (st.tcb 0).exit_value)) = some (READY, 7) := by
  refine ⟨by rfl, by rfl, by rfl⟩

/-- C34 (defect in the code). The call `sem_init` with the initial value 2147483648 returns
0 and creates a semaphore whose count is -2147483648 with an empty queue; a
`sem_wait` on it does not take a unit but puts the caller in the queue. -/
theorem sem_init_negative_count :
    (sem_init init (2 ^ 31) true).ret = some 0 ∧
    ((sem_init init (2 ^ 31) true).runtime.bind
      (fun st => (st.semaphore_array 0).map (fun c => (c.value, c.wait_count)))) =
        some (-(2 ^ 31), 0) ∧
    (run init [Call.sem_init (2 ^ 31) true, Call.sem_wait 0]).bind
      (fun st => (st.semaphore_array 0).map (fun c => (c.value, queue c))) =
        some (-(2 ^ 31), [0]) := by
  decide

/-- C39 (defect in the code). The function `pthread_create` has no guarded block. In the
initial state SIGALRM is not blocked, and it is not blocked either in the state in
which `pthread_create` calls `schedule`, after it has written the state READY into
the new TCB. In the run `preempted_create` the timer then gives control back to
thread 0 by a jump out of the signal handler, and the call of `pthread_create`
returns 0 with SIGALRM blocked. -/
theorem pthread_create_is_unguarded :
    init.alarm_blocked = false ∧
    (pthread_create_setup (pthread_create_alloc init 1000) 100 0).alarm_blocked = false ∧
    ((pthread_create_setup (pthread_create_alloc init 1000) 100 0).tcb 1).state = READY ∧
    returns init preempted_create = [none, none, none, some 0] ∧
    (run init preempted_create).map (fun st => (st.current_thread, st.alarm_blocked)) =
      some (0, true) := by
  decide

set_option maxRecDepth 1000000 in
set_option maxHeartbeats 40000000 in
/-- C40 (defect in the code). The bootstrap thread, alone in the table, calls `sem_wait` on
a semaphore with count 0. Every call returns 0 at once, because `schedule` selects
thread 0 whatever its state, and leaves handle 0 in the queue: after two calls
the queue is `[0, 0]`; after 128 calls `wait_count` is 128; and call 129 stores at
`waiting_threads[128]`, outside the array. -/
theorem wait_queue_overflows :
    returns init (bootstrap_waits 2) = [some 0, none, some 0, none, some 0] ∧
    (run init (bootstrap_waits 2)).bind (fun st => (st.semaphore_array 0).map queue) =
      some [0, 0] ∧
    (run init (bootstrap_waits 128)).bind
      (fun st => (st.semaphore_array 0).map (fun c => (st.thread_count, c.wait_count))) =
        some (1, 128) ∧
    (run init (bootstrap_waits 128 ++ [Call.sem_wait 0])).isNone = true := by
  refine ⟨by rfl, by rfl, by rfl, by rfl⟩

/-! ## Counts and wait queues -/

theorem CountsOk.of_eq {st st2 : Runtime} (h : CountsOk st)
    (he : st2.semaphore_array = st.semaphore_array) : CountsOk st2 := by
  intro s csem hs
  rw [he] at hs
  exact h s csem hs

theorem CountsOk.update_entry {st : Runtime} (h : CountsOk st) (sa : Nat → Option custom_semaphore)
    (i : Nat) (x : Option custom_semaphore)
    (hsa : sa = Function.update st.semaphore_array i x)
    (hx : ∀ csem, x = some csem → 0 ≤ csem.value ∧ (0 < csem.value → csem.wait_count = 0)) :
    ∀ s csem, sa s = some csem → 0 ≤ csem.value ∧ (0 < csem.value → csem.wait_count = 0) := by
  intro s csem hs
  rw [hsa] at hs
  by_cases hsi : s = i
  · rw [hsi, Function.update_same] at hs
    exact hx csem hs
  · rw [Function.update_noteq hsi] at hs
    exact h s csem hs

/-- Every step keeps the counts non-negative and the queues of positive counts empty,
when a call of `sem_init` has a value below 2^31. -/
theorem exec_counts_ok (st st2 : Runtime) (c : Call) (hok : CountsOk st)
    (hv : ∀ v ok, c = Call.sem_init v ok → v < 2 ^ 31)
    (h : (exec st c).runtime = some st2) : CountsOk st2 := by
  cases c with
  | create f a mr => exact hok.of_eq (pthread_create_frame st st2 f a mr h).1
  | exit v => exact hok.of_eq (pthread_exit_frame st st2 v h).1
  | join t vp => exact hok.of_eq (pthread_join_frame st st2 t vp h).1
  | alarm => exact hok.of_eq (alarm_frame st st2 h).1
  | resume => exact hok.of_eq (resume_frame st st2 h).1
  | sem_init v ok =>
    simp only [exec] at h
    rcases sem_init_cases st v ok with ⟨-, he⟩ | ⟨-, -, he⟩
    · rw [he] at h
      simp only [Outcome.runtime, Option.some.injEq] at h
      subst h; exact hok
    · rw [he] at h
      simp only [Outcome.runtime, Option.some.injEq] at h
      subst h
      refine hok.update_entry _ st.next_semaphore_id _ rfl ?_
      intro csem hc
      simp only [Option.some.injEq] at hc
      subst hc
      refine ⟨?_, fun _ => rfl⟩
      show 0 ≤ to_int v
      rw [to_int_of_lt v (hv v ok rfl)]
      exact Int.natCast_nonneg _
  | sem_wait sem =>
    simp only [exec, sem_wait] at h
    cases hl : sem_lookup st sem with
    | none =>
      rw [hl] at h
      simp only [Outcome.runtime, Option.some.injEq] at h
      subst h; exact hok
    | some p =>
      obtain ⟨i, csem⟩ := p
      obtain ⟨hi, -⟩ := sem_lookup_spec st sem i csem hl
      obtain ⟨k1, k2⟩ := hok i csem hi
      rw [hl] at h
      simp only at h
      split at h
      · rename_i hpos
        simp only [Outcome.runtime, Option.some.injEq] at h
        subst h
        refine hok.update_entry _ i _ rfl ?_
        intro c2 hc
        simp only [Option.some.injEq] at hc
        subst hc
        exact ⟨by show 0 ≤ csem.value - 1; omega, fun _ => k2 hpos⟩
      · rename_i hnp
        split at h
        · simp [Outcome.runtime] at h
        · obtain ⟨e1, -, -⟩ := jump_frame _ st2 _ h
          intro s c2 hs
          rw [e1] at hs
          refine hok.update_entry _ i _ rfl ?_ s c2 hs
          intro c3 hc
          simp only [Option.some.injEq] at hc
          subst hc
          exact ⟨k1, fun hp => absurd hp hnp⟩
  | sem_post sem =>
    simp only [exec, sem_post] at h
    cases hl : sem_lookup st sem with
    | none =>
      rw [hl] at h
      simp only [Outcome.runtime, Option.some.injEq] at h
      subst h; exact hok
    | some p =>
      obtain ⟨i, csem⟩ := p
      obtain ⟨hi, -⟩ := sem_lookup_spec st sem i csem hl
      obtain ⟨k1, k2⟩ := hok i csem hi
      rw [hl] at h
      simp only at h
      split at h
      · rename_i hw
        simp only [Outcome.runtime, Option.some.injEq] at h
        subst h
        refine hok.update_entry _ i _ rfl ?_
        intro c2 hc
        simp only [Option.some.injEq] at hc
        subst hc
        refine ⟨k1, fun hp => ?_⟩
        have := k2 hp
        omega
      · rename_i hw
        split at h
        · simp [Outcome.runtime] at h
        · simp only [Outcome.runtime, Option.some.injEq] at h
          subst h
          refine hok.update_entry _ i _ rfl ?_
          intro c2 hc
          simp only [Option.some.injEq] at hc
          subst hc
          exact ⟨by show 0 ≤ csem.value + 1; omega,
            fun _ => by show csem.wait_count = 0; omega⟩
  | sem_destroy sem =>
    simp only [exec, sem_destroy] at h
    cases hl : sem_lookup st sem with
    | none =>
      rw [hl] at h
      simp only [Outcome.runtime, Option.some.injEq] at h
      subst h; exact hok
    | some p =>
      obtain ⟨i, csem⟩ := p
      rw [hl] at h
      simp only [Outcome.runtime, Option.some.injEq] at h
      subst h
      refine hok.update_entry _ i _ rfl ?_
      intro c2 hc
      simp at hc

/-- In a run whose calls of `sem_init` have values below 2^31, every semaphore has a
count that is not negative, and a positive count comes with an empty queue. -/
theorem run_counts_ok : ∀ (cs : List Call) (st st2 : Runtime), CountsOk st →
    (∀ v ok, Call.sem_init v ok ∈ cs → v < 2 ^ 31) → run st cs = some st2 → CountsOk st2 := by
  intro cs
  induction cs with
  | nil =>
    intro st st2 hok _ h
    simp only [run, Option.some.injEq] at h
    rw [← h]; exact hok
  | cons c cs ih =>
    intro st st2 hok hv h
    simp only [run] at h
    cases hr : (exec st c).runtime with
    | none => rw [hr] at h; simp at h
    | some s =>
      rw [hr] at h
      exact ih s st2
        (exec_counts_ok st s c hok (fun v ok e => hv v ok (by rw [e]; exact List.mem_cons_self _ _))
          hr)
        (fun v ok hm => hv v ok (List.mem_cons_of_mem _ hm)) h

theorem init_counts_ok : CountsOk init := fun s csem h => by simp [init] at h

end HW3
end EC440

namespace EC440
namespace HW4

/-! ## Thread-local storage -/

/-- The protection loops change protections only. -/
theorem unprotect_loop_frame (pages : Nat → Nat) :
    ∀ (n i : Nat) (st : Storage),
      (unprotect_loop pages n i st).heap = st.heap ∧
      (unprotect_loop pages n i st).mem = st.mem ∧
      (unprotect_loop pages n i st).page_size = st.page_size ∧
      (unprotect_loop pages n i st).hash_table = st.hash_table ∧
      (unprotect_loop pages n i st).brk = st.brk ∧
      (unprotect_loop pages n i st).initialized = st.initialized := by
  intro n
  induction n with
  | zero => intro i st; exact ⟨rfl, rfl, rfl, rfl, rfl, rfl⟩
  | succ n ih =>
    intro i st
    simp only [unprotect_loop]
    exact ih (i + 1) (tls_unprotect st (pages i))

theorem protect_loop_frame (pages : Nat → Nat) :
    ∀ (n i : Nat) (st : Storage),
      (protect_loop pages n i st).heap = st.heap ∧
      (protect_loop pages n i st).mem = st.mem ∧
      (protect_loop pages n i st).page_size = st.page_size ∧
      (protect_loop pages n i st).hash_table = st.hash_table ∧
      (protect_loop pages n i st).brk = st.brk ∧
      (protect_loop pages n i st).initialized = st.initialized := by
  intro n
  induction n with
  | zero => intro i st; exact ⟨rfl, rfl, rfl, rfl, rfl, rfl⟩
  | succ n ih =>
    intro i st
    simp only [protect_loop]
    exact ih (i + 1) (tls_protect st (pages i))

/-- Well-formedness of a page array depends on the heap and the allocator only. -/
theorem PagesOk.congr {st st2 : Storage} {n : Nat} {pages : Nat → Nat}
    (h : PagesOk st n pages) (hh : st2.heap = st.heap) (hb : st2.brk = st.brk) :
    PagesOk st2 n pages :=
  ⟨h.inj, fun i hi => by rw [hb]; exact h.below i hi, fun i hi => by rw [hh]; exact h.live i hi⟩

/-- The element found by the chain walk carries the `tid` that was looked for. -/
theorem find_element_tid : ∀ (l : List hash_element) (tid : Nat) (e : hash_element),
    find_element l tid = some e → e.tid = tid := by
  intro l
  induction l with
  | nil => intro tid e h; simp [find_element] at h
  | cons a l ih =>
    intro tid e h
    simp only [find_element] at h
    split at h
    · rename_i ha
      simp only [Option.some.injEq] at h
      subst h; exact ha
    · exact ih tid e h

/-- After `set_tls` the chain walk for the same `tid` finds the element with the new
segment record. -/
theorem find_element_set_tls_same : ∀ (l : List hash_element) (tid : Nat) (tls : TLS)
    (e : hash_element), find_element l tid = some e →
    find_element (set_tls tid tls l) tid = some { e with tls := tls } := by
  intro l
  induction l with
  | nil => intro tid tls e h; simp [find_element] at h
  | cons a l ih =>
    intro tid tls e h
    simp only [find_element] at h
    by_cases ha : a.tid = tid
    · rw [if_pos ha] at h
      simp only [Option.some.injEq] at h
      subst h
      simp [set_tls, ha, find_element]
    · rw [if_neg ha] at h
      simp only [set_tls, if_neg ha, find_element]
      exact ih tid tls e h

/-- The chain walk for another `tid` does not see `set_tls`. -/
theorem find_element_set_tls_other : ∀ (l : List hash_element) (tid tid2 : Nat) (tls : TLS),
    tid2 ≠ tid → find_element (set_tls tid tls l) tid2 = find_element l tid2 := by
  intro l
  induction l with
  | nil => intro tid tid2 tls _; rfl
  | cons a l ih =>
    intro tid tid2 tls hne
    by_cases ha : a.tid = tid
    · have ha2 : ¬ a.tid = tid2 := fun h => hne (h.symm.trans ha)
      simp only [set_tls, if_pos ha, find_element]
      rw [if_neg ha2, if_neg ha2]
    · simp only [set_tls, if_neg ha, find_element]
      rw [ih tid tid2 tls hne]

/-- The two ways one iteration of the store loop of `tls_write` can go. -/
theorem write_step_cases (page_num offset : Nat) (buffer : Nat → Nat) (i : Nat)
    (pages : Nat → Nat) (st : Storage) (pages2 : Nat → Nat) (st2 : Storage)
    (h : write_step page_num offset buffer i (pages, st) = some (pages2, st2)) :
    ((offset + i) % 2 ^ 32) / st.page_size < page_num ∧
    ∃ pg, st.heap (pages (((offset + i) % 2 ^ 32) / st.page_size)) = some pg ∧
      ((pg.ref_count > 1 ∧
          pages2 = Function.update pages (((offset + i) % 2 ^ 32) / st.page_size) st.brk ∧
          st2.heap = Function.update
            (Function.update st.heap st.brk
              (some { address := (st.brk + 1) * st.page_size, ref_count := 1 }))
            (pages (((offset + i) % 2 ^ 32) / st.page_size))
            (some { pg with ref_count := pg.ref_count - 1 }) ∧
          st2.mem = Function.update st.mem st.brk
            (Function.update (st.mem (pages (((offset + i) % 2 ^ 32) / st.page_size)))
              (((offset + i) % 2 ^ 32) % st.page_size) (buffer i)) ∧
          st2.brk = st.brk + 1) ∨
        (¬ pg.ref_count > 1 ∧ pages2 = pages ∧ st2.heap = st.heap ∧
          st2.mem = Function.update st.mem (pages (((offset + i) % 2 ^ 32) / st.page_size))
            (Function.update (st.mem (pages (((offset + i) % 2 ^ 32) / st.page_size)))
              (((offset + i) % 2 ^ 32) % st.page_size) (buffer i)) ∧
          st2.brk = st.brk)) ∧
      st2.page_size = st.page_size ∧ st2.hash_table = st.hash_table ∧
      st2.initialized = st.initialized := by
  simp only [write_step] at h
  split at h
  · rename_i hk
    refine ⟨hk, ?_⟩
    split at h
    · simp at h
    · rename_i pg hpg
      refine ⟨pg, hpg, ?_⟩
      split at h
      · rename_i hrc
        simp only [Option.some.injEq, Prod.mk.injEq] at h
        obtain ⟨h1, h2⟩ := h
        subst h1 h2
        refine ⟨Or.inl ⟨hrc, rfl, rfl, ?_, rfl⟩, rfl, rfl, rfl⟩
        simp
      · rename_i hrc
        simp only [Option.some.injEq, Prod.mk.injEq] at h
        obtain ⟨h1, h2⟩ := h
        subst h1 h2
        exact ⟨Or.inr ⟨hrc, rfl, rfl, rfl, rfl⟩, rfl, rfl, rfl⟩
  · simp at h

/-- A byte offset is determined by its page index and its offset in the page. -/
theorem eq_of_div_mod (x y ps : Nat) (h1 : x / ps = y / ps) (h2 : x % ps = y % ps) : x = y := by
  rw [← Nat.div_add_mod x ps, ← Nat.div_add_mod y ps, h1, h2]

/-- One iteration of the store loop keeps the page array well formed, stores `buffer[i]`
in the cell it addresses and leaves every other cell of the segment as it was; a
page that is not the one written, or whose `ref_count` is above 1, keeps its
contents, and page objects are only added. -/
theorem write_step_spec (page_num offset : Nat) (buffer : Nat → Nat) (i : Nat)
    (pages : Nat → Nat) (st : Storage) (pages2 : Nat → Nat) (st2 : Storage)
    (h : write_step page_num offset buffer i (pages, st) = some (pages2, st2))
    (hok : PagesOk st page_num pages) :
    ((offset + i) % 2 ^ 32) / st.page_size < page_num ∧
    PagesOk st2 page_num pages2 ∧
    st2.page_size = st.page_size ∧ st2.hash_table = st.hash_table ∧ st.brk ≤ st2.brk ∧
    (∀ x, x / st.page_size < page_num →
      cell st2 pages2 x = if x = (offset + i) % 2 ^ 32 then buffer i else cell st pages x) ∧
    (∀ q, q < st.brk →
      (q ≠ pages (((offset + i) % 2 ^ 32) / st.page_size) ∨
        ∃ pg, st.heap q = some pg ∧ 1 < pg.ref_count) →
      st2.mem q = st.mem q) ∧
    (∀ q, q < st.brk → q ≠ pages (((offset + i) % 2 ^ 32) / st.page_size) →
      st2.heap q = st.heap q) ∧
    (∀ q, (∃ pg, st.heap q = some pg) → ∃ pg, st2.heap q = some pg) ∧
    (∀ j, j < page_num → pages2 j < st.brk →
      pages2 j = pages j ∧ st2.heap (pages2 j) = st.heap (pages j)) := by
  obtain ⟨hk, pg, hpg, hcase, hps, hht, -⟩ :=
    write_step_cases page_num offset buffer i pages st pages2 st2 h
  generalize hX : (offset + i) % 2 ^ 32 = X at *
  generalize hkk : X / st.page_size = k at *
  have hpb : pages k < st.brk := hok.below k hk
  rcases hcase with ⟨hrc, hp2, hheap, hmem, hbrk⟩ | ⟨hrc, hp2, hheap, hmem, hbrk⟩
  · -- copy-on-write
    have hne : st.brk ≠ pages k := by omega
    refine ⟨hk, ⟨?_, ?_, ?_⟩, hps, hht, by omega, ?_, ?_, ?_, ?_, ?_⟩
    · intro a b ha hb hab
      rw [hp2] at hab
      by_cases hak : a = k
      · by_cases hbk : b = k
        · rw [hak, hbk]
        · exfalso
          rw [hak, Function.update_same, Function.update_noteq hbk] at hab
          have := hok.below b hb
          omega
      · by_cases hbk : b = k
        · exfalso
          rw [hbk, Function.update_same, Function.update_noteq hak] at hab
          have := hok.below a ha
          omega
        · rw [Function.update_noteq hak, Function.update_noteq hbk] at hab
          exact hok.inj a b ha hb hab
    · intro a ha
      rw [hp2, hbrk]
      by_cases hak : a = k
      · rw [hak, Function.update_same]; omega
      · rw [Function.update_noteq hak]
        have := hok.below a ha
        omega
    · intro a ha
      rw [hp2, hheap]
      by_cases hak : a = k
      · rw [hak, Function.update_same, Function.update_noteq hne, Function.update_same]
        exact ⟨_, rfl⟩
      · rw [Function.update_noteq hak]
        have hinj : pages a ≠ pages k := fun e => hak (hok.inj a k ha hk e)
        have hb : pages a ≠ st.brk := by
          have := hok.below a ha
          omega
        rw [Function.update_noteq hinj, Function.update_noteq hb]
        exact hok.live a ha
    · intro x hx
      simp only [cell, hps, hp2, hmem]
      by_cases hxk : x / st.page_size = k
      · rw [hxk, Function.update_same, Function.update_same]
        by_cases hxo : x % st.page_size = X % st.page_size
        · have : x = X := eq_of_div_mod x X st.page_size (hxk.trans hkk.symm) hxo
          rw [if_pos this, hxo, Function.update_same]
        · have : x ≠ X := fun e => hxo (by rw [e])
          rw [if_neg this, Function.update_noteq hxo]
      · have : x ≠ X := fun e => hxk (by rw [e, hkk])
        rw [if_neg this, Function.update_noteq hxk]
        have hb : pages (x / st.page_size) ≠ st.brk := by
          have := hok.below _ hx
          omega
        rw [Function.update_noteq hb]
    · intro q hq _
      rw [hmem, Function.update_noteq (by omega)]
    · intro q hq hqp
      rw [hheap, Function.update_noteq hqp, Function.update_noteq (by omega)]
    · intro q ⟨pg2, hq⟩
      rw [hheap]
      by_cases hqp : q = pages k
      · rw [hqp, Function.update_same]; exact ⟨_, rfl⟩
      · rw [Function.update_noteq hqp]
        by_cases hqb : q = st.brk
        · rw [hqb, Function.update_same]; exact ⟨_, rfl⟩
        · rw [Function.update_noteq hqb]; exact ⟨pg2, hq⟩
    · intro j hj hjb
      rw [hp2] at hjb ⊢
      by_cases hjk : j = k
      · exfalso
        rw [hjk, Function.update_same] at hjb
        omega
      · rw [Function.update_noteq hjk] at hjb ⊢
        have hinj : pages j ≠ pages k := fun e => hjk (hok.inj j k hj hk e)
        rw [hheap, Function.update_noteq hinj, Function.update_noteq (by omega)]
        exact ⟨rfl, rfl⟩
  · -- store in place
    refine ⟨hk, ?_, hps, hht, by omega, ?_, ?_, ?_, ?_, ?_⟩
    · rw [hp2]; exact hok.congr hheap hbrk
    · intro x hx
      simp only [cell, hps, hp2, hmem]
      by_cases hxk : x / st.page_size = k
      · rw [hxk, Function.update_same]
        by_cases hxo : x % st.page_size = X % st.page_size
        · have : x = X := eq_of_div_mod x X st.page_size (hxk.trans hkk.symm) hxo
          rw [if_pos this, hxo, Function.update_same]
        · have : x ≠ X := fun e => hxo (by rw [e])
          rw [if_neg this, Function.update_noteq hxo]
      · have : x ≠ X := fun e => hxk (by rw [e, hkk])
        rw [if_neg this]
        have hinj : pages (x / st.page_size) ≠ pages k := fun e => hxk (hok.inj _ k hx hk e)
        rw [Function.update_noteq hinj]
    · intro q _ hq
      rw [hmem]
      rcases hq with hq | ⟨pg2, hq1, hq2⟩
      · rw [Function.update_noteq hq]
      · by_cases hqp : q = pages k
        · exfalso
          rw [hqp, hpg] at hq1
          simp only [Option.some.injEq] at hq1
          subst hq1
          exact hrc hq2
        · rw [Function.update_noteq hqp]
    · intro q _ _
      rw [hheap]
    · intro q hq
      rw [hheap]; exact hq
    · intro j _ _
      rw [hp2, hheap]
      exact ⟨rfl, rfl⟩

/-- The store loop of `tls_write`: the page array stays well formed, every index it
uses is inside the array, cells outside the written range keep their value, the
written cells hold the buffer (when the range does not wrap around), and page
objects are only added. -/
theorem write_loop_spec (page_num offset : Nat) (buffer : Nat → Nat) :
    ∀ (n i : Nat) (pages : Nat → Nat) (st : Storage) (pages2 : Nat → Nat) (st2 : Storage),
      write_loop page_num offset buffer n i (pages, st) = some (pages2, st2) →
      PagesOk st page_num pages →
      PagesOk st2 page_num pages2 ∧
      st2.page_size = st.page_size ∧ st2.hash_table = st.hash_table ∧ st.brk ≤ st2.brk ∧
      (∀ j, i ≤ j → j < i + n → ((offset + j) % 2 ^ 32) / st.page_size < page_num) ∧
      (∀ x, x / st.page_size < page_num →
        (∀ j, i ≤ j → j < i + n → x ≠ (offset + j) % 2 ^ 32) →
        cell st2 pages2 x = cell st pages x) ∧
      (offset + i + n ≤ 2 ^ 32 → ∀ j, i ≤ j → j < i + n →
        cell st2 pages2 (offset + j) = buffer j) ∧
      (∀ q, (∃ pg, st.heap q = some pg) → ∃ pg, st2.heap q = some pg) := by
  intro n
  induction n with
  | zero =>
    intro i pages st pages2 st2 h hok
    simp only [write_loop, Option.some.injEq, Prod.mk.injEq] at h
    obtain ⟨h1, h2⟩ := h
    subst h1 h2
    exact ⟨hok, rfl, rfl, le_refl _, fun j h1 h2 => by omega, fun _ _ _ => rfl,
      fun _ j h1 h2 => by omega, fun _ hq => hq⟩
  | succ n ih =>
    intro i pages st pages2 st2 h hok
    simp only [write_loop] at h
    cases hs : write_step page_num offset buffer i (pages, st) with
    | none => rw [hs] at h; simp at h
    | some acc =>
      obtain ⟨pages1, st1⟩ := acc
      rw [hs] at h
      simp only at h
      obtain ⟨s1, s2, s3, s4, s5, s6, -, -, s9, -⟩ :=
        write_step_spec page_num offset buffer i pages st pages1 st1 hs hok
      obtain ⟨t1, t2, t3, t4, t5, t6, t7, t8⟩ := ih (i + 1) pages1 st1 pages2 st2 h s2
      rw [s3] at t5 t6
      refine ⟨t1, t2.trans s3, t3.trans s4, le_trans s5 t4, ?_, ?_, ?_, ?_⟩
      · intro j hj1 hj2
        rcases Nat.eq_or_lt_of_le hj1 with e | e
        · rw [← e]; exact s1
        · exact t5 j (by omega) (by omega)
      · intro x hx hne
        rw [t6 x hx (fun j h1 h2 => hne j (by omega) (by omega)), s6 x hx,
          if_neg (hne i (le_refl _) (by omega))]
      · intro hwrap j hj1 hj2
        rcases Nat.eq_or_lt_of_le hj1 with e | e
        · subst e
          have hmod : (offset + i) % 2 ^ 32 = offset + i := Nat.mod_eq_of_lt (by omega)
          have hx : (offset + i) / st.page_size < page_num := by rw [← hmod]; exact s1
          rw [t6 (offset + i) hx (fun j h1 h2 => by
            rw [Nat.mod_eq_of_lt (by omega)]; omega), s6 (offset + i) hx, if_pos hmod.symm]
        · exact t7 (by omega) j (by omega) (by omega)
      · intro q hq
        exact t8 q (s9 q hq)

/-- The store loop of `tls_write` and the page array `other` of another segment: if
every page that the two arrays share has a `ref_count` above 1, the pages of
`other` keep their contents and `other` stays well formed. -/
theorem write_loop_frame (page_num offset : Nat) (buffer : Nat → Nat) (m : Nat)
    (other : Nat → Nat) :
    ∀ (n i : Nat) (pages : Nat → Nat) (st : Storage) (pages2 : Nat → Nat) (st2 : Storage),
      write_loop page_num offset buffer n i (pages, st) = some (pages2, st2) →
      PagesOk st page_num pages → PagesOk st m other →
      (∀ k j, k < page_num → j < m → pages k = other j →
        ∃ pg, st.heap (pages k) = some pg ∧ 1 < pg.ref_count) →
      PagesOk st2 m other ∧ ∀ j, j < m → st2.mem (other j) = st.mem (other j) := by
  intro n
  induction n with
  | zero =>
    intro i pages st pages2 st2 h _ hoth _
    simp only [write_loop, Option.some.injEq, Prod.mk.injEq] at h
    obtain ⟨h1, h2⟩ := h
    subst h1 h2
    exact ⟨hoth, fun _ _ => rfl⟩
  | succ n ih =>
    intro i pages st pages2 st2 h hok hoth hshare
    simp only [write_loop] at h
    cases hs : write_step page_num offset buffer i (pages, st) with
    | none => rw [hs] at h; simp at h
    | some acc =>
      obtain ⟨pages1, st1⟩ := acc
      rw [hs] at h
      simp only at h
      obtain ⟨s1, s2, -, -, s5, -, s7, -, s9, s10⟩ :=
        write_step_spec page_num offset buffer i pages st pages1 st1 hs hok
      have hoth1 : PagesOk st1 m other :=
        ⟨hoth.inj, fun j hj => lt_of_lt_of_le (hoth.below j hj) s5,
          fun j hj => s9 _ (hoth.live j hj)⟩
      have hshare1 : ∀ k j, k < page_num → j < m → pages1 k = other j →
          ∃ pg, st1.heap (pages1 k) = some pg ∧ 1 < pg.ref_count := by
        intro k j hk hj hkj
        have hb : pages1 k < st.brk := by rw [hkj]; exact hoth.below j hj
        obtain ⟨e1, e2⟩ := s10 k hk hb
        rw [e2]
        exact hshare k j hk hj (e1.symm.trans hkj)
      obtain ⟨r1, r2⟩ := ih (i + 1) pages1 st1 pages2 st2 h s2 hoth1 hshare1
      refine ⟨r1, fun j hj => ?_⟩
      rw [r2 j hj]
      apply s7 (other j) (hoth.below j hj)
      by_cases hq : other j = pages (((offset + i) % 2 ^ 32) / st.page_size)
      · right
        obtain ⟨pg, g1, g2⟩ := hshare _ j s1 hj hq.symm
        exact ⟨pg, by rw [hq]; exact g1, g2⟩
      · left; exact hq

/-- The store loop succeeds when every index it uses is inside a well-formed array. -/
theorem write_loop_some (page_num offset : Nat) (buffer : Nat → Nat) :
    ∀ (n i : Nat) (pages : Nat → Nat) (st : Storage),
      PagesOk st page_num pages →
      (∀ j, i ≤ j → j < i + n → ((offset + j) % 2 ^ 32) / st.page_size < page_num) →
      ∃ pages2 st2, write_loop page_num offset buffer n i (pages, st) = some (pages2, st2) := by
  intro n
  induction n with
  | zero => intro i pages st _ _; exact ⟨pages, st, rfl⟩
  | succ n ih =>
    intro i pages st hok hidx
    have hk := hidx i (le_refl _) (by omega)
    obtain ⟨pg, hpg⟩ := hok.live _ hk
    have hs : ∃ acc, write_step page_num offset buffer i (pages, st) = some acc := by
      simp only [write_step, if_pos hk, hpg]
      split
      · exact ⟨_, rfl⟩
      · exact ⟨_, rfl⟩
    obtain ⟨⟨pages1, st1⟩, hs⟩ := hs
    obtain ⟨-, s2, s3, -⟩ :=
      write_step_spec page_num offset buffer i pages st pages1 st1 hs hok
    obtain ⟨pages2, st2, h2⟩ := ih (i + 1) pages1 st1 s2 (fun j h1 h2 => by
      rw [s3]; exact hidx j (by omega) (by omega))
    exact ⟨pages2, st2, by simp only [write_loop, hs, h2]⟩

/-- The copy loop of `tls_read` succeeds when every index it uses is inside the array
and points to a page object; it fills the buffer with the cells of the range and
leaves the rest of the buffer alone. -/
theorem read_loop_spec (st : Storage) (tls : TLS) (offset : Nat) :
    ∀ (n i : Nat) (buffer : Nat → Nat),
      (∀ j, i ≤ j → j < i + n →
        ((offset + j) % 2 ^ 32) / st.page_size < tls.page_num ∧
        ∃ pg, st.heap (tls.pages (((offset + j) % 2 ^ 32) / st.page_size)) = some pg) →
      ∃ out, read_loop st tls offset n i buffer = some out ∧
        (∀ j, i ≤ j → j < i + n → out j = cell st tls.pages ((offset + j) % 2 ^ 32)) ∧
        (∀ j, j < i → out j = buffer j) := by
  intro n
  induction n with
  | zero =>
    intro i buffer _
    exact ⟨buffer, rfl, fun j h1 h2 => by omega, fun _ _ => rfl⟩
  | succ n ih =>
    intro i buffer hidx
    obtain ⟨hk, pg, hpg⟩ := hidx i (le_refl _) (by omega)
    obtain ⟨out, h1, h2, h3⟩ := ih (i + 1)
      (Function.update buffer i
        (st.mem (tls.pages (((offset + i) % 2 ^ 32) / st.page_size))
          (((offset + i) % 2 ^ 32) % st.page_size)))
      (fun j g1 g2 => hidx j (by omega) (by omega))
    refine ⟨out, ?_, ?_, ?_⟩
    · simp only [read_loop, if_pos hk, hpg]
      exact h1
    · intro j hj1 hj2
      rcases Nat.eq_or_lt_of_le hj1 with e | e
      · subst e
        rw [h3 i (by omega), Function.update_same]
        rfl
      · exact h2 j (by omega) (by omega)
    · intro j hj
      rw [h3 j (by omega), Function.update_noteq (by omega)]

/-- The copy loop of `tls_read` gives the same result in two states that agree on the
page size and, for the pages of the segment, on the contents and on which page
objects exist. -/
theorem read_loop_congr (st st2 : Storage) (tls : TLS) (offset : Nat)
    (hps : st2.page_size = st.page_size)
    (hpages : ∀ k, k < tls.page_num →
      ((st2.heap (tls.pages k)).isSome = (st.heap (tls.pages k)).isSome) ∧
      st2.mem (tls.pages k) = st.mem (tls.pages k)) :
    ∀ (n i : Nat) (buffer : Nat → Nat),
      read_loop st2 tls offset n i buffer = read_loop st tls offset n i buffer := by
  intro n
  induction n with
  | zero => intro i buffer; rfl
  | succ n ih =>
    intro i buffer
    simp only [read_loop, hps]
    by_cases hk : ((offset + i) % 2 ^ 32) / st.page_size < tls.page_num
    · rw [if_pos hk, if_pos hk]
      obtain ⟨g1, g2⟩ := hpages _ hk
      rw [g2]
      cases h1 : st.heap (tls.pages (((offset + i) % 2 ^ 32) / st.page_size)) with
      | none =>
        rw [h1] at g1
        cases h2 : st2.heap (tls.pages (((offset + i) % 2 ^ 32) / st.page_size)) with
        | none => rfl
        | some _ => rw [h2] at g1; simp at g1
      | some _ =>
        rw [h1] at g1
        cases h2 : st2.heap (tls.pages (((offset + i) % 2 ^ 32) / st.page_size)) with
        | none => rw [h2] at g1; simp at g1
        | some _ => exact ih (i + 1) _
    · rw [if_neg hk, if_neg hk]

/-- What the caller of `tls_read` sees is the same in two states in which the caller
has the same segment record and which agree on the page size and, for the pages
of that segment, on the contents and on which page objects exist. -/
theorem tls_read_congr (st st2 : Storage) (t offset length : Nat) (buffer : Nat → Nat)
    (hlook : lookup st2 t = lookup st t) (hps : st2.page_size = st.page_size)
    (hpages : ∀ tls, lookup st t = some tls → ∀ k, k < tls.page_num →
      ((st2.heap (tls.pages k)).isSome = (st.heap (tls.pages k)).isSome) ∧
      st2.mem (tls.pages k) = st.mem (tls.pages k)) :
    observed (tls_read st2 t offset length buffer) =
      observed (tls_read st t offset length buffer) := by
  simp only [lookup] at hlook hpages
  simp only [tls_read]
  cases h1 : find_element (st.hash_table (hash_func t)) t with
  | none =>
    rw [h1] at hlook
    cases h2 : find_element (st2.hash_table (hash_func t)) t with
    | none => rfl
    | some e2 => rw [h2] at hlook; simp at hlook
  | some e =>
    rw [h1] at hlook hpages
    cases h2 : find_element (st2.hash_table (hash_func t)) t with
    | none => rw [h2] at hlook; simp at hlook
    | some e2 =>
      rw [h2] at hlook
      simp only [Option.map_some', Option.some.injEq] at hlook
      simp only [hlook]
      by_cases hr : (offset + length) % 2 ^ 32 > e.tls.size
      · rw [if_pos hr, if_pos hr]; rfl
      · rw [if_neg hr, if_neg hr]
        obtain ⟨a1, a2, a3, -⟩ := unprotect_loop_frame e.tls.pages e.tls.page_num 0 st
        obtain ⟨b1, b2, b3, -⟩ := unprotect_loop_frame e.tls.pages e.tls.page_num 0 st2
        have hc := read_loop_congr (unprotect_loop e.tls.pages e.tls.page_num 0 st)
          (unprotect_loop e.tls.pages e.tls.page_num 0 st2) e.tls offset
          (by rw [b3, a3, hps])
          (fun k hk => by
            rw [b1, a1, b2, a2]
            exact hpages e.tls (by simp) k hk)
          length 0 buffer
        rw [hc]
        cases read_loop (unprotect_loop e.tls.pages e.tls.page_num 0 st) e.tls offset
          length 0 buffer with
        | none => rfl
        | some out => rfl

/-- A call of `tls_write` that passes the lookup and the range check and returns: it
returns 0, and the state it leaves is the one after the store loop, with the
page array written back into the caller's element. -/
theorem tls_write_ok (st : Storage) (self offset length : Nat) (buffer : Nat → Nat)
    (e : hash_element) (hfind : find_element (st.hash_table (hash_func self)) self = some e)
    (hr : ¬ (offset + length) % 2 ^ 32 > e.tls.size) (r : Int) (st1 : Storage)
    (h : tls_write st self offset length buffer = some (r, st1)) :
    r = 0 ∧ ∃ pages2 st2,
      write_loop e.tls.page_num offset buffer length 0
        (e.tls.pages, unprotect_loop e.tls.pages e.tls.page_num 0 st) = some (pages2, st2) ∧
      st1.heap = st2.heap ∧ st1.mem = st2.mem ∧ st1.page_size = st2.page_size ∧
      st1.brk = st2.brk ∧
      st1.hash_table = Function.update st2.hash_table (hash_func self)
        (set_tls self { e.tls with pages := pages2 } (st2.hash_table (hash_func self))) := by
  simp only [tls_write, hfind, if_neg hr] at h
  cases hl : write_loop e.tls.page_num offset buffer length 0
      (e.tls.pages, unprotect_loop e.tls.pages e.tls.page_num 0 st) with
  | none => rw [hl] at h; simp at h
  | some acc =>
    obtain ⟨pages2, st2⟩ := acc
    rw [hl] at h
    simp only [Option.some.injEq, Prod.mk.injEq] at h
    obtain ⟨h1, h2⟩ := h
    obtain ⟨f1, f2, f3, f4, f5, -⟩ := protect_loop_frame pages2 e.tls.page_num 0 st2
    subst h2
    exact ⟨h1.symm, pages2, st2, rfl, f1, f2, f3, f5, by simp only [f4]⟩

/-- A successful lookup in terms of the chain walk. -/
theorem lookup_some (st : Storage) (t : Nat) (tls : TLS) (h : lookup st t = some tls) :
    ∃ e, find_element (st.hash_table (hash_func t)) t = some e ∧ e.tls = tls ∧ e.tid = t := by
  simp only [lookup] at h
  cases hf : find_element (st.hash_table (hash_func t)) t with
  | none => rw [hf] at h; simp at h
  | some e =>
    rw [hf] at h
    simp only [Option.map_some', Option.some.injEq] at h
    exact ⟨e, rfl, h, find_element_tid _ _ _ hf⟩

/-- An in-range `tls_write` on a segment whose pages cover its size returns 0. -/
theorem tls_write_in_range (st : Storage) (self offset length : Nat) (data : Nat → Nat)
    (tls : TLS) (hown : lookup st self = some tls)
    (hok : PagesOk st tls.page_num tls.pages) (hsize : tls.size < 2 ^ 32)
    (hrange : offset + length ≤ tls.size) (hps : 0 < st.page_size)
    (hcover : tls.size ≤ tls.page_num * st.page_size) :
    ∃ st1 : Storage, tls_write st self offset length data = some (0, st1) := by
  obtain ⟨e, hfind, hetls, -⟩ := lookup_some st self tls hown
  subst hetls
  have hmod : (offset + length) % 2 ^ 32 = offset + length := Nat.mod_eq_of_lt (by omega)
  have hr : ¬ (offset + length) % 2 ^ 32 > e.tls.size := by rw [hmod]; omega
  obtain ⟨u1, -, u3, -, u5, -⟩ := unprotect_loop_frame e.tls.pages e.tls.page_num 0 st
  have hok1 : PagesOk (unprotect_loop e.tls.pages e.tls.page_num 0 st) e.tls.page_num
      e.tls.pages := hok.congr u1 u5
  have hidx : ∀ j, 0 ≤ j → j < 0 + length →
      ((offset + j) % 2 ^ 32) /
        (unprotect_loop e.tls.pages e.tls.page_num 0 st).page_size < e.tls.page_num := by
    intro j _ hj
    rw [u3, Nat.mod_eq_of_lt (by omega), Nat.div_lt_iff_lt_mul hps]
    omega
  obtain ⟨pages2, st2, hl⟩ :=
    write_loop_some e.tls.page_num offset data length 0 e.tls.pages _ hok1 hidx
  simp only [tls_write, hfind, if_neg hr, hl]
  exact ⟨_, rfl⟩

/-- Writing back the caller's page array does not change what another thread finds. -/
theorem lookup_update_set_tls (ht : Nat → List hash_element) (w t : Nat) (tls : TLS)
    (hne : t ≠ w) :
    find_element (Function.update ht (hash_func w) (set_tls w tls (ht (hash_func w)))
      (hash_func t)) t = find_element (ht (hash_func t)) t := by
  by_cases hb : hash_func t = hash_func w
  · rw [hb, Function.update_same, find_element_set_tls_other _ w t tls hne]
  · rw [Function.update_noteq hb]

/-- Isolation of segments under `tls_write`. Threads `w` and `t` are different and both
own a segment with a well-formed page array, and every page the two arrays share
has a `ref_count` above 1. Then whatever `w` writes, every `tls_read` by `t`
returns the same value and the same bytes after the write as before it. -/
theorem tls_write_isolated (st : Storage) (w t : Nat) (hne : t ≠ w) (tlsw tlst : TLS)
    (hw : lookup st w = some tlsw) (ht : lookup st t = some tlst)
    (hokw : PagesOk st tlsw.page_num tlsw.pages)
    (hokt : PagesOk st tlst.page_num tlst.pages)
    (hshare : ∀ k j, k < tlsw.page_num → j < tlst.page_num → tlsw.pages k = tlst.pages j →
      ∃ pg, st.heap (tlsw.pages k) = some pg ∧ 1 < pg.ref_count)
    (offset length : Nat) (data : Nat → Nat) (r : Int) (st2 : Storage)
    (hwr : tls_write st w offset length data = some (r, st2))
    (o l : Nat) (buf : Nat → Nat) :
    observed (tls_read st2 t o l buf) = observed (tls_read st t o l buf) := by
  obtain ⟨e, hfind, hetls, -⟩ := lookup_some st w tlsw hw
  subst hetls
  by_cases hr : (offset + length) % 2 ^ 32 > e.tls.size
  · simp only [tls_write, hfind, if_pos hr, Option.some.injEq, Prod.mk.injEq] at hwr
    rw [← hwr.2]
  · obtain ⟨-, pages2, s2, hl, w1, w2, w3, -, w5⟩ :=
      tls_write_ok st w offset length data e hfind hr r st2 hwr
    obtain ⟨u1, u2, u3, u4, u5, -⟩ := unprotect_loop_frame e.tls.pages e.tls.page_num 0 st
    have hokw1 : PagesOk (unprotect_loop e.tls.pages e.tls.page_num 0 st) e.tls.page_num
        e.tls.pages := hokw.congr u1 u5
    have hokt1 : PagesOk (unprotect_loop e.tls.pages e.tls.page_num 0 st) tlst.page_num
        tlst.pages := hokt.congr u1 u5
    obtain ⟨-, s2ps, s2ht, -⟩ :=
      write_loop_spec e.tls.page_num offset data length 0 e.tls.pages _ pages2 s2 hl hokw1
    obtain ⟨f1, f2⟩ := write_loop_frame e.tls.page_num offset data tlst.page_num tlst.pages
      length 0 e.tls.pages _ pages2 s2 hl hokw1 hokt1 (by rw [u1]; exact hshare)
    apply tls_read_congr
    · simp only [lookup]
      rw [w5, s2ht, u4, lookup_update_set_tls _ w t _ hne]
    · rw [w3, s2ps, u3]
    · intro tls htls k hk
      rw [ht] at htls
      simp only [Option.some.injEq] at htls
      subst htls
      obtain ⟨pg1, hpg1⟩ := f1.live k hk
      obtain ⟨pg0, hpg0⟩ := hokt.live k hk
      refine ⟨by rw [w1, hpg1, hpg0]; rfl, ?_⟩
      rw [w2, f2 k hk, u2]

/-- The reference-count loop of `tls_clone` on an array of pairwise different, existing
pages: every page of the range gets `ref_count + 1`, nothing else changes. -/
theorem clone_loop_spec (pages : Nat → Nat) (pn : Nat)
    (hinj : ∀ i j, i < pn → j < pn → pages i = pages j → i = j) :
    ∀ (n i : Nat) (st : Storage), i + n ≤ pn →
      (∀ j, i ≤ j → j < i + n → ∃ pg, st.heap (pages j) = some pg) →
      ∃ st1, clone_loop pages n i st = some st1 ∧
        st1.mem = st.mem ∧ st1.page_size = st.page_size ∧
        st1.hash_table = st.hash_table ∧ st1.brk = st.brk ∧
        (∀ j, i ≤ j → j < i + n → ∀ pg, st.heap (pages j) = some pg →
          st1.heap (pages j) = some { pg with ref_count := pg.ref_count + 1 }) ∧
        (∀ q, (∀ j, i ≤ j → j < i + n → q ≠ pages j) → st1.heap q = st.heap q) := by
  intro n
  induction n with
  | zero =>
    intro i st _ _
    exact ⟨st, rfl, rfl, rfl, rfl, rfl, fun j h1 h2 => by omega, fun _ _ => rfl⟩
  | succ n ih =>
    intro i st hle hlive
    obtain ⟨pg, hpg⟩ := hlive i (le_refl _) (by omega)
    have hother : ∀ j, i + 1 ≤ j → j < i + 1 + n → pages j ≠ pages i := by
      intro j h1 h2 e
      have := hinj j i (by omega) (by omega) e
      omega
    obtain ⟨st1, c1, c2, c3, c4, c5, c6, c7⟩ := ih (i + 1)
      { st with
        heap := Function.update st.heap (pages i)
          (some { pg with ref_count := pg.ref_count + 1 }) }
      (by omega)
      (fun j h1 h2 => by
        simp only
        rw [Function.update_noteq (hother j h1 h2)]
        exact hlive j (by omega) (by omega))
    refine ⟨st1, ?_, c2, c3, c4, c5, ?_, ?_⟩
    · simp only [clone_loop, hpg]
      exact c1
    · intro j hj1 hj2 pg2 hpg2
      rcases Nat.eq_or_lt_of_le hj1 with e | e
      · subst e
        rw [hpg] at hpg2
        simp only [Option.some.injEq] at hpg2
        subst hpg2
        rw [c7 (pages i) (fun j h1 h2 => (hother j h1 h2).symm)]
        simp
      · apply c6 j (by omega) (by omega)
        simp only
        rw [Function.update_noteq (hother j (by omega) (by omega))]
        exact hpg2
    · intro q hq
      rw [c7 q (fun j h1 h2 => hq j (by omega) (by omega))]
      simp only
      rw [Function.update_noteq (hq i (le_refl _) (by omega))]

/-- A successful `tls_clone`: thread `t2`, which owns no segment, clones the segment of
another thread `t1` whose page array is well formed and whose pages have a
`ref_count` of at least 1. The call returns 0; `t1` keeps its segment record;
`t2` gets one with the same size and the same pages; every one of these pages
now has a `ref_count` above 1; contents are untouched. -/
theorem tls_clone_spec (st : Storage) (t1 t2 : Nat) (hne : t1 ≠ t2) (tls1 : TLS)
    (h1 : lookup st t1 = some tls1) (h2 : lookup st t2 = none)
    (hok : PagesOk st tls1.page_num tls1.pages)
    (href : ∀ i, i < tls1.page_num → ∀ pg, st.heap (tls1.pages i) = some pg →
      1 ≤ pg.ref_count) :
    ∃ st1, tls_clone st t2 t1 = some (0, st1) ∧
      lookup st1 t1 = some tls1 ∧
      lookup st1 t2 = some
        { tid := t2, size := tls1.size, page_num := tls1.page_num, pages := tls1.pages } ∧
      PagesOk st1 tls1.page_num tls1.pages ∧
      (∀ k, k < tls1.page_num →
        ∃ pg, st1.heap (tls1.pages k) = some pg ∧ 1 < pg.ref_count) ∧
      st1.mem = st.mem ∧ st1.page_size = st.page_size := by
  obtain ⟨e, hfind, hetls, -⟩ := lookup_some st t1 tls1 h1
  subst hetls
  have hfind2 : find_element (st.hash_table (hash_func t2)) t2 = none := by
    simp only [lookup] at h2
    cases hf : find_element (st.hash_table (hash_func t2)) t2 with
    | none => rfl
    | some _ => rw [hf] at h2; simp at h2
  obtain ⟨st1, c1, c2, c3, c4, c5, c6, -⟩ :=
    clone_loop_spec e.tls.pages e.tls.page_num hok.inj e.tls.page_num 0 st (by omega)
      (fun j _ hj => hok.live j (by omega))
  refine ⟨{ st1 with
    hash_table := Function.update st1.hash_table (hash_func t2)
      ({ tid := t2
         tls := { tid := t2, size := e.tls.size, page_num := e.tls.page_num
                  pages := e.tls.pages } } :: st1.hash_table (hash_func t2)) },
    ?_, ?_, ?_, ?_, ?_, c2, c3⟩
  · simp only [tls_clone, hfind, hfind2, c1]
  · simp only [lookup]
    by_cases hb : hash_func t1 = hash_func t2
    · rw [hb, Function.update_same]
      simp only [find_element, if_neg (Ne.symm hne)]
      rw [c4, ← hb, hfind]
      rfl
    · rw [Function.update_noteq hb, c4, hfind]
      rfl
  · simp only [lookup, Function.update_same, find_element, if_true, Option.map_some']
  · refine ⟨hok.inj, fun i hi => ?_, fun i hi => ?_⟩
    · show e.tls.pages i < st1.brk
      rw [c5]; exact hok.below i hi
    · obtain ⟨pg, hpg⟩ := hok.live i hi
      exact ⟨_, c6 i (Nat.zero_le _) (by omega) pg hpg⟩
  · intro k hk
    obtain ⟨pg, hpg⟩ := hok.live k hk
    refine ⟨_, c6 k (Nat.zero_le _) (by omega) pg hpg, ?_⟩
    have := href k hk pg hpg
    simp only
    omega

/-! ## Counting the segments that reference a page -/

theorem in_array_iff (p n : Nat) (pages : Nat → Nat) :
    in_array p n pages = true ↔ ∃ i, i < n ∧ pages i = p := by
  simp only [in_array, List.any_eq_true, List.mem_range, decide_eq_true_eq]

theorem in_array_false_iff (p n : Nat) (pages : Nat → Nat) :
    in_array p n pages = false ↔ ∀ i, i < n → pages i ≠ p := by
  rw [← Bool.not_eq_true, in_array_iff]
  push_neg
  rfl

/-- Replacing one bucket changes the count by the difference of the bucket counts. -/
theorem refs_below_update (ht : Nat → List hash_element) (p b0 : Nat)
    (l2 : List hash_element) :
    ∀ n, (b0 < n →
        refs_below (Function.update ht b0 l2) p n + (ht b0).countP (holds p)
          = refs_below ht p n + l2.countP (holds p)) ∧
      (n ≤ b0 → refs_below (Function.update ht b0 l2) p n = refs_below ht p n) := by
  intro n
  induction n with
  | zero => exact ⟨fun h => by omega, fun _ => rfl⟩
  | succ n ih =>
    constructor
    · intro hlt
      simp only [refs_below]
      by_cases hb : b0 = n
      · subst hb
        rw [Function.update_same, ih.2 (le_refl _)]
        omega
      · rw [Function.update_noteq (Ne.symm hb)]
        have := ih.1 (by omega)
        omega
    · intro hle
      simp only [refs_below]
      rw [Function.update_noteq (by omega), ih.2 (by omega)]

theorem refs_below_pos_iff (ht : Nat → List hash_element) (p : Nat) :
    ∀ n, 0 < refs_below ht p n ↔ ∃ b, b < n ∧ ∃ e, e ∈ ht b ∧ holds p e = true := by
  intro n
  induction n with
  | zero => simp [refs_below]
  | succ n ih =>
    simp only [refs_below]
    constructor
    · intro h
      by_cases h1 : 0 < refs_below ht p n
      · obtain ⟨b, hb, e, he, hp⟩ := ih.mp h1
        exact ⟨b, by omega, e, he, hp⟩
      · have h2 : 0 < (ht n).countP (holds p) := by omega
        obtain ⟨e, he, hp⟩ := List.countP_pos_iff.mp h2
        exact ⟨n, by omega, e, he, hp⟩
    · rintro ⟨b, hb, e, he, hp⟩
      by_cases hbn : b = n
      · subst hbn
        have : 0 < (ht b).countP (holds p) := List.countP_pos_iff.mpr ⟨e, he, hp⟩
        omega
      · have : 0 < refs_below ht p n := ih.mpr ⟨b, by omega, e, he, hp⟩
        omega

/-- The count of one bucket is at most the total. -/
theorem countP_le_refs_below (ht : Nat → List hash_element) (p b : Nat) :
    ∀ n, b < n → (ht b).countP (holds p) ≤ refs_below ht p n := by
  intro n
  induction n with
  | zero => intro h; omega
  | succ n ih =>
    intro h
    simp only [refs_below]
    by_cases hbn : b = n
    · subst hbn; omega
    · have := ih (by omega)
      omega

/-- Two elements of a chain with different `tid` that both satisfy `P` count twice. -/
theorem two_le_countP (P : hash_element → Bool) :
    ∀ (l : List hash_element) (e1 e2 : hash_element), e1 ∈ l → e2 ∈ l → e1.tid ≠ e2.tid →
      P e1 = true → P e2 = true → 2 ≤ l.countP P := by
  intro l
  induction l with
  | nil => intro e1 e2 h; simp at h
  | cons a l ih =>
    intro e1 e2 h1 h2 hne p1 p2
    rw [List.countP_cons]
    rcases List.mem_cons.mp h1 with g1 | g1
    · rcases List.mem_cons.mp h2 with g2 | g2
      · exact absurd (g1.trans g2.symm) (fun e => hne (by rw [e]))
      · have : 0 < l.countP P := List.countP_pos_iff.mpr ⟨e2, g2, p2⟩
        rw [← g1, if_pos p1]
        omega
    · rcases List.mem_cons.mp h2 with g2 | g2
      · have : 0 < l.countP P := List.countP_pos_iff.mpr ⟨e1, g1, p1⟩
        rw [← g2, if_pos p2]
        omega
      · have := ih e1 e2 g1 g2 hne p1 p2
        omega

/-- A page referenced by the segments of two different threads is counted twice. -/
theorem two_le_refs_below (ht : Nat → List hash_element) (p n b1 b2 : Nat)
    (e1 e2 : hash_element) (hb1 : b1 < n) (hb2 : b2 < n) (h1 : e1 ∈ ht b1) (h2 : e2 ∈ ht b2)
    (hne : e1.tid ≠ e2.tid) (p1 : holds p e1 = true) (p2 : holds p e2 = true) :
    2 ≤ refs_below ht p n := by
  by_cases hb : b1 = b2
  · subst hb
    have := two_le_countP (holds p) (ht b1) e1 e2 h1 h2 hne p1 p2
    have := countP_le_refs_below ht p b1 n hb1
    omega
  · have hu := (refs_below_update ht p b1 [] n).1 hb1
    have h3 : 0 < refs_below (Function.update ht b1 []) p n :=
      (refs_below_pos_iff _ p n).mpr ⟨b2, hb2, e2, by
        rw [Function.update_noteq (Ne.symm hb)]; exact h2, p2⟩
    have h4 : 0 < (ht b1).countP (holds p) := List.countP_pos_iff.mpr ⟨e1, h1, p1⟩
    simp only [List.countP_nil] at hu
    omega

theorem find_element_mem : ∀ (l : List hash_element) (tid : Nat) (e : hash_element),
    find_element l tid = some e → e ∈ l := by
  intro l
  induction l with
  | nil => intro tid e h; simp [find_element] at h
  | cons a l ih =>
    intro tid e h
    simp only [find_element] at h
    split at h
    · simp only [Option.some.injEq] at h
      subst h; exact List.mem_cons_self _ _
    · exact List.mem_cons_of_mem _ (ih tid e h)

theorem mem_set_tls : ∀ (l : List hash_element) (tid : Nat) (tls : TLS) (x : hash_element),
    x ∈ set_tls tid tls l → x ∈ l ∨ ∃ e, e ∈ l ∧ x = { e with tls := tls } := by
  intro l
  induction l with
  | nil => intro tid tls x h; simp [set_tls] at h
  | cons a l ih =>
    intro tid tls x h
    simp only [set_tls] at h
    split at h
    · rcases List.mem_cons.mp h with g | g
      · exact Or.inr ⟨a, List.mem_cons_self _ _, g⟩
      · exact Or.inl (List.mem_cons_of_mem _ g)
    · rcases List.mem_cons.mp h with g | g
      · exact Or.inl (by rw [g]; exact List.mem_cons_self _ _)
      · rcases ih tid tls x g with k | ⟨e, k1, k2⟩
        · exact Or.inl (List.mem_cons_of_mem _ k)
        · exact Or.inr ⟨e, List.mem_cons_of_mem _ k1, k2⟩

theorem mem_remove_element : ∀ (l : List hash_element) (tid : Nat) (x : hash_element),
    x ∈ remove_element tid l → x ∈ l := by
  intro l
  induction l with
  | nil => intro tid x h; simp [remove_element] at h
  | cons a l ih =>
    intro tid x h
    simp only [remove_element] at h
    split at h
    · exact List.mem_cons_of_mem _ h
    · rcases List.mem_cons.mp h with g | g
      · rw [g]; exact List.mem_cons_self _ _
      · exact List.mem_cons_of_mem _ (ih tid x g)

theorem countP_set_tls (P : hash_element → Bool) :
    ∀ (l : List hash_element) (tid : Nat) (tls : TLS) (e : hash_element),
      find_element l tid = some e →
      (set_tls tid tls l).countP P + (if P e then 1 else 0)
        = l.countP P + (if P { e with tls := tls } then 1 else 0) := by
  intro l
  induction l with
  | nil => intro tid tls e h; simp [find_element] at h
  | cons a l ih =>
    intro tid tls e h
    simp only [find_element] at h
    by_cases ha : a.tid = tid
    · rw [if_pos ha] at h
      simp only [Option.some.injEq] at h
      subst h
      simp only [set_tls, if_pos ha, List.countP_cons]
      omega
    · rw [if_neg ha] at h
      simp only [set_tls, if_neg ha, List.countP_cons]
      have := ih tid tls e h
      omega

theorem countP_remove_element (P : hash_element → Bool) :
    ∀ (l : List hash_element) (tid : Nat) (e : hash_element),
      find_element l tid = some e →
      (remove_element tid l).countP P + (if P e then 1 else 0) = l.countP P := by
  intro l
  induction l with
  | nil => intro tid e h; simp [find_element] at h
  | cons a l ih =>
    intro tid e h
    simp only [find_element] at h
    by_cases ha : a.tid = tid
    · rw [if_pos ha] at h
      simp only [Option.some.injEq] at h
      subst h
      simp only [remove_element, if_pos ha, List.countP_cons]
    · rw [if_neg ha] at h
      simp only [remove_element, if_neg ha, List.countP_cons]
      have := ih tid e h
      omega

/-! ## The invariant and the segments it describes -/

/-- Under the invariant the segment of every thread has a well-formed page array whose
pages have a `ref_count` of at least 1. -/
theorem StorageInv.pages_ok {st : Storage} (hinv : StorageInv st) (t : Nat) (tls : TLS)
    (h : lookup st t = some tls) :
    PagesOk st tls.page_num tls.pages ∧
      ∀ i, i < tls.page_num → ∀ pg, st.heap (tls.pages i) = some pg → 1 ≤ pg.ref_count := by
  obtain ⟨e, hfind, hetls, -⟩ := lookup_some st t tls h
  subst hetls
  have hmem := find_element_mem _ _ _ hfind
  have hb : hash_func t < HASH_SIZE := Nat.mod_lt _ (by decide)
  have hrefs : ∀ i, i < e.tls.page_num → 0 < refs st (e.tls.pages i) := fun i hi =>
    (refs_below_pos_iff _ _ _).mpr ⟨_, hb, e, hmem, (in_array_iff _ _ _).mpr ⟨i, hi, rfl⟩⟩
  refine ⟨⟨hinv.inj _ e hmem, hinv.below _ e hmem, fun i hi => hinv.live _ (hrefs i hi)⟩, ?_⟩
  intro i hi pg hpg
  have h1 := hinv.counted _ pg hpg
  have h2 := hrefs i hi
  omega

/-- Under the invariant a page shared by the segments of two different threads has a
`ref_count` above 1. -/
theorem StorageInv.shared {st : Storage} (hinv : StorageInv st) (w t : Nat) (hne : t ≠ w)
    (tlsw tlst : TLS) (hw : lookup st w = some tlsw) (ht : lookup st t = some tlst)
    (k j : Nat) (hk : k < tlsw.page_num) (hj : j < tlst.page_num)
    (hkj : tlsw.pages k = tlst.pages j) :
    ∃ pg, st.heap (tlsw.pages k) = some pg ∧ 1 < pg.ref_count := by
  obtain ⟨ew, hfw, hew, htw⟩ := lookup_some st w tlsw hw
  obtain ⟨et, hft, het, htt⟩ := lookup_some st t tlst ht
  subst hew het
  have h2 : 2 ≤ refs st (ew.tls.pages k) :=
    two_le_refs_below st.hash_table _ HASH_SIZE _ _ ew et
      (Nat.mod_lt _ (by decide)) (Nat.mod_lt _ (by decide))
      (find_element_mem _ _ _ hfw) (find_element_mem _ _ _ hft)
      (by rw [htw, htt]; exact Ne.symm hne)
      ((in_array_iff _ _ _).mpr ⟨k, hk, rfl⟩)
      ((in_array_iff _ _ _).mpr ⟨j, hj, hkj.symm⟩)
  obtain ⟨pg, hpg⟩ := hinv.live (ew.tls.pages k) (by omega)
  have := hinv.counted _ pg hpg
  exact ⟨pg, hpg, by omega⟩

/-- The invariant does not depend on contents, protections, page size or the
`initialized` flag. -/
theorem StorageInv.of_same_tables {st st2 : Storage} (hinv : StorageInv st)
    (h1 : st2.hash_table = st.hash_table) (h2 : st2.heap = st.heap) (h3 : st2.brk = st.brk) :
    StorageInv st2 := by
  refine ⟨?_, ?_, ?_, ?_, ?_, ?_⟩
  · rw [h1]; exact hinv.buckets
  · rw [h1]; exact hinv.inj
  · rw [h1, h3]; exact hinv.below
  · rw [h2, h3]; exact hinv.heap_below
  · simp only [refs, h1, h2]; exact hinv.counted
  · simp only [refs, h1, h2]; exact hinv.live

theorem start_inv : StorageInv start :=
  ⟨fun _ _ => rfl, fun b e h => by simp [start] at h, fun b e h => by simp [start] at h,
    fun p pg h => by simp [start] at h,
    fun p pg h => by simp [start] at h,
    fun p h => by
      exfalso
      obtain ⟨b, -, e, he, -⟩ := (refs_below_pos_iff _ _ _).mp h
      simp [start] at he⟩

/-- One iteration of the store loop keeps the reference counts above the number of
references: `c p` counts the references from the other segments, the page array
of the writer adds one for the pages it contains. -/
theorem write_step_counts (page_num offset : Nat) (buffer : Nat → Nat) (i : Nat)
    (pages : Nat → Nat) (st : Storage) (pages2 : Nat → Nat) (st2 : Storage)
    (h : write_step page_num offset buffer i (pages, st) = some (pages2, st2))
    (hok : PagesOk st page_num pages) (c : Nat → Nat)
    (k1 : ∀ p pg, st.heap p = some pg →
      ((c p + (if in_array p page_num pages then 1 else 0) : Nat) : Int) ≤ pg.ref_count)
    (k2 : ∀ p, 0 < c p + (if in_array p page_num pages then 1 else 0) →
      ∃ pg, st.heap p = some pg)
    (k3 : ∀ p pg, st.heap p = some pg → p < st.brk)
    (k4 : ∀ p, 0 < c p → p < st.brk) :
    (∀ p pg, st2.heap p = some pg →
      ((c p + (if in_array p page_num pages2 then 1 else 0) : Nat) : Int) ≤ pg.ref_count) ∧
    (∀ p, 0 < c p + (if in_array p page_num pages2 then 1 else 0) →
      ∃ pg, st2.heap p = some pg) ∧
    (∀ p pg, st2.heap p = some pg → p < st2.brk) ∧
    (∀ p, 0 < c p → p < st2.brk) := by
  obtain ⟨hk, pg0, hpg0, hcase, -⟩ :=
    write_step_cases page_num offset buffer i pages st pages2 st2 h
  generalize hkk : ((offset + i) % 2 ^ 32) / st.page_size = k at *
  rcases hcase with ⟨hrc, hp2, hheap, -, hbrk⟩ | ⟨-, hp2, hheap, -, hbrk⟩
  · have hpb : pages k < st.brk := hok.below k hk
    have hne : st.brk ≠ pages k := by omega
    -- membership in the new array
    have hin0 : in_array (pages k) page_num pages2 = false := by
      rw [in_array_false_iff]
      intro j hj e
      rw [hp2] at e
      by_cases hjk : j = k
      · rw [hjk, Function.update_same] at e; exact hne e
      · rw [Function.update_noteq hjk] at e
        exact hjk (hok.inj j k hj hk e)
    have hinb : in_array st.brk page_num pages2 = true := by
      rw [in_array_iff]
      exact ⟨k, hk, by rw [hp2, Function.update_same]⟩
    have hin : ∀ p, p ≠ pages k → p ≠ st.brk →
        in_array p page_num pages2 = in_array p page_num pages := by
      intro p h1 h2
      rw [Bool.eq_iff_iff, in_array_iff, in_array_iff]
      constructor
      · rintro ⟨j, hj, e⟩
        rw [hp2] at e
        by_cases hjk : j = k
        · rw [hjk, Function.update_same] at e; exact absurd e.symm h2
        · rw [Function.update_noteq hjk] at e; exact ⟨j, hj, e⟩
      · rintro ⟨j, hj, e⟩
        have hjk : j ≠ k := fun ejk => h1 (by rw [← e, ejk])
        exact ⟨j, hj, by rw [hp2, Function.update_noteq hjk]; exact e⟩
    have hcb : c st.brk = 0 := by
      by_contra hc
      have := k4 st.brk (by omega)
      omega
    refine ⟨?_, ?_, ?_, ?_⟩
    · intro p pg hpg
      rw [hheap] at hpg
      by_cases hp0 : p = pages k
      · rw [hp0, Function.update_same] at hpg
        simp only [Option.some.injEq] at hpg
        subst hpg
        have := k1 (pages k) pg0 hpg0
        rw [(in_array_iff _ _ _).mpr ⟨k, hk, rfl⟩] at this
        rw [hp0, hin0]
        simp only [Bool.false_eq_true, if_false, if_true, Nat.add_zero] at this ⊢
        push_cast at this
        omega
      · rw [Function.update_noteq hp0] at hpg
        by_cases hpb2 : p = st.brk
        · rw [hpb2, Function.update_same] at hpg
          simp only [Option.some.injEq] at hpg
          subst hpg
          rw [hpb2, hinb, hcb]
          simp
        · rw [Function.update_noteq hpb2] at hpg
          rw [hin p hp0 hpb2]
          exact k1 p pg hpg
    · intro p hp
      rw [hheap]
      by_cases hp0 : p = pages k
      · rw [hp0, Function.update_same]; exact ⟨_, rfl⟩
      · rw [Function.update_noteq hp0]
        by_cases hpb2 : p = st.brk
        · rw [hpb2, Function.update_same]; exact ⟨_, rfl⟩
        · rw [Function.update_noteq hpb2]
          rw [hin p hp0 hpb2] at hp
          exact k2 p hp
    · intro p pg hpg
      rw [hheap] at hpg
      rw [hbrk]
      by_cases hp0 : p = pages k
      · rw [hp0]; omega
      · rw [Function.update_noteq hp0] at hpg
        by_cases hpb2 : p = st.brk
        · omega
        · rw [Function.update_noteq hpb2] at hpg
          have := k3 p pg hpg
          omega
    · intro p hp
      have := k4 p hp
      omega
  · rw [hp2, hheap, hbrk]
    exact ⟨k1, k2, k3, k4⟩

/-- The store loop keeps the reference counts above the number of references. -/
theorem write_loop_counts (page_num offset : Nat) (buffer : Nat → Nat) (c : Nat → Nat) :
    ∀ (n i : Nat) (pages : Nat → Nat) (st : Storage) (pages2 : Nat → Nat) (st2 : Storage),
      write_loop page_num offset buffer n i (pages, st) = some (pages2, st2) →
      PagesOk st page_num pages →
      (∀ p pg, st.heap p = some pg →
        ((c p + (if in_array p page_num pages then 1 else 0) : Nat) : Int) ≤ pg.ref_count) →
      (∀ p, 0 < c p + (if in_array p page_num pages then 1 else 0) →
        ∃ pg, st.heap p = some pg) →
      (∀ p pg, st.heap p = some pg → p < st.brk) →
      (∀ p, 0 < c p → p < st.brk) →
      (∀ p pg, st2.heap p = some pg →
        ((c p + (if in_array p page_num pages2 then 1 else 0) : Nat) : Int) ≤ pg.ref_count) ∧
      (∀ p, 0 < c p + (if in_array p page_num pages2 then 1 else 0) →
        ∃ pg, st2.heap p = some pg) ∧
      (∀ p pg, st2.heap p = some pg → p < st2.brk) ∧
      (∀ p, 0 < c p → p < st2.brk) := by
  intro n
  induction n with
  | zero =>
    intro i pages st pages2 st2 h _ k1 k2 k3 k4
    simp only [write_loop, Option.some.injEq, Prod.mk.injEq] at h
    obtain ⟨h1, h2⟩ := h
    subst h1 h2
    exact ⟨k1, k2, k3, k4⟩
  | succ n ih =>
    intro i pages st pages2 st2 h hok k1 k2 k3 k4
    simp only [write_loop] at h
    cases hs : write_step page_num offset buffer i (pages, st) with
    | none => rw [hs] at h; simp at h
    | some acc =>
      obtain ⟨pages1, st1⟩ := acc
      rw [hs] at h
      simp only at h
      obtain ⟨-, s2, -⟩ := write_step_spec page_num offset buffer i pages st pages1 st1 hs hok
      obtain ⟨j1, j2, j3, j4⟩ :=
        write_step_counts page_num offset buffer i pages st pages1 st1 hs hok c k1 k2 k3 k4
      exact ih (i + 1) pages1 st1 pages2 st2 h s2 j1 j2 j3 j4

/-- A page that some registered segment references was handed out by the allocator. -/
theorem StorageInv.refs_below_brk {st : Storage} (hinv : StorageInv st) (p : Nat)
    (h : 0 < refs st p) : p < st.brk := by
  obtain ⟨b, -, e, he, hp⟩ := (refs_below_pos_iff _ _ _).mp h
  obtain ⟨i, hi, hpi⟩ := (in_array_iff _ _ _).mp hp
  rw [← hpi]
  exact hinv.below b e he i hi

/-- The count after the caller's page array was written back. -/
theorem refs_set_tls (ht : Nat → List hash_element) (self : Nat) (e : hash_element)
    (hfind : find_element (ht (hash_func self)) self = some e) (tls : TLS) (p : Nat) :
    refs_below (Function.update ht (hash_func self)
        (set_tls self tls (ht (hash_func self)))) p HASH_SIZE
      + (if holds p e then 1 else 0)
      = refs_below ht p HASH_SIZE + (if holds p { e with tls := tls } then 1 else 0) := by
  have h1 := (refs_below_update ht p (hash_func self)
    (set_tls self tls (ht (hash_func self))) HASH_SIZE).1 (Nat.mod_lt _ (by decide))
  have h2 := countP_set_tls (holds p) (ht (hash_func self)) self tls e hfind
  omega

/-- The call `tls_write` keeps the invariant. -/
theorem tls_write_inv (st : Storage) (hinv : StorageInv st) (self offset length : Nat)
    (buffer : Nat → Nat) (r : Int) (st1 : Storage)
    (h : tls_write st self offset length buffer = some (r, st1)) : StorageInv st1 := by
  cases hfind : find_element (st.hash_table (hash_func self)) self with
  | none =>
    simp only [tls_write, hfind, Option.some.injEq, Prod.mk.injEq] at h
    rw [← h.2]; exact hinv
  | some e =>
    by_cases hr : (offset + length) % 2 ^ 32 > e.tls.size
    · simp only [tls_write, hfind, if_pos hr, Option.some.injEq, Prod.mk.injEq] at h
      rw [← h.2]; exact hinv
    · obtain ⟨-, pages2, st2, hl, w1, -, -, w4, w5⟩ :=
        tls_write_ok st self offset length buffer e hfind hr r st1 h
      obtain ⟨u1, -, -, u4, u5, -⟩ := unprotect_loop_frame e.tls.pages e.tls.page_num 0 st
      have hmem := find_element_mem _ _ _ hfind
      have hbk : hash_func self < HASH_SIZE := Nat.mod_lt _ (by decide)
      have hok : PagesOk st e.tls.page_num e.tls.pages :=
        (hinv.pages_ok self e.tls (by simp [lookup, hfind])).1
      have hok1 := hok.congr u1 u5
      have hholds : ∀ p, holds p e = true → 0 < refs st p := fun p hp =>
        (refs_below_pos_iff _ _ _).mpr ⟨_, hbk, e, hmem, hp⟩
      obtain ⟨s1, -, s3, s4, -⟩ :=
        write_loop_spec e.tls.page_num offset buffer length 0 e.tls.pages _ pages2 st2 hl hok1
      obtain ⟨j1, j2, j3, -⟩ := write_loop_counts e.tls.page_num offset buffer
        (fun p => refs st p - (if holds p e then 1 else 0))
        length 0 e.tls.pages _ pages2 st2 hl hok1
        (fun p pg hpg => by
          rw [u1] at hpg
          have := hinv.counted p pg hpg
          have hh : in_array p e.tls.page_num e.tls.pages = holds p e := rfl
          rw [hh]
          by_cases hp : holds p e = true
          · have := hholds p hp
            simp only [hp, if_true]
            omega
          · simp only [hp, Bool.false_eq_true, if_false]
            omega)
        (fun p hp => by
          rw [u1]
          have hh : in_array p e.tls.page_num e.tls.pages = holds p e := rfl
          rw [hh] at hp
          apply hinv.live
          by_cases hp2 : holds p e = true
          · exact hholds p hp2
          · simp only [hp2, Bool.false_eq_true, if_false] at hp
            omega)
        (fun p pg hpg => by
          rw [u1] at hpg; rw [u5]; exact hinv.heap_below p pg hpg)
        (fun p hp => by
          rw [u5]
          have hp2 : 0 < refs st p - (if holds p e then 1 else 0) := hp
          exact hinv.refs_below_brk p (by omega))
      have hrefs : ∀ p, refs st1 p = refs st p - (if holds p e then 1 else 0)
          + (if in_array p e.tls.page_num pages2 then 1 else 0) := by
        intro p
        have hset := refs_set_tls st.hash_table self e hfind { e.tls with pages := pages2 } p
        have hh : holds p { e with tls := { e.tls with pages := pages2 } }
            = in_array p e.tls.page_num pages2 := rfl
        rw [hh] at hset
        simp only [refs, w5, s3, u4]
        by_cases hp : holds p e = true
        · have hpos := hholds p hp
          simp only [refs] at hpos
          simp only [hp, if_true] at hset ⊢
          omega
        · simp only [hp, Bool.false_eq_true, if_false] at hset ⊢
          omega
      have hbrk : st.brk ≤ st1.brk := by rw [w4, ← u5]; exact s4
      have hnew : ∀ b x, x ∈ st1.hash_table b →
          x ∈ st.hash_table b ∨
            (x.tls.page_num = e.tls.page_num ∧ x.tls.pages = pages2) := by
        intro b x hx
        rw [w5, s3, u4] at hx
        by_cases hb : b = hash_func self
        · rw [hb, Function.update_same] at hx
          rcases mem_set_tls _ _ _ _ hx with g | ⟨e0, -, g⟩
          · left; rw [hb]; exact g
          · right; rw [g]; exact ⟨rfl, rfl⟩
        · rw [Function.update_noteq hb] at hx
          left; exact hx
      refine ⟨?_, ?_, ?_, ?_, ?_, ?_⟩
      · intro b hb
        rw [w5, s3, u4, Function.update_noteq (by omega)]
        exact hinv.buckets b hb
      · intro b x hx
        rcases hnew b x hx with g | ⟨g1, g2⟩
        · exact hinv.inj b x g
        · rw [g1, g2]; exact s1.inj
      · intro b x hx i hi
        rcases hnew b x hx with g | ⟨g1, g2⟩
        · exact lt_of_lt_of_le (hinv.below b x g i hi) hbrk
        · rw [g1] at hi
          rw [g2, w4]; exact s1.below i hi
      · intro p pg hpg
        rw [w1] at hpg; rw [w4]; exact j3 p pg hpg
      · intro p pg hpg
        rw [w1] at hpg
        rw [hrefs p]
        exact j1 p pg hpg
      · intro p hp
        rw [hrefs p] at hp
        rw [w1]
        exact j2 p hp

/-- The call `tls_read` keeps the invariant. -/
theorem tls_read_inv (st : Storage) (hinv : StorageInv st) (self offset length : Nat)
    (buffer : Nat → Nat) (r : Int) (out : Nat → Nat) (st1 : Storage)
    (h : tls_read st self offset length buffer = some (r, out, st1)) : StorageInv st1 := by
  simp only [tls_read] at h
  cases hfind : find_element (st.hash_table (hash_func self)) self with
  | none =>
    rw [hfind] at h
    simp only [Option.some.injEq, Prod.mk.injEq] at h
    rw [← h.2.2]; exact hinv
  | some e =>
    rw [hfind] at h
    simp only at h
    by_cases hr : (offset + length) % 2 ^ 32 > e.tls.size
    · rw [if_pos hr] at h
      simp only [Option.some.injEq, Prod.mk.injEq] at h
      rw [← h.2.2]; exact hinv
    · rw [if_neg hr] at h
      cases hl : read_loop (unprotect_loop e.tls.pages e.tls.page_num 0 st) e.tls offset
          length 0 buffer with
      | none => rw [hl] at h; simp at h
      | some o =>
        rw [hl] at h
        simp only [Option.some.injEq, Prod.mk.injEq] at h
        rw [← h.2.2]
        obtain ⟨u1, -, -, u4, u5, -⟩ := unprotect_loop_frame e.tls.pages e.tls.page_num 0 st
        obtain ⟨v1, -, -, v4, v5, -⟩ := protect_loop_frame e.tls.pages e.tls.page_num 0
          (unprotect_loop e.tls.pages e.tls.page_num 0 st)
        exact hinv.of_same_tables (v4.trans u4) (v1.trans u1) (v5.trans u5)

/-- The page loop of `tls_create`: entry `j` of the range becomes the fresh pointer
`brk + (j - i)`, whose page object has `ref_count` 1; nothing else changes. -/
theorem create_loop_spec :
    ∀ (n i : Nat) (pages : Nat → Nat) (st : Storage),
      (create_loop n i (pages, st)).2.brk = st.brk + n ∧
      (create_loop n i (pages, st)).2.hash_table = st.hash_table ∧
      (create_loop n i (pages, st)).2.page_size = st.page_size ∧
      (∀ j, i ≤ j → j < i + n → (create_loop n i (pages, st)).1 j = st.brk + (j - i)) ∧
      (∀ j, j < i → (create_loop n i (pages, st)).1 j = pages j) ∧
      (∀ q, st.brk ≤ q → q < st.brk + n →
        ∃ pg, (create_loop n i (pages, st)).2.heap q = some pg ∧ pg.ref_count = 1) ∧
      (∀ q, q < st.brk → (create_loop n i (pages, st)).2.heap q = st.heap q) ∧
      (∀ q, st.brk + n ≤ q → (create_loop n i (pages, st)).2.heap q = st.heap q) := by
  intro n
  induction n with
  | zero =>
    intro i pages st
    exact ⟨rfl, rfl, rfl, fun j h1 h2 => by omega, fun _ _ => rfl,
      fun q h1 h2 => by omega, fun _ _ => rfl, fun _ _ => rfl⟩
  | succ n ih =>
    intro i pages st
    obtain ⟨a1, a2, a3, a4, a5, a6, a7, a8⟩ :=
      ih (i + 1) (Function.update pages i st.brk) (new_page st PROT_NONE)
    simp only [create_loop]
    have hb : (new_page st PROT_NONE).brk = st.brk + 1 := rfl
    rw [hb] at a1 a4 a6 a7 a8
    refine ⟨by rw [a1]; omega, a2, a3, ?_, ?_, ?_, ?_, ?_⟩
    · intro j hj1 hj2
      rcases Nat.eq_or_lt_of_le hj1 with e | e
      · subst e
        rw [a5 i (by omega), Function.update_same]
        omega
      · rw [a4 j (by omega) (by omega)]
        omega
    · intro j hj
      rw [a5 j (by omega), Function.update_noteq (by omega)]
    · intro q hq1 hq2
      rcases Nat.eq_or_lt_of_le hq1 with e | e
      · subst e
        rw [a7 st.brk (by omega)]
        exact ⟨{ address := (st.brk + 1) * st.page_size, ref_count := 1 },
          by simp [new_page], rfl⟩
      · exact a6 q (by omega) (by omega)
    · intro q hq
      rw [a7 q (by omega)]
      simp [new_page, Function.update_noteq (show q ≠ st.brk by omega)]
    · intro q hq
      rw [a8 q (by omega)]
      simp [new_page, Function.update_noteq (show q ≠ st.brk by omega)]

/-- The page loop of `tls_destroy` on an array of pairwise different, existing pages:
every page of the range loses one reference and is freed when none is left;
nothing else changes. -/
theorem destroy_loop_spec (pages : Nat → Nat) (pn : Nat)
    (hinj : ∀ i j, i < pn → j < pn → pages i = pages j → i = j) :
    ∀ (n i : Nat) (st : Storage), i + n ≤ pn →
      (∀ j, i ≤ j → j < i + n → ∃ pg, st.heap (pages j) = some pg) →
      ∃ st1, destroy_loop pages n i st = some st1 ∧
        st1.hash_table = st.hash_table ∧ st1.brk = st.brk ∧
        (∀ j, i ≤ j → j < i + n → ∀ pg, st.heap (pages j) = some pg →
          st1.heap (pages j) =
            if pg.ref_count - 1 = 0 then none
            else some { pg with ref_count := pg.ref_count - 1 }) ∧
        (∀ q, (∀ j, i ≤ j → j < i + n → q ≠ pages j) → st1.heap q = st.heap q) := by
  intro n
  induction n with
  | zero =>
    intro i st _ _
    exact ⟨st, rfl, rfl, rfl, fun j h1 h2 => by omega, fun _ _ => rfl⟩
  | succ n ih =>
    intro i st hle hlive
    obtain ⟨pg, hpg⟩ := hlive i (le_refl _) (by omega)
    have hother : ∀ j, i + 1 ≤ j → j < i + 1 + n → pages j ≠ pages i := by
      intro j h1 h2 e
      have := hinj j i (by omega) (by omega) e
      omega
    by_cases hz : pg.ref_count - 1 = 0
    · obtain ⟨st1, c1, c4, c5, c6, c7⟩ := ih (i + 1)
        { st with heap := Function.update st.heap (pages i) none }
        (by omega)
        (fun j h1 h2 => by
          simp only
          rw [Function.update_noteq (hother j h1 h2)]
          exact hlive j (by omega) (by omega))
      refine ⟨st1, ?_, c4, c5, ?_, ?_⟩
      · simp only [destroy_loop, hpg, if_pos hz]
        exact c1
      · intro j hj1 hj2 pg2 hpg2
        rcases Nat.eq_or_lt_of_le hj1 with e | e
        · subst e
          rw [hpg] at hpg2
          simp only [Option.some.injEq] at hpg2
          subst hpg2
          rw [c7 (pages i) (fun j h1 h2 => (hother j h1 h2).symm), if_pos hz]
          simp
        · apply c6 j (by omega) (by omega)
          simp only
          rw [Function.update_noteq (hother j (by omega) (by omega))]
          exact hpg2
      · intro q hq
        rw [c7 q (fun j h1 h2 => hq j (by omega) (by omega))]
        simp only
        rw [Function.update_noteq (hq i (le_refl _) (by omega))]
    · obtain ⟨st1, c1, c4, c5, c6, c7⟩ := ih (i + 1)
        { st with
          heap := Function.update st.heap (pages i)
            (some { pg with ref_count := pg.ref_count - 1 }) }
        (by omega)
        (fun j h1 h2 => by
          simp only
          rw [Function.update_noteq (hother j h1 h2)]
          exact hlive j (by omega) (by omega))
      refine ⟨st1, ?_, c4, c5, ?_, ?_⟩
      · simp only [destroy_loop, hpg, if_neg hz]
        exact c1
      · intro j hj1 hj2 pg2 hpg2
        rcases Nat.eq_or_lt_of_le hj1 with e | e
        · subst e
          rw [hpg] at hpg2
          simp only [Option.some.injEq] at hpg2
          subst hpg2
          rw [c7 (pages i) (fun j h1 h2 => (hother j h1 h2).symm), if_neg hz]
          simp
        · apply c6 j (by omega) (by omega)
          simp only
          rw [Function.update_noteq (hother j (by omega) (by omega))]
          exact hpg2
      · intro q hq
        rw [c7 q (fun j h1 h2 => hq j (by omega) (by omega))]
        simp only
        rw [Function.update_noteq (hq i (le_refl _) (by omega))]

/-- The count after a new element was linked in front of a chain. -/
theorem refs_cons (ht : Nat → List hash_element) (self : Nat) (new : hash_element) (p : Nat) :
    refs_below (Function.update ht (hash_func self) (new :: ht (hash_func self))) p HASH_SIZE
      = refs_below ht p HASH_SIZE + (if holds p new then 1 else 0) := by
  have h1 := (refs_below_update ht p (hash_func self)
    (new :: ht (hash_func self)) HASH_SIZE).1 (Nat.mod_lt _ (by decide))
  rw [List.countP_cons] at h1
  omega

/-- The count after the caller's element was unlinked. -/
theorem refs_remove (ht : Nat → List hash_element) (self : Nat) (e : hash_element)
    (hfind : find_element (ht (hash_func self)) self = some e) (p : Nat) :
    refs_below (Function.update ht (hash_func self)
        (remove_element self (ht (hash_func self)))) p HASH_SIZE
      + (if holds p e then 1 else 0) = refs_below ht p HASH_SIZE := by
  have h1 := (refs_below_update ht p (hash_func self)
    (remove_element self (ht (hash_func self))) HASH_SIZE).1 (Nat.mod_lt _ (by decide))
  have h2 := countP_remove_element (holds p) (ht (hash_func self)) self e hfind
  omega

/-- The call `tls_clone` keeps the invariant. -/
theorem tls_clone_inv (st : Storage) (hinv : StorageInv st) (self tid : Nat) (r : Int)
    (st1 : Storage) (h : tls_clone st self tid = some (r, st1)) : StorageInv st1 := by
  cases hft : find_element (st.hash_table (hash_func tid)) tid with
  | none =>
    simp only [tls_clone, hft, Option.some.injEq, Prod.mk.injEq] at h
    rw [← h.2]; exact hinv
  | some e =>
    cases hfs : find_element (st.hash_table (hash_func self)) self with
    | some e2 =>
      simp only [tls_clone, hft, hfs, Option.some.injEq, Prod.mk.injEq] at h
      rw [← h.2]; exact hinv
    | none =>
      have hmem := find_element_mem _ _ _ hft
      obtain ⟨hok, -⟩ := hinv.pages_ok tid e.tls (by simp [lookup, hft])
      obtain ⟨s1, c1, -, -, c4, c5, c6, c7⟩ :=
        clone_loop_spec e.tls.pages e.tls.page_num hok.inj e.tls.page_num 0 st (by omega)
          (fun j _ hj => hok.live j (by omega))
      simp only [tls_clone, hft, hfs, c1, Option.some.injEq, Prod.mk.injEq] at h
      obtain ⟨-, h2⟩ := h
      subst h2
      have hrefs : ∀ p, refs_below (Function.update s1.hash_table (hash_func self)
          ({ tid := self
             tls := { tid := self, size := e.tls.size, page_num := e.tls.page_num
                      pages := e.tls.pages } } :: s1.hash_table (hash_func self))) p HASH_SIZE
          = refs st p + (if in_array p e.tls.page_num e.tls.pages then 1 else 0) := by
        intro p
        rw [refs_cons, c4]
        rfl
      have hnew : ∀ b x, x ∈ Function.update s1.hash_table (hash_func self)
          ({ tid := self
             tls := { tid := self, size := e.tls.size, page_num := e.tls.page_num
                      pages := e.tls.pages } } :: s1.hash_table (hash_func self)) b →
          x ∈ st.hash_table b ∨
            (x.tls.page_num = e.tls.page_num ∧ x.tls.pages = e.tls.pages) := by
        intro b x hx
        by_cases hb : b = hash_func self
        · rw [hb, Function.update_same] at hx
          rcases List.mem_cons.mp hx with g | g
          · right; rw [g]; exact ⟨rfl, rfl⟩
          · left; rw [hb, ← c4]; exact g
        · rw [Function.update_noteq hb, c4] at hx
          left; exact hx
      refine ⟨?_, ?_, ?_, ?_, ?_, ?_⟩
      · intro b hb
        have hbk : hash_func self < HASH_SIZE := Nat.mod_lt _ (by decide)
        show Function.update s1.hash_table (hash_func self) _ b = []
        rw [Function.update_noteq (by omega), c4]
        exact hinv.buckets b hb
      · intro b x hx
        rcases hnew b x hx with g | ⟨g1, g2⟩
        · exact hinv.inj b x g
        · rw [g1, g2]; exact hok.inj
      · intro b x hx i hi
        show x.tls.pages i < s1.brk
        rw [c5]
        rcases hnew b x hx with g | ⟨g1, g2⟩
        · exact hinv.below b x g i hi
        · rw [g1] at hi
          rw [g2]; exact hok.below i hi
      · intro p pg hpg
        show p < s1.brk
        rw [c5]
        have hpg' : s1.heap p = some pg := hpg
        by_cases hin : ∃ j, j < e.tls.page_num ∧ e.tls.pages j = p
        · obtain ⟨j, hj, hjp⟩ := hin
          rw [← hjp]; exact hok.below j hj
        · push_neg at hin
          rw [c7 p (fun j _ hj => (hin j (by omega)).symm)] at hpg'
          exact hinv.heap_below p pg hpg'
      · intro p pg hpg
        have hpg' : s1.heap p = some pg := hpg
        show ((refs_below _ p HASH_SIZE : Nat) : Int) ≤ pg.ref_count
        rw [hrefs p]
        by_cases hin : in_array p e.tls.page_num e.tls.pages = true
        · obtain ⟨j, hj, hjp⟩ := (in_array_iff _ _ _).mp hin
          obtain ⟨pg0, hpg0⟩ := hok.live j hj
          have := c6 j (Nat.zero_le _) (by omega) pg0 hpg0
          rw [hjp] at this hpg0
          rw [this] at hpg'
          simp only [Option.some.injEq] at hpg'
          subst hpg'
          have := hinv.counted p pg0 hpg0
          simp only [hin, if_true]
          push_cast
          omega
        · have hin2 := (in_array_false_iff _ _ _).mp (by simpa using hin)
          rw [c7 p (fun j _ hj => (hin2 j (by omega)).symm)] at hpg'
          have := hinv.counted p pg hpg'
          simp only [hin, Bool.false_eq_true, if_false]
          omega
      · intro p hp
        show ∃ pg, s1.heap p = some pg
        have hp' : 0 < refs_below (Function.update s1.hash_table (hash_func self)
          ({ tid := self
             tls := { tid := self, size := e.tls.size, page_num := e.tls.page_num
                      pages := e.tls.pages } } :: s1.hash_table (hash_func self)))
            p HASH_SIZE := hp
        rw [hrefs p] at hp'
        by_cases hin : in_array p e.tls.page_num e.tls.pages = true
        · obtain ⟨j, hj, hjp⟩ := (in_array_iff _ _ _).mp hin
          obtain ⟨pg0, hpg0⟩ := hok.live j hj
          have := c6 j (Nat.zero_le _) (by omega) pg0 hpg0
          rw [hjp] at this
          exact ⟨_, this⟩
        · have hin2 := (in_array_false_iff _ _ _).mp (by simpa using hin)
          rw [c7 p (fun j _ hj => (hin2 j (by omega)).symm)]
          simp only [hin, Bool.false_eq_true, if_false] at hp'
          exact hinv.live p (by omega)

/-- The call `tls_destroy` keeps the invariant. -/
theorem tls_destroy_inv (st : Storage) (hinv : StorageInv st) (self : Nat) (r : Int)
    (st1 : Storage) (h : tls_destroy st self = some (r, st1)) : StorageInv st1 := by
  cases hfind : find_element (st.hash_table (hash_func self)) self with
  | none =>
    simp only [tls_destroy, hfind, Option.some.injEq, Prod.mk.injEq] at h
    rw [← h.2]; exact hinv
  | some e =>
    have hmem := find_element_mem _ _ _ hfind
    have hbk : hash_func self < HASH_SIZE := Nat.mod_lt _ (by decide)
    obtain ⟨hok, -⟩ := hinv.pages_ok self e.tls (by simp [lookup, hfind])
    obtain ⟨s1, c1, c4, c5, c6, c7⟩ :=
      destroy_loop_spec e.tls.pages e.tls.page_num hok.inj e.tls.page_num 0 st (by omega)
        (fun j _ hj => hok.live j (by omega))
    simp only [tls_destroy, hfind, c1, Option.some.injEq, Prod.mk.injEq] at h
    obtain ⟨-, h2⟩ := h
    subst h2
    have hrefs : ∀ p, refs_below (Function.update s1.hash_table (hash_func self)
        (remove_element self (s1.hash_table (hash_func self)))) p HASH_SIZE
        + (if in_array p e.tls.page_num e.tls.pages then 1 else 0) = refs st p := by
      intro p
      rw [c4]
      exact refs_remove st.hash_table self e hfind p
    have hsub : ∀ b x, x ∈ Function.update s1.hash_table (hash_func self)
        (remove_element self (s1.hash_table (hash_func self))) b → x ∈ st.hash_table b := by
      intro b x hx
      by_cases hb : b = hash_func self
      · rw [hb, Function.update_same, c4] at hx
        rw [hb]; exact mem_remove_element _ _ _ hx
      · rw [Function.update_noteq hb, c4] at hx
        exact hx
    -- the heap after the loop, page by page
    have hheap : ∀ p pg, s1.heap p = some pg →
        ∃ pg0, st.heap p = some pg0 ∧
          ((in_array p e.tls.page_num e.tls.pages = true ∧
              pg.ref_count = pg0.ref_count - 1) ∨
            (in_array p e.tls.page_num e.tls.pages = false ∧ pg = pg0)) := by
      intro p pg hpg
      by_cases hin : in_array p e.tls.page_num e.tls.pages = true
      · obtain ⟨j, hj, hjp⟩ := (in_array_iff _ _ _).mp hin
        obtain ⟨pg0, hpg0⟩ := hok.live j hj
        have := c6 j (Nat.zero_le _) (by omega) pg0 hpg0
        rw [hjp] at this hpg0
        rw [this] at hpg
        refine ⟨pg0, hpg0, Or.inl ⟨hin, ?_⟩⟩
        split at hpg
        · simp at hpg
        · simp only [Option.some.injEq] at hpg
          rw [← hpg]
      · have hin1 : in_array p e.tls.page_num e.tls.pages = false := by simpa using hin
        have hin2 := (in_array_false_iff _ _ _).mp hin1
        rw [c7 p (fun j _ hj => (hin2 j (by omega)).symm)] at hpg
        exact ⟨pg, hpg, Or.inr ⟨hin1, rfl⟩⟩
    refine ⟨?_, ?_, ?_, ?_, ?_, ?_⟩
    · intro b hb
      show Function.update s1.hash_table (hash_func self) _ b = []
      rw [Function.update_noteq (by omega), c4]
      exact hinv.buckets b hb
    · intro b x hx
      exact hinv.inj b x (hsub b x hx)
    · intro b x hx i hi
      show x.tls.pages i < s1.brk
      rw [c5]
      exact hinv.below b x (hsub b x hx) i hi
    · intro p pg hpg
      show p < s1.brk
      rw [c5]
      obtain ⟨pg0, hpg0, -⟩ := hheap p pg hpg
      exact hinv.heap_below p pg0 hpg0
    · intro p pg hpg
      obtain ⟨pg0, hpg0, hc⟩ := hheap p pg hpg
      have h1 := hinv.counted p pg0 hpg0
      have h2 := hrefs p
      have goal : ((refs_below (Function.update s1.hash_table (hash_func self)
          (remove_element self (s1.hash_table (hash_func self)))) p HASH_SIZE : Nat) : Int)
          ≤ pg.ref_count := by
        rcases hc with ⟨g1, g2⟩ | ⟨g1, g2⟩
        · simp only [g1, if_true] at h2
          rw [g2]
          omega
        · simp only [g1, Bool.false_eq_true, if_false] at h2
          rw [g2]
          omega
      exact goal
    · intro p hp
      show ∃ pg, s1.heap p = some pg
      have hp' : 0 < refs_below (Function.update s1.hash_table (hash_func self)
        (remove_element self (s1.hash_table (hash_func self)))) p HASH_SIZE := hp
      have h2 := hrefs p
      by_cases hin : in_array p e.tls.page_num e.tls.pages = true
      · obtain ⟨j, hj, hjp⟩ := (in_array_iff _ _ _).mp hin
        obtain ⟨pg0, hpg0⟩ := hok.live j hj
        have h3 := c6 j (Nat.zero_le _) (by omega) pg0 hpg0
        rw [hjp] at h3 hpg0
        have h1 := hinv.counted p pg0 hpg0
        simp only [hin, if_true] at h2
        have hnz : ¬ pg0.ref_count - 1 = 0 := by omega
        rw [if_neg hnz] at h3
        exact ⟨_, h3⟩
      · have hin1 : in_array p e.tls.page_num e.tls.pages = false := by simpa using hin
        have hin2 := (in_array_false_iff _ _ _).mp hin1
        rw [c7 p (fun j _ hj => (hin2 j (by omega)).symm)]
        simp only [hin1, Bool.false_eq_true, if_false] at h2
        exact hinv.live p (by omega)

/-- The success path of `tls_create` keeps the invariant. -/
theorem tls_create_register_inv (st : Storage) (hinv : StorageInv st) (self size : Nat) :
    StorageInv (tls_create_register st self size) := by
  generalize hpn : ((size + st.page_size - 1) % 2 ^ 32) / st.page_size = pn
  obtain ⟨a1, a2, -, a4, -, a6, a7, a8⟩ := create_loop_spec pn 0 (fun _ => 0) st
  have hpages : ∀ j, j < pn → (create_loop pn 0 (fun _ => 0, st)).1 j = st.brk + j :=
    fun j hj => by rw [a4 j (Nat.zero_le _) (by omega)]; omega
  have hin : ∀ p, in_array p pn (create_loop pn 0 (fun _ => 0, st)).1 = true ↔
      (st.brk ≤ p ∧ p < st.brk + pn) := by
    intro p
    rw [in_array_iff]
    constructor
    · rintro ⟨j, hj, e⟩
      rw [hpages j hj] at e
      omega
    · rintro ⟨h1, h2⟩
      exact ⟨p - st.brk, by omega, by rw [hpages _ (by omega)]; omega⟩
  have hbk : hash_func self < HASH_SIZE := Nat.mod_lt _ (by decide)
  have hrefs : ∀ p, refs (tls_create_register st self size) p
      = refs st p + (if in_array p pn (create_loop pn 0 (fun _ => 0, st)).1 then 1 else 0) := by
    intro p
    simp only [refs, tls_create_register, hpn]
    rw [refs_cons, a2]
    rfl
  have hnew : ∀ b x, x ∈ (tls_create_register st self size).hash_table b →
      x ∈ st.hash_table b ∨
        (x.tls.page_num = pn ∧ x.tls.pages = (create_loop pn 0 (fun _ => 0, st)).1) := by
    intro b x hx
    simp only [tls_create_register, hpn] at hx
    by_cases hb : b = hash_func self
    · rw [hb, Function.update_same] at hx
      rcases List.mem_cons.mp hx with g | g
      · right; rw [g]; exact ⟨rfl, rfl⟩
      · left; rw [hb, ← a2]; exact g
    · rw [Function.update_noteq hb, a2] at hx
      left; exact hx
  have hbrk : (tls_create_register st self size).brk = st.brk + pn := by
    simp only [tls_create_register, hpn]
    exact a1
  have hheap : (tls_create_register st self size).heap
      = (create_loop pn 0 (fun _ => 0, st)).2.heap := by
    simp only [tls_create_register, hpn]
  refine ⟨?_, ?_, ?_, ?_, ?_, ?_⟩
  · intro b hb
    simp only [tls_create_register, hpn]
    rw [Function.update_noteq (by omega), a2]
    exact hinv.buckets b hb
  · intro b x hx
    rcases hnew b x hx with g | ⟨g1, g2⟩
    · exact hinv.inj b x g
    · rw [g1, g2]
      intro i j hi hj e
      rw [hpages i hi, hpages j hj] at e
      omega
  · intro b x hx i hi
    rw [hbrk]
    rcases hnew b x hx with g | ⟨g1, g2⟩
    · have := hinv.below b x g i hi
      omega
    · rw [g1] at hi
      rw [g2, hpages i hi]
      omega
  · intro p pg hpg
    rw [hheap] at hpg
    rw [hbrk]
    by_cases h1 : p < st.brk
    · omega
    · by_cases h2 : p < st.brk + pn
      · exact h2
      · rw [a8 p (by omega)] at hpg
        have := hinv.heap_below p pg hpg
        omega
  · intro p pg hpg
    rw [hheap] at hpg
    rw [hrefs p]
    by_cases h1 : p < st.brk
    · rw [a7 p h1] at hpg
      have hno : in_array p pn (create_loop pn 0 (fun _ => 0, st)).1 = false := by
        rw [← Bool.not_eq_true, hin]; omega
      have := hinv.counted p pg hpg
      simp only [hno, Bool.false_eq_true, if_false]
      omega
    · have hz : refs st p = 0 := by
        by_contra hc
        have := hinv.refs_below_brk p (by omega)
        omega
      by_cases h2 : p < st.brk + pn
      · obtain ⟨pg1, g1, g2⟩ := a6 p (by omega) h2
        rw [g1] at hpg
        simp only [Option.some.injEq] at hpg
        subst hpg
        rw [hz, g2]
        split <;> simp
      · rw [a8 p (by omega)] at hpg
        have := hinv.heap_below p pg hpg
        omega
  · intro p hp
    rw [hrefs p] at hp
    rw [hheap]
    by_cases hi : in_array p pn (create_loop pn 0 (fun _ => 0, st)).1 = true
    · obtain ⟨h1, h2⟩ := (hin p).mp hi
      obtain ⟨pg1, g1, -⟩ := a6 p h1 h2
      exact ⟨pg1, g1⟩
    · simp only [hi, Bool.false_eq_true, if_false] at hp
      have hlt := hinv.refs_below_brk p (by omega)
      rw [a7 p hlt]
      exact hinv.live p (by omega)

/-- The call `tls_create` keeps the invariant. -/
theorem tls_create_inv (st : Storage) (hinv : StorageInv st) (self size gp : Nat) :
    StorageInv (tls_create st self size gp).2 := by
  have hinv1 : StorageInv (if st.initialized then st else tls_init st gp) := by
    split
    · exact hinv
    · exact hinv.of_same_tables rfl rfl rfl
  simp only [tls_create]
  split
  · exact hinv1
  · split
    · exact hinv1
    · exact tls_create_register_inv _ hinv1 self size

/-- Every step keeps the invariant. -/
theorem step_inv (st : Storage) (hinv : StorageInv st) (op : Op) (st1 : Storage)
    (h : step st op = some st1) : StorageInv st1 := by
  cases op with
  | create self size gp =>
    simp only [step, Option.some.injEq] at h
    rw [← h]; exact tls_create_inv st hinv self size gp
  | destroy self =>
    simp only [step, Option.map_eq_some'] at h
    obtain ⟨⟨r, s⟩, h1, h2⟩ := h
    rw [← h2]; exact tls_destroy_inv st hinv self r s h1
  | read self offset length buffer =>
    simp only [step, Option.map_eq_some'] at h
    obtain ⟨⟨r, out, s⟩, h1, h2⟩ := h
    rw [← h2]; exact tls_read_inv st hinv self offset length buffer r out s h1
  | write self offset length buffer =>
    simp only [step, Option.map_eq_some'] at h
    obtain ⟨⟨r, s⟩, h1, h2⟩ := h
    rw [← h2]; exact tls_write_inv st hinv self offset length buffer r s h1
  | clone self tid =>
    simp only [step, Option.map_eq_some'] at h
    obtain ⟨⟨r, s⟩, h1, h2⟩ := h
    rw [← h2]; exact tls_clone_inv st hinv self tid r s h1

/-- Every state reached by a run of calls from the start state has the invariant. -/
theorem steps_inv : ∀ (ops : List Op) (st st1 : Storage), StorageInv st →
    steps st ops = some st1 → StorageInv st1 := by
  intro ops
  induction ops with
  | nil =>
    intro st st1 hinv h
    simp only [steps, Option.some.injEq] at h
    rw [← h]; exact hinv
  | cons op ops ih =>
    intro st st1 hinv h
    simp only [steps] at h
    cases hs : step st op with
    | none => rw [hs] at h; simp at h
    | some s =>
      rw [hs] at h
      exact ih s st1 (step_inv st hinv op s hs) h

/-! ## Round-trip and isolation in every reachable state -/

/-- In a state with the invariant, whatever thread `w` writes, every `tls_read` by
another thread `t` returns the same value and the same bytes as before. -/
theorem tls_write_isolated_inv (st : Storage) (hinv : StorageInv st) (w t : Nat)
    (hne : t ≠ w) (offset length : Nat) (data : Nat → Nat) (r : Int) (st2 : Storage)
    (hwr : tls_write st w offset length data = some (r, st2))
    (o l : Nat) (buf : Nat → Nat) :
    observed (tls_read st2 t o l buf) = observed (tls_read st t o l buf) := by
  cases hw : lookup st w with
  | none =>
    have hfind : find_element (st.hash_table (hash_func w)) w = none := by
      simp only [lookup] at hw
      cases hf : find_element (st.hash_table (hash_func w)) w with
      | none => rfl
      | some _ => rw [hf] at hw; simp at hw
    simp only [tls_write, hfind, Option.some.injEq, Prod.mk.injEq] at hwr
    rw [← hwr.2]
  | some tlsw =>
    cases ht : lookup st t with
    | some tlst =>
      exact tls_write_isolated st w t hne tlsw tlst hw ht (hinv.pages_ok w tlsw hw).1
        (hinv.pages_ok t tlst ht).1
        (fun k j hk hj hkj => hinv.shared w t hne tlsw tlst hw ht k j hk hj hkj)
        offset length data r st2 hwr o l buf
    | none =>
      obtain ⟨e, hfind, hetls, -⟩ := lookup_some st w tlsw hw
      subst hetls
      by_cases hr : (offset + length) % 2 ^ 32 > e.tls.size
      · simp only [tls_write, hfind, if_pos hr, Option.some.injEq, Prod.mk.injEq] at hwr
        rw [← hwr.2]
      · obtain ⟨-, pages2, s2, hl, -, -, w3, -, w5⟩ :=
          tls_write_ok st w offset length data e hfind hr r st2 hwr
        obtain ⟨u1, -, u3, u4, u5, -⟩ := unprotect_loop_frame e.tls.pages e.tls.page_num 0 st
        obtain ⟨-, s2ps, s2ht, -⟩ :=
          write_loop_spec e.tls.page_num offset data length 0 e.tls.pages _ pages2 s2 hl
            ((hinv.pages_ok w e.tls hw).1.congr u1 u5)
        apply tls_read_congr
        · simp only [lookup]
          rw [w5, s2ht, u4, lookup_update_set_tls _ w t _ hne]
        · rw [w3, s2ps, u3]
        · intro tls htls
          rw [ht] at htls
          simp at htls

/-- C2. Storage round-trip. In every state reached by calls of the storage operations from
the start state, let the caller own a segment of size `s` (a 32-bit value) and
let `offset + length ≤ s`; `offset = 0`, `offset + length = s` and ranges that
cross page boundaries are included. Then a call `tls_write(offset, length, data)`
that returns 0, followed by `tls_read(offset, length, out)` by the same thread,
makes the read return 0 with `out[j] = data[j]` for every `j < length`. And the
write does return 0 whenever the pages of the segment cover its size. -/
theorem tls_write_read_round_trip (ops : List Op) (st : Storage)
    (hreach : steps start ops = some st) (self offset length : Nat)
    (data buffer : Nat → Nat) (tls : TLS)
    (hown : lookup st self = some tls)
    (hsize : tls.size < 2 ^ 32)
    (hrange : offset + length ≤ tls.size) :
    (∀ st1 : Storage, tls_write st self offset length data = some (0, st1) →
      ∃ out st2, tls_read st1 self offset length buffer = some (0, out, st2) ∧
        ∀ j, j < length → out j = data j) ∧
    (0 < st.page_size → tls.size ≤ tls.page_num * st.page_size →
      ∃ st1 : Storage, tls_write st self offset length data = some (0, st1)) := by
  have hinv : StorageInv st := steps_inv ops start st start_inv hreach
  obtain ⟨hok, -⟩ := hinv.pages_ok self tls hown
  obtain ⟨e, hfind, hetls, -⟩ := lookup_some st self tls hown
  subst hetls
  have hmod : (offset + length) % 2 ^ 32 = offset + length := Nat.mod_eq_of_lt (by omega)
  have hr : ¬ (offset + length) % 2 ^ 32 > e.tls.size := by rw [hmod]; omega
  obtain ⟨u1, u2, u3, u4, u5, -⟩ := unprotect_loop_frame e.tls.pages e.tls.page_num 0 st
  have hok1 : PagesOk (unprotect_loop e.tls.pages e.tls.page_num 0 st) e.tls.page_num
      e.tls.pages := hok.congr u1 u5
  constructor
  · intro st1 hw
    obtain ⟨-, pages2, st2, hl, w1, w2, w3, w4, w5⟩ :=
      tls_write_ok st self offset length data e hfind hr 0 st1 hw
    obtain ⟨s1, s2, s3, -, s5, -, s7, -⟩ :=
      write_loop_spec e.tls.page_num offset data length 0 e.tls.pages _ pages2 st2 hl hok1
    have hfind1 : find_element (st1.hash_table (hash_func self)) self
        = some { e with tls := { e.tls with pages := pages2 } } := by
      rw [w5, Function.update_same, s3, u4]
      exact find_element_set_tls_same _ self _ e hfind
    obtain ⟨v1, v2, v3, -⟩ := unprotect_loop_frame pages2 e.tls.page_num 0 st1
    have hps1 : (unprotect_loop pages2 e.tls.page_num 0 st1).page_size
        = (unprotect_loop e.tls.pages e.tls.page_num 0 st).page_size := by
      rw [v3, w3, s2]
    obtain ⟨out, r1, r2, -⟩ := read_loop_spec (unprotect_loop pages2 e.tls.page_num 0 st1)
      { e.tls with pages := pages2 } offset length 0 buffer (fun j hj1 hj2 => by
        rw [hps1, v1, w1]
        have hk := s5 j hj1 hj2
        exact ⟨hk, s1.live _ hk⟩)
    refine ⟨out, protect_loop pages2 e.tls.page_num 0
      (unprotect_loop pages2 e.tls.page_num 0 st1), ?_, ?_⟩
    · simp only [tls_read, hfind1, if_neg hr]
      rw [r1]
    · intro j hj
      rw [r2 j (Nat.zero_le _) (by omega), Nat.mod_eq_of_lt (by omega)]
      have := s7 (by omega) j (Nat.zero_le _) (by omega)
      simp only [cell] at this ⊢
      rw [v2, v3, w2, w3]
      exact this
  · intro hps hcover
    exact tls_write_in_range st self offset length data e.tls hown hok hsize hrange hps hcover

/-- Witness for C2: a write of two bytes across the page boundary of a two-page
segment, read back. -/
theorem tls_write_read_round_trip_witness :
    ∃ st st1 out st2, steps start [Op.create 1 8192 4096] = some st ∧
      tls_write st 1 4095 2 (fun j => 17 + j) = some (0, st1) ∧
      tls_read st1 1 4095 2 (fun _ => 0) = some (0, out, st2) ∧
      out 0 = 17 ∧ out 1 = 18 := by
  have hthm := tls_write_read_round_trip [Op.create 1 8192 4096] _ rfl 1 4095 2
    (fun j => 17 + j) (fun _ => 0) _ rfl (by decide) (by decide)
  obtain ⟨st1, hw⟩ := hthm.2 (by decide) (by decide)
  obtain ⟨out, st2, hr, hout⟩ := hthm.1 st1 hw
  exact ⟨_, st1, out, st2, rfl, hw, hr, hout 0 (by decide), hout 1 (by decide)⟩

/-- C3. Copy-on-write isolation. In every state reached by calls of the storage
operations from the start state, let thread `t1` own a segment and let thread
`t2`, which owns none, call `tls_clone(t1)`: the call returns 0. From then on,
after any further calls of the storage operations, whatever `t2` writes with
`tls_write` (any offset, length and data), every `tls_read` by `t1`, at every
offset and length, returns the same value and the same bytes as before the
write; conversely, whatever `t1` writes, every `tls_read` by `t2` is unchanged.
Right after the clone, in-range writes by either thread do return 0 when the
pages cover the segment size. -/
theorem clone_copy_on_write_isolation (ops : List Op) (st : Storage)
    (hreach : steps start ops = some st) (t1 t2 : Nat) (hne : t1 ≠ t2)
    (tls1 : TLS) (h1 : lookup st t1 = some tls1) (h2 : lookup st t2 = none) :
    ∃ st1, tls_clone st t2 t1 = some (0, st1) ∧
      (∀ (ops2 : List Op) (st3 : Storage), steps st1 ops2 = some st3 →
        (∀ (offset length : Nat) (data : Nat → Nat) (r : Int) (st4 : Storage),
          tls_write st3 t2 offset length data = some (r, st4) →
          ∀ (o l : Nat) (buf : Nat → Nat),
            observed (tls_read st4 t1 o l buf) = observed (tls_read st3 t1 o l buf)) ∧
        (∀ (offset length : Nat) (data : Nat → Nat) (r : Int) (st4 : Storage),
          tls_write st3 t1 offset length data = some (r, st4) →
          ∀ (o l : Nat) (buf : Nat → Nat),
            observed (tls_read st4 t2 o l buf) = observed (tls_read st3 t2 o l buf))) ∧
      (0 < st.page_size → tls1.size < 2 ^ 32 →
        tls1.size ≤ tls1.page_num * st.page_size →
        ∀ (offset length : Nat) (data : Nat → Nat), offset + length ≤ tls1.size →
          (∃ st2, tls_write st1 t2 offset length data = some (0, st2)) ∧
          (∃ st2, tls_write st1 t1 offset length data = some (0, st2))) := by
  have hinv : StorageInv st := steps_inv ops start st start_inv hreach
  obtain ⟨hok, href⟩ := hinv.pages_ok t1 tls1 h1
  obtain ⟨st1, c1, c2, c3, c4, -, -, c7⟩ := tls_clone_spec st t1 t2 hne tls1 h1 h2 hok href
  have hinv1 : StorageInv st1 := tls_clone_inv st hinv t2 t1 0 st1 c1
  refine ⟨st1, c1, ?_, ?_⟩
  · intro ops2 st3 hrun
    have hinv3 : StorageInv st3 := steps_inv ops2 st1 st3 hinv1 hrun
    exact ⟨fun offset length data r st4 hw o l buf =>
        tls_write_isolated_inv st3 hinv3 t2 t1 hne offset length data r st4 hw o l buf,
      fun offset length data r st4 hw o l buf =>
        tls_write_isolated_inv st3 hinv3 t1 t2 (Ne.symm hne) offset length data r st4 hw
          o l buf⟩
  · intro hps hsize hcover offset length data hrange
    exact ⟨tls_write_in_range st1 t2 offset length data _ c3 c4 hsize hrange
        (by rw [c7]; exact hps) (by rw [c7]; exact hcover),
      tls_write_in_range st1 t1 offset length data tls1 c2 c4 hsize hrange
        (by rw [c7]; exact hps) (by rw [c7]; exact hcover)⟩

/-- Witness for C3, with the scenario of the specification: a segment of size 1 (one
page), thread 1 writes 0xAA at offset 0, thread 2 clones and writes 0xBB at
offset 0; thread 1 reads 0xAA and thread 2 reads 0xBB. -/
theorem clone_copy_on_write_isolation_witness :
    (∃ st, scenario = some st ∧
      (∃ o1 s1, tls_read st 1 0 1 (fun _ => 0) = some (0, o1, s1) ∧ o1 0 = 0xAA) ∧
      (∃ o2 s2, tls_read st 2 0 1 (fun _ => 0) = some (0, o2, s2) ∧ o2 0 = 0xBB)) ∧
    (∃ st st1,
      steps start [Op.create 1 1 4096, Op.write 1 0 1 (fun _ => 0xAA)] = some st ∧
      tls_clone st 2 1 = some (0, st1) ∧
      (∀ (offset length : Nat) (data : Nat → Nat) (r : Int) (st4 : Storage),
        tls_write st1 2 offset length data = some (r, st4) →
        ∀ (o l : Nat) (buf : Nat → Nat),
          observed (tls_read st4 1 o l buf) = observed (tls_read st1 1 o l buf)) ∧
      (∀ (offset length : Nat) (data : Nat → Nat) (r : Int) (st4 : Storage),
        tls_write st1 1 offset length data = some (r, st4) →
        ∀ (o l : Nat) (buf : Nat → Nat),
          observed (tls_read st4 2 o l buf) = observed (tls_read st1 2 o l buf))) := by
  refine ⟨⟨_, rfl, ⟨_, _, rfl, rfl⟩, ⟨_, _, rfl, rfl⟩⟩, ?_⟩
  obtain ⟨st1, c1, c2, -⟩ := clone_copy_on_write_isolation
    [Op.create 1 1 4096, Op.write 1 0 1 (fun _ => 0xAA)] _ rfl 1 2 (by decide) _ rfl rfl
  exact ⟨_, st1, rfl, c1, (c2 [] st1 rfl).1, (c2 [] st1 rfl).2⟩

/-! ## `tls_create` -/

/-- The lookup of a segment sees the hash table only. -/
theorem lookup_congr (st st2 : Storage) (h : st2.hash_table = st.hash_table) (t : Nat) :
    lookup st2 t = lookup st t := by
  simp only [lookup, h]

theorem lookup_isSome_iff (st : Storage) (t : Nat) :
    (lookup st t).isSome = true ↔
      ∃ e, find_element (st.hash_table (hash_func t)) t = some e := by
  simp only [lookup]
  cases find_element (st.hash_table (hash_func t)) t <;> simp

/-- The state in which `tls_create` makes its checks has the hash table of the state
before the call. -/
theorem tls_init_hash_table (st : Storage) (gp : Nat) :
    (if st.initialized then st else tls_init st gp).hash_table = st.hash_table := by
  split <;> rfl

/-- The segment that the success path of `tls_create` registers for the caller. -/
theorem tls_create_register_lookup (st : Storage) (self size : Nat) :
    lookup (tls_create_register st self size) self = some
      { tid := self, size := size,
        page_num := ((size + st.page_size - 1) % 2 ^ 32) / st.page_size,
        pages := (create_loop (((size + st.page_size - 1) % 2 ^ 32) / st.page_size) 0
          (fun _ => 0, st)).1 } := by
  simp [lookup, tls_create_register, find_element]

/-- The success path of `tls_create` is taken when the size is not zero and the chain
walk finds no element of the caller. -/
theorem tls_create_of_free (st : Storage) (self size gp : Nat) (hs : size ≠ 0)
    (hf : find_element (st.hash_table (hash_func self)) self = none) :
    tls_create st self size gp =
      (0, tls_create_register (if st.initialized then st else tls_init st gp) self size) := by
  have hf1 : find_element
      ((if st.initialized then st else tls_init st gp).hash_table (hash_func self)) self
        = none := by rw [tls_init_hash_table st gp]; exact hf
  simp only [tls_create, if_neg hs, hf1]

/-- C21. For every state, caller, size and page size: `tls_create` returns -1 exactly
when the size is zero or the caller already owns a segment, and then the caller
owns what it owned before; otherwise it returns 0 and the caller owns a segment
whose recorded size is the requested size. -/
theorem tls_create_returns (st : Storage) (self size getpagesize : Nat) :
    ((tls_create st self size getpagesize).1 = -1 ↔
      size = 0 ∨ (lookup st self).isSome = true) ∧
    (size = 0 ∨ (lookup st self).isSome = true →
      lookup (tls_create st self size getpagesize).2 self = lookup st self) ∧
    (¬ (size = 0 ∨ (lookup st self).isSome = true) →
      (tls_create st self size getpagesize).1 = 0 ∧
      ∃ tls, lookup (tls_create st self size getpagesize).2 self = some tls ∧
        tls.size = size ∧ tls.tid = self) := by
  have hht := tls_init_hash_table st getpagesize
  have hl : lookup (if st.initialized then st else tls_init st getpagesize) self
      = lookup st self := lookup_congr _ _ hht self
  by_cases hs : size = 0
  · refine ⟨⟨fun _ => Or.inl hs, fun _ => by simp [tls_create, hs]⟩, fun _ => ?_,
      fun hn => absurd (Or.inl hs) hn⟩
    simp only [tls_create, if_pos hs]
    exact hl
  · cases hf : find_element (st.hash_table (hash_func self)) self with
    | some e =>
      have hsome : (lookup st self).isSome = true := (lookup_isSome_iff st self).mpr ⟨e, hf⟩
      have hf1 : find_element
          ((if st.initialized then st else tls_init st getpagesize).hash_table
            (hash_func self)) self = some e := by rw [hht]; exact hf
      refine ⟨⟨fun _ => Or.inr hsome, fun _ => by simp [tls_create, hs, hf1]⟩, fun _ => ?_,
        fun hn => absurd (Or.inr hsome) hn⟩
      simp only [tls_create, if_neg hs, hf1]
      exact hl
    | none =>
      have hnone : ¬ (size = 0 ∨ (lookup st self).isSome = true) := by
        rintro (h | h)
        · exact hs h
        · obtain ⟨e, he⟩ := (lookup_isSome_iff st self).mp h
          rw [hf] at he; simp at he
      have hres := tls_create_of_free st self size getpagesize hs hf
      refine ⟨⟨fun h => ?_, fun h => absurd h hnone⟩, fun h => absurd h hnone, fun _ => ?_⟩
      · rw [hres] at h; simp at h
      · rw [hres]
        exact ⟨rfl, _, tls_create_register_lookup _ self size, rfl, rfl⟩

/-- Rounding up in `tls_create` when the sum does not wrap around: the page count is the
least number of pages that cover the size. -/
theorem page_count_covers (size ps : Nat) (hsize : 0 < size) (hps : 0 < ps)
    (hfit : size + ps - 1 < 2 ^ 32) :
    size ≤ (((size + ps - 1) % 2 ^ 32) / ps) * ps ∧
      ((((size + ps - 1) % 2 ^ 32) / ps) - 1) * ps < size := by
  rw [Nat.mod_eq_of_lt hfit]
  have h1 := Nat.div_add_mod (size + ps - 1) ps
  have h2 := Nat.mod_lt (size + ps - 1) hps
  have h3 : 1 ≤ (size + ps - 1) / ps := by
    rw [Nat.le_div_iff_mul_le hps]
    omega
  generalize (size + ps - 1) / ps = q at *
  have h4 : ps * q = q * ps := Nat.mul_comm _ _
  have h5 : (q - 1) * ps + ps = q * ps := by
    rw [← Nat.succ_mul]
    congr 1
    omega
  constructor
  · omega
  · omega

/-- The page loop of `tls_create` gives every new page the protection `PROT_NONE` and
leaves the protection of the other pages as it was. -/
theorem create_loop_prot :
    ∀ (n i : Nat) (pages : Nat → Nat) (st : Storage),
      (∀ q, st.brk ≤ q → q < st.brk + n →
        (create_loop n i (pages, st)).2.prot q = PROT_NONE) ∧
      (∀ q, q < st.brk → (create_loop n i (pages, st)).2.prot q = st.prot q) := by
  intro n
  induction n with
  | zero =>
    intro i pages st
    exact ⟨fun q h1 h2 => by omega, fun _ _ => rfl⟩
  | succ n ih =>
    intro i pages st
    obtain ⟨a1, a2⟩ := ih (i + 1) (Function.update pages i st.brk) (new_page st PROT_NONE)
    have hb : (new_page st PROT_NONE).brk = st.brk + 1 := rfl
    simp only [create_loop]
    constructor
    · intro q h1 h2
      by_cases hq : q = st.brk
      · rw [a2 q (by rw [hb]; omega), hq]
        simp [new_page]
      · exact a1 q (by rw [hb]; omega) (by rw [hb]; omega)
    · intro q hq
      rw [a2 q (by rw [hb]; omega)]
      simp [new_page, Function.update_noteq (show q ≠ st.brk by omega)]

/-- The segment that `tls_create` builds when the rounding does not wrap around: its
pages cover the size with the least number of pages; they are new pointers (no
segment of the state before refers to them), each with `ref_count` 1 and
protection `PROT_NONE`. -/
theorem tls_create_register_pages (st : Storage) (hinv : StorageInv st) (self size : Nat)
    (hsize : 0 < size) (hps : 0 < st.page_size) (hfit : size + st.page_size - 1 < 2 ^ 32) :
    ∃ tls, lookup (tls_create_register st self size) self = some tls ∧
      tls.size = size ∧ tls.tid = self ∧
      size ≤ tls.page_num * st.page_size ∧ (tls.page_num - 1) * st.page_size < size ∧
      ∀ j, j < tls.page_num →
        refs st (tls.pages j) = 0 ∧ st.heap (tls.pages j) = none ∧
        (∃ pg, (tls_create_register st self size).heap (tls.pages j) = some pg ∧
          pg.ref_count = 1) ∧
        (tls_create_register st self size).prot (tls.pages j) = PROT_NONE ∧
        ∀ k, k < tls.page_num → tls.pages j = tls.pages k → j = k := by
  obtain ⟨c1, c2⟩ := page_count_covers size st.page_size hsize hps hfit
  refine ⟨_, tls_create_register_lookup st self size, rfl, rfl, c1, c2, ?_⟩
  have hheap : (tls_create_register st self size).heap =
      (create_loop (((size + st.page_size - 1) % 2 ^ 32) / st.page_size) 0
        (fun _ => 0, st)).2.heap := rfl
  have hprot : (tls_create_register st self size).prot =
      (create_loop (((size + st.page_size - 1) % 2 ^ 32) / st.page_size) 0
        (fun _ => 0, st)).2.prot := rfl
  rw [hheap, hprot]
  clear hheap hprot c1 c2
  generalize ((size + st.page_size - 1) % 2 ^ 32) / st.page_size = pn
  obtain ⟨-, -, -, a4, -, a6, -, -⟩ := create_loop_spec pn 0 (fun _ => 0) st
  obtain ⟨p1, -⟩ := create_loop_prot pn 0 (fun _ => 0) st
  intro j hj
  replace hj : j < pn := hj
  have hpj : (create_loop pn 0 (fun _ => 0, st)).1 j = st.brk + j := by
    rw [a4 j (Nat.zero_le _) (by omega)]; omega
  simp only
  rw [hpj]
  refine ⟨?_, ?_, ?_, ?_, ?_⟩
  · by_contra hne
    have := hinv.refs_below_brk (st.brk + j) (Nat.pos_of_ne_zero hne)
    omega
  · cases hh : st.heap (st.brk + j) with
    | none => rfl
    | some pg =>
      have := hinv.heap_below _ pg hh
      omega
  · exact a6 (st.brk + j) (by omega) (by omega)
  · exact p1 (st.brk + j) (by omega) (by omega)
  · intro k hk hjk
    replace hk : k < pn := hk
    rw [a4 k (Nat.zero_le _) (by omega)] at hjk
    omega

/-- C22 (defect in the code). With a page size of 4096, `tls_create(4294967295)` returns 0
and registers a segment of size 4294967295 with 0 pages, where 1048576 pages are
needed: the sum `size + page_size - 1` wraps around in `unsigned int`. A read or
write of the first byte of this segment passes the range check and then indexes
the empty page array. -/
theorem tls_create_page_count_wraps :
    (tls_create start 1 (2 ^ 32 - 1) 4096).1 = 0 ∧
    (lookup huge_segment 1).map (fun tls => (tls.size, tls.page_num)) =
      some (2 ^ 32 - 1, 0) ∧
    (2 ^ 32 - 1 + 4096 - 1) / 4096 = 1048576 ∧
    (tls_write huge_segment 1 0 1 (fun _ => 0xAA)).isNone = true ∧
    (tls_read huge_segment 1 0 1 (fun _ => 0)).isNone = true := by
  decide

/-! ## The range check of `tls_read` and `tls_write` -/

/-- C23 (defect in the code). Thread 1 owns a segment of 4096 bytes (one page). With
offset 4294967295 and length 2 the sum `offset + length` wraps around to 1 in
`unsigned int`, the range check passes, and `tls_read` and `tls_write` do not return
-1: they index the page array at 1048575, outside the array. With offset 4096
and length 1, where nothing wraps, both return -1. -/
theorem tls_range_check_wraps :
    (lookup one_page 1).map (fun tls => (tls.size, tls.page_num)) = some (4096, 1) ∧
    (2 ^ 32 - 1 + 2) % 2 ^ 32 = 1 ∧ (2 ^ 32 - 1) / 4096 = 1048575 ∧
    (tls_read one_page 1 (2 ^ 32 - 1) 2 (fun _ => 0)).isNone = true ∧
    (tls_write one_page 1 (2 ^ 32 - 1) 2 (fun _ => 0xAA)).isNone = true ∧
    (tls_read one_page 1 4096 1 (fun _ => 0)).map (fun r => r.1) = some (-1) ∧
    (tls_write one_page 1 4096 1 (fun _ => 0xAA)).map (fun r => r.1) = some (-1) := by
  decide

/-! ## The chains of the hash table -/

theorem find_element_none_iff : ∀ (l : List hash_element) (tid : Nat),
    find_element l tid = none ↔ tid ∉ l.map (fun e => e.tid) := by
  intro l
  induction l with
  | nil => intro tid; simp [find_element]
  | cons a l ih =>
    intro tid
    by_cases ha : a.tid = tid
    · simp [find_element, ha]
    · simp only [find_element, if_neg ha, ih tid, List.map_cons, List.mem_cons, not_or]
      exact ⟨fun h => ⟨fun h2 => ha h2.symm, h⟩, fun h => h.2⟩

theorem map_tid_set_tls : ∀ (l : List hash_element) (tid : Nat) (tls : TLS),
    (set_tls tid tls l).map (fun e => e.tid) = l.map (fun e => e.tid) := by
  intro l
  induction l with
  | nil => intro tid tls; rfl
  | cons a l ih =>
    intro tid tls
    by_cases ha : a.tid = tid
    · simp [set_tls, ha]
    · simp [set_tls, ha, ih tid tls]

theorem map_tid_remove_element : ∀ (l : List hash_element) (tid : Nat),
    ((remove_element tid l).map (fun e => e.tid)).Sublist (l.map (fun e => e.tid)) := by
  intro l
  induction l with
  | nil => intro tid; simp [remove_element]
  | cons a l ih =>
    intro tid
    by_cases ha : a.tid = tid
    · simp only [remove_element, if_pos ha, List.map_cons]
      exact List.sublist_cons_self _ _
    · simp only [remove_element, if_neg ha, List.map_cons]
      exact (ih tid).cons₂ _

/-- In a chain without repeated `tid`s the unlinked `tid` is gone, and every other `tid`
is found as before. -/
theorem find_element_remove : ∀ (l : List hash_element) (tid : Nat),
    (l.map (fun e => e.tid)).Nodup →
    find_element (remove_element tid l) tid = none ∧
      ∀ t, t ≠ tid → find_element (remove_element tid l) t = find_element l t := by
  intro l
  induction l with
  | nil => intro tid _; exact ⟨rfl, fun _ _ => rfl⟩
  | cons a l ih =>
    intro tid hnd
    simp only [List.map_cons, List.nodup_cons] at hnd
    by_cases ha : a.tid = tid
    · simp only [remove_element, if_pos ha]
      refine ⟨(find_element_none_iff l tid).mpr (by rw [← ha]; exact hnd.1), fun t ht => ?_⟩
      have : ¬ a.tid = t := fun h => ht (h.symm.trans ha)
      simp only [find_element, if_neg this]
    · obtain ⟨h1, h2⟩ := ih tid hnd.2
      simp only [remove_element, if_neg ha, find_element]
      refine ⟨h1, fun t ht => ?_⟩
      by_cases hat : a.tid = t
      · simp only [if_pos hat]
      · simp only [if_neg hat]
        exact h2 t ht

/-- In a chain without repeated `tid`s every element is the one found for its `tid`. -/
theorem find_element_of_mem : ∀ (l : List hash_element) (e : hash_element),
    (l.map (fun x => x.tid)).Nodup → e ∈ l → find_element l e.tid = some e := by
  intro l
  induction l with
  | nil => intro e _ h; simp at h
  | cons a l ih =>
    intro e hnd hmem
    simp only [List.map_cons, List.nodup_cons] at hnd
    rcases List.mem_cons.mp hmem with h | h
    · subst h
      simp [find_element]
    · have hne : ¬ a.tid = e.tid := by
        intro heq
        apply hnd.1
        rw [heq]
        exact List.mem_map.mpr ⟨e, h, rfl⟩
      simp only [find_element, if_neg hne]
      exact ih e hnd.2 h

/-- Frame of the page loop of `tls_destroy`: only page objects change. -/
theorem destroy_loop_frame (pages : Nat → Nat) :
    ∀ (n i : Nat) (st st1 : Storage), destroy_loop pages n i st = some st1 →
      st1.hash_table = st.hash_table ∧ st1.mem = st.mem ∧ st1.prot = st.prot ∧
      st1.page_size = st.page_size ∧ st1.brk = st.brk ∧ st1.initialized = st.initialized := by
  intro n
  induction n with
  | zero =>
    intro i st st1 h
    simp only [destroy_loop, Option.some.injEq] at h
    subst h
    exact ⟨rfl, rfl, rfl, rfl, rfl, rfl⟩
  | succ n ih =>
    intro i st st1 h
    simp only [destroy_loop] at h
    split at h
    · simp at h
    · split at h
      · have g := ih (i + 1) _ st1 h
        exact g
      · have g := ih (i + 1) _ st1 h
        exact g

/-- Frame of the page loop of `tls_clone`: only page objects change. -/
theorem clone_loop_frame (pages : Nat → Nat) :
    ∀ (n i : Nat) (st st1 : Storage), clone_loop pages n i st = some st1 →
      st1.hash_table = st.hash_table ∧ st1.mem = st.mem ∧ st1.prot = st.prot ∧
      st1.page_size = st.page_size ∧ st1.brk = st.brk ∧ st1.initialized = st.initialized := by
  intro n
  induction n with
  | zero =>
    intro i st st1 h
    simp only [clone_loop, Option.some.injEq] at h
    subst h
    exact ⟨rfl, rfl, rfl, rfl, rfl, rfl⟩
  | succ n ih =>
    intro i st st1 h
    simp only [clone_loop] at h
    split at h
    · simp at h
    · have g := ih (i + 1) _ st1 h
      exact g

/-- Frame of the store loop of `tls_write`: the hash table is not touched. -/
theorem write_loop_hash_table (page_num offset : Nat) (buffer : Nat → Nat) :
    ∀ (n i : Nat) (pages : Nat → Nat) (st : Storage) (pages2 : Nat → Nat) (st2 : Storage),
      write_loop page_num offset buffer n i (pages, st) = some (pages2, st2) →
      st2.hash_table = st.hash_table ∧ st2.page_size = st.page_size := by
  intro n
  induction n with
  | zero =>
    intro i pages st pages2 st2 h
    simp only [write_loop, Option.some.injEq, Prod.mk.injEq] at h
    obtain ⟨-, h2⟩ := h
    subst h2
    exact ⟨rfl, rfl⟩
  | succ n ih =>
    intro i pages st pages2 st2 h
    simp only [write_loop] at h
    cases hs : write_step page_num offset buffer i (pages, st) with
    | none => rw [hs] at h; simp at h
    | some acc =>
      obtain ⟨pages1, st1⟩ := acc
      rw [hs] at h
      obtain ⟨-, -, -, -, e1, e2, -⟩ :=
        write_step_cases page_num offset buffer i pages st pages1 st1 hs
      obtain ⟨f1, f2⟩ := ih (i + 1) pages1 st1 pages2 st2 h
      exact ⟨f1.trans e2, f2.trans e1⟩

/-- What a call does to the hash table: nothing, or it links a new element for a
`tid` that had none in front of its chain (`tls_create`, `tls_clone`), or it
unlinks the caller's element (`tls_destroy`), or it stores a page array in the
caller's element (`tls_write`). -/
theorem step_hash_table (st st1 : Storage) (op : Op) (h : step st op = some st1) :
    st1.hash_table = st.hash_table ∨
    (∃ self tls, find_element (st.hash_table (hash_func self)) self = none ∧
      st1.hash_table = Function.update st.hash_table (hash_func self)
        ({ tid := self, tls := tls } :: st.hash_table (hash_func self))) ∨
    (∃ self, st1.hash_table = Function.update st.hash_table (hash_func self)
        (remove_element self (st.hash_table (hash_func self)))) ∨
    (∃ self tls, st1.hash_table = Function.update st.hash_table (hash_func self)
        (set_tls self tls (st.hash_table (hash_func self)))) := by
  cases op with
  | create self size gp =>
    simp only [step, Option.some.injEq] at h
    subst h
    have hht := tls_init_hash_table st gp
    simp only [tls_create]
    split
    · exact Or.inl hht
    · split
      · exact Or.inl hht
      · rename_i hf
        right; left
        rw [hht] at hf
        refine ⟨self,
          { tid := self, size := size,
            page_num := ((size + (if st.initialized then st
              else tls_init st gp).page_size - 1) % 2 ^ 32) /
                (if st.initialized then st else tls_init st gp).page_size,
            pages := (create_loop (((size + (if st.initialized then st
              else tls_init st gp).page_size - 1) % 2 ^ 32) /
                (if st.initialized then st else tls_init st gp).page_size) 0
                (fun _ => 0, if st.initialized then st else tls_init st gp)).1 }, hf, ?_⟩
        simp only [tls_create_register]
        rw [(create_loop_spec _ 0 (fun _ => 0) _).2.1, hht]
  | destroy self =>
    simp only [step, Option.map_eq_some'] at h
    obtain ⟨⟨r, s⟩, h1, h2⟩ := h
    simp only at h2
    subst h2
    simp only [tls_destroy] at h1
    split at h1
    · simp only [Option.some.injEq, Prod.mk.injEq] at h1
      rw [← h1.2]; exact Or.inl rfl
    · rename_i e he
      cases hd : destroy_loop e.tls.pages e.tls.page_num 0 st with
      | none => rw [hd] at h1; simp at h1
      | some s1 =>
        rw [hd] at h1
        simp only [Option.some.injEq, Prod.mk.injEq] at h1
        obtain ⟨f1, -⟩ := destroy_loop_frame _ _ _ _ _ hd
        right; right; left
        refine ⟨self, ?_⟩
        rw [← h1.2]
        simp only [f1]
  | read self offset length buffer =>
    simp only [step, Option.map_eq_some'] at h
    obtain ⟨⟨r, out, s⟩, h1, h2⟩ := h
    simp only at h2
    subst h2
    left
    simp only [tls_read] at h1
    split at h1
    · simp only [Option.some.injEq, Prod.mk.injEq] at h1
      rw [← h1.2.2]
    · split at h1
      · simp only [Option.some.injEq, Prod.mk.injEq] at h1
        rw [← h1.2.2]
      · split at h1
        · simp at h1
        · simp only [Option.some.injEq, Prod.mk.injEq] at h1
          rw [← h1.2.2]
          rw [(protect_loop_frame _ _ _ _).2.2.2.1, (unprotect_loop_frame _ _ _ _).2.2.2.1]
  | write self offset length buffer =>
    simp only [step, Option.map_eq_some'] at h
    obtain ⟨⟨r, s⟩, h1, h2⟩ := h
    simp only at h2
    subst h2
    cases hf : find_element (st.hash_table (hash_func self)) self with
    | none =>
      simp only [tls_write, hf, Option.some.injEq, Prod.mk.injEq] at h1
      rw [← h1.2]; exact Or.inl rfl
    | some e =>
      by_cases hr : (offset + length) % 2 ^ 32 > e.tls.size
      · simp only [tls_write, hf, if_pos hr, Option.some.injEq, Prod.mk.injEq] at h1
        rw [← h1.2]; exact Or.inl rfl
      · obtain ⟨-, pages2, st2, hl, -, -, -, -, w5⟩ :=
          tls_write_ok st self offset length buffer e hf hr r _ h1
        obtain ⟨g1, -⟩ := write_loop_hash_table _ _ _ _ _ _ _ _ _ hl
        right; right; right
        refine ⟨self, { e.tls with pages := pages2 }, ?_⟩
        rw [w5, g1, (unprotect_loop_frame _ _ _ _).2.2.2.1]
  | clone self tid =>
    simp only [step, Option.map_eq_some'] at h
    obtain ⟨⟨r, s⟩, h1, h2⟩ := h
    simp only at h2
    subst h2
    cases hft : find_element (st.hash_table (hash_func tid)) tid with
    | none =>
      simp only [tls_clone, hft, Option.some.injEq, Prod.mk.injEq] at h1
      rw [← h1.2]; exact Or.inl rfl
    | some e =>
      cases hfs : find_element (st.hash_table (hash_func self)) self with
      | some e2 =>
        simp only [tls_clone, hft, hfs, Option.some.injEq, Prod.mk.injEq] at h1
        rw [← h1.2]; exact Or.inl rfl
      | none =>
        simp only [tls_clone, hft, hfs] at h1
        cases hc : clone_loop e.tls.pages e.tls.page_num 0 st with
        | none => rw [hc] at h1; simp at h1
        | some s1 =>
          rw [hc] at h1
          simp only [Option.some.injEq, Prod.mk.injEq] at h1
          obtain ⟨f1, -⟩ := clone_loop_frame _ _ _ _ _ hc
          right; left
          refine ⟨self,
            { tid := self, size := e.tls.size, page_num := e.tls.page_num,
              pages := e.tls.pages }, hfs, ?_⟩
          rw [← h1.2]
          simp only [f1]

theorem start_chains : ChainsOk start :=
  ⟨fun b e h => by simp [start] at h, fun b => by simp [start]⟩

/-- Every call keeps the chains well formed. -/
theorem step_chains (st st1 : Storage) (hc : ChainsOk st) (op : Op)
    (h : step st op = some st1) : ChainsOk st1 := by
  rcases step_hash_table st st1 op h with h1 | ⟨self, tls, hf, h1⟩ | ⟨self, h1⟩ |
    ⟨self, tls, h1⟩
  · exact ⟨by rw [h1]; exact hc.home, by rw [h1]; exact hc.nodup⟩
  · constructor
    · intro b e he
      rw [h1] at he
      by_cases hb : b = hash_func self
      · subst hb
        rw [Function.update_same] at he
        rcases List.mem_cons.mp he with g | g
        · rw [g]
        · exact hc.home _ e g
      · rw [Function.update_noteq hb] at he
        exact hc.home b e he
    · intro b
      rw [h1]
      by_cases hb : b = hash_func self
      · subst hb
        rw [Function.update_same, List.map_cons, List.nodup_cons]
        exact ⟨(find_element_none_iff _ _).mp hf, hc.nodup _⟩
      · rw [Function.update_noteq hb]
        exact hc.nodup b
  · constructor
    · intro b e he
      rw [h1] at he
      by_cases hb : b = hash_func self
      · subst hb
        rw [Function.update_same] at he
        exact hc.home _ e (mem_remove_element _ _ _ he)
      · rw [Function.update_noteq hb] at he
        exact hc.home b e he
    · intro b
      rw [h1]
      by_cases hb : b = hash_func self
      · subst hb
        rw [Function.update_same]
        exact (hc.nodup _).sublist (map_tid_remove_element _ _)
      · rw [Function.update_noteq hb]
        exact hc.nodup b
  · constructor
    · intro b e he
      rw [h1] at he
      by_cases hb : b = hash_func self
      · subst hb
        rw [Function.update_same] at he
        rcases mem_set_tls _ _ _ _ he with g | ⟨e0, g1, g2⟩
        · exact hc.home _ e g
        · rw [g2]
          exact hc.home _ e0 g1
      · rw [Function.update_noteq hb] at he
        exact hc.home b e he
    · intro b
      rw [h1]
      by_cases hb : b = hash_func self
      · subst hb
        rw [Function.update_same, map_tid_set_tls]
        exact hc.nodup _
      · rw [Function.update_noteq hb]
        exact hc.nodup b

/-- Every state reached by a run of calls from a state with well-formed chains has
well-formed chains. -/
theorem steps_chains : ∀ (ops : List Op) (st st1 : Storage), ChainsOk st →
    steps st ops = some st1 → ChainsOk st1 := by
  intro ops
  induction ops with
  | nil =>
    intro st st1 hc h
    simp only [steps, Option.some.injEq] at h
    rw [← h]; exact hc
  | cons op ops ih =>
    intro st st1 hc h
    simp only [steps] at h
    cases hs : step st op with
    | none => rw [hs] at h; simp at h
    | some s =>
      rw [hs] at h
      exact ih s st1 (step_chains st s hc op hs) h

/-- With well-formed chains the elements of the table are exactly the segments that
the threads own. -/
theorem ChainsOk.lookup_of_mem {st : Storage} (hc : ChainsOk st) (b : Nat) (e : hash_element)
    (he : e ∈ st.hash_table b) : lookup st e.tid = some e.tls := by
  have hb := hc.home b e he
  simp only [lookup]
  rw [hb, find_element_of_mem _ e (hc.nodup b) he]
  rfl

/-! ## `tls_destroy` -/

theorem lookup_eq_none_iff (st : Storage) (t : Nat) :
    lookup st t = none ↔ find_element (st.hash_table (hash_func t)) t = none := by
  simp only [lookup]
  cases find_element (st.hash_table (hash_func t)) t <;> simp

/-- The segments after the caller's element was unlinked from its chain. -/
theorem lookup_after_remove (st : Storage) (hc : ChainsOk st) (self : Nat)
    (ht : Nat → List hash_element)
    (hht : ht = Function.update st.hash_table (hash_func self)
      (remove_element self (st.hash_table (hash_func self)))) :
    find_element (ht (hash_func self)) self = none ∧
      ∀ t, t ≠ self → find_element (ht (hash_func t)) t
        = find_element (st.hash_table (hash_func t)) t := by
  obtain ⟨h1, h2⟩ := find_element_remove (st.hash_table (hash_func self)) self
    (hc.nodup (hash_func self))
  subst hht
  refine ⟨by rw [Function.update_same]; exact h1, fun t hne => ?_⟩
  by_cases hb : hash_func t = hash_func self
  · rw [hb, Function.update_same]
    exact h2 t hne
  · rw [Function.update_noteq hb]

/-- C24. In every state reached by calls of the storage operations from the start
state, `tls_destroy` returns, and it returns -1 exactly when the caller owns no
segment (the state is then unchanged). When the caller owns a segment the call
returns 0; every page of the segment has its `ref_count` decremented by one, and
the page object is released exactly when the count reaches zero; no other page
object and no page contents change; every page of every other thread's segment
still exists; the caller owns no segment afterwards, so that a following
`tls_create` with a non-zero size returns 0; and every other thread owns the
segment record (size, page count, page list) it owned before. -/
theorem tls_destroy_spec (ops : List Op) (st : Storage) (hreach : steps start ops = some st)
    (self : Nat) :
    ∃ (r : Int) (st1 : Storage), tls_destroy st self = some (r, st1) ∧
      (r = -1 ↔ lookup st self = none) ∧
      (lookup st self = none → st1 = st) ∧
      (∀ tls, lookup st self = some tls →
        r = 0 ∧
        (∀ i, i < tls.page_num → ∃ pg, st.heap (tls.pages i) = some pg ∧
          st1.heap (tls.pages i) =
            if pg.ref_count - 1 = 0 then none
            else some { pg with ref_count := pg.ref_count - 1 }) ∧
        (∀ q, (∀ i, i < tls.page_num → q ≠ tls.pages i) → st1.heap q = st.heap q) ∧
        st1.mem = st.mem ∧
        (∀ t tls2, t ≠ self → lookup st t = some tls2 → ∀ j, j < tls2.page_num →
          ∃ pg, st1.heap (tls2.pages j) = some pg) ∧
        lookup st1 self = none ∧
        (∀ size getpagesize, 0 < size → (tls_create st1 self size getpagesize).1 = 0) ∧
        (∀ t, t ≠ self → lookup st1 t = lookup st t)) := by
  have hinv : StorageInv st := steps_inv ops start st start_inv hreach
  have hc : ChainsOk st := steps_chains ops start st start_chains hreach
  cases hfind : find_element (st.hash_table (hash_func self)) self with
  | none =>
    have hnone : lookup st self = none := (lookup_eq_none_iff st self).mpr hfind
    refine ⟨-1, st, by simp only [tls_destroy, hfind], ⟨fun _ => hnone, fun _ => rfl⟩,
      fun _ => rfl, fun tls htls => ?_⟩
    rw [hnone] at htls; simp at htls
  | some e =>
    have hown : lookup st self = some e.tls := by simp [lookup, hfind]
    obtain ⟨hok, -⟩ := hinv.pages_ok self e.tls hown
    obtain ⟨s1, c1, c2, c3, c4, c5⟩ :=
      destroy_loop_spec e.tls.pages e.tls.page_num hok.inj e.tls.page_num 0 st (by omega)
        (fun j _ hj => hok.live j (by omega))
    obtain ⟨-, f2, -⟩ := destroy_loop_frame _ _ _ _ _ c1
    obtain ⟨r1, r2⟩ := lookup_after_remove st hc self
      (Function.update s1.hash_table (hash_func self)
        (remove_element self (s1.hash_table (hash_func self)))) (by rw [c2])
    refine ⟨0, { s1 with
        hash_table := Function.update s1.hash_table (hash_func self)
          (remove_element self (s1.hash_table (hash_func self))) },
      by simp only [tls_destroy, hfind, c1], ⟨fun h => by simp at h, fun h => ?_⟩,
      fun h => ?_, fun tls htls => ?_⟩
    · rw [hown] at h; simp at h
    · rw [hown] at h; simp at h
    · rw [hown] at htls
      simp only [Option.some.injEq] at htls
      subst htls
      have hgone : lookup { s1 with
          hash_table := Function.update s1.hash_table (hash_func self)
            (remove_element self (s1.hash_table (hash_func self))) } self = none :=
        (lookup_eq_none_iff _ self).mpr r1
      refine ⟨rfl, fun i hi => ?_, fun q hq => ?_, f2, fun t tls2 hne ht j hj => ?_, hgone,
        fun size gp hsize => ?_, fun t hne => ?_⟩
      · obtain ⟨pg, hpg⟩ := hok.live i hi
        exact ⟨pg, hpg, c4 i (Nat.zero_le _) (by omega) pg hpg⟩
      · exact c5 q (fun i _ hi => hq i (by omega))
      · obtain ⟨hok2, -⟩ := hinv.pages_ok t tls2 ht
        obtain ⟨pg2, hpg2⟩ := hok2.live j hj
        by_cases hshare : ∃ i, i < e.tls.page_num ∧ tls2.pages j = e.tls.pages i
        · obtain ⟨i, hi, hji⟩ := hshare
          obtain ⟨pg, hpg, hrc⟩ := hinv.shared self t hne e.tls tls2 hown ht i j hi hj hji.symm
          have h4 := c4 i (Nat.zero_le _) (by omega) pg hpg
          rw [if_neg (by omega)] at h4
          exact ⟨_, by simp only; rw [hji]; exact h4⟩
        · push_neg at hshare
          exact ⟨pg2, by
            simp only
            rw [c5 _ (fun i _ hi => hshare i (by omega))]
            exact hpg2⟩
      · rw [tls_create_of_free _ self size gp (by omega) r1]
      · simp only [lookup]
        rw [r2 t hne]

/-- Witness for C24: thread 1 destroys the one-page segment it has created. -/
theorem tls_destroy_spec_witness :
    ∃ (r : Int) (st1 : Storage), tls_destroy one_page 1 = some (r, st1) ∧
      (r = -1 ↔ lookup one_page 1 = none) := by
  obtain ⟨r, st1, h1, h2, -⟩ :=
    tls_destroy_spec [Op.create 1 4096 4096] one_page rfl 1
  exact ⟨r, st1, h1, h2⟩

/-! ## `tls_clone` -/

/-- The copy loop of `tls_read` reads a segment record through its page count and its
page array only. -/
theorem read_loop_same_pages (st : Storage) (tls tls2 : TLS) (offset : Nat)
    (h1 : tls2.page_num = tls.page_num) (h2 : tls2.pages = tls.pages) :
    ∀ (n i : Nat) (buffer : Nat → Nat),
      read_loop st tls2 offset n i buffer = read_loop st tls offset n i buffer := by
  intro n
  induction n with
  | zero => intro i buffer; rfl
  | succ n ih =>
    intro i buffer
    simp only [read_loop, h1, h2, ih]

/-- Two threads whose segment records have the same size, page count and page array
get the same result from `tls_read`. -/
theorem tls_read_same_pages (st : Storage) (t t2 : Nat) (tls tls2 : TLS)
    (ht : lookup st t = some tls) (ht2 : lookup st t2 = some tls2)
    (h0 : tls2.size = tls.size) (h1 : tls2.page_num = tls.page_num)
    (h2 : tls2.pages = tls.pages) (offset length : Nat) (buffer : Nat → Nat) :
    tls_read st t2 offset length buffer = tls_read st t offset length buffer := by
  obtain ⟨e, hf, he, -⟩ := lookup_some st t tls ht
  obtain ⟨e2, hf2, he2, -⟩ := lookup_some st t2 tls2 ht2
  subst he he2
  simp only [tls_read, hf, hf2, h0, h1, h2,
    read_loop_same_pages _ e.tls e2.tls offset h1 h2]

/-- The call `tls_clone` in a state with the invariant, by a caller without a segment
and with a source that has one: the loop runs through, and the result is the
state after the loop with the new element in front of the caller's chain. -/
theorem tls_clone_run (st : Storage) (hinv : StorageInv st) (self tid : Nat)
    (e : hash_element)
    (hft : find_element (st.hash_table (hash_func tid)) tid = some e)
    (hfs : find_element (st.hash_table (hash_func self)) self = none) :
    ∃ s1, clone_loop e.tls.pages e.tls.page_num 0 st = some s1 ∧
      tls_clone st self tid = some (0, { s1 with
        hash_table := Function.update s1.hash_table (hash_func self)
          ({ tid := self
             tls := { tid := self, size := e.tls.size, page_num := e.tls.page_num,
                      pages := e.tls.pages } } ::
            s1.hash_table (hash_func self)) }) ∧
      s1.mem = st.mem ∧ s1.page_size = st.page_size ∧ s1.hash_table = st.hash_table ∧
      s1.brk = st.brk ∧ s1.prot = st.prot ∧
      (∀ j, j < e.tls.page_num → ∀ pg, st.heap (e.tls.pages j) = some pg →
        s1.heap (e.tls.pages j) = some { pg with ref_count := pg.ref_count + 1 }) ∧
      (∀ q, (∀ j, j < e.tls.page_num → q ≠ e.tls.pages j) → s1.heap q = st.heap q) := by
  obtain ⟨hok, -⟩ := hinv.pages_ok tid e.tls (by simp [lookup, hft])
  obtain ⟨s1, c1, c2, c3, c4, c5, c6, c7⟩ :=
    clone_loop_spec e.tls.pages e.tls.page_num hok.inj e.tls.page_num 0 st (by omega)
      (fun j _ hj => hok.live j (by omega))
  obtain ⟨-, -, f3, -⟩ := clone_loop_frame _ _ _ _ _ c1
  refine ⟨s1, c1, by simp only [tls_clone, hft, hfs, c1], c2, c3, c4, c5, f3,
    fun j hj pg hpg => c6 j (Nat.zero_le _) (by omega) pg hpg,
    fun q hq => c7 q (fun j _ hj => hq j (by omega))⟩

/-- C25. In every state reached by calls of the storage operations from the start
state, `tls_clone` returns, and it returns -1 exactly when the source thread owns
no segment or the caller already owns one; otherwise it returns 0. Cloning
oneself returns -1. -/
theorem tls_clone_returns (ops : List Op) (st : Storage) (hreach : steps start ops = some st)
    (self tid : Nat) :
    ∃ (r : Int) (st1 : Storage), tls_clone st self tid = some (r, st1) ∧
      (r = -1 ↔ lookup st tid = none ∨ (lookup st self).isSome = true) ∧
      (¬ (lookup st tid = none ∨ (lookup st self).isSome = true) → r = 0) ∧
      (tid = self → r = -1) := by
  have hinv : StorageInv st := steps_inv ops start st start_inv hreach
  cases hft : find_element (st.hash_table (hash_func tid)) tid with
  | none =>
    have hnone : lookup st tid = none := (lookup_eq_none_iff st tid).mpr hft
    exact ⟨-1, st, by simp only [tls_clone, hft], ⟨fun _ => Or.inl hnone, fun _ => rfl⟩,
      fun h => absurd (Or.inl hnone) h, fun _ => rfl⟩
  | some e =>
    cases hfs : find_element (st.hash_table (hash_func self)) self with
    | some e2 =>
      have hsome : (lookup st self).isSome = true := (lookup_isSome_iff st self).mpr ⟨e2, hfs⟩
      exact ⟨-1, st, by simp only [tls_clone, hft, hfs], ⟨fun _ => Or.inr hsome, fun _ => rfl⟩,
        fun h => absurd (Or.inr hsome) h, fun _ => rfl⟩
    | none =>
      obtain ⟨s1, -, hrun, -⟩ := tls_clone_run st hinv self tid e hft hfs
      have hn : ¬ (lookup st tid = none ∨ (lookup st self).isSome = true) := by
        rintro (h | h)
        · rw [(lookup_eq_none_iff st tid).mp h] at hft; simp at hft
        · obtain ⟨x, hx⟩ := (lookup_isSome_iff st self).mp h
          rw [hfs] at hx; simp at hx
      refine ⟨0, _, hrun, ⟨fun h => by simp at h, fun h => absurd h hn⟩, fun _ => rfl,
        fun heq => ?_⟩
      rw [heq, hfs] at hft
      simp at hft

/-- Witness for C25: thread 2 clones the one-page segment of thread 1. -/
theorem tls_clone_returns_witness :
    ∃ (r : Int) (st1 : Storage), tls_clone one_page 2 1 = some (r, st1) ∧
      (r = -1 ↔ lookup one_page 1 = none ∨ (lookup one_page 2).isSome = true) := by
  obtain ⟨r, st1, h1, h2, -⟩ := tls_clone_returns [Op.create 1 4096 4096] one_page rfl 2 1
  exact ⟨r, st1, h1, h2⟩

/-- C26. In every state reached by calls of the storage operations from the start
state, let `tid` own a segment and the caller none. Then `tls_clone(tid)` returns 0;
the caller owns a segment record with the size, the page count and the very page
array of the source; the source owns the record it owned; every page of the
array has its `ref_count` incremented by one and no other page object changes;
no page contents change and no page is allocated; and every `tls_read` by the
caller gives what the same `tls_read` by the source gives. -/
theorem tls_clone_shares_pages (ops : List Op) (st : Storage)
    (hreach : steps start ops = some st) (self tid : Nat) (tls : TLS)
    (hsrc : lookup st tid = some tls) (hfree : lookup st self = none) :
    ∃ st1 : Storage, tls_clone st self tid = some (0, st1) ∧
      lookup st1 self = some
        { tid := self, size := tls.size, page_num := tls.page_num, pages := tls.pages } ∧
      lookup st1 tid = some tls ∧
      (∀ i, i < tls.page_num → ∃ pg, st.heap (tls.pages i) = some pg ∧
        st1.heap (tls.pages i) = some { pg with ref_count := pg.ref_count + 1 }) ∧
      (∀ q, (∀ i, i < tls.page_num → q ≠ tls.pages i) → st1.heap q = st.heap q) ∧
      st1.mem = st.mem ∧ st1.brk = st.brk ∧ st1.page_size = st.page_size ∧
      (∀ (offset length : Nat) (buffer : Nat → Nat),
        tls_read st1 self offset length buffer = tls_read st1 tid offset length buffer) := by
  have hinv : StorageInv st := steps_inv ops start st start_inv hreach
  obtain ⟨e, hft, he, -⟩ := lookup_some st tid tls hsrc
  subst he
  have hfs := (lookup_eq_none_iff st self).mp hfree
  have hne : tid ≠ self := by
    intro heq
    rw [heq, hfs] at hft
    simp at hft
  obtain ⟨hok, -⟩ := hinv.pages_ok tid e.tls hsrc
  obtain ⟨s1, -, hrun, c2, c3, c4, c5, -, c6, c7⟩ := tls_clone_run st hinv self tid e hft hfs
  have hself : lookup { s1 with
      hash_table := Function.update s1.hash_table (hash_func self)
        ({ tid := self
           tls := { tid := self, size := e.tls.size, page_num := e.tls.page_num,
                    pages := e.tls.pages } } ::
          s1.hash_table (hash_func self)) } self = some
      { tid := self, size := e.tls.size, page_num := e.tls.page_num,
        pages := e.tls.pages } := by
    simp [lookup, find_element]
  have htid : lookup { s1 with
      hash_table := Function.update s1.hash_table (hash_func self)
        ({ tid := self
           tls := { tid := self, size := e.tls.size, page_num := e.tls.page_num,
                    pages := e.tls.pages } } ::
          s1.hash_table (hash_func self)) } tid = some e.tls := by
    simp only [lookup]
    by_cases hb : hash_func tid = hash_func self
    · rw [hb, Function.update_same]
      simp only [find_element, if_neg (Ne.symm hne)]
      rw [c4, ← hb, hft]
      rfl
    · rw [Function.update_noteq hb, c4, hft]
      rfl
  refine ⟨_, hrun, hself, htid, fun i hi => ?_, c7, c2, c5, c3, fun offset length buffer => ?_⟩
  · obtain ⟨pg, hpg⟩ := hok.live i hi
    exact ⟨pg, hpg, c6 i hi pg hpg⟩
  · exact tls_read_same_pages _ tid self e.tls _ htid hself rfl rfl rfl offset length buffer

/-- Witness for C26: thread 2 clones the one-page segment of thread 1. -/
theorem tls_clone_shares_pages_witness :
    ∃ st1 : Storage, tls_clone one_page 2 1 = some (0, st1) ∧
      st1.mem = one_page.mem ∧ st1.brk = one_page.brk := by
  obtain ⟨tls, htls⟩ : ∃ tls, lookup one_page 1 = some tls := ⟨_, rfl⟩
  obtain ⟨st1, h1, -, -, -, -, h6, h7, -⟩ :=
    tls_clone_shares_pages [Op.create 1 4096 4096] one_page rfl 2 1 tls htls rfl
  exact ⟨st1, h1, h6, h7⟩

/-! ## The copy-on-write step of `tls_write` -/

/-- C27. Every iteration of the store loop of `tls_write`, on a well-formed page array
in a state whose page objects were all handed out by the allocator, stores byte
`i` of the buffer as follows, `p` being the page at the index of the byte. If
`p` has a `ref_count` above 1, the slot of the caller's array gets a new pointer
that no slot holds and no page object uses; its page object has `ref_count` 1 and
its contents are those of `p` except for the byte stored; `p` has its
`ref_count` decremented by one and keeps its contents. Otherwise the byte is
stored in `p` itself, the array and all page objects are as before and no page
is allocated. In both cases no other page changes its contents. For the whole
call, in every state reached by calls of the storage operations from the start
state and for every range inside the caller's segment: a call that returns has
returned 0, the caller then owns the same record with the new page array, every
byte of the segment outside `[offset, offset + length)` has the value it had and
the bytes inside are those of the buffer; and the call does return when the
pages cover the size of the segment. -/
theorem tls_write_copy_on_write (ops : List Op) (st : Storage)
    (hreach : steps start ops = some st) (self offset length : Nat) (data : Nat → Nat)
    (tls : TLS) (hown : lookup st self = some tls) (hsize : tls.size < 2 ^ 32)
    (hrange : offset + length ≤ tls.size) :
    (∀ (i : Nat) (pages : Nat → Nat) (s : Storage) (pages2 : Nat → Nat) (s2 : Storage),
      PagesOk s tls.page_num pages → (∀ q pg, s.heap q = some pg → q < s.brk) →
      write_step tls.page_num offset data i (pages, s) = some (pages2, s2) →
      ∃ pg, s.heap (pages (((offset + i) % 2 ^ 32) / s.page_size)) = some pg ∧
        (1 < pg.ref_count →
          pages2 = Function.update pages (((offset + i) % 2 ^ 32) / s.page_size) s.brk ∧
          s.heap s.brk = none ∧ (∀ j, j < tls.page_num → pages j ≠ s.brk) ∧
          (∃ pg2, s2.heap s.brk = some pg2 ∧ pg2.ref_count = 1) ∧
          s2.mem s.brk =
            Function.update (s.mem (pages (((offset + i) % 2 ^ 32) / s.page_size)))
              (((offset + i) % 2 ^ 32) % s.page_size) (data i) ∧
          s2.heap (pages (((offset + i) % 2 ^ 32) / s.page_size)) =
            some { pg with ref_count := pg.ref_count - 1 } ∧
          s2.mem (pages (((offset + i) % 2 ^ 32) / s.page_size)) =
            s.mem (pages (((offset + i) % 2 ^ 32) / s.page_size)) ∧
          s2.brk = s.brk + 1) ∧
        (¬ 1 < pg.ref_count →
          pages2 = pages ∧ s2.heap = s.heap ∧ s2.brk = s.brk ∧
          s2.mem (pages (((offset + i) % 2 ^ 32) / s.page_size)) =
            Function.update (s.mem (pages (((offset + i) % 2 ^ 32) / s.page_size)))
              (((offset + i) % 2 ^ 32) % s.page_size) (data i)) ∧
        (∀ q, q ≠ pages (((offset + i) % 2 ^ 32) / s.page_size) → q ≠ s.brk →
          s2.mem q = s.mem q)) ∧
    (∀ (r : Int) (st1 : Storage), tls_write st self offset length data = some (r, st1) →
      r = 0 ∧ ∃ pages2, lookup st1 self = some { tls with pages := pages2 } ∧
        (∀ x, x / st.page_size < tls.page_num → x < offset ∨ offset + length ≤ x →
          cell st1 pages2 x = cell st tls.pages x) ∧
        (∀ j, j < length → cell st1 pages2 (offset + j) = data j)) ∧
    (0 < st.page_size → tls.size ≤ tls.page_num * st.page_size →
      ∃ st1 : Storage, tls_write st self offset length data = some (0, st1)) := by
  have hinv : StorageInv st := steps_inv ops start st start_inv hreach
  obtain ⟨hok, -⟩ := hinv.pages_ok self tls hown
  refine ⟨?_, ?_, fun hps hcover =>
    tls_write_in_range st self offset length data tls hown hok hsize hrange hps hcover⟩
  · intro i pages s pages2 s2 hpok hfresh hstep
    obtain ⟨hk, pg, hpg, hcase, -⟩ :=
      write_step_cases tls.page_num offset data i pages s pages2 s2 hstep
    generalize ((offset + i) % 2 ^ 32) / s.page_size = k at *
    generalize ((offset + i) % 2 ^ 32) % s.page_size = off at *
    have hpb : pages k < s.brk := hpok.below k hk
    have hnone : s.heap s.brk = none := by
      cases hh : s.heap s.brk with
      | none => rfl
      | some x =>
        have := hfresh _ x hh
        omega
    refine ⟨pg, hpg, fun hrc => ?_, fun hrc => ?_, fun q hq1 hq2 => ?_⟩
    · rcases hcase with ⟨-, hp2, hheap, hmem, hbrk⟩ | ⟨hn, -⟩
      · refine ⟨hp2, hnone, fun j hj => ?_, ?_, ?_, ?_, ?_, hbrk⟩
        · have := hpok.below j hj
          omega
        · refine ⟨{ address := (s.brk + 1) * s.page_size, ref_count := 1 }, ?_, rfl⟩
          rw [hheap, Function.update_noteq (show s.brk ≠ pages k by omega),
            Function.update_same]
        · rw [hmem, Function.update_same]
        · rw [hheap, Function.update_same]
        · rw [hmem, Function.update_noteq (show pages k ≠ s.brk by omega)]
      · exact absurd hrc hn
    · rcases hcase with ⟨hy, -⟩ | ⟨-, hp2, hheap, hmem, hbrk⟩
      · exact absurd hy hrc
      · exact ⟨hp2, hheap, hbrk, by rw [hmem, Function.update_same]⟩
    · rcases hcase with ⟨-, -, -, hmem, -⟩ | ⟨-, -, -, hmem, -⟩
      · rw [hmem, Function.update_noteq hq2]
      · rw [hmem, Function.update_noteq hq1]
  · intro r st1 hw
    obtain ⟨e, hfind, hetls, -⟩ := lookup_some st self tls hown
    subst hetls
    have hmod : (offset + length) % 2 ^ 32 = offset + length :=
      Nat.mod_eq_of_lt (by omega)
    have hr : ¬ (offset + length) % 2 ^ 32 > e.tls.size := by rw [hmod]; omega
    obtain ⟨u1, u2, u3, u4, u5, -⟩ := unprotect_loop_frame e.tls.pages e.tls.page_num 0 st
    have hok1 : PagesOk (unprotect_loop e.tls.pages e.tls.page_num 0 st) e.tls.page_num
        e.tls.pages := hok.congr u1 u5
    obtain ⟨hr0, pages2, st2, hl, w1, w2, w3, w4, w5⟩ :=
      tls_write_ok st self offset length data e hfind hr r st1 hw
    obtain ⟨-, s2, s3, -, -, s6, s7, -⟩ :=
      write_loop_spec e.tls.page_num offset data length 0 e.tls.pages _ pages2 st2 hl hok1
    have hfind1 : find_element (st1.hash_table (hash_func self)) self
        = some { e with tls := { e.tls with pages := pages2 } } := by
      rw [w5, Function.update_same, s3, u4]
      exact find_element_set_tls_same _ self _ e hfind
    refine ⟨hr0, pages2, by simp [lookup, hfind1], fun x hx hout => ?_, fun j hj => ?_⟩
    · have h6 := s6 x (by rw [u3]; exact hx) (fun j _ hj => by
        rw [Nat.mod_eq_of_lt (by omega)]
        omega)
      simp only [cell] at h6 ⊢
      rw [w2, w3, s2, u3] at *
      rw [h6, u2]
    · have h7 := s7 (by omega) j (Nat.zero_le _) (by omega)
      simp only [cell] at h7 ⊢
      rw [w2, w3]
      exact h7

/-- Witness for C27: thread 1 writes one byte at offset 5 of its one-page segment. -/
theorem tls_write_copy_on_write_witness :
    ∃ st1 : Storage, tls_write one_page 1 5 1 (fun _ => 0xAA) = some (0, st1) := by
  obtain ⟨tls, htls⟩ : ∃ tls, lookup one_page 1 = some tls := ⟨_, rfl⟩
  have hs : tls.size = 4096 ∧ tls.page_num = 1 := by
    have h : lookup one_page 1 = some
        { tid := 1, size := 4096, page_num := 1,
          pages := (create_loop 1 0 (fun _ => 0, tls_init start 4096)).1 } := rfl
    rw [h] at htls
    simp only [Option.some.injEq] at htls
    rw [← htls]
    exact ⟨rfl, rfl⟩
  exact (tls_write_copy_on_write [Op.create 1 4096 4096] one_page rfl 1 5 1 (fun _ => 0xAA)
    tls htls (by rw [hs.1]; decide) (by rw [hs.1]; decide)).2.2 (by decide)
      (by rw [hs.1, hs.2]; decide)

/-! ## The SIGSEGV handler -/

/-- Masking a 64-bit address with `-2 ^ k` rounds it down to a multiple of `2 ^ k`. -/
theorem land_mask (a k : Nat) (hk : k ≤ 64) (ha : a < 2 ^ 64) :
    a &&& (2 ^ 64 - 2 ^ k) = a / 2 ^ k * 2 ^ k := by
  have hpos : 0 < 2 ^ k := Nat.two_pow_pos k
  have hle : 2 ^ k ≤ 2 ^ 64 := Nat.pow_le_pow_right (by decide) hk
  have hm : 2 ^ 64 - 2 ^ k = 2 ^ 64 - ((2 ^ k - 1) + 1) := by omega
  apply Nat.eq_of_testBit_eq
  intro j
  rw [Nat.testBit_and, hm, Nat.testBit_two_pow_sub_succ (by omega), Nat.testBit_two_pow_sub_one,
    Nat.mul_comm, Nat.testBit_mul_pow_two, ← Nat.shiftRight_eq_div_pow, Nat.testBit_shiftRight]
  by_cases h1 : j < k
  · have : ¬ j ≥ k := by omega
    simp [h1, this]
  · have h2 : j ≥ k := by omega
    have h3 : k + (j - k) = j := by omega
    by_cases h4 : j < 64
    · simp [h1, h2, h3, h4]
    · have hz : a.testBit j = false :=
        Nat.testBit_lt_two_pow (lt_of_lt_of_le ha (Nat.pow_le_pow_right (by decide) (by omega)))
      simp [h1, h2, h3, h4, hz]

/-- The page loop of the handler on pages that all exist: it reaches `pthread_exit`
exactly when one of the pages starts at the address. -/
theorem fault_page_loop_spec (st : Storage) (tls : TLS) (addr : Nat) :
    ∀ (n i : Nat), (∀ j, i ≤ j → j < i + n → ∃ pg, st.heap (tls.pages j) = some pg) →
      ∃ b, fault_page_loop st tls addr n i = some b ∧
        (b = true ↔ ∃ j pg, i ≤ j ∧ j < i + n ∧ st.heap (tls.pages j) = some pg ∧
          pg.address = addr) := by
  intro n
  induction n with
  | zero =>
    intro i _
    refine ⟨false, rfl, ⟨fun h => by simp at h, ?_⟩⟩
    rintro ⟨j, pg, h1, h2, -⟩
    omega
  | succ n ih =>
    intro i hlive
    obtain ⟨pg, hpg⟩ := hlive i (le_refl _) (by omega)
    simp only [fault_page_loop, hpg]
    by_cases ha : pg.address = addr
    · rw [if_pos ha]
      exact ⟨true, rfl, ⟨fun _ => ⟨i, pg, le_refl _, by omega, hpg, ha⟩, fun _ => rfl⟩⟩
    · rw [if_neg ha]
      obtain ⟨b, hb, hiff⟩ := ih (i + 1) (fun j h1 h2 => hlive j (by omega) (by omega))
      refine ⟨b, hb, ⟨fun h => ?_, ?_⟩⟩
      · obtain ⟨j, pg2, h1, h2, h3, h4⟩ := hiff.mp h
        exact ⟨j, pg2, by omega, by omega, h3, h4⟩
      · rintro ⟨j, pg2, h1, h2, h3, h4⟩
        apply hiff.mpr
        by_cases hj : j = i
        · subst hj
          rw [hpg] at h3
          simp only [Option.some.injEq] at h3
          subst h3
          exact absurd h4 ha
        · exact ⟨j, pg2, by omega, by omega, h3, h4⟩

/-- The chain loop of the handler on segments whose pages all exist. -/
theorem fault_chain_loop_spec (st : Storage) (addr : Nat) :
    ∀ (l : List hash_element),
      (∀ e, e ∈ l → ∀ j, j < e.tls.page_num → ∃ pg, st.heap (e.tls.pages j) = some pg) →
      ∃ b, fault_chain_loop st addr l = some b ∧
        (b = true ↔ ∃ e j pg, e ∈ l ∧ j < e.tls.page_num ∧
          st.heap (e.tls.pages j) = some pg ∧ pg.address = addr) := by
  intro l
  induction l with
  | nil =>
    intro _
    exact ⟨false, rfl, ⟨fun h => by simp at h, fun ⟨e, _, _, h, _⟩ => by simp at h⟩⟩
  | cons a l ih =>
    intro hlive
    obtain ⟨b1, hb1, hiff1⟩ := fault_page_loop_spec st a.tls addr a.tls.page_num 0
      (fun j _ hj => hlive a (List.mem_cons_self _ _) j (by omega))
    obtain ⟨b2, hb2, hiff2⟩ := ih (fun e he => hlive e (List.mem_cons_of_mem _ he))
    cases b1 with
    | true =>
      obtain ⟨j, pg, -, h2, h3, h4⟩ := hiff1.mp rfl
      refine ⟨true, by simp only [fault_chain_loop, hb1], ⟨fun _ => ?_, fun _ => rfl⟩⟩
      exact ⟨a, j, pg, List.mem_cons_self _ _, by omega, h3, h4⟩
    | false =>
      refine ⟨b2, by simp only [fault_chain_loop, hb1, hb2], ⟨fun h => ?_, ?_⟩⟩
      · obtain ⟨e, j, pg, h1, h2, h3, h4⟩ := hiff2.mp h
        exact ⟨e, j, pg, List.mem_cons_of_mem _ h1, h2, h3, h4⟩
      · rintro ⟨e, j, pg, h1, h2, h3, h4⟩
        rcases List.mem_cons.mp h1 with g | g
        · subst g
          have := hiff1.mpr ⟨j, pg, Nat.zero_le _, by omega, h3, h4⟩
          simp at this
        · exact hiff2.mpr ⟨e, j, pg, g, h2, h3, h4⟩

/-- The bucket loop of the handler on a table whose segments have existing pages. -/
theorem fault_bucket_loop_spec (st : Storage) (addr : Nat)
    (hlive : ∀ b e, e ∈ st.hash_table b → ∀ j, j < e.tls.page_num →
      ∃ pg, st.heap (e.tls.pages j) = some pg) :
    ∀ (n i : Nat), ∃ r, fault_bucket_loop st addr n i = some r ∧
      (r = true ↔ ∃ b e j pg, i ≤ b ∧ b < i + n ∧ e ∈ st.hash_table b ∧
        j < e.tls.page_num ∧ st.heap (e.tls.pages j) = some pg ∧ pg.address = addr) := by
  intro n
  induction n with
  | zero =>
    intro i
    refine ⟨false, rfl, ⟨fun h => by simp at h, ?_⟩⟩
    rintro ⟨b, e, j, pg, h1, h2, -⟩
    omega
  | succ n ih =>
    intro i
    obtain ⟨b1, hb1, hiff1⟩ := fault_chain_loop_spec st addr (st.hash_table i) (hlive i)
    obtain ⟨b2, hb2, hiff2⟩ := ih (i + 1)
    cases b1 with
    | true =>
      obtain ⟨e, j, pg, h1, h2, h3, h4⟩ := hiff1.mp rfl
      refine ⟨true, by simp only [fault_bucket_loop, hb1], ⟨fun _ => ?_, fun _ => rfl⟩⟩
      exact ⟨i, e, j, pg, le_refl _, by omega, h1, h2, h3, h4⟩
    | false =>
      refine ⟨b2, by simp only [fault_bucket_loop, hb1, hb2], ⟨fun h => ?_, ?_⟩⟩
      · obtain ⟨b, e, j, pg, h0, h1, h2, h3, h4, h5⟩ := hiff2.mp h
        exact ⟨b, e, j, pg, by omega, by omega, h2, h3, h4, h5⟩
      · rintro ⟨b, e, j, pg, h0, h1, h2, h3, h4, h5⟩
        by_cases hb : b = i
        · subst hb
          have := hiff1.mpr ⟨e, j, pg, h2, h3, h4, h5⟩
          simp at this
        · exact hiff2.mpr ⟨b, e, j, pg, by omega, by omega, h2, h3, h4, h5⟩

/-- C28. In every state reached by calls of the storage operations from the start
state, with a page size that is a power of two, and for every 64-bit fault
address: `tls_handle_page_fault` calls `pthread_exit` exactly when the address
rounded down to a multiple of the page size is the start address of a page of
the segment of some thread; in every other case it sets the default disposition
and raises SIGSEGV again. It has no third outcome. -/
theorem fault_handler_spec (ops : List Op) (st : Storage) (hreach : steps start ops = some st)
    (k : Nat) (hk : k < 64) (hps : st.page_size = 2 ^ k) (fault_addr : Nat)
    (haddr : fault_addr < 2 ^ 64) :
    (tls_handle_page_fault st fault_addr = Fault.thread_exit ↔
      ∃ t tls j pg, lookup st t = some tls ∧ j < tls.page_num ∧
        st.heap (tls.pages j) = some pg ∧
        pg.address = fault_addr / st.page_size * st.page_size) ∧
    (tls_handle_page_fault st fault_addr ≠ Fault.thread_exit →
      tls_handle_page_fault st fault_addr = Fault.reraised) := by
  have hinv : StorageInv st := steps_inv ops start st start_inv hreach
  have hc : ChainsOk st := steps_chains ops start st start_chains hreach
  have hlive : ∀ b e, e ∈ st.hash_table b → ∀ j, j < e.tls.page_num →
      ∃ pg, st.heap (e.tls.pages j) = some pg := by
    intro b e he j hj
    exact (hinv.pages_ok e.tid e.tls (hc.lookup_of_mem b e he)).1.live j hj
  have hmask : page_fault_addr st fault_addr = fault_addr / st.page_size * st.page_size := by
    have hlt : 2 ^ 64 - 2 ^ k < 2 ^ 64 := by
      have := Nat.two_pow_pos k
      omega
    simp only [page_fault_addr, hps]
    rw [Nat.mod_eq_of_lt hlt]
    exact land_mask fault_addr k (by omega) haddr
  obtain ⟨r, hr, hiff⟩ := fault_bucket_loop_spec st (page_fault_addr st fault_addr) hlive
    HASH_SIZE 0
  have hres : tls_handle_page_fault st fault_addr =
      if r = true then Fault.thread_exit else Fault.reraised := by
    simp only [tls_handle_page_fault, hr]
    cases r <;> rfl
  constructor
  · constructor
    · intro h
      rw [hres] at h
      have hrt : r = true := by
        by_contra hn
        rw [if_neg hn] at h
        cases h
      obtain ⟨b, e, j, pg, -, -, h2, h3, h4, h5⟩ := hiff.mp hrt
      exact ⟨e.tid, e.tls, j, pg, hc.lookup_of_mem b e h2, h3, h4, by rw [← hmask]; exact h5⟩
    · rintro ⟨t, tls, j, pg, h1, h2, h3, h4⟩
      obtain ⟨e, hf, he, -⟩ := lookup_some st t tls h1
      subst he
      have hrt : r = true := hiff.mpr ⟨hash_func t, e, j, pg, Nat.zero_le _, by
        have : hash_func t < HASH_SIZE := Nat.mod_lt _ (by decide)
        omega, find_element_mem _ _ _ hf, h2, h3, by rw [hmask]; exact h4⟩
      rw [hres, if_pos hrt]
  · intro h
    rw [hres] at h ⊢
    by_cases hrt : r = true
    · rw [if_pos hrt] at h
      exact absurd rfl h
    · rw [if_neg hrt]

/-- Witness for C28: a fault at offset 100 of the page of thread 1 (the page starts at
address 4096). -/
theorem fault_handler_spec_witness :
    tls_handle_page_fault one_page 4196 = Fault.thread_exit ↔
      ∃ t tls j pg, lookup one_page t = some tls ∧ j < tls.page_num ∧
        one_page.heap (tls.pages j) = some pg ∧
        pg.address = 4196 / one_page.page_size * one_page.page_size :=
  (fault_handler_spec [Op.create 1 4096 4096] one_page rfl 12 (by decide) rfl 4196
    (by decide)).1

/-! ## Calls that fail -/

/-- C29. Whenever one of the five storage operations returns -1, the hash table, every
page object (so every `ref_count`), the contents and the protection of every
page, and the allocator are as before the call: for `tls_destroy`, `tls_read`,
`tls_write` and `tls_clone` the whole state is unchanged (and `tls_read` has not
touched the buffer); `tls_create` may have run `tls_init`, which sets the page size
and the `initialized` flag only. -/
theorem failed_call_changes_nothing (st : Storage) :
    (∀ self size getpagesize, (tls_create st self size getpagesize).1 = -1 →
      (tls_create st self size getpagesize).2.hash_table = st.hash_table ∧
      (tls_create st self size getpagesize).2.heap = st.heap ∧
      (tls_create st self size getpagesize).2.mem = st.mem ∧
      (tls_create st self size getpagesize).2.prot = st.prot ∧
      (tls_create st self size getpagesize).2.brk = st.brk) ∧
    (∀ self st1, tls_destroy st self = some (-1, st1) → st1 = st) ∧
    (∀ self offset length buffer out st1,
      tls_read st self offset length buffer = some (-1, out, st1) →
        st1 = st ∧ out = buffer) ∧
    (∀ self offset length buffer st1,
      tls_write st self offset length buffer = some (-1, st1) → st1 = st) ∧
    (∀ self tid st1, tls_clone st self tid = some (-1, st1) → st1 = st) := by
  refine ⟨fun self size gp h => ?_, fun self st1 h => ?_,
    fun self offset length buffer out st1 h => ?_,
    fun self offset length buffer st1 h => ?_, fun self tid st1 h => ?_⟩
  · have hsame : ∀ x : Storage, x = (if st.initialized then st else tls_init st gp) →
        x.hash_table = st.hash_table ∧ x.heap = st.heap ∧ x.mem = st.mem ∧
          x.prot = st.prot ∧ x.brk = st.brk := by
      intro x hx
      subst hx
      split <;> exact ⟨rfl, rfl, rfl, rfl, rfl⟩
    by_cases hs : size = 0
    · exact hsame _ (by simp only [tls_create, if_pos hs])
    · cases hf : find_element (st.hash_table (hash_func self)) self with
      | none =>
        rw [tls_create_of_free st self size gp hs hf] at h
        simp at h
      | some e =>
        have hf1 : find_element
            ((if st.initialized then st else tls_init st gp).hash_table (hash_func self))
              self = some e := by rw [tls_init_hash_table st gp]; exact hf
        exact hsame _ (by simp only [tls_create, if_neg hs, hf1])
  · simp only [tls_destroy] at h
    split at h
    · simp only [Option.some.injEq, Prod.mk.injEq] at h
      exact h.2.symm
    · split at h
      · simp at h
      · simp at h
  · simp only [tls_read] at h
    split at h
    · simp only [Option.some.injEq, Prod.mk.injEq] at h
      exact ⟨h.2.2.symm, h.2.1.symm⟩
    · split at h
      · simp only [Option.some.injEq, Prod.mk.injEq] at h
        exact ⟨h.2.2.symm, h.2.1.symm⟩
      · split at h
        · simp at h
        · simp at h
  · simp only [tls_write] at h
    split at h
    · simp only [Option.some.injEq, Prod.mk.injEq] at h
      exact h.2.symm
    · split at h
      · simp only [Option.some.injEq, Prod.mk.injEq] at h
        exact h.2.symm
      · split at h
        · simp at h
        · simp at h
  · simp only [tls_clone] at h
    split at h
    · split at h
      · simp at h
      · simp at h
    · simp only [Option.some.injEq, Prod.mk.injEq] at h
      exact h.2.symm

/-- Witness for C29: thread 1, which owns a segment, calls `tls_create` again. -/
theorem failed_call_changes_nothing_witness :
    (tls_create one_page 1 8192 4096).2.hash_table = one_page.hash_table ∧
      (tls_create one_page 1 8192 4096).2.heap = one_page.heap ∧
      (tls_create one_page 1 8192 4096).2.mem = one_page.mem ∧
      (tls_create one_page 1 8192 4096).2.prot = one_page.prot ∧
      (tls_create one_page 1 8192 4096).2.brk = one_page.brk :=
  (failed_call_changes_nothing one_page).1 1 8192 4096 (by decide)

/-! ## Protections -/

/-- The loop of `tls_unprotect` calls gives read-write access to the pages of the range
and changes no other protection. -/
theorem unprotect_loop_prot (pages : Nat → Nat) :
    ∀ (n i : Nat) (st : Storage),
      (∀ j, i ≤ j → j < i + n →
        (unprotect_loop pages n i st).prot (pages j) = PROT_READ + PROT_WRITE) ∧
      (∀ q, (∀ j, i ≤ j → j < i + n → pages j ≠ q) →
        (unprotect_loop pages n i st).prot q = st.prot q) := by
  intro n
  induction n with
  | zero =>
    intro i st
    exact ⟨fun j h1 h2 => by omega, fun _ _ => rfl⟩
  | succ n ih =>
    intro i st
    obtain ⟨a1, a2⟩ := ih (i + 1) (tls_unprotect st (pages i))
    simp only [unprotect_loop]
    constructor
    · intro j h1 h2
      by_cases hj : ∃ k, i + 1 ≤ k ∧ k < i + 1 + n ∧ pages k = pages j
      · obtain ⟨k, k1, k2, k3⟩ := hj
        rw [← k3]
        exact a1 k k1 k2
      · push_neg at hj
        rw [a2 (pages j) hj]
        have hji : j = i := by
          by_contra hne
          exact hj j (by omega) (by omega) rfl
        rw [hji]
        simp [tls_unprotect]
    · intro q hq
      rw [a2 q (fun j h1 h2 => hq j (by omega) (by omega))]
      have := hq i (le_refl _) (by omega)
      simp [tls_unprotect, Function.update_noteq (Ne.symm this)]

/-- The loop of `tls_protect` calls removes all access from the pages of the range and
changes no other protection. -/
theorem protect_loop_prot (pages : Nat → Nat) :
    ∀ (n i : Nat) (st : Storage),
      (∀ j, i ≤ j → j < i + n → (protect_loop pages n i st).prot (pages j) = PROT_NONE) ∧
      (∀ q, (∀ j, i ≤ j → j < i + n → pages j ≠ q) →
        (protect_loop pages n i st).prot q = st.prot q) := by
  intro n
  induction n with
  | zero =>
    intro i st
    exact ⟨fun j h1 h2 => by omega, fun _ _ => rfl⟩
  | succ n ih =>
    intro i st
    obtain ⟨a1, a2⟩ := ih (i + 1) (tls_protect st (pages i))
    simp only [protect_loop]
    constructor
    · intro j h1 h2
      by_cases hj : ∃ k, i + 1 ≤ k ∧ k < i + 1 + n ∧ pages k = pages j
      · obtain ⟨k, k1, k2, k3⟩ := hj
        rw [← k3]
        exact a1 k k1 k2
      · push_neg at hj
        rw [a2 (pages j) hj]
        have hji : j = i := by
          by_contra hne
          exact hj j (by omega) (by omega) rfl
        rw [hji]
        simp [tls_protect]
    · intro q hq
      rw [a2 q (fun j h1 h2 => hq j (by omega) (by omega))]
      have := hq i (le_refl _) (by omega)
      simp [tls_protect, Function.update_noteq (Ne.symm this)]

/-- One iteration of the store loop: a page that is not in the caller's array afterwards
has no access, or was not in the array before and has the protection it had. -/
theorem write_step_prot (page_num offset : Nat) (buffer : Nat → Nat) (i : Nat)
    (pages : Nat → Nat) (st : Storage) (pages2 : Nat → Nat) (st2 : Storage)
    (h : write_step page_num offset buffer i (pages, st) = some (pages2, st2))
    (q : Nat) (hq : ∀ j, j < page_num → pages2 j ≠ q) :
    st2.prot q = PROT_NONE ∨
      (st2.prot q = st.prot q ∧ ∀ j, j < page_num → pages j ≠ q) := by
  simp only [write_step] at h
  split at h
  · rename_i hk
    split at h
    · simp at h
    · rename_i pg hpg
      split at h
      · simp only [Option.some.injEq, Prod.mk.injEq] at h
        obtain ⟨h1, h2⟩ := h
        subst h1 h2
        generalize ((offset + i) % 2 ^ 32) / st.page_size = k at hk hq hpg ⊢
        by_cases hqp : q = pages k
        · left
          show Function.update (Function.update st.prot st.brk PROT_WRITE) (pages k)
            PROT_NONE q = PROT_NONE
          rw [hqp, Function.update_same]
        · right
          have hqb : q ≠ st.brk := by
            intro e
            have := hq k hk
            rw [Function.update_same] at this
            exact this e.symm
          refine ⟨by simp [Function.update_noteq hqp, Function.update_noteq hqb], ?_⟩
          intro j hj e
          have hjk : j ≠ k := fun ejk => hqp (by rw [← e, ejk])
          have := hq j hj
          rw [Function.update_noteq hjk] at this
          exact this e
      · simp only [Option.some.injEq, Prod.mk.injEq] at h
        obtain ⟨h1, h2⟩ := h
        subst h1 h2
        exact Or.inr ⟨rfl, hq⟩
  · simp at h

/-- The store loop: a page that is not in the caller's array afterwards has no access, or
was not in the array before and has the protection it had. -/
theorem write_loop_prot (page_num offset : Nat) (buffer : Nat → Nat) :
    ∀ (n i : Nat) (pages : Nat → Nat) (st : Storage) (pages2 : Nat → Nat) (st2 : Storage),
      write_loop page_num offset buffer n i (pages, st) = some (pages2, st2) →
      ∀ q, (∀ j, j < page_num → pages2 j ≠ q) →
        st2.prot q = PROT_NONE ∨
          (st2.prot q = st.prot q ∧ ∀ j, j < page_num → pages j ≠ q) := by
  intro n
  induction n with
  | zero =>
    intro i pages st pages2 st2 h q hq
    simp only [write_loop, Option.some.injEq, Prod.mk.injEq] at h
    obtain ⟨h1, h2⟩ := h
    subst h1 h2
    exact Or.inr ⟨rfl, hq⟩
  | succ n ih =>
    intro i pages st pages2 st2 h q hq
    simp only [write_loop] at h
    cases hs : write_step page_num offset buffer i (pages, st) with
    | none => rw [hs] at h; simp at h
    | some acc =>
      obtain ⟨pages1, st1⟩ := acc
      rw [hs] at h
      simp only at h
      rcases ih (i + 1) pages1 st1 pages2 st2 h q hq with g | ⟨g1, g2⟩
      · exact Or.inl g
      · rcases write_step_prot page_num offset buffer i pages st pages1 st1 hs q g2 with
          k | ⟨k1, k2⟩
        · exact Or.inl (g1.trans k)
        · exact Or.inr ⟨g1.trans k1, k2⟩

/-- The call `tls_read` leaves every referenced page without access. -/
theorem tls_read_protected (st : Storage) (hp : Protected st) (self offset length : Nat)
    (buffer : Nat → Nat) (r : Int) (out : Nat → Nat) (st1 : Storage)
    (h : tls_read st self offset length buffer = some (r, out, st1)) : Protected st1 := by
  simp only [tls_read] at h
  cases hfind : find_element (st.hash_table (hash_func self)) self with
  | none =>
    rw [hfind] at h
    simp only [Option.some.injEq, Prod.mk.injEq] at h
    rw [← h.2.2]; exact hp
  | some e =>
    rw [hfind] at h
    simp only at h
    by_cases hr : (offset + length) % 2 ^ 32 > e.tls.size
    · rw [if_pos hr] at h
      simp only [Option.some.injEq, Prod.mk.injEq] at h
      rw [← h.2.2]; exact hp
    · rw [if_neg hr] at h
      cases hl : read_loop (unprotect_loop e.tls.pages e.tls.page_num 0 st) e.tls offset
          length 0 buffer with
      | none => rw [hl] at h; simp at h
      | some o =>
        rw [hl] at h
        simp only [Option.some.injEq, Prod.mk.injEq] at h
        rw [← h.2.2]
        obtain ⟨-, -, -, u4, -, -⟩ := unprotect_loop_frame e.tls.pages e.tls.page_num 0 st
        obtain ⟨-, -, -, v4, -, -⟩ := protect_loop_frame e.tls.pages e.tls.page_num 0
          (unprotect_loop e.tls.pages e.tls.page_num 0 st)
        obtain ⟨-, u2⟩ := unprotect_loop_prot e.tls.pages e.tls.page_num 0 st
        obtain ⟨v1, v2⟩ := protect_loop_prot e.tls.pages e.tls.page_num 0
          (unprotect_loop e.tls.pages e.tls.page_num 0 st)
        intro b x hx i hi
        rw [v4, u4] at hx
        by_cases hin : ∃ j, j < e.tls.page_num ∧ e.tls.pages j = x.tls.pages i
        · obtain ⟨j, hj, hjp⟩ := hin
          rw [← hjp]
          exact v1 j (Nat.zero_le _) (by omega)
        · push_neg at hin
          rw [v2 _ (fun j _ hj => hin j (by omega)), u2 _ (fun j _ hj => hin j (by omega))]
          exact hp b x hx i hi

/-- The call `tls_write` leaves every referenced page without access: the pages of the
caller by the closing loop, a page replaced by a copy by the `tls_protect` call
of the copy-on-write step. -/
theorem tls_write_protected (st : Storage) (hp : Protected st) (self offset length : Nat)
    (buffer : Nat → Nat) (r : Int) (st1 : Storage)
    (h : tls_write st self offset length buffer = some (r, st1)) : Protected st1 := by
  cases hfind : find_element (st.hash_table (hash_func self)) self with
  | none =>
    simp only [tls_write, hfind, Option.some.injEq, Prod.mk.injEq] at h
    rw [← h.2]; exact hp
  | some e =>
    by_cases hr : (offset + length) % 2 ^ 32 > e.tls.size
    · simp only [tls_write, hfind, if_pos hr, Option.some.injEq, Prod.mk.injEq] at h
      rw [← h.2]; exact hp
    · simp only [tls_write, hfind, if_neg hr] at h
      cases hl : write_loop e.tls.page_num offset buffer length 0
          (e.tls.pages, unprotect_loop e.tls.pages e.tls.page_num 0 st) with
      | none => rw [hl] at h; simp at h
      | some acc =>
        obtain ⟨pages2, st2⟩ := acc
        rw [hl] at h
        simp only [Option.some.injEq, Prod.mk.injEq] at h
        obtain ⟨-, h2⟩ := h
        subst h2
        obtain ⟨-, -, -, u4, -, -⟩ := unprotect_loop_frame e.tls.pages e.tls.page_num 0 st
        obtain ⟨-, u2⟩ := unprotect_loop_prot e.tls.pages e.tls.page_num 0 st
        obtain ⟨s3, -⟩ := write_loop_hash_table e.tls.page_num offset buffer length 0
          e.tls.pages _ pages2 st2 hl
        obtain ⟨-, -, -, v4, -, -⟩ := protect_loop_frame pages2 e.tls.page_num 0 st2
        obtain ⟨v1, v2⟩ := protect_loop_prot pages2 e.tls.page_num 0 st2
        have hall : ∀ b x, x ∈ st.hash_table b → ∀ i, i < x.tls.page_num →
            (protect_loop pages2 e.tls.page_num 0 st2).prot (x.tls.pages i) = PROT_NONE := by
          intro b x hx i hi
          by_cases hin : ∃ j, j < e.tls.page_num ∧ pages2 j = x.tls.pages i
          · obtain ⟨j, hj, hjp⟩ := hin
            rw [← hjp]
            exact v1 j (Nat.zero_le _) (by omega)
          · push_neg at hin
            rw [v2 _ (fun j _ hj => hin j (by omega))]
            rcases write_loop_prot e.tls.page_num offset buffer length 0 e.tls.pages _
              pages2 st2 hl (x.tls.pages i) hin with g | ⟨g1, g2⟩
            · exact g
            · rw [g1, u2 _ (fun j _ hj => g2 j (by omega))]
              exact hp b x hx i hi
        intro b x hx i hi
        show (protect_loop pages2 e.tls.page_num 0 st2).prot (x.tls.pages i) = PROT_NONE
        have hx2 : x ∈ Function.update st.hash_table (hash_func self)
            (set_tls self { e.tls with pages := pages2 } (st.hash_table (hash_func self))) b := by
          have hx3 := hx
          simp only [v4, s3, u4] at hx3
          exact hx3
        by_cases hb : b = hash_func self
        · rw [hb, Function.update_same] at hx2
          rcases mem_set_tls _ _ _ _ hx2 with g | ⟨e0, -, g⟩
          · exact hall _ x g i hi
          · subst g
            exact v1 i (Nat.zero_le _) (by simpa using hi)
        · rw [Function.update_noteq hb] at hx2
          exact hall b x hx2 i hi

/-- The success path of `tls_create` leaves every referenced page without access: the new
pages are mapped with `PROT_NONE`. -/
theorem tls_create_register_protected (s0 : Storage) (hinv1 : StorageInv s0)
    (hp1 : Protected s0) (self size : Nat) : Protected (tls_create_register s0 self size) := by
  simp only [tls_create_register]
  generalize ((size + s0.page_size - 1) % 2 ^ 32) / s0.page_size = pn
  obtain ⟨-, a2, -, a4, -, -, -, -⟩ := create_loop_spec pn 0 (fun _ => 0) s0
  obtain ⟨b1, b2⟩ := create_loop_prot pn 0 (fun _ => 0) s0
  intro b x hx i hi
  show (create_loop pn 0 (fun _ => 0, s0)).2.prot (x.tls.pages i) = PROT_NONE
  have hx2 : x ∈ Function.update s0.hash_table (hash_func self)
      ({ tid := self
         tls := { tid := self, size := size, page_num := pn
                  pages := (create_loop pn 0 (fun _ => 0, s0)).1 } } ::
        s0.hash_table (hash_func self)) b := by
    have hx3 := hx
    simp only [a2] at hx3
    exact hx3
  have hold : ∀ b2, x ∈ s0.hash_table b2 →
      (create_loop pn 0 (fun _ => 0, s0)).2.prot (x.tls.pages i) = PROT_NONE := by
    intro b3 g
    rw [b2 _ (hinv1.below b3 x g i hi)]
    exact hp1 b3 x g i hi
  by_cases hb : b = hash_func self
  · rw [hb, Function.update_same] at hx2
    rcases List.mem_cons.mp hx2 with g | g
    · subst g
      replace hi : i < pn := hi
      show (create_loop pn 0 (fun _ => 0, s0)).2.prot
        ((create_loop pn 0 (fun _ => 0, s0)).1 i) = PROT_NONE
      rw [a4 i (Nat.zero_le _) (by omega)]
      exact b1 _ (by omega) (by omega)
    · exact hold _ g
  · rw [Function.update_noteq hb] at hx2
    exact hold _ hx2

/-- The call `tls_create` leaves every referenced page without access. -/
theorem tls_create_protected (st : Storage) (hinv : StorageInv st) (hp : Protected st)
    (self size gp : Nat) : Protected (tls_create st self size gp).2 := by
  have hinv1 : StorageInv (if st.initialized then st else tls_init st gp) := by
    split
    · exact hinv
    · exact hinv.of_same_tables rfl rfl rfl
  have hp1 : Protected (if st.initialized then st else tls_init st gp) := by
    split
    · exact hp
    · exact hp
  simp only [tls_create]
  split
  · exact hp1
  · split
    · exact hp1
    · exact tls_create_register_protected _ hinv1 hp1 self size

/-- The call `tls_destroy` changes no protection of a page that is still referenced. -/
theorem tls_destroy_protected (st : Storage) (hp : Protected st) (self : Nat) (r : Int)
    (st1 : Storage) (h : tls_destroy st self = some (r, st1)) : Protected st1 := by
  cases hfind : find_element (st.hash_table (hash_func self)) self with
  | none =>
    simp only [tls_destroy, hfind, Option.some.injEq, Prod.mk.injEq] at h
    rw [← h.2]; exact hp
  | some e =>
    simp only [tls_destroy, hfind] at h
    cases hl : destroy_loop e.tls.pages e.tls.page_num 0 st with
    | none => rw [hl] at h; simp at h
    | some s1 =>
      rw [hl] at h
      simp only [Option.some.injEq, Prod.mk.injEq] at h
      obtain ⟨-, h2⟩ := h
      subst h2
      obtain ⟨d1, -, d3, -, -, -⟩ := destroy_loop_frame e.tls.pages e.tls.page_num 0 st s1 hl
      intro b x hx i hi
      show s1.prot (x.tls.pages i) = PROT_NONE
      rw [d3]
      have hx2 : x ∈ Function.update st.hash_table (hash_func self)
          (remove_element self (st.hash_table (hash_func self))) b := by
        have hx3 := hx
        simp only [d1] at hx3
        exact hx3
      by_cases hb : b = hash_func self
      · rw [hb, Function.update_same] at hx2
        exact hp _ x (mem_remove_element _ _ _ hx2) i hi
      · rw [Function.update_noteq hb] at hx2
        exact hp b x hx2 i hi

/-- The call `tls_clone` changes no protection: the pages of the new segment are those of
the source. -/
theorem tls_clone_protected (st : Storage) (hp : Protected st) (self tid : Nat) (r : Int)
    (st1 : Storage) (h : tls_clone st self tid = some (r, st1)) : Protected st1 := by
  cases hft : find_element (st.hash_table (hash_func tid)) tid with
  | none =>
    simp only [tls_clone, hft, Option.some.injEq, Prod.mk.injEq] at h
    rw [← h.2]; exact hp
  | some e =>
    cases hfs : find_element (st.hash_table (hash_func self)) self with
    | some e2 =>
      simp only [tls_clone, hft, hfs, Option.some.injEq, Prod.mk.injEq] at h
      rw [← h.2]; exact hp
    | none =>
      simp only [tls_clone, hft, hfs] at h
      cases hl : clone_loop e.tls.pages e.tls.page_num 0 st with
      | none => rw [hl] at h; simp at h
      | some s1 =>
        rw [hl] at h
        simp only [Option.some.injEq, Prod.mk.injEq] at h
        obtain ⟨-, h2⟩ := h
        subst h2
        obtain ⟨d1, -, d3, -, -, -⟩ := clone_loop_frame e.tls.pages e.tls.page_num 0 st s1 hl
        have hmem := find_element_mem _ _ _ hft
        intro b x hx i hi
        show s1.prot (x.tls.pages i) = PROT_NONE
        rw [d3]
        have hx2 : x ∈ Function.update st.hash_table (hash_func self)
            ({ tid := self
               tls := { tid := self, size := e.tls.size, page_num := e.tls.page_num
                        pages := e.tls.pages } } :: st.hash_table (hash_func self)) b := by
          have hx3 := hx
          simp only [d1] at hx3
          exact hx3
        by_cases hb : b = hash_func self
        · rw [hb, Function.update_same] at hx2
          rcases List.mem_cons.mp hx2 with g | g
          · subst g
            exact hp _ e hmem i hi
          · exact hp _ x g i hi
        · rw [Function.update_noteq hb] at hx2
          exact hp b x hx2 i hi

/-- Every call that returns leaves every referenced page without access. -/
theorem step_protected (st : Storage) (hinv : StorageInv st) (hp : Protected st) (op : Op)
    (st1 : Storage) (h : step st op = some st1) : Protected st1 := by
  cases op with
  | create self size gp =>
    simp only [step, Option.some.injEq] at h
    rw [← h]; exact tls_create_protected st hinv hp self size gp
  | destroy self =>
    simp only [step, Option.map_eq_some'] at h
    obtain ⟨⟨r, s⟩, h1, h2⟩ := h
    rw [← h2]; exact tls_destroy_protected st hp self r s h1
  | read self offset length buffer =>
    simp only [step, Option.map_eq_some'] at h
    obtain ⟨⟨r, out, s⟩, h1, h2⟩ := h
    rw [← h2]; exact tls_read_protected st hp self offset length buffer r out s h1
  | write self offset length buffer =>
    simp only [step, Option.map_eq_some'] at h
    obtain ⟨⟨r, s⟩, h1, h2⟩ := h
    rw [← h2]; exact tls_write_protected st hp self offset length buffer r s h1
  | clone self tid =>
    simp only [step, Option.map_eq_some'] at h
    obtain ⟨⟨r, s⟩, h1, h2⟩ := h
    rw [← h2]; exact tls_clone_protected st hp self tid r s h1

theorem steps_protected : ∀ (ops : List Op) (st st1 : Storage), StorageInv st →
    Protected st → steps st ops = some st1 → Protected st1 := by
  intro ops
  induction ops with
  | nil =>
    intro st st1 _ hp h
    simp only [steps, Option.some.injEq] at h
    rw [← h]; exact hp
  | cons op ops ih =>
    intro st st1 hinv hp h
    simp only [steps] at h
    cases hs : step st op with
    | none => rw [hs] at h; simp at h
    | some s =>
      rw [hs] at h
      exact ih s st1 (step_inv st hinv op s hs) (step_protected st hinv hp op s hs) h

theorem start_protected : Protected start := fun b e h => by simp [start] at h

/-- C37. In every state reached from the start state by calls of `tls_create`,
`tls_clone`, `tls_read`, `tls_write` and `tls_destroy` that have returned, every
page of every registered segment has protection `PROT_NONE`, whether it is shared
or was put in place by a copy-on-write step. Read-write access is what the
opening loop of `tls_read` and `tls_write` gives to the pages of the caller, and
to no other page, before the closing loop takes it away. -/
theorem access_bracketing (ops : List Op) (st : Storage) (hreach : steps start ops = some st) :
    (∀ b e, e ∈ st.hash_table b → ∀ i, i < e.tls.page_num →
      st.prot (e.tls.pages i) = PROT_NONE) ∧
    (∀ self e, find_element (st.hash_table (hash_func self)) self = some e →
      (∀ i, i < e.tls.page_num →
        (unprotect_loop e.tls.pages e.tls.page_num 0 st).prot (e.tls.pages i)
          = PROT_READ + PROT_WRITE) ∧
      (∀ q, (∀ i, i < e.tls.page_num → e.tls.pages i ≠ q) →
        (unprotect_loop e.tls.pages e.tls.page_num 0 st).prot q = st.prot q) ∧
      (∀ q, (protect_loop e.tls.pages e.tls.page_num 0
          (unprotect_loop e.tls.pages e.tls.page_num 0 st)).prot q = st.prot q)) := by
  have hp := steps_protected ops start st start_inv start_protected hreach
  refine ⟨hp, fun self e hfind => ?_⟩
  obtain ⟨u1, u2⟩ := unprotect_loop_prot e.tls.pages e.tls.page_num 0 st
  obtain ⟨v1, v2⟩ := protect_loop_prot e.tls.pages e.tls.page_num 0
    (unprotect_loop e.tls.pages e.tls.page_num 0 st)
  refine ⟨fun i hi => u1 i (Nat.zero_le _) (by omega),
    fun q hq => u2 q (fun j _ hj => hq j (by omega)), fun q => ?_⟩
  by_cases hin : ∃ j, j < e.tls.page_num ∧ e.tls.pages j = q
  · obtain ⟨j, hj, hjq⟩ := hin
    rw [← hjq, v1 j (Nat.zero_le _) (by omega)]
    exact (hp _ e (find_element_mem _ _ _ hfind) j hj).symm
  · push_neg at hin
    rw [v2 q (fun j _ hj => hin j (by omega)), u2 q (fun j _ hj => hin j (by omega))]

/-- Witness for C37: the state of the scenario, in which thread 2 has written to its clone
of the segment of thread 1. -/
theorem access_bracketing_witness :
    ∃ st, steps start [Op.create 1 1 4096, Op.write 1 0 1 (fun _ => 0xAA), Op.clone 2 1,
        Op.write 2 0 1 (fun _ => 0xBB)] = some st ∧
      ∀ b e, e ∈ st.hash_table b → ∀ i, i < e.tls.page_num →
        st.prot (e.tls.pages i) = PROT_NONE :=
  ⟨_, rfl, (access_bracketing [Op.create 1 1 4096, Op.write 1 0 1 (fun _ => 0xAA), Op.clone 2 1,
    Op.write 2 0 1 (fun _ => 0xBB)] _ rfl).1⟩

/-! ## Reference counts are exact -/

theorem start_tight : Tight start := fun p pg h => by simp [start] at h

/-- One iteration of the store loop keeps the reference counts below the number of
references: `c p` counts the references from the other segments, the page array
of the writer adds one for the pages it contains. -/
theorem write_step_tight (page_num offset : Nat) (buffer : Nat → Nat) (i : Nat)
    (pages : Nat → Nat) (st : Storage) (pages2 : Nat → Nat) (st2 : Storage)
    (h : write_step page_num offset buffer i (pages, st) = some (pages2, st2))
    (c : Nat → Nat)
    (k1 : ∀ p pg, st.heap p = some pg →
      pg.ref_count ≤ ((c p + (if in_array p page_num pages then 1 else 0) : Nat) : Int)) :
    ∀ p pg, st2.heap p = some pg →
      pg.ref_count ≤ ((c p + (if in_array p page_num pages2 then 1 else 0) : Nat) : Int) := by
  obtain ⟨hk, pg0, hpg0, hcase, -⟩ :=
    write_step_cases page_num offset buffer i pages st pages2 st2 h
  generalize hkk : ((offset + i) % 2 ^ 32) / st.page_size = k at *
  rcases hcase with ⟨hrc, hp2, hheap, -, hbrk⟩ | ⟨-, hp2, hheap, -, hbrk⟩
  · have hinb : in_array st.brk page_num pages2 = true := by
      rw [in_array_iff]
      exact ⟨k, hk, by rw [hp2, Function.update_same]⟩
    have hin : ∀ p, p ≠ pages k → p ≠ st.brk →
        in_array p page_num pages2 = in_array p page_num pages := by
      intro p h1 h2
      rw [Bool.eq_iff_iff, in_array_iff, in_array_iff]
      constructor
      · rintro ⟨j, hj, e⟩
        rw [hp2] at e
        by_cases hjk : j = k
        · rw [hjk, Function.update_same] at e; exact absurd e.symm h2
        · rw [Function.update_noteq hjk] at e; exact ⟨j, hj, e⟩
      · rintro ⟨j, hj, e⟩
        have hjk : j ≠ k := fun ejk => h1 (by rw [← e, ejk])
        exact ⟨j, hj, by rw [hp2, Function.update_noteq hjk]; exact e⟩
    intro p pg hpg
    rw [hheap] at hpg
    by_cases hp0 : p = pages k
    · rw [hp0, Function.update_same] at hpg
      simp only [Option.some.injEq] at hpg
      subst hpg
      have := k1 (pages k) pg0 hpg0
      rw [(in_array_iff _ _ _).mpr ⟨k, hk, rfl⟩] at this
      rw [hp0]
      simp only [if_true] at this
      push_cast at this ⊢
      have h0 : (0 : Int) ≤ ((if in_array (pages k) page_num pages2 = true then 1 else 0 : Nat) : Int) :=
        Int.natCast_nonneg _
      push_cast at h0
      show pg0.ref_count - 1 ≤ _
      omega
    · rw [Function.update_noteq hp0] at hpg
      by_cases hpb2 : p = st.brk
      · rw [hpb2, Function.update_same] at hpg
        simp only [Option.some.injEq] at hpg
        subst hpg
        rw [hpb2, hinb]
        simp
      · rw [Function.update_noteq hpb2] at hpg
        rw [hin p hp0 hpb2]
        exact k1 p pg hpg
  · rw [hp2, hheap]
    exact k1

/-- The store loop keeps the reference counts below the number of references. -/
theorem write_loop_tight (page_num offset : Nat) (buffer : Nat → Nat) (c : Nat → Nat) :
    ∀ (n i : Nat) (pages : Nat → Nat) (st : Storage) (pages2 : Nat → Nat) (st2 : Storage),
      write_loop page_num offset buffer n i (pages, st) = some (pages2, st2) →
      (∀ p pg, st.heap p = some pg →
        pg.ref_count ≤ ((c p + (if in_array p page_num pages then 1 else 0) : Nat) : Int)) →
      ∀ p pg, st2.heap p = some pg →
        pg.ref_count ≤ ((c p + (if in_array p page_num pages2 then 1 else 0) : Nat) : Int) := by
  intro n
  induction n with
  | zero =>
    intro i pages st pages2 st2 h k1
    simp only [write_loop, Option.some.injEq, Prod.mk.injEq] at h
    obtain ⟨h1, h2⟩ := h
    subst h1 h2
    exact k1
  | succ n ih =>
    intro i pages st pages2 st2 h k1
    simp only [write_loop] at h
    cases hs : write_step page_num offset buffer i (pages, st) with
    | none => rw [hs] at h; simp at h
    | some acc =>
      obtain ⟨pages1, st1⟩ := acc
      rw [hs] at h
      simp only at h
      exact ih (i + 1) pages1 st1 pages2 st2 h
        (write_step_tight page_num offset buffer i pages st pages1 st1 hs c k1)

/-- The call `tls_write` keeps the reference counts exact. -/
theorem tls_write_tight (st : Storage) (ht : Tight st)
    (self offset length : Nat) (buffer : Nat → Nat) (r : Int) (st1 : Storage)
    (h : tls_write st self offset length buffer = some (r, st1)) : Tight st1 := by
  cases hfind : find_element (st.hash_table (hash_func self)) self with
  | none =>
    simp only [tls_write, hfind, Option.some.injEq, Prod.mk.injEq] at h
    rw [← h.2]; exact ht
  | some e =>
    by_cases hr : (offset + length) % 2 ^ 32 > e.tls.size
    · simp only [tls_write, hfind, if_pos hr, Option.some.injEq, Prod.mk.injEq] at h
      rw [← h.2]; exact ht
    · obtain ⟨-, pages2, st2, hl, w1, -, -, w4, w5⟩ :=
        tls_write_ok st self offset length buffer e hfind hr r st1 h
      obtain ⟨u1, -, -, u4, u5, -⟩ := unprotect_loop_frame e.tls.pages e.tls.page_num 0 st
      have hmem := find_element_mem _ _ _ hfind
      have hbk : hash_func self < HASH_SIZE := Nat.mod_lt _ (by decide)
      have hholds : ∀ p, holds p e = true → 0 < refs st p := fun p hp =>
        (refs_below_pos_iff _ _ _).mpr ⟨_, hbk, e, hmem, hp⟩
      obtain ⟨s3, -⟩ := write_loop_hash_table e.tls.page_num offset buffer length 0
        e.tls.pages _ pages2 st2 hl
      have j1 := write_loop_tight e.tls.page_num offset buffer
        (fun p => refs st p - (if holds p e then 1 else 0))
        length 0 e.tls.pages _ pages2 st2 hl
        (fun p pg hpg => by
          rw [u1] at hpg
          have := ht p pg hpg
          have hh : in_array p e.tls.page_num e.tls.pages = holds p e := rfl
          rw [hh]
          by_cases hp : holds p e = true
          · have := hholds p hp
            simp only [hp, if_true]
            omega
          · simp only [hp, Bool.false_eq_true, if_false]
            omega)
      have hrefs : ∀ p, refs st1 p = refs st p - (if holds p e then 1 else 0)
          + (if in_array p e.tls.page_num pages2 then 1 else 0) := by
        intro p
        have hset := refs_set_tls st.hash_table self e hfind { e.tls with pages := pages2 } p
        have hh : holds p { e with tls := { e.tls with pages := pages2 } }
            = in_array p e.tls.page_num pages2 := rfl
        rw [hh] at hset
        simp only [refs, w5, s3, u4]
        by_cases hp : holds p e = true
        · have hpos := hholds p hp
          simp only [refs] at hpos
          simp only [hp, if_true] at hset ⊢
          omega
        · simp only [hp, Bool.false_eq_true, if_false] at hset ⊢
          omega
      intro p pg hpg
      rw [w1] at hpg
      rw [hrefs p]
      exact j1 p pg hpg

/-- The call `tls_read` keeps the reference counts exact. -/
theorem tls_read_tight (st : Storage) (ht : Tight st) (self offset length : Nat)
    (buffer : Nat → Nat) (r : Int) (out : Nat → Nat) (st1 : Storage)
    (h : tls_read st self offset length buffer = some (r, out, st1)) : Tight st1 := by
  simp only [tls_read] at h
  cases hfind : find_element (st.hash_table (hash_func self)) self with
  | none =>
    rw [hfind] at h
    simp only [Option.some.injEq, Prod.mk.injEq] at h
    rw [← h.2.2]; exact ht
  | some e =>
    rw [hfind] at h
    simp only at h
    by_cases hr : (offset + length) % 2 ^ 32 > e.tls.size
    · rw [if_pos hr] at h
      simp only [Option.some.injEq, Prod.mk.injEq] at h
      rw [← h.2.2]; exact ht
    · rw [if_neg hr] at h
      cases hl : read_loop (unprotect_loop e.tls.pages e.tls.page_num 0 st) e.tls offset
          length 0 buffer with
      | none => rw [hl] at h; simp at h
      | some o =>
        rw [hl] at h
        simp only [Option.some.injEq, Prod.mk.injEq] at h
        rw [← h.2.2]
        obtain ⟨u1, -, -, u4, -, -⟩ := unprotect_loop_frame e.tls.pages e.tls.page_num 0 st
        obtain ⟨v1, -, -, v4, -, -⟩ := protect_loop_frame e.tls.pages e.tls.page_num 0
          (unprotect_loop e.tls.pages e.tls.page_num 0 st)
        intro p pg hpg
        rw [v1, u1] at hpg
        simp only [refs, v4, u4]
        exact ht p pg hpg

/-- The call `tls_clone` keeps the reference counts exact. -/
theorem tls_clone_tight (st : Storage) (hinv : StorageInv st) (ht : Tight st) (self tid : Nat)
    (r : Int) (st1 : Storage) (h : tls_clone st self tid = some (r, st1)) : Tight st1 := by
  cases hft : find_element (st.hash_table (hash_func tid)) tid with
  | none =>
    simp only [tls_clone, hft, Option.some.injEq, Prod.mk.injEq] at h
    rw [← h.2]; exact ht
  | some e =>
    cases hfs : find_element (st.hash_table (hash_func self)) self with
    | some e2 =>
      simp only [tls_clone, hft, hfs, Option.some.injEq, Prod.mk.injEq] at h
      rw [← h.2]; exact ht
    | none =>
      obtain ⟨hok, -⟩ := hinv.pages_ok tid e.tls (by simp [lookup, hft])
      obtain ⟨s1, c1, -, -, c4, c5, c6, c7⟩ :=
        clone_loop_spec e.tls.pages e.tls.page_num hok.inj e.tls.page_num 0 st (by omega)
          (fun j _ hj => hok.live j (by omega))
      simp only [tls_clone, hft, hfs, c1, Option.some.injEq, Prod.mk.injEq] at h
      obtain ⟨-, h2⟩ := h
      subst h2
      have hrefs : ∀ p, refs_below (Function.update s1.hash_table (hash_func self)
          ({ tid := self
             tls := { tid := self, size := e.tls.size, page_num := e.tls.page_num
                      pages := e.tls.pages } } :: s1.hash_table (hash_func self))) p HASH_SIZE
          = refs st p + (if in_array p e.tls.page_num e.tls.pages then 1 else 0) := by
        intro p
        rw [refs_cons, c4]
        rfl
      intro p pg hpg
      have hpg2 : s1.heap p = some pg := hpg
      show pg.ref_count ≤ ((refs_below _ p HASH_SIZE : Nat) : Int)
      rw [hrefs p]
      by_cases hin : in_array p e.tls.page_num e.tls.pages = true
      · obtain ⟨j, hj, hjp⟩ := (in_array_iff _ _ _).mp hin
        obtain ⟨pg0, hpg0⟩ := hok.live j hj
        have := c6 j (Nat.zero_le _) (by omega) pg0 hpg0
        rw [hjp] at this hpg0
        rw [this] at hpg2
        simp only [Option.some.injEq] at hpg2
        subst hpg2
        have := ht p pg0 hpg0
        simp only [hin, if_true]
        push_cast
        show pg0.ref_count + 1 ≤ _
        omega
      · have hin2 := (in_array_false_iff _ _ _).mp (by simpa using hin)
        rw [c7 p (fun j _ hj => (hin2 j (by omega)).symm)] at hpg2
        have := ht p pg hpg2
        simp only [hin, Bool.false_eq_true, if_false]
        omega

/-- The call `tls_destroy` keeps the reference counts exact. -/
theorem tls_destroy_tight (st : Storage) (hinv : StorageInv st) (ht : Tight st) (self : Nat)
    (r : Int) (st1 : Storage) (h : tls_destroy st self = some (r, st1)) : Tight st1 := by
  cases hfind : find_element (st.hash_table (hash_func self)) self with
  | none =>
    simp only [tls_destroy, hfind, Option.some.injEq, Prod.mk.injEq] at h
    rw [← h.2]; exact ht
  | some e =>
    obtain ⟨hok, -⟩ := hinv.pages_ok self e.tls (by simp [lookup, hfind])
    obtain ⟨s1, c1, c4, c5, c6, c7⟩ :=
      destroy_loop_spec e.tls.pages e.tls.page_num hok.inj e.tls.page_num 0 st (by omega)
        (fun j _ hj => hok.live j (by omega))
    simp only [tls_destroy, hfind, c1, Option.some.injEq, Prod.mk.injEq] at h
    obtain ⟨-, h2⟩ := h
    subst h2
    have hrefs : ∀ p, refs_below (Function.update s1.hash_table (hash_func self)
        (remove_element self (s1.hash_table (hash_func self)))) p HASH_SIZE
        + (if in_array p e.tls.page_num e.tls.pages then 1 else 0) = refs st p := by
      intro p
      rw [c4]
      exact refs_remove st.hash_table self e hfind p
    intro p pg hpg
    have hpg2 : s1.heap p = some pg := hpg
    have h2 := hrefs p
    have goal : pg.ref_count ≤ ((refs_below (Function.update s1.hash_table (hash_func self)
        (remove_element self (s1.hash_table (hash_func self)))) p HASH_SIZE : Nat) : Int) := by
      by_cases hin : in_array p e.tls.page_num e.tls.pages = true
      · obtain ⟨j, hj, hjp⟩ := (in_array_iff _ _ _).mp hin
        obtain ⟨pg0, hpg0⟩ := hok.live j hj
        have := c6 j (Nat.zero_le _) (by omega) pg0 hpg0
        rw [hjp] at this hpg0
        rw [this] at hpg2
        have h3 := ht p pg0 hpg0
        simp only [hin, if_true] at h2
        split at hpg2
        · simp at hpg2
        · simp only [Option.some.injEq] at hpg2
          rw [← hpg2]
          show pg0.ref_count - 1 ≤ _
          omega
      · have hin1 : in_array p e.tls.page_num e.tls.pages = false := by simpa using hin
        have hin2 := (in_array_false_iff _ _ _).mp hin1
        rw [c7 p (fun j _ hj => (hin2 j (by omega)).symm)] at hpg2
        have h3 := ht p pg hpg2
        simp only [hin1, Bool.false_eq_true, if_false] at h2
        omega
    exact goal

/-- The success path of `tls_create` keeps the reference counts exact. -/
theorem tls_create_register_tight (st : Storage) (hinv : StorageInv st) (ht : Tight st)
    (self size : Nat) : Tight (tls_create_register st self size) := by
  generalize hpn : ((size + st.page_size - 1) % 2 ^ 32) / st.page_size = pn
  obtain ⟨a1, a2, -, a4, -, a6, a7, a8⟩ := create_loop_spec pn 0 (fun _ => 0) st
  have hpages : ∀ j, j < pn → (create_loop pn 0 (fun _ => 0, st)).1 j = st.brk + j :=
    fun j hj => by rw [a4 j (Nat.zero_le _) (by omega)]; omega
  have hin : ∀ p, in_array p pn (create_loop pn 0 (fun _ => 0, st)).1 = true ↔
      (st.brk ≤ p ∧ p < st.brk + pn) := by
    intro p
    rw [in_array_iff]
    constructor
    · rintro ⟨j, hj, e⟩
      rw [hpages j hj] at e
      omega
    · rintro ⟨h1, h2⟩
      exact ⟨p - st.brk, by omega, by rw [hpages _ (by omega)]; omega⟩
  have hrefs : ∀ p, refs (tls_create_register st self size) p
      = refs st p + (if in_array p pn (create_loop pn 0 (fun _ => 0, st)).1 then 1 else 0) := by
    intro p
    simp only [refs, tls_create_register, hpn]
    rw [refs_cons, a2]
    rfl
  have hheap : (tls_create_register st self size).heap
      = (create_loop pn 0 (fun _ => 0, st)).2.heap := by
    simp only [tls_create_register, hpn]
  intro p pg hpg
  rw [hheap] at hpg
  rw [hrefs p]
  by_cases h1 : p < st.brk
  · rw [a7 p h1] at hpg
    have := ht p pg hpg
    push_cast
    have h0 : (0 : Int) ≤ ((if in_array p pn (create_loop pn 0 (fun _ => 0, st)).1 = true
        then 1 else 0 : Nat) : Int) := Int.natCast_nonneg _
    push_cast at h0
    omega
  · by_cases h2 : p < st.brk + pn
    · obtain ⟨pg1, g1, g2⟩ := a6 p (by omega) h2
      rw [g1] at hpg
      simp only [Option.some.injEq] at hpg
      subst hpg
      rw [(hin p).mpr ⟨by omega, h2⟩, g2]
      simp
    · rw [a8 p (by omega)] at hpg
      have := hinv.heap_below p pg hpg
      omega

/-- The call `tls_create` keeps the reference counts exact. -/
theorem tls_create_tight (st : Storage) (hinv : StorageInv st) (ht : Tight st)
    (self size gp : Nat) : Tight (tls_create st self size gp).2 := by
  have hinv1 : StorageInv (if st.initialized then st else tls_init st gp) := by
    split
    · exact hinv
    · exact hinv.of_same_tables rfl rfl rfl
  have ht1 : Tight (if st.initialized then st else tls_init st gp) := by
    split
    · exact ht
    · exact ht
  simp only [tls_create]
  split
  · exact ht1
  · split
    · exact ht1
    · exact tls_create_register_tight _ hinv1 ht1 self size

/-- Every call that returns keeps the reference counts exact. -/
theorem step_tight (st : Storage) (hinv : StorageInv st) (ht : Tight st) (op : Op)
    (st1 : Storage) (h : step st op = some st1) : Tight st1 := by
  cases op with
  | create self size gp =>
    simp only [step, Option.some.injEq] at h
    rw [← h]; exact tls_create_tight st hinv ht self size gp
  | destroy self =>
    simp only [step, Option.map_eq_some'] at h
    obtain ⟨⟨r, s⟩, h1, h2⟩ := h
    rw [← h2]; exact tls_destroy_tight st hinv ht self r s h1
  | read self offset length buffer =>
    simp only [step, Option.map_eq_some'] at h
    obtain ⟨⟨r, out, s⟩, h1, h2⟩ := h
    rw [← h2]; exact tls_read_tight st ht self offset length buffer r out s h1
  | write self offset length buffer =>
    simp only [step, Option.map_eq_some'] at h
    obtain ⟨⟨r, s⟩, h1, h2⟩ := h
    rw [← h2]; exact tls_write_tight st ht self offset length buffer r s h1
  | clone self tid =>
    simp only [step, Option.map_eq_some'] at h
    obtain ⟨⟨r, s⟩, h1, h2⟩ := h
    rw [← h2]; exact tls_clone_tight st hinv ht self tid r s h1

theorem steps_tight : ∀ (ops : List Op) (st st1 : Storage), StorageInv st →
    Tight st → steps st ops = some st1 → Tight st1 := by
  intro ops
  induction ops with
  | nil =>
    intro st st1 _ ht h
    simp only [steps, Option.some.injEq] at h
    rw [← h]; exact ht
  | cons op ops ih =>
    intro st st1 hinv ht h
    simp only [steps] at h
    cases hs : step st op with
    | none => rw [hs] at h; simp at h
    | some s =>
      rw [hs] at h
      exact ih s st1 (step_inv st hinv op s hs) (step_tight st hinv ht op s hs) h

/-- C35. In every state reached from the start state by calls of `tls_create`,
`tls_clone`, `tls_write`, `tls_read` and `tls_destroy`: the `ref_count` of every
page object is the number of registered segments whose page array contains it;
every page that a registered segment references exists (it has not been
released), has a `ref_count` of at least 1, equal to that number; and a page
array contains a page at most once. -/
theorem ref_count_invariant (ops : List Op) (st : Storage)
    (hreach : steps start ops = some st) :
    (∀ p pg, st.heap p = some pg → pg.ref_count = (refs st p : Int)) ∧
    (∀ b e, e ∈ st.hash_table b → ∀ i, i < e.tls.page_num →
      (∃ pg, st.heap (e.tls.pages i) = some pg ∧ 1 ≤ pg.ref_count ∧
        pg.ref_count = (refs st (e.tls.pages i) : Int)) ∧
      (∀ j, j < e.tls.page_num → e.tls.pages i = e.tls.pages j → i = j)) := by
  have hinv := steps_inv ops start st start_inv hreach
  have ht := steps_tight ops start st start_inv start_tight hreach
  have heq : ∀ p pg, st.heap p = some pg → pg.ref_count = (refs st p : Int) := by
    intro p pg hpg
    have h1 := hinv.counted p pg hpg
    have h2 := ht p pg hpg
    omega
  refine ⟨heq, fun b e he i hi => ⟨?_, fun j hj hij => hinv.inj b e he i j hi hj hij⟩⟩
  have hb : b < HASH_SIZE := by
    by_contra hge
    rw [hinv.buckets b (by omega)] at he
    simp at he
  have hpos : 0 < refs st (e.tls.pages i) :=
    (refs_below_pos_iff _ _ _).mpr ⟨b, hb, e, he, (in_array_iff _ _ _).mpr ⟨i, hi, rfl⟩⟩
  obtain ⟨pg, hpg⟩ := hinv.live _ hpos
  have h3 := heq _ pg hpg
  exact ⟨pg, hpg, by omega, h3⟩

/-- Witness for C35: the state of the scenario, in which thread 2 has written to its clone
of the segment of thread 1. -/
theorem ref_count_invariant_witness :
    ∃ st, steps start [Op.create 1 1 4096, Op.write 1 0 1 (fun _ => 0xAA), Op.clone 2 1,
        Op.write 2 0 1 (fun _ => 0xBB)] = some st ∧
      ∀ p pg, st.heap p = some pg → pg.ref_count = (refs st p : Int) :=
  ⟨_, rfl, (ref_count_invariant [Op.create 1 1 4096, Op.write 1 0 1 (fun _ => 0xAA),
    Op.clone 2 1, Op.write 2 0 1 (fun _ => 0xBB)] _ rfl).1⟩

/-! ## One segment per thread, and the segments that share pages -/

theorem mem_set_tls_tid : ∀ (l : List hash_element) (tid : Nat) (tls : TLS)
    (x : hash_element), x ∈ set_tls tid tls l → x ∈ l ∨ (x.tid = tid ∧ x.tls = tls) := by
  intro l
  induction l with
  | nil => intro tid tls x h; simp [set_tls] at h
  | cons a l ih =>
    intro tid tls x h
    simp only [set_tls] at h
    split at h
    · rename_i ha
      rcases List.mem_cons.mp h with g | g
      · exact Or.inr (by rw [g]; exact ⟨ha, rfl⟩)
      · exact Or.inl (List.mem_cons_of_mem _ g)
    · rcases List.mem_cons.mp h with g | g
      · exact Or.inl (by rw [g]; exact List.mem_cons_self _ _)
      · rcases ih tid tls x g with k | k
        · exact Or.inl (List.mem_cons_of_mem _ k)
        · exact Or.inr k

/-- A thread whose chain walk finds nothing has no element anywhere in the table. -/
theorem ChainsOk.no_element {st : Storage} (hc : ChainsOk st) (t : Nat)
    (hf : find_element (st.hash_table (hash_func t)) t = none) :
    ∀ b e, e ∈ st.hash_table b → e.tid ≠ t := by
  intro b e he heq
  have hb := hc.home b e he
  rw [heq] at hb
  rw [← hb] at he
  exact (find_element_none_iff _ _).mp hf (List.mem_map.mpr ⟨e, he, heq⟩)

theorem getLast?_cons_of_ne_nil (k : Nat) (l : List Nat) (h : l ≠ []) :
    (k :: l).getLast? = l.getLast? := by
  cases l with
  | nil => exact absurd rfl h
  | cons a l => simp [List.getLast?_cons_cons]

/-- The store loop puts only new pages in the caller's array: an entry that the
allocator had handed out before the loop is the entry that was there. -/
theorem write_loop_old_pages (page_num offset : Nat) (buffer : Nat → Nat) :
    ∀ (n i : Nat) (pages : Nat → Nat) (st : Storage) (pages2 : Nat → Nat) (st2 : Storage),
      write_loop page_num offset buffer n i (pages, st) = some (pages2, st2) →
      PagesOk st page_num pages →
      ∀ j, j < page_num → pages2 j < st.brk → pages2 j = pages j := by
  intro n
  induction n with
  | zero =>
    intro i pages st pages2 st2 h _ j _ _
    simp only [write_loop, Option.some.injEq, Prod.mk.injEq] at h
    rw [h.1]
  | succ n ih =>
    intro i pages st pages2 st2 h hok j hj hlt
    simp only [write_loop] at h
    cases hs : write_step page_num offset buffer i (pages, st) with
    | none => rw [hs] at h; simp at h
    | some acc =>
      obtain ⟨pages1, st1⟩ := acc
      rw [hs] at h
      simp only at h
      obtain ⟨-, s2, -, -, s5, -, -, -, -, s10⟩ :=
        write_step_spec page_num offset buffer i pages st pages1 st1 hs hok
      have g := ih (i + 1) pages1 st1 pages2 st2 h s2 j hj (by omega)
      rw [g] at hlt ⊢
      exact (s10 j hj hlt).1

theorem tls_read_hash_table (st : Storage) (self offset length : Nat) (buffer : Nat → Nat)
    (r : Int) (out : Nat → Nat) (st1 : Storage)
    (h : tls_read st self offset length buffer = some (r, out, st1)) :
    st1.hash_table = st.hash_table := by
  simp only [tls_read] at h
  cases hfind : find_element (st.hash_table (hash_func self)) self with
  | none =>
    rw [hfind] at h
    simp only [Option.some.injEq, Prod.mk.injEq] at h
    rw [← h.2.2]
  | some e =>
    rw [hfind] at h
    simp only at h
    by_cases hr : (offset + length) % 2 ^ 32 > e.tls.size
    · rw [if_pos hr] at h
      simp only [Option.some.injEq, Prod.mk.injEq] at h
      rw [← h.2.2]
    · rw [if_neg hr] at h
      cases hl : read_loop (unprotect_loop e.tls.pages e.tls.page_num 0 st) e.tls offset
          length 0 buffer with
      | none => rw [hl] at h; simp at h
      | some o =>
        rw [hl] at h
        simp only [Option.some.injEq, Prod.mk.injEq] at h
        rw [← h.2.2]
        obtain ⟨-, -, -, u4, -, -⟩ := unprotect_loop_frame e.tls.pages e.tls.page_num 0 st
        obtain ⟨-, -, -, v4, -, -⟩ := protect_loop_frame e.tls.pages e.tls.page_num 0
          (unprotect_loop e.tls.pages e.tls.page_num 0 st)
        exact v4.trans u4

theorem SameSource.of_table {st st1 : Storage} {lin : Nat → List Nat} (hs : SameSource st lin)
    (h : st1.hash_table = st.hash_table) : SameSource st1 lin :=
  ⟨by rw [h]; exact hs.named, by rw [h]; exact hs.shared⟩

/-- The histories after a call by thread `self`: every element of the new table is an
element of the old one with the history it had, or an element of `self` with the
page array `pg`; the history of `self` is not empty; and a page that `pg` shares
with an old segment comes with the same first call. -/
theorem SameSource.extend {st st1 : Storage} {lin lin1 : Nat → List Nat}
    (hs : SameSource st lin) (self pn : Nat) (pg : Nat → Nat)
    (hmem : ∀ b x, x ∈ st1.hash_table b →
      (∃ b0, x ∈ st.hash_table b0 ∧ lin1 x.tid = lin x.tid) ∨
        (x.tid = self ∧ x.tls.page_num = pn ∧ x.tls.pages = pg))
    (hnew : ∀ b x, x ∈ st1.hash_table b → x.tid = self → lin1 self ≠ [])
    (hsh : ∀ b0 y, y ∈ st.hash_table b0 → ∀ i j, i < pn → j < y.tls.page_num →
      pg i = y.tls.pages j → (lin1 self).getLast? = (lin y.tid).getLast?) :
    SameSource st1 lin1 := by
  constructor
  · intro b x hx
    rcases hmem b x hx with ⟨b0, g1, g2⟩ | ⟨g1, -, -⟩
    · rw [g2]; exact hs.named b0 x g1
    · rw [g1]; exact hnew b x hx g1
  · intro b1 e1 b2 e2 h1 h2 i j hi hj hij
    rcases hmem b1 e1 h1 with ⟨c1, g1, g2⟩ | ⟨g1, g2, g3⟩
    · rcases hmem b2 e2 h2 with ⟨c2, k1, k2⟩ | ⟨k1, k2, k3⟩
      · rw [g2, k2]
        exact hs.shared c1 e1 c2 e2 g1 k1 i j hi hj hij
      · rw [g2, k1]
        rw [k2] at hj
        rw [k3] at hij
        exact (hsh c1 e1 g1 j i hj hi hij.symm).symm
    · rcases hmem b2 e2 h2 with ⟨c2, k1, k2⟩ | ⟨k1, k2, k3⟩
      · rw [g1, k2]
        rw [g2] at hi
        rw [g3] at hij
        exact hsh c2 e2 k1 i j hi hj hij
      · rw [g1, k1]

/-- The histories after `tls_create`. -/
theorem tls_create_same_source (st : Storage) (hinv : StorageInv st) (hc : ChainsOk st)
    (lin : Nat → List Nat) (hs : SameSource st lin) (k self size gp : Nat) :
    SameSource (tls_create st self size gp).2 (lineage_step st k lin (Op.create self size gp)) := by
  have hht := tls_init_hash_table st gp
  by_cases hs0 : size = 0
  · have hr : tls_create st self size gp = (-1, if st.initialized then st else tls_init st gp) := by
      simp only [tls_create, if_pos hs0]
    simp only [lineage_step, hr]
    exact hs.of_table hht
  · cases hf : find_element (st.hash_table (hash_func self)) self with
    | some e0 =>
      have hf1 : find_element
          ((if st.initialized then st else tls_init st gp).hash_table (hash_func self)) self
            = some e0 := by rw [hht]; exact hf
      have hr : tls_create st self size gp
          = (-1, if st.initialized then st else tls_init st gp) := by
        simp only [tls_create, if_neg hs0, hf1]
      simp only [lineage_step, hr]
      exact hs.of_table hht
    | none =>
      rw [tls_create_of_free st self size gp hs0 hf]
      have hl : lineage_step st k lin (Op.create self size gp) = Function.update lin self [k] := by
        simp only [lineage_step, tls_create_of_free st self size gp hs0 hf, if_true]
      rw [hl]
      have hinv1 : StorageInv (if st.initialized then st else tls_init st gp) := by
        split
        · exact hinv
        · exact hinv.of_same_tables rfl rfl rfl
      generalize (if st.initialized then st else tls_init st gp) = s0 at hht hinv1
      generalize hpn : ((size + s0.page_size - 1) % 2 ^ 32) / s0.page_size = pn
      obtain ⟨-, a2, -, a4, -, -, -, -⟩ := create_loop_spec pn 0 (fun _ => 0) s0
      have hold : ∀ b x, x ∈ st.hash_table b → x.tid ≠ self := hc.no_element self hf
      refine hs.extend self pn (create_loop pn 0 (fun _ => 0, s0)).1 ?_ ?_ ?_
      · intro b x hx
        simp only [tls_create_register, hpn] at hx
        by_cases hb : b = hash_func self
        · rw [hb, Function.update_same] at hx
          rcases List.mem_cons.mp hx with g | g
          · right; rw [g]; exact ⟨rfl, rfl, rfl⟩
          · rw [a2, hht] at g
            exact Or.inl ⟨_, g, Function.update_noteq (hold _ x g) _ _⟩
        · rw [Function.update_noteq hb, a2, hht] at hx
          exact Or.inl ⟨_, hx, Function.update_noteq (hold _ x hx) _ _⟩
      · intro b x _ _
        rw [Function.update_same]
        simp
      · intro b0 y hy i j hi hj hij
        exfalso
        rw [a4 i (Nat.zero_le _) (by omega)] at hij
        have := hinv1.below b0 y (by rw [hht]; exact hy) j hj
        omega

/-- The histories after `tls_destroy`. -/
theorem tls_destroy_same_source (st : Storage) (hc : ChainsOk st)
    (lin : Nat → List Nat) (hs : SameSource st lin) (k self : Nat) (r : Int) (st1 : Storage)
    (h : tls_destroy st self = some (r, st1)) :
    SameSource st1 (lineage_step st k lin (Op.destroy self)) := by
  cases hfind : find_element (st.hash_table (hash_func self)) self with
  | none =>
    have hr : tls_destroy st self = some (-1, st) := by simp only [tls_destroy, hfind]
    rw [hr] at h
    simp only [Option.some.injEq, Prod.mk.injEq] at h
    have hl : lineage_step st k lin (Op.destroy self) = lin := by
      simp only [lineage_step, hr]
      rfl
    rw [hl, ← h.2]
    exact hs
  | some e =>
    simp only [tls_destroy, hfind] at h
    cases hd : destroy_loop e.tls.pages e.tls.page_num 0 st with
    | none => rw [hd] at h; simp at h
    | some s1 =>
      rw [hd] at h
      simp only [Option.some.injEq, Prod.mk.injEq] at h
      obtain ⟨-, h2⟩ := h
      obtain ⟨d1, -, -, -, -, -⟩ := destroy_loop_frame e.tls.pages e.tls.page_num 0 st s1 hd
      have hl : lineage_step st k lin (Op.destroy self) = Function.update lin self [] := by
        simp only [lineage_step, tls_destroy, hfind, hd]
        rfl
      rw [hl]
      have htab : st1.hash_table = Function.update st.hash_table (hash_func self)
          (remove_element self (st.hash_table (hash_func self))) := by
        rw [← h2]
        simp only [d1]
      obtain ⟨hnone, -⟩ := lookup_after_remove st hc self st1.hash_table htab
      have hsub : ∀ b x, x ∈ st1.hash_table b → x ∈ st.hash_table b := by
        intro b x hx
        rw [htab] at hx
        by_cases hb : b = hash_func self
        · rw [hb, Function.update_same] at hx
          rw [hb]; exact mem_remove_element _ _ _ hx
        · rw [Function.update_noteq hb] at hx
          exact hx
      have hc1 : ChainsOk st1 :=
        ⟨fun b x hx => hc.home b x (hsub b x hx), by
          intro b
          rw [htab]
          by_cases hb : b = hash_func self
          · rw [hb, Function.update_same]
            exact (hc.nodup _).sublist (map_tid_remove_element _ self)
          · rw [Function.update_noteq hb]
            exact hc.nodup b⟩
      have hno := hc1.no_element self hnone
      refine hs.extend self 0 (fun _ => 0) ?_ ?_ ?_
      · intro b x hx
        exact Or.inl ⟨b, hsub b x hx, Function.update_noteq (hno b x hx) _ _⟩
      · intro b x hx hx2
        exact absurd hx2 (hno b x hx)
      · intro b0 y _ i j hi
        omega

/-- The histories after `tls_clone`. -/
theorem tls_clone_same_source (st : Storage) (hinv : StorageInv st) (hc : ChainsOk st)
    (lin : Nat → List Nat) (hs : SameSource st lin) (k self tid : Nat) (r : Int)
    (st1 : Storage) (h : tls_clone st self tid = some (r, st1)) :
    SameSource st1 (lineage_step st k lin (Op.clone self tid)) := by
  have hfail : tls_clone st self tid = some (-1, st) →
      SameSource st1 (lineage_step st k lin (Op.clone self tid)) := by
    intro hr
    have hl : lineage_step st k lin (Op.clone self tid) = lin := by
      simp only [lineage_step, hr]
      rfl
    rw [hr] at h
    simp only [Option.some.injEq, Prod.mk.injEq] at h
    rw [hl, ← h.2]
    exact hs
  cases hft : find_element (st.hash_table (hash_func tid)) tid with
  | none => exact hfail (by simp only [tls_clone, hft])
  | some e =>
    cases hfs : find_element (st.hash_table (hash_func self)) self with
    | some e2 => exact hfail (by simp only [tls_clone, hft, hfs])
    | none =>
      obtain ⟨s1, -, hr, -, -, c4, -, -, -, -⟩ := tls_clone_run st hinv self tid e hft hfs
      have hl : lineage_step st k lin (Op.clone self tid)
          = Function.update lin self (k :: lin tid) := by
        simp only [lineage_step, hr]
        rfl
      rw [hr] at h
      simp only [Option.some.injEq, Prod.mk.injEq] at h
      obtain ⟨-, h2⟩ := h
      rw [hl]
      have htab : st1.hash_table = Function.update st.hash_table (hash_func self)
          ({ tid := self
             tls := { tid := self, size := e.tls.size, page_num := e.tls.page_num
                      pages := e.tls.pages } } :: st.hash_table (hash_func self)) := by
        rw [← h2]
        simp only [c4]
      have hold : ∀ b x, x ∈ st.hash_table b → x.tid ≠ self := hc.no_element self hfs
      have hmem := find_element_mem _ _ _ hft
      have htid := find_element_tid _ _ _ hft
      have hne : lin tid ≠ [] := by
        have := hs.named _ e hmem
        rw [htid] at this
        exact this
      refine hs.extend self e.tls.page_num e.tls.pages ?_ ?_ ?_
      · intro b x hx
        rw [htab] at hx
        by_cases hb : b = hash_func self
        · rw [hb, Function.update_same] at hx
          rcases List.mem_cons.mp hx with g | g
          · right; rw [g]; exact ⟨rfl, rfl, rfl⟩
          · exact Or.inl ⟨_, g, Function.update_noteq (hold _ x g) _ _⟩
        · rw [Function.update_noteq hb] at hx
          exact Or.inl ⟨_, hx, Function.update_noteq (hold _ x hx) _ _⟩
      · intro b x _ _
        rw [Function.update_same]
        simp
      · intro b0 y hy i j hi hj hij
        rw [Function.update_same, getLast?_cons_of_ne_nil k _ hne, ← htid]
        exact hs.shared _ e b0 y hmem hy i j hi hj hij

/-- The histories after `tls_write`: a copy made by the copy-on-write step is a new page,
which no other segment references. -/
theorem tls_write_same_source (st : Storage) (hinv : StorageInv st)
    (lin : Nat → List Nat) (hs : SameSource st lin) (self offset length : Nat)
    (buffer : Nat → Nat) (r : Int) (st1 : Storage)
    (h : tls_write st self offset length buffer = some (r, st1)) : SameSource st1 lin := by
  cases hfind : find_element (st.hash_table (hash_func self)) self with
  | none =>
    simp only [tls_write, hfind, Option.some.injEq, Prod.mk.injEq] at h
    rw [← h.2]; exact hs
  | some e =>
    by_cases hr : (offset + length) % 2 ^ 32 > e.tls.size
    · simp only [tls_write, hfind, if_pos hr, Option.some.injEq, Prod.mk.injEq] at h
      rw [← h.2]; exact hs
    · obtain ⟨-, pages2, st2, hl, -, -, -, -, w5⟩ :=
        tls_write_ok st self offset length buffer e hfind hr r st1 h
      obtain ⟨u1, -, -, u4, u5, -⟩ := unprotect_loop_frame e.tls.pages e.tls.page_num 0 st
      have hmem := find_element_mem _ _ _ hfind
      have htid := find_element_tid _ _ _ hfind
      have hok : PagesOk st e.tls.page_num e.tls.pages :=
        (hinv.pages_ok self e.tls (by simp [lookup, hfind])).1
      have hok1 := hok.congr u1 u5
      obtain ⟨s3, -⟩ := write_loop_hash_table e.tls.page_num offset buffer length 0
        e.tls.pages _ pages2 st2 hl
      have hop := write_loop_old_pages e.tls.page_num offset buffer length 0
        e.tls.pages _ pages2 st2 hl hok1
      rw [u5] at hop
      refine hs.extend self e.tls.page_num pages2 ?_ ?_ ?_
      · intro b x hx
        rw [w5, s3, u4] at hx
        by_cases hb : b = hash_func self
        · rw [hb, Function.update_same] at hx
          rcases mem_set_tls_tid _ _ _ _ hx with g | ⟨g1, g2⟩
          · exact Or.inl ⟨_, g, rfl⟩
          · right; rw [g2]; exact ⟨g1, rfl, rfl⟩
        · rw [Function.update_noteq hb] at hx
          exact Or.inl ⟨_, hx, rfl⟩
      · intro b x _ _
        have := hs.named _ e hmem
        rw [htid] at this
        exact this
      · intro b0 y hy i j hi hj hij
        have hlt : pages2 i < st.brk := by
          rw [hij]; exact hinv.below b0 y hy j hj
        rw [hop i hi hlt] at hij
        rw [← htid]
        exact hs.shared _ e b0 y hmem hy i j hi hj hij

/-- Every call that returns keeps the histories in step with the sharing of pages. -/
theorem step_same_source (st : Storage) (hinv : StorageInv st) (hc : ChainsOk st)
    (lin : Nat → List Nat) (hs : SameSource st lin) (k : Nat) (op : Op) (st1 : Storage)
    (h : step st op = some st1) : SameSource st1 (lineage_step st k lin op) := by
  cases op with
  | create self size gp =>
    simp only [step, Option.some.injEq] at h
    rw [← h]; exact tls_create_same_source st hinv hc lin hs k self size gp
  | destroy self =>
    simp only [step, Option.map_eq_some'] at h
    obtain ⟨⟨r, s⟩, h1, h2⟩ := h
    rw [← h2]; exact tls_destroy_same_source st hc lin hs k self r s h1
  | read self offset length buffer =>
    simp only [step, Option.map_eq_some'] at h
    obtain ⟨⟨r, out, s⟩, h1, h2⟩ := h
    rw [← h2]
    exact hs.of_table (tls_read_hash_table st self offset length buffer r out s h1)
  | write self offset length buffer =>
    simp only [step, Option.map_eq_some'] at h
    obtain ⟨⟨r, s⟩, h1, h2⟩ := h
    rw [← h2]; exact tls_write_same_source st hinv lin hs self offset length buffer r s h1
  | clone self tid =>
    simp only [step, Option.map_eq_some'] at h
    obtain ⟨⟨r, s⟩, h1, h2⟩ := h
    rw [← h2]; exact tls_clone_same_source st hinv hc lin hs k self tid r s h1

/-- A run with histories is a run, and keeps the invariants. -/
theorem lineages_inv : ∀ (ops : List Op) (st : Storage) (k : Nat) (lin : Nat → List Nat)
    (st1 : Storage) (lin1 : Nat → List Nat), StorageInv st → ChainsOk st →
    SameSource st lin → lineages st k lin ops = some (st1, lin1) →
    steps st ops = some st1 ∧ StorageInv st1 ∧ ChainsOk st1 ∧ SameSource st1 lin1 := by
  intro ops
  induction ops with
  | nil =>
    intro st k lin st1 lin1 hinv hc hs h
    simp only [lineages, Option.some.injEq, Prod.mk.injEq] at h
    rw [← h.1, ← h.2]
    exact ⟨rfl, hinv, hc, hs⟩
  | cons op ops ih =>
    intro st k lin st1 lin1 hinv hc hs h
    simp only [lineages] at h
    cases hst : step st op with
    | none => rw [hst] at h; simp at h
    | some s =>
      rw [hst] at h
      obtain ⟨g1, g2, g3, g4⟩ := ih s (k + 1) _ st1 lin1 (step_inv st hinv op s hst)
        (step_chains st s hc op hst) (step_same_source st hinv hc lin hs k op s hst) h
      refine ⟨?_, g2, g3, g4⟩
      simp only [steps, hst]
      exact g1

theorem start_same_source : SameSource start (fun _ => []) :=
  ⟨fun b e h => by simp [start] at h, fun b1 e1 b2 e2 h => by simp [start] at h⟩

/-- C36, counterexample. Thread 1 creates a segment of one page; thread 2 clones it, then
thread 3 clones it. The segments of threads 2 and 3 have the same page, and
neither was made from the other by `tls_clone`: both were made from the segment of
thread 1. -/
theorem sibling_clones_share_pages :
    (lineages start 0 (fun _ => []) [Op.create 1 4096 4096, Op.clone 2 1, Op.clone 3 1]).map
      (fun r =>
        ((lookup r.1 2).map (fun t => (t.page_num, t.pages 0)),
         (lookup r.1 3).map (fun t => (t.page_num, t.pages 0)),
         r.2 1, r.2 2, r.2 3, cloned_from r.2 2 3, cloned_from r.2 3 2,
         cloned_from r.2 2 1, cloned_from r.2 3 1))
      = some (some (1, 0), some (1, 0), [0], [1, 0], [2, 0], false, false, true, true) := by
  rfl

/-- C36 as the code has it. In every state reached from the start state by calls of the
storage operations, an element is stored in bucket `tid mod 128`, no chain has
two elements with the same `tid` (so the table holds at most one element per
thread), and two registered segments share a page only if their histories end
in the same call of `tls_create`: one was made from the other, or both from a
common source, by calls of `tls_clone`. -/
theorem one_segment_per_thread (ops : List Op) (st : Storage) (lin : Nat → List Nat)
    (hreach : lineages start 0 (fun _ => []) ops = some (st, lin)) :
    (∀ b e, e ∈ st.hash_table b → b = e.tid % HASH_SIZE) ∧
    (∀ b, ((st.hash_table b).map (fun e => e.tid)).Nodup) ∧
    (∀ b1 e1 b2 e2, e1 ∈ st.hash_table b1 → e2 ∈ st.hash_table b2 → e1.tid = e2.tid →
      b1 = b2 ∧ e1 = e2) ∧
    (∀ b1 e1 b2 e2, e1 ∈ st.hash_table b1 → e2 ∈ st.hash_table b2 →
      ∀ i j, i < e1.tls.page_num → j < e2.tls.page_num → e1.tls.pages i = e2.tls.pages j →
        lin e1.tid ≠ [] ∧ (lin e1.tid).getLast? = (lin e2.tid).getLast?) := by
  obtain ⟨-, -, hc, hs⟩ := lineages_inv ops start 0 (fun _ => []) st lin start_inv start_chains
    start_same_source hreach
  refine ⟨fun b e he => (hc.home b e he).symm, hc.nodup, ?_, ?_⟩
  · intro b1 e1 b2 e2 h1 h2 ht
    have hb : b1 = b2 := by
      rw [← hc.home b1 e1 h1, ← hc.home b2 e2 h2, ht]
    subst hb
    exact ⟨rfl, List.inj_on_of_nodup_map (hc.nodup b1) h1 h2 ht⟩
  · intro b1 e1 b2 e2 h1 h2 i j hi hj hij
    exact ⟨hs.named b1 e1 h1, hs.shared b1 e1 b2 e2 h1 h2 i j hi hj hij⟩

/-- Witness for C36 as the code has it: the run in which threads 2 and 3 clone the
segment of thread 1. -/
theorem one_segment_per_thread_witness :
    ∃ st lin, lineages start 0 (fun _ => [])
        [Op.create 1 4096 4096, Op.clone 2 1, Op.clone 3 1] = some (st, lin) ∧
      ∀ b, ((st.hash_table b).map (fun e => e.tid)).Nodup :=
  ⟨_, _, rfl, (one_segment_per_thread [Op.create 1 4096 4096, Op.clone 2 1, Op.clone 3 1]
    _ _ rfl).2.1⟩

end HW4
end EC440
